import Mathlib

/-!
# Generic B+ tree of `parking_system.c`

A shallow embedding of the generic B+ tree engine of `src/parking_system.c`
(`createGenericBPlusTreeNode`, `findLeaf`, `Search_BPlus`, `insertIntoLeaf`,
`insertIntoParent`, `Insert_BPlus`, the leaf-chain walk of `extractToList`,
`destroyGenericBPlusTreeNode`, `Destroy_BPlus_Tree`), of the two capability
sets the program supplies (the parking and the user comparators, key getters
and key copiers), of `Find_Free_Slot` and `Assign_Parking_ID`, and of the
functions that park and release a vehicle (`createUser`, `SearchUser_BPlus`,
`SearchParking_BPlus`, `Allocation_Policy`, `Insert_Update`, `Time_spent`,
`Membership`, `Payment`, `Exit_Vehicle_BPlus`), and of the list functions
`getMiddle`, `mergeSortedLists`, `mergeSortList`, `compareUserAmtVsBoundary`
and `printSimpleListRange`.

Modelling conventions.

* `V` is the universe of objects a `void*` may point to (keys and records
  alike); a `void*` is an `Option V`, `none` being `NULL`.
* A node pointer is an `Option Nat`: an index into the heap, a list of nodes.
  `malloc` appends a node to the heap and never fails.
* The fixed arrays `keys[MAXKEYS]` and `children[MAXCHILDREN]` are lists of
  that length.  Reading outside an array, dereferencing `NULL` and running out
  of fuel all give `none` (the program has no defined result).
* Loops are recursive functions with a fuel argument that decreases
  structurally.  A C index `i` that runs down to `-1` is carried as the
  natural number `j = i + 1`.
* An `int` is an `Int`; the subtraction of the parking comparators is reduced
  to the 32-bit range by `wrap32`.  The parking tree is modelled twice: with
  ids from a range in which that subtraction does not overflow, for the order
  in which `Find_Free_Slot` visits the slots, and, in the namespace `Full`,
  with every `int` as id, for the functions that park and release a vehicle.
  Every other `int` operation
  (`occupancies + 1`, `number_of_parkings++`, the arithmetic of `Payment`) has
  no defined result when it leaves the range of `int`.
* The records of the program live in record stores, functions from addresses
  to records; the `void*` pointers of a tree point to a record, to its key
  member or to a key object of its own.
* A `char` array that `strcpy` has written is the list of the bytes written;
  writing behind the array has no defined result.
* A `float` or `double` value is a code on which the operations of `FloatOps`
  act; the operations are not interpreted.
-/

namespace BPlus

/-! ## Constants and data model -/

def ORDER : Nat := 5
def MAXKEYS : Nat := ORDER - 1
def MINKEYS : Nat := MAXKEYS / 2
def MAXCHILDREN : Nat := ORDER

inductive status_code where
  | FAILURE
  | SUCCESS
  deriving DecidableEq, Repr

/-- The struct `GenericBPlusTreeNode`. -/
structure GenericBPlusTreeNode (V : Type) where
  keys : List (Option V)
  children : List (Option Nat)
  parent : Option Nat
  next_leaf : Option Nat
  num_keys : Nat
  is_leaf : Bool
  deriving DecidableEq, Repr

/-- The heap of allocated nodes; a node pointer is an index into it. -/
abbrev Heap (V : Type) := List (GenericBPlusTreeNode V)

/-- The function pointers every tree operation receives: `cmp_data`
(`CompareDataFunc`, key against record), `cmp_internal`
(`CompareInternalKeyFunc`, key against key), `getKey` (`GetKeyFromDataFunc`)
and `copyKey` (`CopyKeyFunc`). -/
structure Capability (V : Type) where
  cmp_data : V → V → Int
  cmp_internal : V → V → Int
  getKey : V → V
  copyKey : V → V

/-- A tree handle: the heap together with the root pointer `*rootRef`. -/
structure Tree (V : Type) where
  heap : Heap V
  root : Option Nat
  deriving DecidableEq, Repr

variable {V : Type}

/-- Reading `arr[i]` and dereferencing the pointer found there. -/
def deref (arr : List (Option V)) (i : Nat) : Option V :=
  (arr[i]?).join

/-- Writing through a node pointer: `p->field = ...`. -/
def Heap.modify (h : Heap V) (p : Nat)
    (f : GenericBPlusTreeNode V → GenericBPlusTreeNode V) : Option (Heap V) :=
  match h[p]? with
  | some nd => some (h.set p (f nd))
  | none => none

/-- The statement `if (c) c->parent = p;` for a child pointer `c`. -/
def setParentIfNonNull (h : Heap V) (c : Option Nat) (p : Nat) : Option (Heap V) :=
  match c with
  | none => some h
  | some a => h.modify a (fun n => { n with parent := some p })

/-- The function `createGenericBPlusTreeNode`: allocates a node with no keys, all slots
`NULL`; returns the new heap and the address of the node. -/
def createGenericBPlusTreeNode (h : Heap V) (is_leaf : Bool) : Heap V × Nat :=
  (h ++ [{ keys := List.replicate MAXKEYS none
           children := List.replicate MAXCHILDREN none
           parent := none
           next_leaf := none
           num_keys := 0
           is_leaf := is_leaf }], h.length)

/-! ## Descent and search -/

/-- The inner loop of `findLeaf`:
`while (i < current->num_keys && cmp_internal(key, current->keys[i]) >= 0) i++;` -/
def findLeaf.scan (cmp_internal : V → V → Int) (key : V) (current : GenericBPlusTreeNode V) :
    Nat → Nat → Option Nat
  | 0, _ => none
  | fuel + 1, i =>
    if i < current.num_keys then
      match deref current.keys i with
      | none => none
      | some k => if cmp_internal key k ≥ 0 then findLeaf.scan cmp_internal key current fuel (i + 1)
                  else some i
    else some i

/-- The outer loop of `findLeaf`: `while (!current->is_leaf) ...`. -/
def findLeaf.descend (cmp_internal : V → V → Int) (h : Heap V) (key : V) :
    Nat → Nat → Option Nat
  | 0, _ => none
  | fuel + 1, current =>
    match h[current]? with
    | none => none
    | some nd =>
      if nd.is_leaf then some current
      else
        match findLeaf.scan cmp_internal key nd (nd.num_keys + 1) 0 with
        | none => none
        | some i =>
          match nd.children[i]? with
          | some (some c) => findLeaf.descend cmp_internal h key fuel c
          | _ => none

/-- The function `findLeaf`: the result is `some none` for `NULL`, `some (some leaf)` for a
leaf pointer. -/
def findLeaf (cmp_internal : V → V → Int) (h : Heap V) (root : Option Nat) (key : V) :
    Option (Option Nat) :=
  match root with
  | none => some none
  | some r => (findLeaf.descend cmp_internal h key h.length r).map some

/-- The linear search of `Search_BPlus` inside a leaf, from index `i`. -/
def Search_BPlus.scan (cmp_data : V → V → Int) (key : V) (leaf : GenericBPlusTreeNode V) :
    Nat → Nat → Option (Option V)
  | 0, _ => none
  | fuel + 1, i =>
    if i < leaf.num_keys then
      match deref leaf.keys i with
      | none => none
      | some d => if cmp_data key d = 0 then some (some d)
                  else Search_BPlus.scan cmp_data key leaf fuel (i + 1)
    else some none

/-- The function `Search_BPlus`: `some none` is the `NULL` result (not found). -/
def Search_BPlus (C : Capability V) (t : Tree V) (key : V) : Option (Option V) :=
  match t.root with
  | none => some none
  | some _ =>
    match findLeaf C.cmp_internal t.heap t.root key with
    | none => none
    | some none => some none
    | some (some leaf) =>
      match t.heap[leaf]? with
      | none => none
      | some nd => Search_BPlus.scan C.cmp_data key nd (nd.num_keys + 1) 0

/-! ## Insertion -/

/-- The shifting loop of `insertIntoLeaf`, with `j = i + 1`:
`while (i >= 0 && cmp_data(key, leaf->keys[i]) < 0) { leaf->keys[i + 1] = leaf->keys[i]; i--; }`.
Returns the array and the final `j`. -/
def insertIntoLeaf.shift (cmp_data : V → V → Int) (key : V) :
    Nat → List (Option V) → Nat → Option (List (Option V) × Nat)
  | 0, _, _ => none
  | _ + 1, keys, 0 => some (keys, 0)
  | fuel + 1, keys, i + 1 =>
    match deref keys i with
    | none => none
    | some k =>
      if cmp_data key k < 0 then insertIntoLeaf.shift cmp_data key fuel (keys.set (i + 1) (some k)) i
      else some (keys, i + 1)

/-- The function `insertIntoLeaf`: the record is placed at its sorted position. -/
def insertIntoLeaf (C : Capability V) (h : Heap V) (leaf : Option Nat) (dataPtr : V) :
    Option (status_code × Heap V) :=
  match leaf with
  | none => some (status_code.FAILURE, h)
  | some l =>
    match h[l]? with
    | none => none
    | some nd =>
      if !nd.is_leaf || nd.num_keys ≥ MAXKEYS then some (status_code.FAILURE, h)
      else
        let key := C.getKey dataPtr
        match insertIntoLeaf.shift C.cmp_data key (nd.num_keys + 1) nd.keys nd.num_keys with
        | none => none
        | some (keys, j) =>
          some (status_code.SUCCESS,
            h.set l { nd with keys := keys.set j (some dataPtr), num_keys := nd.num_keys + 1 })

/-- Case 2 of `insertIntoParent`, the shifting loop, with `j = i + 1`:
`while (i >= 0 && cmp_internal(key_copy, parent->keys[i]) < 0)
 { parent->keys[i + 1] = parent->keys[i]; parent->children[i + 2] = parent->children[i + 1]; i--; }`. -/
def insertIntoParent.shift (cmp_internal : V → V → Int) (key_copy : V) :
    Nat → List (Option V) → List (Option Nat) → Nat →
      Option (List (Option V) × List (Option Nat) × Nat)
  | 0, _, _, _ => none
  | _ + 1, keys, children, 0 => some (keys, children, 0)
  | fuel + 1, keys, children, i + 1 =>
    match deref keys i with
    | none => none
    | some k =>
      if cmp_internal key_copy k < 0 then
        match children[i + 1]? with
        | none => none
        | some c =>
          insertIntoParent.shift cmp_internal key_copy fuel
            (keys.set (i + 1) (some k)) (children.set (i + 2) c) i
      else some (keys, children, i + 1)

/-- Case 3 of `insertIntoParent`, first loop:
`while (i < MAXKEYS && cmp_internal(key_copy, parent->keys[i]) > 0)
 { temp_keys[i] = parent->keys[i]; temp_children[i] = parent->children[i]; i++; }`. -/
def insertIntoParent.copyBefore (cmp_internal : V → V → Int) (key_copy : V)
    (parent : GenericBPlusTreeNode V) :
    Nat → List (Option V) → List (Option Nat) → Nat →
      Option (List (Option V) × List (Option Nat) × Nat)
  | 0, _, _, _ => none
  | fuel + 1, temp_keys, temp_children, i =>
    if i < MAXKEYS then
      match deref parent.keys i with
      | none => none
      | some k =>
        if cmp_internal key_copy k > 0 then
          match parent.children[i]? with
          | none => none
          | some c =>
            insertIntoParent.copyBefore cmp_internal key_copy parent fuel
              (temp_keys.set i (some k)) (temp_children.set i c) (i + 1)
        else some (temp_keys, temp_children, i)
    else some (temp_keys, temp_children, i)

/-- Case 3 of `insertIntoParent`, second loop:
`while (i < MAXKEYS)
 { temp_keys[i + 1] = parent->keys[i]; temp_children[i + 2] = parent->children[i + 1]; i++; }`. -/
def insertIntoParent.copyAfter (parent : GenericBPlusTreeNode V) :
    Nat → List (Option V) → List (Option Nat) → Nat →
      Option (List (Option V) × List (Option Nat))
  | 0, _, _, _ => none
  | fuel + 1, temp_keys, temp_children, i =>
    if i < MAXKEYS then
      match parent.keys[i]?, parent.children[i + 1]? with
      | some k, some c =>
        insertIntoParent.copyAfter parent fuel
          (temp_keys.set (i + 1) k) (temp_children.set (i + 2) c) (i + 1)
      | _, _ => none
    else some (temp_keys, temp_children)

/-- Case 3 of `insertIntoParent`, the two distribution loops
`for (i = 0; i < node->num_keys; i++)
 { node->keys[i] = temp_keys[off + i]; node->children[i] = temp_children[off + i];
   if (node->children[i]) node->children[i]->parent = node; }`
with `off = 0` for the old parent and `off = split_point_key_index + 1` for
the new internal node. -/
def insertIntoParent.fill (temp_keys : List (Option V)) (temp_children : List (Option Nat))
    (node off : Nat) : Nat → Heap V → Nat → Option (Heap V)
  | 0, _, _ => none
  | fuel + 1, h, i =>
    match h[node]? with
    | none => none
    | some nd =>
      if i < nd.num_keys then
        match temp_keys[off + i]?, temp_children[off + i]? with
        | some k, some c =>
          match setParentIfNonNull
              (h.set node { nd with keys := nd.keys.set i k, children := nd.children.set i c })
              c node with
          | none => none
          | some h2 => insertIntoParent.fill temp_keys temp_children node off fuel h2 (i + 1)
        | _, _ => none
      else some h

/-- The loops `for (i = from; i < bound; i++) arr[i] = NULL;`. -/
def clearFrom {α : Type} (arr : List (Option α)) (start bound : Nat) : List (Option α) :=
  (List.range' start (bound - start)).foldl (fun a i => a.set i none) arr

/-- Case 3 of `insertIntoParent`, building `temp_keys` and `temp_children`:
the two copy loops around
`temp_children[i] = parent->children[i]; temp_keys[i] = key_copy; temp_children[i + 1] = right;`. -/
def insertIntoParent.merge (cmp_internal : V → V → Int) (p : GenericBPlusTreeNode V)
    (key_copy : V) (right : Nat) : Option (List (Option V) × List (Option Nat)) :=
  match insertIntoParent.copyBefore cmp_internal key_copy p (MAXKEYS + 1)
      (List.replicate (MAXKEYS + 1) none) (List.replicate (MAXCHILDREN + 1) none) 0 with
  | none => none
  | some (temp_keys, temp_children, i) =>
    match p.children[i]? with
    | none => none
    | some c =>
      insertIntoParent.copyAfter p (MAXKEYS + 1) (temp_keys.set i (some key_copy))
        ((temp_children.set i c).set (i + 1) (some right)) i

/-- Case 3 of `insertIntoParent`, "Copy keys/children to old parent (left side)"
and "Clear remaining pointers in old parent". -/
def insertIntoParent.distributeLeft (temp_keys : List (Option V))
    (temp_children : List (Option Nat)) (parent : Nat) (h : Heap V) : Option (Heap V) :=
  (insertIntoParent.fill temp_keys temp_children parent 0 (MAXKEYS + 1) h 0).bind fun h =>
  (h[parent]?).bind fun p =>
  (temp_children[p.num_keys]?).bind fun last =>
  (h.modify parent (fun n => { n with children := n.children.set n.num_keys last })).bind fun h =>
  (setParentIfNonNull h last parent).bind fun h =>
  h.modify parent (fun n =>
    { n with keys := clearFrom n.keys n.num_keys MAXKEYS
             children := clearFrom n.children (n.num_keys + 1) MAXCHILDREN })

/-- Case 3 of `insertIntoParent`, "Copy keys/children to new internal node
(right side)" and "Clear remaining pointers in new internal node". -/
def insertIntoParent.distributeRight (temp_keys : List (Option V))
    (temp_children : List (Option Nat)) (new_internal : Nat) (split_point_key_index : Nat)
    (h : Heap V) : Option (Heap V) :=
  (insertIntoParent.fill temp_keys temp_children new_internal (split_point_key_index + 1)
    (MAXKEYS + 1) h 0).bind fun h =>
  (temp_children[MAXKEYS + 1]?).bind fun last =>
  (h.modify new_internal (fun n =>
    { n with children := n.children.set n.num_keys last })).bind fun h =>
  (setParentIfNonNull h last new_internal).bind fun h =>
  h.modify new_internal (fun n =>
    { n with keys := clearFrom n.keys n.num_keys MAXKEYS
             children := clearFrom n.children (n.num_keys + 1) MAXCHILDREN })

/-- Case 3 of `insertIntoParent` up to the recursive call: splits the full
internal node `parent`, returns the heap, `key_to_push_up` and `new_internal`. -/
def insertIntoParent.split (cmp_internal : V → V → Int) (h : Heap V) (parent : Nat)
    (key_copy : V) (right : Nat) : Option (Heap V × V × Nat) :=
  let hn := createGenericBPlusTreeNode h false
  let new_internal := hn.2
  let split_point_key_index := MAXKEYS / 2
  (hn.1[parent]?).bind fun p =>
  (insertIntoParent.merge cmp_internal p key_copy right).bind fun temp =>
  (deref temp.1 split_point_key_index).bind fun key_to_push_up =>
  (hn.1.modify parent (fun n => { n with num_keys := split_point_key_index })).bind fun h =>
  (h.modify new_internal (fun n =>
    { n with num_keys := MAXKEYS - split_point_key_index })).bind fun h =>
  (insertIntoParent.distributeLeft temp.1 temp.2 parent h).bind fun h =>
  (insertIntoParent.distributeRight temp.1 temp.2 new_internal split_point_key_index h).bind
    fun h =>
  (h[parent]?).bind fun p =>
  (h.modify new_internal (fun n => { n with parent := p.parent })).bind fun h =>
  some (h, key_to_push_up, new_internal)

/-- The function `insertIntoParent`.  The fuel bounds the depth of the recursion.  The
arguments `copyKey` and `freeKey` of the source are only used when an
allocation fails and are left out. -/
def insertIntoParent (cmp_internal : V → V → Int) :
    Nat → Tree V → Nat → V → Nat → Option (status_code × Tree V)
  | 0, _, _, _, _ => none
  | fuel + 1, t, left, key_copy, right =>
    match t.heap[left]? with
    | none => none
    | some l =>
      match l.parent with
      | none =>
        -- Case 1: no parent (left was the root)
        let hn := createGenericBPlusTreeNode t.heap false
        let new_root := hn.2
        (hn.1.modify new_root (fun n =>
          { n with keys := n.keys.set 0 (some key_copy)
                   children := (n.children.set 0 (some left)).set 1 (some right)
                   num_keys := 1 })).bind fun h =>
        (h.modify left (fun n => { n with parent := some new_root })).bind fun h =>
        (h.modify right (fun n => { n with parent := some new_root })).bind fun h =>
        some (status_code.SUCCESS, { heap := h, root := some new_root })
      | some parent =>
        match t.heap[parent]? with
        | none => none
        | some p =>
          if p.num_keys < MAXKEYS then
            -- Case 2: parent has space
            match insertIntoParent.shift cmp_internal key_copy (p.num_keys + 1)
                p.keys p.children p.num_keys with
            | none => none
            | some (keys, children, j) =>
              (Heap.modify (t.heap.set parent
                { p with keys := keys.set j (some key_copy)
                         children := children.set (j + 1) (some right)
                         num_keys := p.num_keys + 1 }) right
                  (fun n => { n with parent := some parent })).bind fun h =>
              some (status_code.SUCCESS, { heap := h, root := t.root })
          else
            -- Case 3: parent is full
            match insertIntoParent.split cmp_internal t.heap parent key_copy right with
            | none => none
            | some (h, key_to_push_up, new_internal) =>
              insertIntoParent cmp_internal fuel { heap := h, root := t.root }
                parent key_to_push_up new_internal

/-- The duplicate check of `Insert_BPlus`:
`for (i = 0; i < leaf->num_keys; i++) if (cmp_data(key, leaf->keys[i]) == 0) sc = FAILURE;`. -/
def Insert_BPlus.dupCheck (cmp_data : V → V → Int) (key : V) (leaf : GenericBPlusTreeNode V) :
    Nat → Nat → status_code → Option status_code
  | 0, _, _ => none
  | fuel + 1, i, sc =>
    if i < leaf.num_keys then
      match deref leaf.keys i with
      | none => none
      | some d =>
        Insert_BPlus.dupCheck cmp_data key leaf fuel (i + 1)
          (if cmp_data key d = 0 then status_code.FAILURE else sc)
    else some sc

/-- Leaf split of `Insert_BPlus`, first loop:
`while (i < MAXKEYS && cmp_data(key, leaf->keys[i]) > 0) { temp_keys[i] = leaf->keys[i]; i++; }`. -/
def Insert_BPlus.copyBefore (cmp_data : V → V → Int) (key : V) (leaf : GenericBPlusTreeNode V) :
    Nat → List (Option V) → Nat → Option (List (Option V) × Nat)
  | 0, _, _ => none
  | fuel + 1, temp_keys, i =>
    if i < MAXKEYS then
      match deref leaf.keys i with
      | none => none
      | some d =>
        if cmp_data key d > 0 then
          Insert_BPlus.copyBefore cmp_data key leaf fuel (temp_keys.set i (some d)) (i + 1)
        else some (temp_keys, i)
    else some (temp_keys, i)

/-- Leaf split of `Insert_BPlus`, second loop:
`while (i < MAXKEYS) { temp_keys[i + 1] = leaf->keys[i]; i++; }`. -/
def Insert_BPlus.copyAfter (leaf : GenericBPlusTreeNode V) :
    Nat → List (Option V) → Nat → Option (List (Option V))
  | 0, _, _ => none
  | fuel + 1, temp_keys, i =>
    if i < MAXKEYS then
      match leaf.keys[i]? with
      | none => none
      | some d => Insert_BPlus.copyAfter leaf fuel (temp_keys.set (i + 1) d) (i + 1)
    else some temp_keys

/-- The loops `for (i = 0; i < n; i++) dst[i] = temp_keys[off + i];` of the leaf split. -/
def Insert_BPlus.copyOut (temp_keys : List (Option V)) (off : Nat) :
    Nat → List (Option V) → Nat → Option (List (Option V))
  | 0, dst, _ => some dst
  | n + 1, dst, i =>
    match temp_keys[off + i]? with
    | none => none
    | some d => Insert_BPlus.copyOut temp_keys off n (dst.set i d) (i + 1)

/-- Leaf split of `Insert_BPlus`, building `temp_keys`: the two copy loops
around `temp_keys[i] = dataPtr;`. -/
def Insert_BPlus.merge (cmp_data : V → V → Int) (key : V) (lf : GenericBPlusTreeNode V)
    (dataPtr : V) : Option (List (Option V)) :=
  match Insert_BPlus.copyBefore cmp_data key lf (MAXKEYS + 1)
      (List.replicate (MAXKEYS + 1) none) 0 with
  | none => none
  | some (temp_keys, i) =>
    Insert_BPlus.copyAfter lf (MAXKEYS + 1) (temp_keys.set i (some dataPtr)) i

/-- Leaf split of `Insert_BPlus`, "Distribute keys between old and new leaf":
sets both `num_keys`, copies `temp_keys` out and clears the remaining slots. -/
def Insert_BPlus.distribute (temp_keys : List (Option V)) (leaf new_leaf : Nat) (h : Heap V) :
    Option (Heap V) :=
  let split_point := (MAXKEYS + 1 + 1) / 2
  (h.modify leaf (fun n => { n with num_keys := split_point })).bind fun h =>
  (h.modify new_leaf (fun n => { n with num_keys := (MAXKEYS + 1) - split_point })).bind fun h =>
  (h[leaf]?).bind fun lf =>
  (Insert_BPlus.copyOut temp_keys 0 lf.num_keys lf.keys 0).bind fun leaf_keys =>
  (h.modify leaf (fun n =>
    { n with keys := clearFrom leaf_keys n.num_keys MAXKEYS })).bind fun h =>
  (h[new_leaf]?).bind fun nl =>
  (Insert_BPlus.copyOut temp_keys split_point nl.num_keys nl.keys 0).bind fun new_keys =>
  h.modify new_leaf (fun n => { n with keys := clearFrom new_keys n.num_keys MAXKEYS })

/-- Leaf split of `Insert_BPlus`, "Update parent pointers and leaf links". -/
def Insert_BPlus.link (leaf new_leaf : Nat) (h : Heap V) : Option (Heap V) :=
  (h[leaf]?).bind fun lf =>
  (h.modify new_leaf (fun n =>
    { n with parent := lf.parent, next_leaf := lf.next_leaf })).bind fun h =>
  h.modify leaf (fun n => { n with next_leaf := some new_leaf })

/-- The leaf split of `Insert_BPlus` up to the call of `insertIntoParent`:
returns the heap, the separator `key_copy` and `new_leaf`. -/
def Insert_BPlus.splitLeaf (C : Capability V) (h : Heap V) (leaf : Nat) (dataPtr : V) :
    Option (Heap V × V × Nat) :=
  let key := C.getKey dataPtr
  let hn := createGenericBPlusTreeNode h true
  let new_leaf := hn.2
  (hn.1[leaf]?).bind fun lf =>
  (Insert_BPlus.merge C.cmp_data key lf dataPtr).bind fun temp_keys =>
  (Insert_BPlus.distribute temp_keys leaf new_leaf hn.1).bind fun h =>
  (Insert_BPlus.link leaf new_leaf h).bind fun h =>
  -- the key to copy up (first key of the new leaf)
  (h[new_leaf]?).bind fun nl =>
  (deref nl.keys 0).bind fun first =>
  some (h, C.copyKey (C.getKey first), new_leaf)

/-- The non-empty branch of `Insert_BPlus` once `findLeaf` has returned `leaf`:
duplicate check, then insertion into the leaf or leaf split. -/
def Insert_BPlus.atLeaf (C : Capability V) (t : Tree V) (leaf : Nat) (dataPtr : V) :
    Option (status_code × Tree V) :=
  let key := C.getKey dataPtr
  match t.heap[leaf]? with
  | none => none
  | some lf =>
    match Insert_BPlus.dupCheck C.cmp_data key lf (lf.num_keys + 1) 0 status_code.SUCCESS with
    | none => none
    | some status_code.FAILURE => some (status_code.FAILURE, t)
    | some status_code.SUCCESS =>
      if lf.num_keys < MAXKEYS then
        match insertIntoLeaf C t.heap (some leaf) dataPtr with
        | none => none
        | some (sc, h) => some (sc, { heap := h, root := t.root })
      else
        match Insert_BPlus.splitLeaf C t.heap leaf dataPtr with
        | none => none
        | some (h, key_copy, new_leaf) =>
          insertIntoParent C.cmp_internal h.length { heap := h, root := t.root }
            leaf key_copy new_leaf

/-- The function `Insert_BPlus`.  The result is the status code and the tree after the call. -/
def Insert_BPlus (C : Capability V) (t : Tree V) (dataPtr : V) :
    Option (status_code × Tree V) :=
  match t.root with
  | none =>
    let hn := createGenericBPlusTreeNode t.heap true
    match hn.1.modify hn.2
        (fun n => { n with keys := n.keys.set 0 (some dataPtr), num_keys := 1 }) with
    | none => none
    | some h => some (status_code.SUCCESS, { heap := h, root := some hn.2 })
  | some _ =>
    match findLeaf C.cmp_internal t.heap t.root (C.getKey dataPtr) with
    | none => none
    | some none => none
    | some (some leaf) => Insert_BPlus.atLeaf C t leaf dataPtr

/-! ## Leaf-chain traversal -/

/-- The first loop of `traverseLeaves`, `traverseLeavesForFile` and
`extractToList`: `while (current && !current->is_leaf) current = current->children[0];`. -/
def leftmostLeaf (h : Heap V) : Nat → Option Nat → Option (Option Nat)
  | 0, _ => none
  | _ + 1, none => some none
  | fuel + 1, some cur =>
    match h[cur]? with
    | none => none
    | some nd =>
      if nd.is_leaf then some (some cur)
      else
        match nd.children[0]? with
        | none => none
        | some c => leftmostLeaf h fuel c

/-- The inner loop of the traversals over one leaf; `NULL` slots are skipped. -/
def leafRecords (nd : GenericBPlusTreeNode V) : Nat → Nat → Option (List V)
  | 0, _ => none
  | fuel + 1, i =>
    if i < nd.num_keys then
      match nd.keys[i]? with
      | none => none
      | some none => leafRecords nd fuel (i + 1)
      | some (some d) => (leafRecords nd fuel (i + 1)).map (fun l => d :: l)
    else some []

/-- The second loop of the traversals: `while (current != NULL) { ...; current = current->next_leaf; }`,
collecting the visited records in order. -/
def walkChain (h : Heap V) : Nat → Option Nat → Option (List V)
  | 0, _ => none
  | _ + 1, none => some []
  | fuel + 1, some cur =>
    match h[cur]? with
    | none => none
    | some nd =>
      match leafRecords nd (nd.num_keys + 1) 0, walkChain h fuel nd.next_leaf with
      | some l, some rest => some (l ++ rest)
      | _, _ => none

/-- The function `extractToList` (and the visiting order of `traverseLeaves`,
`traverseLeavesForFile`): the data pointers of the leaf chain, in order. -/
def extractToList (t : Tree V) : Option (List V) :=
  match t.root with
  | none => some []
  | some _ =>
    match leftmostLeaf t.heap (t.heap.length + 1) t.root with
    | none => none
    | some current => walkChain t.heap (t.heap.length + 1) current

/-! ## The capability contract -/

/-- The contract on the function pointers (spec 4.1): `cmp_internal` is a
three-way comparison of a total order on keys (keys that compare `0` count as
equal), `cmp_data` compares a key with the key of a record, and a copied key
compares equal to its original. -/
structure Lawful (C : Capability V) : Prop where
  anti : ∀ a b, C.cmp_internal a b < 0 ↔ 0 < C.cmp_internal b a
  trans : ∀ a b c, C.cmp_internal a b ≤ 0 → C.cmp_internal b c ≤ 0 → C.cmp_internal a c ≤ 0
  data : ∀ k d, C.cmp_data k d = C.cmp_internal k (C.getKey d)
  copy : ∀ k, C.cmp_internal (C.copyKey k) k = 0

/-- The capability set of integer keys that are their own records. -/
def intCap : Capability Int :=
  { cmp_data := fun a b => a - b
    cmp_internal := fun a b => a - b
    getKey := id
    copyKey := id }

/-! ## Logical content of the node arrays -/

/-- An array of `n` slots holding the entries of `l` followed by `NULL`s. -/
def pad {α : Type} (n : Nat) (l : List α) : List (Option α) :=
  l.map some ++ List.replicate (n - l.length) none

/-- The list `l` with `d` inserted at index `i`. -/
def insAt {α : Type} (i : Nat) (d : α) (l : List α) : List α :=
  l.take i ++ d :: l.drop i

/-- Number of leading entries of `l` that satisfy `p`. -/
def posL {α : Type} (p : α → Bool) (l : List α) : Nat :=
  (l.takeWhile p).length

/-- Index after which all entries of `l` satisfy `p` (scanning from the right). -/
def posR {α : Type} (p : α → Bool) (l : List α) : Nat :=
  l.length - (l.reverse.takeWhile p).length

/-! ## Ghost trees -/

/-- Abstract trees of height `n` with the addresses of their nodes: a leaf is
its address and its records, an internal node its address, its separator keys
and its children. -/
def GT (V : Type) : Nat → Type
  | 0 => Nat × List V
  | n + 1 => Nat × List V × List (GT V n)

/-- Address of the root node. -/
def GT.addr : (n : Nat) → GT V n → Nat
  | 0, g => g.1
  | _ + 1, g => g.1

/-- All node addresses. -/
def GT.addrs : (n : Nat) → GT V n → List Nat
  | 0, g => [g.1]
  | n + 1, g => g.1 :: g.2.2.flatMap (GT.addrs n)

/-- The leaves, left to right, with their records. -/
def GT.leafList : (n : Nat) → GT V n → List (Nat × List V)
  | 0, g => [(g.1, g.2)]
  | n + 1, g => g.2.2.flatMap (GT.leafList n)

/-- The records, left to right. -/
def GT.recs (n : Nat) (g : GT V n) : List V :=
  (GT.leafList n g).flatMap (fun l => l.2)

/-! ## Order of keys and records -/

/-- The key `a` is strictly below the key `b`. -/
def klt (C : Capability V) (a b : V) : Prop := C.cmp_internal a b < 0

/-- The optional lower bound `lo` is at most the key `k`. -/
def loLe (C : Capability V) (lo : Option V) (k : V) : Prop :=
  match lo with
  | none => True
  | some l => C.cmp_internal l k ≤ 0

/-- The optional lower bound `lo` is strictly below the key `k`. -/
def loLt (C : Capability V) (lo : Option V) (k : V) : Prop :=
  match lo with
  | none => True
  | some l => C.cmp_internal l k < 0

/-- The key `k` is strictly below the optional upper bound `hi`. -/
def ltHi (C : Capability V) (k : V) (hi : Option V) : Prop :=
  match hi with
  | none => True
  | some u => C.cmp_internal k u < 0

/-- The children `cs` of a node with keys `ks` lie between consecutive keys:
child `i` satisfies `P` with the bounds `ks[i-1]` and `ks[i]`, the outer
bounds being `lo` and `hi`. -/
def OrdKids {T : Type} (P : T → Option V → Option V → Prop) :
    Option V → List V → List T → Option V → Prop
  | lo, [], [c], hi => P c lo hi
  | lo, k :: ks, c :: cs, hi => P c lo (some k) ∧ OrdKids P (some k) ks cs hi
  | _, _, _, _ => False

/-- Search-tree order of a ghost tree whose keys lie in `[lo, hi)`: records of
a leaf strictly ascending, separators strictly ascending and strictly inside
the bounds, every child between its two neighbouring separators. -/
def Ord (C : Capability V) : (n : Nat) → GT V n → Option V → Option V → Prop
  | 0, g, lo, hi =>
    g.2.Pairwise (fun a b => klt C (C.getKey a) (C.getKey b)) ∧
    ∀ r ∈ g.2, loLe C lo (C.getKey r) ∧ ltHi C (C.getKey r) hi
  | n + 1, g, lo, hi =>
    g.2.1.Pairwise (klt C) ∧
    (∀ k ∈ g.2.1, loLt C lo k ∧ ltHi C k hi) ∧
    OrdKids (Ord C n) lo g.2.1 g.2.2 hi

/-! ## The heap represents a ghost tree -/

/-- The heap `h` holds the ghost tree `g` with parent pointer `par` at its root. -/
def Rep (h : Heap V) : (n : Nat) → GT V n → Option Nat → Prop
  | 0, g, par =>
    ∃ nd, h[g.1]? = some nd ∧ nd.is_leaf = true ∧ nd.parent = par ∧
      nd.num_keys = g.2.length ∧ nd.keys = pad MAXKEYS g.2 ∧
      nd.children = List.replicate MAXCHILDREN none ∧
      1 ≤ g.2.length ∧ g.2.length ≤ MAXKEYS
  | n + 1, g, par =>
    ∃ nd, h[g.1]? = some nd ∧ nd.is_leaf = false ∧ nd.parent = par ∧
      nd.num_keys = g.2.1.length ∧ nd.keys = pad MAXKEYS g.2.1 ∧
      nd.children = pad MAXCHILDREN (g.2.2.map (GT.addr n)) ∧
      nd.next_leaf = none ∧
      g.2.2.length = g.2.1.length + 1 ∧ 1 ≤ g.2.1.length ∧ g.2.1.length ≤ MAXKEYS ∧
      ∀ c ∈ g.2.2, Rep h n c (some g.1)

/-- The `next_leaf` field of the node at `a`. -/
def nextOf (h : Heap V) (a : Nat) : Option (Option Nat) :=
  (h[a]?).map (fun nd => nd.next_leaf)

/-- The leaves `ls` are linked by `next_leaf` in this order, the last one to `last`. -/
def Chain (h : Heap V) : List Nat → Option Nat → Prop
  | [], _ => True
  | [a], last => nextOf h a = some last
  | a :: b :: rest, last => nextOf h a = some (some b) ∧ Chain h (b :: rest) last

/-- The tree `t` is represented by the ghost tree `g` of height `n`: the heap
holds `g` at the root pointer, `g` is ordered, its node addresses are distinct
and its leaves are chained left to right. -/
def Model (C : Capability V) (t : Tree V) (n : Nat) (g : GT V n) : Prop :=
  t.root = some (GT.addr n g) ∧ Rep t.heap n g none ∧ Ord C n g none none ∧
    (GT.addrs n g).Nodup ∧ Chain t.heap ((GT.leafList n g).map Prod.fst) none

/-- The tree invariant: an empty tree, or a tree represented by a ghost tree. -/
def Inv (C : Capability V) (t : Tree V) : Prop :=
  t.root = none ∨ ∃ (n : Nat) (g : GT V n), Model C t n g

/-- The heap holds a B+ tree at the root pointer, whatever the order of its
keys: the tree is empty, or the heap holds a ghost tree whose node addresses
are distinct and whose leaves are chained left to right. -/
def TreeShape (t : Tree V) : Prop :=
  t.root = none ∨ ∃ (n : Nat) (g : GT V n), t.root = some (GT.addr n g) ∧
    Rep t.heap n g none ∧ (GT.addrs n g).Nodup ∧
    Chain t.heap ((GT.leafList n g).map Prod.fst) none

/-- A capability set whose comparators always answer `-1`; every ghost tree
is ordered under it. -/
def constCap : Capability V :=
  { cmp_data := fun _ _ => -1
    cmp_internal := fun _ _ => -1
    getKey := id
    copyKey := id }

/-- The part of `Insert_BPlus` that runs below the node `p`: descent from `p`
to a leaf, then `Insert_BPlus.atLeaf`. -/
def insertFrom (C : Capability V) (fuel : Nat) (t : Tree V) (p : Nat) (dataPtr : V) :
    Option (status_code × Tree V) :=
  match findLeaf.descend C.cmp_internal t.heap (C.getKey dataPtr) fuel p with
  | none => none
  | some leaf => Insert_BPlus.atLeaf C t leaf dataPtr

/-- Lower bound of the child that follows the keys `ks1`. -/
def lastLo (lo : Option V) (ks1 : List V) : Option V :=
  match ks1.getLast? with
  | some k => some k
  | none => lo

/-- Upper bound of the child that precedes the keys `ks2`. -/
def headHi (ks2 : List V) (hi : Option V) : Option V :=
  match ks2.head? with
  | some k => some k
  | none => hi

/-- The records `rs` of a leaf with the record `r` inserted at its sorted
position (behind the records with a smaller key). -/
def sortedIns (C : Capability V) (r : V) (rs : List V) : List V :=
  insAt (posL (fun x => decide (C.cmp_data (C.getKey r) x > 0)) rs) r rs

/-- What an insertion of `r` does to the leaves: the leaf `la` receives `r`,
and when it was full it keeps the first three of the five records and the new
leaf at the first free address takes the other two and is linked behind it. -/
def LeafEffect (C : Capability V) (r : V) (h h' : Heap V) (la : Nat)
    (ll ll' : List (Nat × List V)) : Prop :=
  ∃ l1 l2 rs, ll = l1 ++ (la, rs) :: l2 ∧ la < h.length ∧ h.length ≤ h'.length ∧
    (∀ y, y < h.length → y ≠ la → nextOf h' y = nextOf h y) ∧
    ((rs.length < 4 ∧ ll' = l1 ++ (la, sortedIns C r rs) :: l2 ∧
        nextOf h' la = nextOf h la) ∨
     (rs.length = 4 ∧ h.length < h'.length ∧
        ll' = l1 ++ (la, (sortedIns C r rs).take 3) ::
          (h.length, (sortedIns C r rs).drop 3) :: l2 ∧
        nextOf h' la = some (some h.length) ∧ nextOf h' h.length = nextOf h la))

/-- The node `q` is reached from `root` by following `d` child pointers
`children[i]`, `i <= num_keys`, of internal nodes. -/
inductive DepthTo (h : Heap V) (root : Nat) : Nat → Nat → Prop where
  | root : DepthTo h root root 0
  | child (p c d i : Nat) (nd : GenericBPlusTreeNode V) :
      DepthTo h root p d → h[p]? = some nd → nd.is_leaf = false → i ≤ nd.num_keys →
      nd.children[i]? = some (some c) → DepthTo h root c (d + 1)

/-- Number of keys in the root node of a ghost tree. -/
def GT.numKeys : (n : Nat) → GT V n → Nat
  | 0, g => g.2.length
  | _ + 1, g => g.2.1.length

/-- Every node of the ghost tree other than its root holds at least `MINKEYS`
keys. -/
def MinFill : (n : Nat) → GT V n → Prop
  | 0, _ => True
  | n + 1, g => ∀ c ∈ g.2.2, MINKEYS ≤ GT.numKeys n c ∧ MinFill n c

/-- The recursion of `insertIntoParent`: the argument `left` of every nested
call, outermost call first.  The control flow is that of `insertIntoParent`;
the cases 1 and 2 make no further call. -/
def insertIntoParent.lefts (cmp_internal : V → V → Int) :
    Nat → Tree V → Nat → V → Nat → List Nat
  | 0, _, _, _, _ => []
  | fuel + 1, t, left, key_copy, right =>
    left ::
      match t.heap[left]? with
      | none => []
      | some l =>
        match l.parent with
        | none => []
        | some parent =>
          match t.heap[parent]? with
          | none => []
          | some p =>
            if p.num_keys < MAXKEYS then []
            else
              match insertIntoParent.split cmp_internal t.heap parent key_copy right with
              | none => []
              | some (h, key_to_push_up, new_internal) =>
                insertIntoParent.lefts cmp_internal fuel { heap := h, root := t.root }
                  parent key_to_push_up new_internal

/-- The call `insertIntoParent(rootRef, leaf, key_copy, new_leaf, ...)` that
`Insert_BPlus` makes after splitting the leaf `leaf`, with the depth of the
recursion bounded by `fuel`. -/
def Insert_BPlus.parentCall (C : Capability V) (t : Tree V) (leaf : Nat) (dataPtr : V)
    (fuel : Nat) : Option (status_code × Tree V) :=
  match Insert_BPlus.splitLeaf C t.heap leaf dataPtr with
  | none => none
  | some (h, key_copy, new_leaf) =>
    insertIntoParent C.cmp_internal fuel { heap := h, root := t.root } leaf key_copy new_leaf

/-- The arguments `left` of the nested calls of that call. -/
def Insert_BPlus.parentLefts (C : Capability V) (t : Tree V) (leaf : Nat) (dataPtr : V)
    (fuel : Nat) : List Nat :=
  match Insert_BPlus.splitLeaf C t.heap leaf dataPtr with
  | none => []
  | some (h, key_copy, new_leaf) =>
    insertIntoParent.lefts C.cmp_internal fuel { heap := h, root := t.root } leaf key_copy new_leaf

/-- When the leaf `la` was split, the recursion of `insertIntoParent` ended
inside the subtree `g` of height `n`: it made `F <= n` nested calls, the call
number `i` on a node `n - i` levels above the leaves, and returned `res`. -/
def CallsDone (C : Capability V) (r : V) (t : Tree V) (n : Nat) (g : GT V n) (la : Nat)
    (res : Option (status_code × Tree V)) : Prop :=
  ∀ lf, t.heap[la]? = some lf → ¬ lf.num_keys < MAXKEYS →
    ∃ F, 1 ≤ F ∧ F ≤ n ∧ Insert_BPlus.parentCall C t la r F = res ∧
      (Insert_BPlus.parentLefts C t la r F).length = F ∧
      ∀ i x, (Insert_BPlus.parentLefts C t la r F)[i]? = some x →
        DepthTo t.heap (GT.addr n g) x (n - i)

/-- The recursion of `insertIntoParent` has made `n` nested calls on the
nodes `pre` strictly below the root of the subtree `g` of height `n`, and
continues with the call on `left`, `sep`, `right` in the tree `T`. -/
def CallsPending (C : Capability V) (r : V) (t : Tree V) (n : Nat) (g : GT V n) (la : Nat)
    (T : Tree V) (left : Nat) (sep : V) (right : Nat) : Prop :=
  ∃ pre : List Nat, pre.length = n ∧
    (∀ i x, pre[i]? = some x → DepthTo t.heap (GT.addr n g) x (n - i)) ∧
    ∀ F, Insert_BPlus.parentCall C t la r (F + n) =
        insertIntoParent C.cmp_internal F T left sep right ∧
      Insert_BPlus.parentLefts C t la r (F + n) =
        pre ++ insertIntoParent.lefts C.cmp_internal F T left sep right

/-- The separator keys of a ghost tree, in the order in which
`destroyGenericBPlusTreeNode` releases them: the separators below the
children, then the keys of the node itself. -/
def GT.seps : (n : Nat) → GT V n → List V
  | 0, _ => []
  | n + 1, g => g.2.2.flatMap (GT.seps n) ++ g.2.1

/-- The keys `copyKey` hands out when `Insert_BPlus` works on the leaf `la`:
the `key_copy` of the leaf split when the leaf is full, none otherwise. -/
def leafCopies (C : Capability V) (t : Tree V) (la : Nat) (r : V) : List V :=
  match t.heap[la]? with
  | none => []
  | some lf =>
    if lf.num_keys < MAXKEYS then []
    else
      match Insert_BPlus.splitLeaf C t.heap la r with
      | none => []
      | some (_, key_copy, _) => [key_copy]

/-- Outcome of an insertion below the subtree `g`: the subtree absorbed the
record; `res` is the result of the whole call. -/
def Absorbed (C : Capability V) (r : V) (t : Tree V) (n : Nat) (g : GT V n)
    (par : Option Nat) (lo hi : Option V) (la : Nat)
    (res : Option (status_code × Tree V)) : Prop :=
  ∃ (h' : Heap V) (g' : GT V n),
    res = some (status_code.SUCCESS, { heap := h', root := t.root }) ∧
    t.heap.length ≤ h'.length ∧
    (∀ y, y < t.heap.length → y ∉ GT.addrs n g → h'[y]? = t.heap[y]?) ∧
    Rep h' n g' par ∧ Ord C n g' lo hi ∧ (GT.addrs n g').Nodup ∧
    GT.addr n g' = GT.addr n g ∧
    (∀ x ∈ GT.addrs n g', x ∈ GT.addrs n g ∨ t.heap.length ≤ x) ∧
    LeafEffect C r t.heap h' la (GT.leafList n g) (GT.leafList n g') ∧
    (GT.seps n g').Perm (leafCopies C t la r ++ GT.seps n g) ∧
    GT.numKeys n g ≤ GT.numKeys n g' ∧ (MinFill n g → MinFill n g') ∧
    CallsDone C r t n g la res

/-- Outcome of an insertion below the subtree `g`: the subtree was split into
`gL` and `gR`, and the call continues as `insertIntoParent` with the separator
`sep` at the root of the subtree. -/
def SplitUp (C : Capability V) (r : V) (t : Tree V) (n : Nat) (g : GT V n)
    (par : Option Nat) (lo hi : Option V) (la : Nat)
    (res : Option (status_code × Tree V)) : Prop :=
  ∃ (h' : Heap V) (gL gR : GT V n) (sep : V),
    res = insertIntoParent C.cmp_internal (t.heap.length + 1 - n)
      { heap := h', root := t.root } (GT.addr n gL) sep (GT.addr n gR) ∧
    t.heap.length ≤ h'.length ∧
    (∀ y, y < t.heap.length → y ∉ GT.addrs n g → h'[y]? = t.heap[y]?) ∧
    Rep h' n gL par ∧ Rep h' n gR par ∧
    Ord C n gL lo (some sep) ∧ Ord C n gR (some sep) hi ∧
    loLt C lo sep ∧ ltHi C sep hi ∧
    (GT.addrs n gL ++ GT.addrs n gR).Nodup ∧ GT.addr n gL = GT.addr n g ∧
    (∀ x ∈ GT.addrs n gL ++ GT.addrs n gR, x ∈ GT.addrs n g ∨ t.heap.length ≤ x) ∧
    LeafEffect C r t.heap h' la (GT.leafList n g) (GT.leafList n gL ++ GT.leafList n gR) ∧
    (sep :: (GT.seps n gL ++ GT.seps n gR)).Perm (leafCopies C t la r ++ GT.seps n g) ∧
    MINKEYS ≤ GT.numKeys n gL ∧ MINKEYS ≤ GT.numKeys n gR ∧
    (MinFill n g → MinFill n gL ∧ MinFill n gR) ∧
    CallsPending C r t n g la { heap := h', root := t.root } (GT.addr n gL) sep (GT.addr n gR)

/-! ## Sequences of insertions, reachable trees, stored records -/

/-- Inserting the records of a list one after the other with `Insert_BPlus`;
the status codes are dropped. -/
def insertAll (C : Capability V) (t : Tree V) : List V → Option (Tree V)
  | [] => some t
  | r :: rs =>
    match Insert_BPlus C t r with
    | none => none
    | some (_, t') => insertAll C t' rs

/-- Inserting the records of a list one after the other with `Insert_BPlus`,
keeping the records whose call returned `SUCCESS`. -/
def insertLog (C : Capability V) (t : Tree V) : List V → Option (Tree V × List V)
  | [] => some (t, [])
  | r :: rs =>
    match Insert_BPlus C t r with
    | none => none
    | some (sc, t') =>
      match insertLog C t' rs with
      | none => none
      | some (t'', ok) => some (t'', if sc = status_code.SUCCESS then r :: ok else ok)

/-- The trees reachable from an empty tree (`root = NULL`, any heap) by calls
of `Insert_BPlus`. -/
inductive Reachable (C : Capability V) : Tree V → Prop where
  | empty (h : Heap V) : Reachable C { heap := h, root := none }
  | insert (t t' : Tree V) (r : V) (sc : status_code) :
      Reachable C t → Insert_BPlus C t r = some (sc, t') → Reachable C t'

/-- The record `x` is held by a leaf reachable from the node `p`. -/
def StoredBelow (h : Heap V) (p : Nat) (x : V) : Prop :=
  ∃ (q d : Nat) (nd : GenericBPlusTreeNode V) (i : Nat), DepthTo h p q d ∧
    h[q]? = some nd ∧ nd.is_leaf = true ∧ i < nd.num_keys ∧ nd.keys[i]? = some (some x)

/-- The record `x` is stored in the tree. -/
def Stored (t : Tree V) (x : V) : Prop :=
  ∃ root, t.root = some root ∧ StoredBelow t.heap root x

/-! ## Example trees over integer keys -/

/-- The empty tree over integer keys. -/
def emptyTree : Tree Int := { heap := [], root := none }

/-- The tree after inserting 1, 2, 3, 4 into the empty tree. -/
def tree4 : Tree Int := (insertAll intCap emptyTree [1, 2, 3, 4]).getD emptyTree

/-- The tree after inserting 1, 2, 3, 4, 5 into the empty tree. -/
def tree5 : Tree Int := (insertAll intCap emptyTree [1, 2, 3, 4, 5]).getD emptyTree

/-- The only node of `tree4`: a full leaf. -/
def leaf4 : GenericBPlusTreeNode Int :=
  { keys := [some 1, some 2, some 3, some 4], children := [none, none, none, none, none],
    parent := none, next_leaf := none, num_keys := 4, is_leaf := true }

/-- The root node of `tree5`. -/
def root5 : GenericBPlusTreeNode Int :=
  { keys := [some 4, none, none, none], children := [some 0, some 1, none, none, none],
    parent := none, next_leaf := none, num_keys := 1, is_leaf := false }

/-! ## Height and the route of a key -/

/-- Number of levels on the way from the pointer `p` down to a leaf along
`children[0]`; `0` for `NULL`. -/
def levels (h : Heap V) : Nat → Option Nat → Option Nat
  | 0, _ => none
  | _ + 1, none => some 0
  | fuel + 1, some cur =>
    match h[cur]? with
    | none => none
    | some nd =>
      if nd.is_leaf then some 1
      else
        match nd.children[0]? with
        | none => none
        | some c => (levels h fuel c).map (fun l => l + 1)

/-- Height of the tree: `0` for the empty tree, `1` for a single leaf. -/
def height (t : Tree V) : Option Nat :=
  levels t.heap (t.heap.length + 1) t.root

/-- The node `q` is reached from `p` by descending, at each internal node,
into `children[i]` for the smallest `i` with `k < keys[i]`, or `i = num_keys`
if there is no such `i`. -/
inductive RoutesTo (cmp_internal : V → V → Int) (h : Heap V) (k : V) : Nat → Nat → Prop where
  | here (p : Nat) : RoutesTo cmp_internal h k p p
  | step (p c q i : Nat) (nd : GenericBPlusTreeNode V) :
      h[p]? = some nd → nd.is_leaf = false → i ≤ nd.num_keys →
      (∀ j, j < i → ∃ kj, nd.keys[j]? = some (some kj) ∧ 0 ≤ cmp_internal k kj) →
      (i = nd.num_keys ∨ ∃ ki, nd.keys[i]? = some (some ki) ∧ cmp_internal k ki < 0) →
      nd.children[i]? = some (some c) → RoutesTo cmp_internal h k c q →
      RoutesTo cmp_internal h k p q

/-! ## Separators and the records they copy -/

/-- Every separator `keys[i]` of the ghost tree compares equal to the key of a
record below the child `i + 1`. -/
def Tight (C : Capability V) : (n : Nat) → GT V n → Prop
  | 0, _ => True
  | n + 1, g =>
    (∀ (i : Nat) (k : V) (cr : GT V n), g.2.1[i]? = some k → g.2.2[i + 1]? = some cr →
      ∃ x ∈ GT.recs n cr, C.cmp_internal k (C.getKey x) = 0) ∧
    ∀ c ∈ g.2.2, Tight C n c

/-- The keys that `copyKey` returns during one call of `Insert_BPlus`: the call
`copyKey(key_to_copy_up)` of the leaf split is the only one. -/
def Insert_BPlus.keyCopies (C : Capability V) (t : Tree V) (dataPtr : V) : List V :=
  match t.root with
  | none => []
  | some _ =>
    match findLeaf C.cmp_internal t.heap t.root (C.getKey dataPtr) with
    | some (some leaf) =>
      match t.heap[leaf]? with
      | none => []
      | some lf =>
        match Insert_BPlus.dupCheck C.cmp_data (C.getKey dataPtr) lf (lf.num_keys + 1) 0
            status_code.SUCCESS with
        | some status_code.SUCCESS => leafCopies C t leaf dataPtr
        | _ => []
    | _ => []

/-- Inserting the records of a list one after the other with `Insert_BPlus`,
collecting the keys that `copyKey` returned on the way. -/
def insertCopies (C : Capability V) (t : Tree V) : List V → Option (Tree V × List V)
  | [] => some (t, [])
  | r :: rs =>
    match Insert_BPlus C t r with
    | none => none
    | some (_, t') =>
      match insertCopies C t' rs with
      | none => none
      | some (t'', cps) => some (t'', Insert_BPlus.keyCopies C t r ++ cps)

/-- The list `S` holds the separators of the tree `t`: none for the empty
tree, those of the ghost tree otherwise. -/
def IsSeps (C : Capability V) (t : Tree V) (S : List V) : Prop :=
  (t.root = none ∧ S = []) ∨ ∃ (n : Nat) (g : GT V n), Model C t n g ∧ S = GT.seps n g

/-! ## Destruction -/

/-- What a destruction released, in the order of the calls: the arguments of
`freeData`, the arguments of `freeKey`, and the nodes passed to `free`. -/
structure Released (V : Type) where
  data : List V
  keys : List V
  nodes : List Nat
  deriving DecidableEq, Repr

/-- The loop `for (int i = 0; i < node->num_keys + 1; ++i)
destroyGenericBPlusTreeNode(node->children[i], freeData, freeKey);`, where
`destroy` is the recursive call. -/
def destroyGenericBPlusTreeNode.children (destroy : Option Nat → Option (Released V))
    (node : GenericBPlusTreeNode V) : Nat → Nat → Option (Released V)
  | 0, _ => none
  | fuel + 1, i =>
    if i < node.num_keys + 1 then
      match node.children[i]? with
      | none => none
      | some c =>
        match destroy c, destroyGenericBPlusTreeNode.children destroy node fuel (i + 1) with
        | some a, some b =>
          some { data := a.data ++ b.data, keys := a.keys ++ b.keys, nodes := a.nodes ++ b.nodes }
        | _, _ => none
    else some { data := [], keys := [], nodes := [] }

/-- The function `destroyGenericBPlusTreeNode`.  The loops
`for (int i = 0; i < node->num_keys; ++i) if (node->keys[i]) free...(node->keys[i]);`
visit the key slots like the traversals do (`leafRecords`); `freeData` tells
whether the function pointer `freeData` is non-`NULL`. -/
def destroyGenericBPlusTreeNode (h : Heap V) (freeData : Bool) :
    Nat → Option Nat → Option (Released V)
  | 0, _ => none
  | _ + 1, none => some { data := [], keys := [], nodes := [] }
  | fuel + 1, some node =>
    match h[node]? with
    | none => none
    | some nd =>
      if !nd.is_leaf then
        match destroyGenericBPlusTreeNode.children (destroyGenericBPlusTreeNode h freeData fuel)
            nd (nd.num_keys + 2) 0, leafRecords nd (nd.num_keys + 1) 0 with
        | some below, some ks =>
          some { data := below.data, keys := below.keys ++ ks, nodes := below.nodes ++ [node] }
        | _, _ => none
      else if freeData then
        match leafRecords nd (nd.num_keys + 1) 0 with
        | none => none
        | some ds => some { data := ds, keys := [], nodes := [node] }
      else some { data := [], keys := [], nodes := [node] }

/-- The function `Destroy_BPlus_Tree`: what was released, and the tree handle
afterwards (`*rootRef = NULL`). -/
def Destroy_BPlus_Tree (t : Tree V) (freeData : Bool) : Option (Released V × Tree V) :=
  match t.root with
  | none => some ({ data := [], keys := [], nodes := [] }, t)
  | some _ =>
    match destroyGenericBPlusTreeNode t.heap freeData (t.heap.length + 1) t.root with
    | none => none
    | some rel => some (rel, { heap := t.heap, root := none })

/-- The key `k` is a separator of the tree: it sits in a key slot
`i < num_keys` of an internal node reached from the root. -/
def IsSeparator (t : Tree V) (k : V) : Prop :=
  ∃ (root p d : Nat) (nd : GenericBPlusTreeNode V) (i : Nat), t.root = some root ∧
    DepthTo t.heap root p d ∧ t.heap[p]? = some nd ∧ nd.is_leaf = false ∧
    i < nd.num_keys ∧ nd.keys[i]? = some (some k)

/-! ## The capability sets of the program

The comparators receive `const void*` arguments and read an `int`, a
`Parking` or a string through them; the functions below take what is read.
`int` subtraction is evaluated in 32-bit two's complement arithmetic. -/

/-- The value of a 32-bit `int` after an arithmetic result `x`: wrapped modulo
`2^32` into `[-2^31, 2^31)`. -/
def wrap32 (x : Int) : Int := (x + 2147483648) % 4294967296 - 2147483648

/-- The struct `Parking`.  The `float` member `revenue` is only carried along
by the functions modelled here and is kept as an uninterpreted code. -/
structure Parking where
  parking_id : Int
  parking_space_status : Int
  revenue : Int
  occupancies : Int
  deriving DecidableEq, Repr

def VACANT : Int := 0
def OCCUPIED : Int := 1

/-- The function `compareParkingId`:
`return (*(const int*)key) - ((const Parking*)data)->parking_id;`. -/
def compareParkingId (key : Int) (data : Parking) : Int :=
  wrap32 (key - data.parking_id)

/-- The function `compareParkingIdInternal`:
`return (*(const int*)key1) - (*(const int*)key2);`. -/
def compareParkingIdInternal (key1 key2 : Int) : Int :=
  wrap32 (key1 - key2)

/-- The function `getParkingKey`: the `int` behind `&data->parking_id`. -/
def getParkingKey (data : Parking) : Int := data.parking_id

/-- The function `copyParkingKey`: the `int` behind the new pointer,
`*new_key = *(const int*)key;`. -/
def copyParkingKey (key : Int) : Int := key

/-- The C library function `strlen` on a buffer of bytes: the number of bytes
before the first `0`; `none` when the buffer holds no `0`. -/
def strlen : List Nat → Option Nat
  | [] => none
  | c :: s => if c = 0 then some 0 else (strlen s).map (fun n => n + 1)

/-- The C library function `strcmp` on two buffers of bytes: the difference of
the first two bytes that differ, `0` when both strings end together; `none`
when a buffer ends before its string does. -/
def strcmp : List Nat → List Nat → Option Int
  | [], _ => none
  | _ :: _, [] => none
  | a :: s1, b :: s2 =>
    if a ≠ b then some ((a : Int) - (b : Int))
    else if a = 0 then some 0
    else strcmp s1 s2

/-- The C library function `strcpy`, as the bytes it writes: those of the
source up to and including the first `0`. -/
def strcpy : List Nat → Option (List Nat)
  | [] => none
  | c :: s => if c = 0 then some [0] else (strcpy s).map (fun l => c :: l)

/-- The struct `User`; strings are buffers of bytes, `float` members
uninterpreted codes. -/
structure User where
  vehicle_num : List Nat
  owner_name : List Nat
  arrival_date : List Nat
  departure_date : List Nat
  arrival_time : List Nat
  departure_time : List Nat
  spent_time : Int
  total_spent_time : Int
  membership : Int
  number_of_parkings : Int
  parking_space_id : Int
  parking_amt : Int
  total_parking_amt : Int
  status : Int
  deriving DecidableEq, Repr

/-- The function `compareUserVehicleNum`:
`return strcmp((const char*)key, ((const User*)data)->vehicle_num);`. -/
def compareUserVehicleNum (key : List Nat) (data : User) : Option Int :=
  strcmp key data.vehicle_num

/-- The function `compareUserVehicleNumInternal`:
`return strcmp((const char*)key1, (const char*)key2);`. -/
def compareUserVehicleNumInternal (key1 key2 : List Nat) : Option Int :=
  strcmp key1 key2

/-- The function `getUserKey`: the buffer behind `data->vehicle_num`. -/
def getUserKey (data : User) : List Nat := data.vehicle_num

/-- The function `copyUserKey`: `malloc(strlen(key) + 1)` followed by `strcpy`;
the result is the new buffer.  Writing more than the `key_len + 1` allocated
bytes has no defined result. -/
def copyUserKey (key : List Nat) : Option (List Nat) :=
  (strlen key).bind fun key_len =>
  (strcpy key).bind fun new_key =>
  if new_key.length ≤ key_len + 1 then some new_key else none

/-! ## The parking tree

In the parking tree a `void*` points to a `Parking` record of the record
store, to the member `parking_id` of such a record, or to an `int` object of
its own (the `&min_id` of a search, a key copy).  In this section parking ids
are taken from a range in which the difference of two ids fits into 32 bits;
the section after it takes every `int`. -/

/-- The `int` values used as parking ids. -/
abbrev SmallInt : Type := { v : Int // -1073741824 ≤ v ∧ v < 1073741824 }

/-- A `Parking` record with such an id. -/
abbrev Slot : Type := { p : Parking // -1073741824 ≤ p.parking_id ∧ p.parking_id < 1073741824 }

/-- The record store: the `Parking` record at every address. -/
abbrev ParkingStore : Type := Nat → Slot

/-- The targets of the `void*` pointers of the parking tree. -/
inductive PRef where
  | slot (a : Nat)
  | id_of (a : Nat)
  | cell (v : SmallInt)
  deriving DecidableEq

/-- Reading `*(const int*)p`; the member `parking_id` is the first member of
the record. -/
def PRef.load (m : ParkingStore) : PRef → SmallInt
  | PRef.slot a => ⟨(m a).1.parking_id, (m a).2⟩
  | PRef.id_of a => ⟨(m a).1.parking_id, (m a).2⟩
  | PRef.cell v => v

/-- Reading `*(const Parking*)p`; through a pointer to an `int` object only
the first member is meaningful. -/
def PRef.record (m : ParkingStore) : PRef → Parking
  | PRef.slot a => (m a).1
  | PRef.id_of a => (m a).1
  | PRef.cell v =>
    { parking_id := v.1, parking_space_status := 0, revenue := 0, occupancies := 0 }

/-- The capability set of the parking tree: `compareParkingId`,
`compareParkingIdInternal`, `getParkingKey`, `copyParkingKey` on pointers. -/
def parkingCap (m : ParkingStore) : Capability PRef :=
  { cmp_data := fun key data => compareParkingId (PRef.load m key).1 (PRef.record m data)
    cmp_internal := fun key1 key2 =>
      compareParkingIdInternal (PRef.load m key1).1 (PRef.load m key2).1
    getKey := fun data =>
      match data with
      | PRef.slot a => PRef.id_of a
      | p => p
    copyKey := fun key => PRef.cell ⟨copyParkingKey (PRef.load m key).1, (PRef.load m key).2⟩ }

/-- The inner loop of `Find_Free_Slot` over the records of one leaf:
`some (some p)` is `return p;`, `some none` the end of the loop. -/
def Find_Free_Slot.scan (m : ParkingStore) (min_id max_id : Int)
    (current_leaf : GenericBPlusTreeNode PRef) : Nat → Nat → Option (Option PRef)
  | 0, _ => none
  | fuel + 1, i =>
    if i < current_leaf.num_keys then
      match current_leaf.keys[i]? with
      | some (some (PRef.slot a)) =>
        if (m a).1.parking_id ≥ min_id ∧ (m a).1.parking_id ≤ max_id then
          if (m a).1.parking_space_status = VACANT then some (some (PRef.slot a))
          else Find_Free_Slot.scan m min_id max_id current_leaf fuel (i + 1)
        else Find_Free_Slot.scan m min_id max_id current_leaf fuel (i + 1)
      | _ => none
    else some none

/-- The loop `while (current_leaf) { ...; current_leaf = current_leaf->next_leaf; }`
of `Find_Free_Slot`. -/
def Find_Free_Slot.walk (m : ParkingStore) (h : Heap PRef) (min_id max_id : Int) :
    Nat → Option Nat → Option (Option PRef)
  | 0, _ => none
  | _ + 1, none => some none
  | fuel + 1, some current_leaf =>
    match h[current_leaf]? with
    | none => none
    | some nd =>
      match Find_Free_Slot.scan m min_id max_id nd (nd.num_keys + 1) 0 with
      | none => none
      | some (some p) => some (some p)
      | some none => Find_Free_Slot.walk m h min_id max_id fuel nd.next_leaf

/-- The function `Find_Free_Slot`; `some none` is the result `NULL`. -/
def Find_Free_Slot (m : ParkingStore) (t : Tree PRef) (min_id : SmallInt) (max_id : Int)
    (cmp_internal : PRef → PRef → Int) : Option (Option PRef) :=
  match t.root with
  | none => some none
  | some _ =>
    match findLeaf cmp_internal t.heap t.root (PRef.cell min_id) with
    | none => none
    | some leaf => Find_Free_Slot.walk m t.heap min_id.1 max_id (t.heap.length + 1) leaf

/-- The test of `Find_Free_Slot`: the pointer is a record whose id lies in
`[min_id, max_id]` and whose status is `VACANT`. -/
def vacantInRange (m : ParkingStore) (min_id max_id : Int) : PRef → Bool
  | PRef.slot a =>
    decide ((m a).1.parking_id ≥ min_id ∧ (m a).1.parking_id ≤ max_id ∧
      (m a).1.parking_space_status = VACANT)
  | _ => false

/-! ## The parking tree over every `int` id

The functions that park and release a vehicle work on whatever ids the
program has read: here a `parking_id` is any `int`, an `int` object holds any
`int`, and the comparators subtract in 32-bit two's complement arithmetic. -/

namespace Full

/-- The record store: the `Parking` record at every address. -/
abbrev ParkingStore : Type := Nat → Parking

/-- The targets of the `void*` pointers of the parking tree. -/
inductive PRef where
  | slot (a : Nat)
  | id_of (a : Nat)
  | cell (v : Int)
  deriving DecidableEq

/-- Reading `*(const int*)p`; the member `parking_id` is the first member of
the record. -/
def PRef.load (m : ParkingStore) : PRef → Int
  | PRef.slot a => (m a).parking_id
  | PRef.id_of a => (m a).parking_id
  | PRef.cell v => v

/-- Reading `*(const Parking*)p`; through a pointer to an `int` object only
the first member is meaningful. -/
def PRef.record (m : ParkingStore) : PRef → Parking
  | PRef.slot a => m a
  | PRef.id_of a => m a
  | PRef.cell v =>
    { parking_id := v, parking_space_status := 0, revenue := 0, occupancies := 0 }

/-- The capability set of the parking tree: `compareParkingId`,
`compareParkingIdInternal`, `getParkingKey`, `copyParkingKey` on pointers. -/
def parkingCap (m : ParkingStore) : Capability PRef :=
  { cmp_data := fun key data => compareParkingId (PRef.load m key) (PRef.record m data)
    cmp_internal := fun key1 key2 =>
      compareParkingIdInternal (PRef.load m key1) (PRef.load m key2)
    getKey := fun data =>
      match data with
      | PRef.slot a => PRef.id_of a
      | p => p
    copyKey := fun key => PRef.cell (copyParkingKey (PRef.load m key)) }

/-- The inner loop of `Find_Free_Slot` over the records of one leaf:
`some (some p)` is `return p;`, `some none` the end of the loop. -/
def Find_Free_Slot.scan (m : ParkingStore) (min_id max_id : Int)
    (current_leaf : GenericBPlusTreeNode PRef) : Nat → Nat → Option (Option PRef)
  | 0, _ => none
  | fuel + 1, i =>
    if i < current_leaf.num_keys then
      match current_leaf.keys[i]? with
      | some (some (PRef.slot a)) =>
        if (m a).parking_id ≥ min_id ∧ (m a).parking_id ≤ max_id then
          if (m a).parking_space_status = VACANT then some (some (PRef.slot a))
          else Find_Free_Slot.scan m min_id max_id current_leaf fuel (i + 1)
        else Find_Free_Slot.scan m min_id max_id current_leaf fuel (i + 1)
      | _ => none
    else some none

/-- The loop `while (current_leaf) { ...; current_leaf = current_leaf->next_leaf; }`
of `Find_Free_Slot`. -/
def Find_Free_Slot.walk (m : ParkingStore) (h : Heap PRef) (min_id max_id : Int) :
    Nat → Option Nat → Option (Option PRef)
  | 0, _ => none
  | _ + 1, none => some none
  | fuel + 1, some current_leaf =>
    match h[current_leaf]? with
    | none => none
    | some nd =>
      match Find_Free_Slot.scan m min_id max_id nd (nd.num_keys + 1) 0 with
      | none => none
      | some (some p) => some (some p)
      | some none => Find_Free_Slot.walk m h min_id max_id fuel nd.next_leaf

/-- The function `Find_Free_Slot`; `some none` is the result `NULL`. -/
def Find_Free_Slot (m : ParkingStore) (t : Tree PRef) (min_id max_id : Int)
    (cmp_internal : PRef → PRef → Int) : Option (Option PRef) :=
  match t.root with
  | none => some none
  | some _ =>
    match findLeaf cmp_internal t.heap t.root (PRef.cell min_id) with
    | none => none
    | some leaf => Find_Free_Slot.walk m t.heap min_id max_id (t.heap.length + 1) leaf

/-- The test of `Find_Free_Slot`: the pointer is a record whose id lies in
`[min_id, max_id]` and whose status is `VACANT`. -/
def vacantInRange (m : ParkingStore) (min_id max_id : Int) : PRef → Bool
  | PRef.slot a =>
    decide ((m a).parking_id ≥ min_id ∧ (m a).parking_id ≤ max_id ∧
      (m a).parking_space_status = VACANT)
  | _ => false

end Full

/-- The function `Assign_Parking_ID`: the returned status, the record store and
the value of `*assigned_parking_id` afterwards.  The tree is only read.  A
signed overflow of `occupancies + 1` has no defined result. -/
def Assign_Parking_ID (m : Full.ParkingStore) (t : Tree Full.PRef) (min_id max_id : Int)
    (assigned_parking_id : Int) : Option (Bool × Full.ParkingStore × Int) :=
  match Full.Find_Free_Slot m t min_id max_id (Full.parkingCap m).cmp_internal with
  | none => none
  | some none => some (false, m, assigned_parking_id)
  | some (some (Full.PRef.slot a)) =>
    if (m a).occupancies + 1 < 2147483648 then
      some (true,
        Function.update m a
          { m a with parking_space_status := OCCUPIED
                     occupancies := (m a).occupancies + 1 },
        (m a).parking_id)
    else none
  | some (some _) => none

/-! ## An example parking tree -/

/-- An example record store: the record at address `a` has the id
`a % 50 + 1`; the records at even addresses are occupied. -/
def store0 : ParkingStore := fun a =>
  ⟨{ parking_id := ((a % 50 : Nat) : Int) + 1
     parking_space_status := if a % 2 = 0 then OCCUPIED else VACANT
     revenue := 0
     occupancies := 0 }, by constructor <;> simp only <;> omega⟩

/-- The empty parking tree. -/
def emptyParking : Tree PRef := { heap := [], root := none }

/-- The records at the addresses `0 .. 6`. -/
def slots7 : List PRef :=
  [PRef.slot 3, PRef.slot 0, PRef.slot 5, PRef.slot 1, PRef.slot 6, PRef.slot 2, PRef.slot 4]

/-- The parking tree holding the records at the addresses `0 .. 6`. -/
def parkingTree : Tree PRef :=
  (insertAll (parkingCap store0) emptyParking slots7).getD emptyParking

/-! ## Further example nodes -/

/-- The left leaf of `tree5`, at address 0. -/
def leaf123 : GenericBPlusTreeNode Int :=
  { keys := [some 1, some 2, some 3, none], children := [none, none, none, none, none],
    parent := some 2, next_leaf := some 1, num_keys := 3, is_leaf := true }

/-- The right leaf of `tree5`, at address 1. -/
def leaf45 : GenericBPlusTreeNode Int :=
  { keys := [some 4, some 5, none, none], children := [none, none, none, none, none],
    parent := some 2, next_leaf := none, num_keys := 2, is_leaf := true }

/-! ## The leaf chain -/

/-- The nodes visited by the loop
`while (current != NULL) { ...; current = current->next_leaf; }` of the
traversals, in order; the loop ends when it reaches `NULL`. -/
def chainFrom (h : Heap V) : Nat → Option Nat → Option (List Nat)
  | 0, _ => none
  | _ + 1, none => some []
  | fuel + 1, some cur =>
    match h[cur]? with
    | none => none
    | some nd => (chainFrom h fuel nd.next_leaf).map (fun l => cur :: l)

/-- The leaf chain of a tree: the nodes the traversals visit, starting at the
leftmost leaf. -/
def leafChain (t : Tree V) : Option (List Nat) :=
  match t.root with
  | none => some []
  | some _ =>
    match leftmostLeaf t.heap (t.heap.length + 1) t.root with
    | none => none
    | some current => chainFrom t.heap (t.heap.length + 1) current

/-- The node `a` is a leaf of the tree: a node with `is_leaf` set that is
reached from the root. -/
def IsLeaf (t : Tree V) (a : Nat) : Prop :=
  ∃ (root d : Nat) (nd : GenericBPlusTreeNode V), t.root = some root ∧
    DepthTo t.heap root a d ∧ t.heap[a]? = some nd ∧ nd.is_leaf = true

/-! ## Example states of `insertIntoParent` -/

/-- The state in which `Insert_BPlus` of 5 into `tree4` calls
`insertIntoParent`: the root leaf has been split into the leaves at the
addresses 0 and 1, the root pointer still points to the leaf at 0. -/
def split4 : Tree Int :=
  { heap := [{ leaf123 with parent := none }, { leaf45 with parent := none }]
    root := some 0 }

/-- The tree after inserting 1 .. 7 into the empty tree: the leaves `1 2 3`
and `4 5 6 7` below the root at address 2. -/
def tree7 : Tree Int := (insertAll intCap emptyTree [1, 2, 3, 4, 5, 6, 7]).getD emptyTree

/-- The leaf of `split7` at address 1: the left half of the split leaf. -/
def leaf456 : GenericBPlusTreeNode Int :=
  { keys := [some 4, some 5, some 6, none], children := [none, none, none, none, none],
    parent := some 2, next_leaf := some 3, num_keys := 3, is_leaf := true }

/-- The leaf of `split7` at address 3: the new leaf. -/
def leaf78 : GenericBPlusTreeNode Int :=
  { keys := [some 7, some 8, none, none], children := [none, none, none, none, none],
    parent := some 2, next_leaf := none, num_keys := 2, is_leaf := true }

/-- The state in which `Insert_BPlus` of 8 into `tree7` calls
`insertIntoParent`: the leaf at address 1 has been split, the new leaf is at
address 3. -/
def split7 : Tree Int :=
  { heap := [leaf123, leaf456, root5, leaf78], root := some 2 }

/-- The tree after inserting 1 .. 16 into the empty tree: five leaves below a
root with four keys. -/
def tree16 : Tree Int :=
  (insertAll intCap emptyTree [1, 2, 3, 4, 5, 6, 7, 8, 9, 10, 11, 12, 13, 14, 15, 16]).getD
    emptyTree

/-- The root node of `tree16` and of `split16`: a full internal node. -/
def root16 : GenericBPlusTreeNode Int :=
  { keys := [some 4, some 7, some 10, some 13],
    children := [some 0, some 1, some 3, some 4, some 5],
    parent := none, next_leaf := none, num_keys := 4, is_leaf := false }

/-- The left half of the split leaf of `split16`, at address 5. -/
def leaf131415 : GenericBPlusTreeNode Int :=
  { keys := [some 13, some 14, some 15, none], children := [none, none, none, none, none],
    parent := some 2, next_leaf := some 6, num_keys := 3, is_leaf := true }

/-- The state in which `Insert_BPlus` of 17 into `tree16` calls
`insertIntoParent`: the leaf at address 5 has been split, the new leaf is at
address 6, and the parent at address 2 is full. -/
def split16 : Tree Int :=
  { heap :=
      [leaf123, leaf456, root16,
       { keys := [some 7, some 8, some 9, none], children := [none, none, none, none, none],
         parent := some 2, next_leaf := some 4, num_keys := 3, is_leaf := true },
       { keys := [some 10, some 11, some 12, none], children := [none, none, none, none, none],
         parent := some 2, next_leaf := some 5, num_keys := 3, is_leaf := true },
       leaf131415,
       { keys := [some 16, some 17, none, none], children := [none, none, none, none, none],
         parent := some 2, next_leaf := none, num_keys := 2, is_leaf := true }]
    root := some 2 }

/-! ## The user records

A `User` record is kept in a record store like the `Parking` records.  Its
member `vehicle_num`, the key of the user tree, holds a NUL-terminated string.
A member array that `strcpy` has written holds the bytes written; the bytes
behind the terminator are not modelled.  The `float` members hold codes of
floating-point values, on which the operations of `FloatOps` act. -/

def NOTPARKED : Int := 0
def PARKED : Int := 1

/-- The value of an `int` expression whose mathematical result is `x`: a
signed overflow has no defined result. -/
def int32 (x : Int) : Option Int :=
  if -2147483648 ≤ x ∧ x < 2147483648 then some x else none

/-- The call `strcpy(dst, src)` for a member array `dst` of `size` bytes: the
bytes the array holds afterwards.  Writing behind the array has no defined
result. -/
def strcpyTo (size : Nat) (src : List Nat) : Option (List Nat) :=
  match strcpy src with
  | none => none
  | some s => if s.length ≤ size then some s else none

/-- The string literal `"-"`. -/
def dash : List Nat := [45, 0]

/-- A NUL-terminated string. -/
abbrev CStr : Type := { s : List Nat // strlen s ≠ none }

/-- A `User` record whose `vehicle_num` is a NUL-terminated string. -/
abbrev UserRec : Type := { u : User // strlen u.vehicle_num ≠ none }

/-- The user records: the record at every address, and the number of records
that `malloc` has handed out; `malloc` returns the address `count`. -/
structure UserStore where
  records : Nat → UserRec
  count : Nat

/-- The floating-point and time operations the program uses, acting on the
codes of `float` and `double` values.  They are not interpreted: `ofInt` is
the conversion of an `int`, `toInt` the conversion to `int`, `add` and `sub`
the rounded sum and difference, `ge`, `gt` and `lt` the comparisons `>=`, `>`
and `<`, `isZero` the test `!x`, `frac` the fractional part that `modf`
returns, `lit02` the literal `0.2`, and `hours` the value `Time_spent`
computes with `sscanf`, `mktime` and `difftime` from the arrival and departure
strings. -/
structure FloatOps where
  ofInt : Int → Int
  toInt : Int → Int
  add : Int → Int → Int
  sub : Int → Int → Int
  ge : Int → Int → Bool
  gt : Int → Int → Bool
  lt : Int → Int → Bool
  isZero : Int → Bool
  frac : Int → Int
  lit02 : Int
  hours : List Nat → List Nat → List Nat → List Nat → Int

/-- The targets of the `void*` pointers of the user tree: a `User` record of
the store, its member `vehicle_num`, or a string object of its own (the
`vehicle_num` argument of a search, a key copy). -/
inductive URef where
  | user (a : Nat)
  | vnum (a : Nat)
  | str (s : CStr)
  deriving DecidableEq

/-- Reading a string through the pointer; `vehicle_num` is the first member of
the record. -/
def URef.load (m : Nat → UserRec) : URef → CStr
  | URef.user a => ⟨(m a).1.vehicle_num, (m a).2⟩
  | URef.vnum a => ⟨(m a).1.vehicle_num, (m a).2⟩
  | URef.str s => s

/-- Reading `*(const User*)p`; through a pointer to a string only the first
member is meaningful. -/
def URef.record (m : Nat → UserRec) : URef → User
  | URef.user a => (m a).1
  | URef.vnum a => (m a).1
  | URef.str s =>
    { vehicle_num := s.1, owner_name := [], arrival_date := [], departure_date := [],
      arrival_time := [], departure_time := [], spent_time := 0, total_spent_time := 0,
      membership := 0, number_of_parkings := 0, parking_space_id := 0, parking_amt := 0,
      total_parking_amt := 0, status := 0 }

/-- A buffer as a string object; a buffer without terminator is not a string
and is replaced by the empty string. -/
def CStr.ofBuf (s : List Nat) : CStr :=
  if h : strlen s ≠ none then ⟨s, h⟩ else ⟨[0], by decide⟩

/-- The capability set of the user tree: `compareUserVehicleNum`,
`compareUserVehicleNumInternal`, `getUserKey`, `copyUserKey` on pointers.  On
NUL-terminated strings `strcmp` and `copyUserKey` return a result, so the
defaults are never used. -/
def userCap (m : Nat → UserRec) : Capability URef :=
  { cmp_data := fun key data =>
      (compareUserVehicleNum (URef.load m key).1 (URef.record m data)).getD 0
    cmp_internal := fun key1 key2 =>
      (compareUserVehicleNumInternal (URef.load m key1).1 (URef.load m key2).1).getD 0
    getKey := fun data =>
      match data with
      | URef.user a => URef.vnum a
      | p => p
    copyKey := fun key => URef.str (CStr.ofBuf ((copyUserKey (URef.load m key).1).getD [0])) }

/-- The function `SearchUser_BPlus`. -/
def SearchUser_BPlus (m : Nat → UserRec) (userRoot : Tree URef) (vehicle_num : CStr) :
    Option (Option URef) :=
  Search_BPlus (userCap m) userRoot (URef.str vehicle_num)

/-- The function `SearchParking_BPlus`; the key is the address of the
argument `parking_id`. -/
def SearchParking_BPlus (m : Full.ParkingStore) (parkingRoot : Tree Full.PRef)
    (parking_id : Int) : Option (Option Full.PRef) :=
  Search_BPlus (Full.parkingCap m) parkingRoot (Full.PRef.cell parking_id)

/-- The function `createUser`: the record written into the memory that
`malloc` returned. -/
def createUser (F : FloatOps) (vehicle_num owner_name arrival_date arrival_time : List Nat)
    (parking_id : Int) : Option UserRec :=
  (strcpyTo 20 vehicle_num).bind fun vn =>
  (strcpyTo 50 owner_name).bind fun own =>
  (strcpyTo 11 arrival_date).bind fun ad =>
  (strcpyTo 6 arrival_time).bind fun atm =>
  (strcpyTo 11 dash).bind fun dd =>
  (strcpyTo 6 dash).bind fun dtm =>
  if h : strlen vn ≠ none then
    some ⟨{ vehicle_num := vn, owner_name := own, arrival_date := ad, departure_date := dd,
            arrival_time := atm, departure_time := dtm,
            spent_time := F.ofInt 0, total_spent_time := F.ofInt 0, membership := 0,
            number_of_parkings := 1,
            parking_space_id := if parking_id > 0 then parking_id else -1,
            parking_amt := F.ofInt 0, total_parking_amt := F.ofInt 0,
            status := if parking_id > 0 then PARKED else NOTPARKED }, h⟩
  else none

/-- The function `Allocation_Policy`: the returned status, the record store of
the parking tree, the record `*userNode` and the value of `*parking_id`
afterwards. -/
def Allocation_Policy (m : Full.ParkingStore) (parkingRoot : Tree Full.PRef)
    (userNode : UserRec) (parking_id : Int) :
    Option (Bool × Full.ParkingStore × UserRec × Int) :=
  let min_id : Int :=
    if userNode.1.membership = 2 then 1
    else if userNode.1.membership = 1 then 11
    else 21
  let max_id : Int := 50
  match Assign_Parking_ID m parkingRoot min_id max_id parking_id with
  | none => none
  | some (status, m', parking_id') =>
    if status then
      some (true, m', ⟨{ userNode.1 with parking_space_id := parking_id' }, userNode.2⟩,
        parking_id')
    else some (false, m', userNode, parking_id')

/-- The branch of `Insert_Update` for a vehicle that is in the user tree.  A
signed overflow of `number_of_parkings++` has no defined result. -/
def Insert_Update.existing (F : FloatOps) (pm : Full.ParkingStore)
    (parkingRoot : Tree Full.PRef) (um : UserStore) (a : Nat)
    (arrival_date arrival_time : List Nat) :
    Option (Bool × Full.ParkingStore × UserStore) :=
  if (um.records a).1.status = PARKED then some (false, pm, um)
  else
    match Allocation_Policy pm parkingRoot (um.records a) (-1) with
    | none => none
    | some (false, pm', u, _) =>
      some (false, pm', { um with records := Function.update um.records a u })
    | some (true, pm', u, parkingId) =>
      (strcpyTo 11 arrival_date).bind fun ad =>
      (strcpyTo 6 arrival_time).bind fun atm =>
      (strcpyTo 11 dash).bind fun dd =>
      (strcpyTo 6 dash).bind fun dtm =>
      if u.1.number_of_parkings + 1 < 2147483648 then
        let u' : UserRec :=
          ⟨{ u.1 with arrival_date := ad, arrival_time := atm, departure_date := dd,
                      departure_time := dtm, status := PARKED,
                      parking_space_id := parkingId
                      number_of_parkings := u.1.number_of_parkings + 1
                      parking_amt := F.ofInt 0, spent_time := F.ofInt 0 }, u.2⟩
        some (true, pm', { um with records := Function.update um.records a u' })
      else none

/-- The branch of `Insert_Update` for a vehicle that is not in the user tree.
A record that `freeUser` has released is no longer part of the store.  A
signed overflow of `occupancies + 1` has no defined result. -/
def Insert_Update.fresh (F : FloatOps) (pm : Full.ParkingStore)
    (parkingRoot : Tree Full.PRef) (um : UserStore) (userRoot : Tree URef)
    (vehicle_num owner_name arrival_date arrival_time : List Nat) :
    Option (Bool × Full.ParkingStore × UserStore × Tree URef) :=
  match Full.Find_Free_Slot pm parkingRoot 21 50 (Full.parkingCap pm).cmp_internal with
  | none => none
  | some none => some (false, pm, um, userRoot)
  | some (some (Full.PRef.slot b)) =>
    match createUser F vehicle_num owner_name arrival_date arrival_time
        (pm b).parking_id with
    | none => none
    | some newUser =>
      let um' : UserStore :=
        { records := Function.update um.records um.count newUser, count := um.count + 1 }
      match Insert_BPlus (userCap um'.records) userRoot (URef.user um.count) with
      | none => none
      | some (status_code.SUCCESS, userRoot') =>
        if (pm b).occupancies + 1 < 2147483648 then
          some (true,
            Function.update pm b
              { pm b with occupancies := (pm b).occupancies + 1
                          parking_space_status := OCCUPIED },
            um', userRoot')
        else none
      | some (status_code.FAILURE, userRoot') => some (false, pm, um, userRoot')
  | some (some _) => none

/-- The function `Insert_Update`: the returned status, the two record stores
and the user tree afterwards.  The parking tree is only read. -/
def Insert_Update (F : FloatOps) (pm : Full.ParkingStore) (parkingRoot : Tree Full.PRef)
    (um : UserStore) (userRoot : Tree URef) (vehicle_num : CStr)
    (owner_name arrival_date arrival_time : List Nat) :
    Option (Bool × Full.ParkingStore × UserStore × Tree URef) :=
  match SearchUser_BPlus um.records userRoot vehicle_num with
  | none => none
  | some (some (URef.user a)) =>
    (Insert_Update.existing F pm parkingRoot um a arrival_date arrival_time).map
      fun r => (r.1, r.2.1, r.2.2, userRoot)
  | some (some _) => none
  | some none =>
    Insert_Update.fresh F pm parkingRoot um userRoot vehicle_num.1 owner_name arrival_date
      arrival_time

/-- The function `Time_spent`. -/
def Time_spent (F : FloatOps) (user : UserRec) : UserRec :=
  let hours := F.hours user.1.arrival_date user.1.arrival_time user.1.departure_date
    user.1.departure_time
  ⟨{ user.1 with spent_time := hours
                 total_spent_time := F.add user.1.total_spent_time hours }, user.2⟩

/-- The function `Membership`. -/
def Membership (F : FloatOps) (user : UserRec) : UserRec :=
  if F.ge user.1.total_spent_time (F.ofInt 200) then
    ⟨{ user.1 with membership := 2 }, user.2⟩
  else if F.ge user.1.total_spent_time (F.ofInt 100) then
    ⟨{ user.1 with membership := 1 }, user.2⟩
  else ⟨{ user.1 with membership := 0 }, user.2⟩

/-- The amount `parking_amt` that `Payment` computes.  In the `else` branch
the assignments go to the inner variable `parking_amt` declared there, and the
outer variable keeps its value 0. -/
def Payment.amount (F : FloatOps) (user : User) : Option Int :=
  let fractional := F.frac user.spent_time
  (int32 (F.toInt (F.sub user.spent_time fractional))).bind fun buffer0 =>
  let parking_amt0 : Int := 0
  (if F.gt fractional F.lit02 then int32 (buffer0 + 1) else some buffer0).bind fun buffer =>
  if F.ge user.spent_time (F.ofInt 3) then
    (int32 (buffer - 3)).bind fun d =>
    (int32 (50 * d)).bind fun e =>
    (int32 (100 + e)).bind fun parking_amt1 =>
    if user.membership ≠ 0 then (int32 (parking_amt1 * 9)).map fun x => Int.tdiv x 10
    else some parking_amt1
  else
    let inner : Int := 100
    (if user.membership ≠ 0 then (int32 (inner * 9)).map fun x => Int.tdiv x 10
     else some inner).bind fun _ =>
    some parking_amt0

/-- The function `Payment`: the records `*parking` and `*user` afterwards. -/
def Payment (F : FloatOps) (parking : Parking) (user : UserRec) :
    Option (Parking × UserRec) :=
  (Payment.amount F user.1).bind fun parking_amt =>
  some ({ parking with revenue := F.add parking.revenue (F.ofInt parking_amt) },
        ⟨{ user.1 with parking_amt := F.ofInt parking_amt
                       total_parking_amt :=
                         F.add user.1.total_parking_amt (F.ofInt parking_amt) }, user.2⟩)

/-- The function `Exit_Vehicle_BPlus`: the returned status and the two record
stores afterwards.  Both trees are only read.  `Payment` dereferences
`parkingFound`, so a `NULL` result of `SearchParking_BPlus` leaves the call
without a defined result. -/
def Exit_Vehicle_BPlus (F : FloatOps) (pm : Full.ParkingStore)
    (parkingRoot : Tree Full.PRef) (um : UserStore) (userRoot : Tree URef)
    (vehicle_num : CStr) (departure_date departure_time : List Nat) :
    Option (Bool × Full.ParkingStore × UserStore) :=
  match SearchUser_BPlus um.records userRoot vehicle_num with
  | none => none
  | some none => some (false, pm, um)
  | some (some (URef.user a)) =>
    if (um.records a).1.status = NOTPARKED then some (false, pm, um)
    else
      let parkingId := (um.records a).1.parking_space_id
      match SearchParking_BPlus pm parkingRoot parkingId with
      | some (some (Full.PRef.slot b)) =>
        (strcpyTo 11 departure_date).bind fun dd =>
        (strcpyTo 6 departure_time).bind fun dtm =>
        let u1 : UserRec :=
          ⟨{ (um.records a).1 with departure_date := dd, departure_time := dtm
                                   status := NOTPARKED }, (um.records a).2⟩
        (Payment F (pm b) (Membership F (Time_spent F u1))).bind fun r =>
        let p' : Parking := { r.1 with parking_space_status := VACANT }
        let u' : UserRec := ⟨{ r.2.1 with parking_space_id := -1 }, r.2.2⟩
        some (true, Function.update pm b p',
          { um with records := Function.update um.records a u' })
      | _ => none
  | some (some _) => none

/-- The occupancy invariant: every stored user with status `PARKED` has the
`parking_id` of a stored slot with status `OCCUPIED` as its
`parking_space_id`, and no two stored users with status `PARKED` have the same
`parking_space_id`. -/
def OccInv (pm : Full.ParkingStore) (parkingRoot : Tree Full.PRef) (um : Nat → UserRec)
    (userRoot : Tree URef) : Prop :=
  (∀ a, Stored userRoot (URef.user a) → (um a).1.status = PARKED →
    ∃ b, Stored parkingRoot (Full.PRef.slot b) ∧
      (pm b).parking_id = (um a).1.parking_space_id ∧
      (pm b).parking_space_status = OCCUPIED) ∧
  ∀ a a', Stored userRoot (URef.user a) → Stored userRoot (URef.user a') →
    (um a).1.status = PARKED → (um a').1.status = PARKED →
    (um a).1.parking_space_id = (um a').1.parking_space_id → a = a'

/-! ## An example user store -/

/-- The vehicle number `"A1"` and the vehicle number `"B2"`. -/
def vnA1 : CStr := ⟨[65, 49, 0], by decide⟩
def vnB2 : CStr := ⟨[66, 50, 0], by decide⟩

/-- An example user store: every record is a user of membership 2 with the
vehicle number `"A1"` who is not parked; one record has been handed out. -/
def users0 : UserStore :=
  { records := fun _ =>
      ⟨{ vehicle_num := vnA1.1, owner_name := [0], arrival_date := dash,
         departure_date := dash, arrival_time := dash, departure_time := dash,
         spent_time := 0, total_spent_time := 0, membership := 2, number_of_parkings := 1,
         parking_space_id := -1, parking_amt := 0, total_parking_amt := 0,
         status := NOTPARKED }, by decide⟩
    count := 1 }

/-- Example operations on `float` codes: a code is the value in hundredths,
the conversion to `int` saturates at `100000`, and `Time_spent` measures one
hour and a half. -/
def floats0 : FloatOps :=
  { ofInt := fun n => 100 * n
    toInt := fun x => max (-100000) (min 100000 (Int.tdiv x 100))
    add := fun x y => x + y
    sub := fun x y => x - y
    ge := fun x y => decide (y ≤ x)
    gt := fun x y => decide (y < x)
    lt := fun x y => decide (x < y)
    isZero := fun x => decide (x = 0)
    frac := fun x => Int.tmod x 100
    lit02 := 20
    hours := fun _ _ _ _ => 150 }

/-- The date `"01/01/2025"`, the date `"02/01/2025"` and the time `"09:30"`. -/
def date1 : List Nat := [48, 49, 47, 48, 49, 47, 50, 48, 50, 53, 0]
def date2 : List Nat := [48, 50, 47, 48, 49, 47, 50, 48, 50, 53, 0]
def time930 : List Nat := [48, 57, 58, 51, 48, 0]

/-- An example user store with two records handed out: the vehicle `"A1"` at
address 0 is parked in the slot with id 1, the vehicle `"B2"` at the other
addresses is a Gold member who is not parked. -/
def users1 : UserStore :=
  { records := fun a =>
      if a = 0 then
        ⟨{ vehicle_num := vnA1.1, owner_name := [0], arrival_date := date1,
           departure_date := dash, arrival_time := time930, departure_time := dash,
           spent_time := 0, total_spent_time := 0, membership := 0, number_of_parkings := 1,
           parking_space_id := 1, parking_amt := 0, total_parking_amt := 0,
           status := PARKED }, by decide⟩
      else
        ⟨{ vehicle_num := vnB2.1, owner_name := [0], arrival_date := date1,
           departure_date := date1, arrival_time := time930, departure_time := time930,
           spent_time := 0, total_spent_time := 0, membership := 2, number_of_parkings := 1,
           parking_space_id := -1, parking_amt := 0, total_parking_amt := 0,
           status := NOTPARKED }, by decide⟩
    count := 2 }

/-- The empty user tree. -/
def emptyUsers : Tree URef := { heap := [], root := none }

/-- The user tree holding the two records of `users1`. -/
def userTree : Tree URef :=
  (insertAll (userCap users1.records) emptyUsers [URef.user 0, URef.user 1]).getD emptyUsers

/-! ## Example parking trees with ids from the whole range of `int` -/

/-- The empty parking tree. -/
def Full.emptyParking : Tree Full.PRef := { heap := [], root := none }

/-- The records at the addresses `0 .. 4`. -/
def Full.slots5 : List Full.PRef :=
  [Full.PRef.slot 0, Full.PRef.slot 1, Full.PRef.slot 2, Full.PRef.slot 3, Full.PRef.slot 4]

/-- An example record store: the records at the addresses `0 .. 3` have the
ids 28, 29, 30 and -2147483626, every other record has the id -2147483625;
every record is vacant. -/
def Full.wideStore : Full.ParkingStore := fun a =>
  { parking_id := [28, 29, 30, -2147483626].getD a (-2147483625)
    parking_space_status := VACANT
    revenue := 0
    occupancies := 0 }

/-- The parking tree that `Insert_BPlus` builds from the records of
`Full.wideStore` at the addresses `0 .. 4`, inserted in this order. -/
def Full.wideTree : Tree Full.PRef :=
  (insertAll (Full.parkingCap Full.wideStore) Full.emptyParking Full.slots5).getD
    Full.emptyParking

/-- A second example record store: the records at the addresses `0 .. 3` have
the ids -2147483618, 30, 25 and 40, every other record has the id 5; every
record is vacant. -/
def Full.wrapStore : Full.ParkingStore := fun a =>
  { parking_id := [-2147483618, 30, 25, 40].getD a 5
    parking_space_status := VACANT
    revenue := 0
    occupancies := 0 }

/-- The parking tree that `Insert_BPlus` builds from the records of
`Full.wrapStore` at the addresses `0 .. 4`, inserted in this order. -/
def Full.wrapTree : Tree Full.PRef :=
  (insertAll (Full.parkingCap Full.wrapStore) Full.emptyParking Full.slots5).getD
    Full.emptyParking

/-- An example user store with no record handed out: every record is a user
of membership 0 with the vehicle number `"A1"` who is not parked. -/
def users2 : UserStore :=
  { records := fun _ =>
      ⟨{ vehicle_num := vnA1.1, owner_name := [0], arrival_date := dash,
         departure_date := dash, arrival_time := dash, departure_time := dash,
         spent_time := 0, total_spent_time := 0, membership := 0, number_of_parkings := 0,
         parking_space_id := -1, parking_amt := 0, total_parking_amt := 0,
         status := NOTPARKED }, by decide⟩
    count := 0 }

/-- The user tree whose only node is a leaf holding the record at address 0. -/
def parkedTree : Tree URef :=
  { heap :=
      [{ keys := [some (URef.user 0), none, none, none],
         children := [none, none, none, none, none], parent := none, next_leaf := none,
         num_keys := 1, is_leaf := true }]
    root := some 0 }

/-! ## Linked lists

A `ListNode` lives in a heap of its own, a list of nodes; a `ListNode*` is an
`Option Nat`.  The member `data` holds a `void*` value of the type `D`, which
the list functions hand to the comparison function as it is. -/

/-- The struct `ListNode`. -/
structure ListNode (D : Type) where
  data : D
  next : Option Nat
  deriving DecidableEq, Repr

/-- The heap of list nodes. -/
abbrev ListHeap (D : Type) := List (ListNode D)

/-- The assignment `p->next = nx`. -/
def ListHeap.setNext {D : Type} (h : ListHeap D) (p : Nat) (nx : Option Nat) :
    Option (ListHeap D) :=
  match h[p]? with
  | none => none
  | some n => some (h.set p { n with next := nx })

/-- The loop of `getMiddle`:
`while (fast != NULL && fast->next != NULL) { slow = slow->next; fast = fast->next->next; }`,
followed by `return slow`. -/
def getMiddle.loop {D : Type} (h : ListHeap D) : Nat → Option Nat → Option Nat →
    Option (Option Nat)
  | 0, _, _ => none
  | fuel + 1, slow, fast =>
    match fast with
    | none => some slow
    | some f =>
      match h[f]? with
      | none => none
      | some fn =>
        match fn.next with
        | none => some slow
        | some f2 =>
          match slow with
          | none => none
          | some s =>
            match h[s]?, h[f2]? with
            | some sn, some f2n => getMiddle.loop h fuel sn.next f2n.next
            | _, _ => none

/-- The function `getMiddle`. -/
def getMiddle {D : Type} (h : ListHeap D) (head : Option Nat) : Option (Option Nat) :=
  match head with
  | none => some none
  | some p =>
    match h[p]? with
    | none => none
    | some hn => getMiddle.loop h (h.length + 1) head hn.next

/-- The function `mergeSortedLists`; the fuel bounds the depth of the
recursion.  The result is the heap and the returned pointer. -/
def mergeSortedLists {D : Type} (cmp : D → D → Int) : Nat → ListHeap D → Option Nat →
    Option Nat → Option (ListHeap D × Option Nat)
  | 0, _, _, _ => none
  | fuel + 1, h, a, b =>
    match a with
    | none => some (h, b)
    | some pa =>
      match b with
      | none => some (h, a)
      | some pb =>
        match h[pa]?, h[pb]? with
        | some na, some nb =>
          if cmp na.data nb.data ≤ 0 then
            match mergeSortedLists cmp fuel h na.next b with
            | none => none
            | some (h', r) => (h'.setNext pa r).map fun h'' => (h'', some pa)
          else
            match mergeSortedLists cmp fuel h a nb.next with
            | none => none
            | some (h', r) => (h'.setNext pb r).map fun h'' => (h'', some pb)
        | _, _ => none

/-- The split of `mergeSortList`: `middle = getMiddle(head); a = head;
b = middle->next; middle->next = NULL;`.  The result is the heap and the
pointers `a` and `b`. -/
def mergeSortList.split {D : Type} (h : ListHeap D) (head : Option Nat) :
    Option (ListHeap D × Option Nat × Option Nat) :=
  match getMiddle h head with
  | some (some middle) =>
    match h[middle]? with
    | none => none
    | some mn => (h.setNext middle none).map fun h1 => (h1, head, mn.next)
  | _ => none

/-- The recursion of `mergeSortList`; the fuel bounds its depth.  The result
is the heap and the value of `*headRef` afterwards. -/
def mergeSortList.go {D : Type} (cmp : D → D → Int) : Nat → ListHeap D → Option Nat →
    Option (ListHeap D × Option Nat)
  | 0, _, _ => none
  | fuel + 1, h, head =>
    match head with
    | none => some (h, head)
    | some p =>
      match h[p]? with
      | none => none
      | some hn =>
        match hn.next with
        | none => some (h, head)
        | some _ =>
          match mergeSortList.split h head with
          | none => none
          | some (h1, a, b) =>
            match mergeSortList.go cmp fuel h1 a with
            | none => none
            | some (h2, a') =>
              match mergeSortList.go cmp fuel h2 b with
              | none => none
              | some (h3, b') => mergeSortedLists cmp (h3.length + 1) h3 a' b'

/-- The function `mergeSortList`: the heap and the value of `*headRef`
afterwards. -/
def mergeSortList {D : Type} (cmp : D → D → Int) (h : ListHeap D) (head : Option Nat) :
    Option (ListHeap D × Option Nat) :=
  mergeSortList.go cmp (h.length + 1) h head

/-- The nodes that a walk along `next` visits, each with its address and its
`data`; the fuel bounds the number of steps. -/
def listFrom {D : Type} (h : ListHeap D) : Nat → Option Nat → Option (List (Nat × D))
  | 0, _ => none
  | _ + 1, none => some []
  | fuel + 1, some cur =>
    match h[cur]? with
    | none => none
    | some nd => (listFrom h fuel nd.next).map (fun l => (cur, nd.data) :: l)

/-- The list that starts at `head`: its nodes in order, each with its address
and its `data`; `none` when the walk does not reach `NULL`. -/
def listNodes {D : Type} (h : ListHeap D) (head : Option Nat) : Option (List (Nat × D)) :=
  listFrom h (h.length + 1) head

/-- The pointer to the first node of a list of nodes. -/
def hd {D : Type} : List (Nat × D) → Option Nat
  | [] => none
  | x :: _ => some x.1

/-- The heap holds the list `l` at the pointer `p`: the nodes of `l` are
linked by `next` in this order and the last one has `next == NULL`. -/
def ListAt {D : Type} (h : ListHeap D) : Option Nat → List (Nat × D) → Prop
  | p, [] => p = none
  | p, x :: l => p = some x.1 ∧ ∃ nx, h[x.1]? = some { data := x.2, next := nx } ∧ ListAt h nx l

/-- The test `cmp(a->data, b->data) <= 0` of `mergeSortedLists` on two nodes. -/
def nodeLe {D : Type} (cmp : D → D → Int) (x y : Nat × D) : Bool :=
  decide (cmp x.2 y.2 ≤ 0)

/-- An example list `3, 1, 2, 1, 0` of `int` data, in the nodes `0 .. 4`. -/
def cells5 : ListHeap Int :=
  [{ data := 3, next := some 1 }, { data := 1, next := some 2 }, { data := 2, next := some 3 },
   { data := 1, next := some 4 }, { data := 0, next := none }]

/-! ## Printing the users of a list in a range of amounts -/

/-- The function `compareUserAmtVsBoundary`; `userData` is the record the
pointer points to, `none` for `NULL`. -/
def compareUserAmtVsBoundary (F : FloatOps) (userData : Option User) (boundaryVal : Int) :
    Int :=
  match userData with
  | none => -1
  | some user =>
    if F.isZero boundaryVal then -1
    else if F.lt user.total_parking_amt boundaryVal then -1
    else 1

/-- The test `greater_equal_min && less_equal_max` that `printSimpleListRange`
makes for the record behind the pointer `d`. -/
def printSimpleListRange.inRange (F : FloatOps) (m : Nat → UserRec) (min_val max_val : Int)
    (d : URef) : Bool :=
  let greater_equal_min : Bool :=
    decide (compareUserAmtVsBoundary F (some (URef.record m d)) min_val ≥ 0)
  let less_equal_max : Bool :=
    decide (compareUserAmtVsBoundary F (some (URef.record m d)) max_val ≤ 0)
  greater_equal_min && less_equal_max

/-- The loop of `printSimpleListRange`; `out` holds the arguments of the calls
of `printData` so far.  A signed overflow of `count++` has no defined result. -/
def printSimpleListRange.loop (F : FloatOps) (m : Nat → UserRec) (h : ListHeap (Option URef))
    (min_val max_val : Int) : Nat → Option Nat → List URef → Int → Option (List URef × Int)
  | 0, _, _, _ => none
  | _ + 1, none, out, count => some (out, count)
  | fuel + 1, some current, out, count =>
    match h[current]? with
    | none => none
    | some nd =>
      match nd.data with
      | none => printSimpleListRange.loop F m h min_val max_val fuel nd.next out count
      | some d =>
        if printSimpleListRange.inRange F m min_val max_val d then
          match int32 (count + 1) with
          | none => none
          | some count' =>
            printSimpleListRange.loop F m h min_val max_val fuel nd.next (out ++ [d]) count'
        else printSimpleListRange.loop F m h min_val max_val fuel nd.next out count

/-- The function `printSimpleListRange`: the arguments of the calls of
`printData` in order, and the value of `count` that the last line prints (for
an empty list nothing is printed and `count` is not used). -/
def printSimpleListRange (F : FloatOps) (m : Nat → UserRec) (h : ListHeap (Option URef))
    (head : Option Nat) (min_val max_val : Int) : Option (List URef × Int) :=
  match head with
  | none => some ([], 0)
  | some _ => printSimpleListRange.loop F m h min_val max_val (h.length + 1) head [] 0

/-- An example user store: the record at the address `a` is a user with the
`total_parking_amt` of `100 * a`, in the codes of `floats0`. -/
def payers : Nat → UserRec := fun a =>
  ⟨{ (users0.records a).1 with total_parking_amt := 10000 * (a : Int) }, (users0.records a).2⟩

/-- The list of the users at the addresses 1, 2 and 3. -/
def payerList : ListHeap (Option URef) :=
  [{ data := some (URef.user 1), next := some 1 },
   { data := some (URef.user 2), next := some 2 },
   { data := some (URef.user 3), next := none }]

/-! ## The comparison contract -/

namespace Lawful

variable {C : Capability V} (L : Lawful C)
include L

theorem ge_iff (a b : V) : 0 ≤ C.cmp_internal a b ↔ C.cmp_internal b a ≤ 0 := by
  constructor
  · intro h1; by_contra h2; push_neg at h2; have := (L.anti a b).2 h2; omega
  · intro h1; by_contra h2; push_neg at h2; have := (L.anti a b).1 h2; omega

theorem refl (a : V) : C.cmp_internal a a = 0 := by
  have h := L.anti a a
  by_contra hne
  rcases lt_or_gt_of_ne hne with h1 | h1
  · have := h.1 h1; omega
  · have := h.2 h1; omega

theorem eq_symm {a b : V} (h : C.cmp_internal a b = 0) : C.cmp_internal b a = 0 := by
  have h1 := L.anti a b
  have h2 := L.anti b a
  by_contra hne
  rcases lt_or_gt_of_ne hne with h3 | h3
  · have := h2.1 h3; omega
  · have := h1.2 h3; omega

theorem lt_of_lt_of_le {a b c : V} (h1 : C.cmp_internal a b < 0) (h2 : C.cmp_internal b c ≤ 0) :
    C.cmp_internal a c < 0 := by
  by_contra h3
  push_neg at h3
  have h4 : C.cmp_internal c a ≤ 0 := (L.ge_iff a c).1 h3
  have h5 := L.trans b c a h2 h4
  have := (L.anti a b).1 h1
  omega

theorem lt_of_le_of_lt {a b c : V} (h1 : C.cmp_internal a b ≤ 0) (h2 : C.cmp_internal b c < 0) :
    C.cmp_internal a c < 0 := by
  by_contra h3
  push_neg at h3
  have h4 : C.cmp_internal c a ≤ 0 := (L.ge_iff a c).1 h3
  have h5 := L.trans c a b h4 h1
  have := (L.anti b c).1 h2
  omega

theorem lt_trans {a b c : V} (h1 : C.cmp_internal a b < 0) (h2 : C.cmp_internal b c < 0) :
    C.cmp_internal a c < 0 :=
  L.lt_of_lt_of_le h1 (le_of_lt h2)

theorem copy_left (k x : V) : C.cmp_internal (C.copyKey k) x < 0 ↔ C.cmp_internal k x < 0 := by
  have h0 := L.copy k
  have h1 := L.eq_symm h0
  constructor
  · intro h; exact L.lt_of_le_of_lt (le_of_eq h1) h
  · intro h; exact L.lt_of_le_of_lt (le_of_eq h0) h

theorem copy_right (k x : V) : C.cmp_internal x (C.copyKey k) < 0 ↔ C.cmp_internal x k < 0 := by
  have h0 := L.copy k
  have h1 := L.eq_symm h0
  constructor
  · intro h; exact L.lt_of_lt_of_le h (le_of_eq h0)
  · intro h; exact L.lt_of_lt_of_le h (le_of_eq h1)

end Lawful

theorem intCap_lawful : Lawful intCap where
  anti := by intro a b; simp only [intCap]; omega
  trans := by intro a b c; simp only [intCap]; omega
  data := by intro k d; rfl
  copy := by intro k; simp [intCap]

/-! ## Positions in sorted lists -/

theorem posL_append {α : Type} (p : α → Bool) (l1 l2 : List α)
    (h1 : ∀ x ∈ l1, p x = true) (h2 : ∀ x ∈ l2, p x = false) :
    posL p (l1 ++ l2) = l1.length := by
  induction l1 with
  | nil =>
    cases l2 with
    | nil => simp [posL]
    | cons b l2 => simp [posL, List.takeWhile_cons, h2 b (by simp)]
  | cons a l1 ih =>
    have ha : p a = true := h1 a (by simp)
    have := ih (fun x hx => h1 x (by simp [hx]))
    simp only [posL] at this ⊢
    simp [List.takeWhile_cons, ha, this]

theorem posR_append {α : Type} (p : α → Bool) (l1 l2 : List α)
    (h1 : ∀ x ∈ l1, p x = false) (h2 : ∀ x ∈ l2, p x = true) :
    posR p (l1 ++ l2) = l1.length := by
  have h := posL_append p l2.reverse l1.reverse (by simpa using h2) (by simpa using h1)
  simp only [posL] at h
  simp only [posR, List.reverse_append, h, List.length_append, List.length_reverse]
  omega

theorem split_mono {α : Type} (R : α → α → Prop) (p : α → Bool) (l : List α)
    (hR : l.Pairwise R) (hmono : ∀ a b, R a b → p b = true → p a = true) :
    ∃ l1 l2, l = l1 ++ l2 ∧ (∀ x ∈ l1, p x = true) ∧ (∀ x ∈ l2, p x = false) := by
  induction l with
  | nil => exact ⟨[], [], rfl, by simp, by simp⟩
  | cons a l ih =>
    rw [List.pairwise_cons] at hR
    by_cases ha : p a = true
    · obtain ⟨l1, l2, rfl, h1, h2⟩ := ih hR.2
      refine ⟨a :: l1, l2, rfl, ?_, h2⟩
      intro x hx
      rcases List.mem_cons.1 hx with rfl | hx
      · exact ha
      · exact h1 x hx
    · refine ⟨[], a :: l, rfl, by simp, ?_⟩
      intro x hx
      rcases List.mem_cons.1 hx with rfl | hx
      · simpa using ha
      · by_contra hpx
        exact ha (hmono a x (hR.1 x hx) (by simpa using hpx))

/-! ## What the array loops compute -/

theorem findLeaf_scan_eq (cmp : V → V → Int) (key : V) (nd : GenericBPlusTreeNode V)
    (ks : List V) (hk : nd.keys = pad 4 ks) (hn : nd.num_keys = ks.length)
    (hlen : ks.length ≤ 4) :
    findLeaf.scan cmp key nd (nd.num_keys + 1) 0 =
      some (posL (fun x => decide (cmp key x ≥ 0)) ks) := by
  rcases ks with _ | ⟨a, _ | ⟨b, _ | ⟨c, _ | ⟨e, _ | ⟨f, ks⟩⟩⟩⟩⟩
  · simp [findLeaf.scan, hk, hn, pad, posL]
  · by_cases h1 : 0 ≤ cmp key a <;>
      simp [findLeaf.scan, hk, hn, pad, posL, deref, List.takeWhile_cons, h1]
  · by_cases h1 : 0 ≤ cmp key a <;> by_cases h2 : 0 ≤ cmp key b <;>
      simp [findLeaf.scan, hk, hn, pad, posL, deref, List.takeWhile_cons, h1, h2]
  · by_cases h1 : 0 ≤ cmp key a <;> by_cases h2 : 0 ≤ cmp key b <;>
      by_cases h3 : 0 ≤ cmp key c <;>
      simp [findLeaf.scan, hk, hn, pad, posL, deref, List.takeWhile_cons, h1, h2, h3]
  · by_cases h1 : 0 ≤ cmp key a <;> by_cases h2 : 0 ≤ cmp key b <;>
      by_cases h3 : 0 ≤ cmp key c <;> by_cases h4 : 0 ≤ cmp key e <;>
      simp [findLeaf.scan, hk, hn, pad, posL, deref, List.takeWhile_cons, h1, h2, h3, h4]
  · simp at hlen

theorem Search_scan_eq (cmp : V → V → Int) (key : V) (nd : GenericBPlusTreeNode V)
    (ks : List V) (hk : nd.keys = pad 4 ks) (hn : nd.num_keys = ks.length)
    (hlen : ks.length ≤ 4) :
    Search_BPlus.scan cmp key nd (nd.num_keys + 1) 0 =
      some (ks.find? (fun d => decide (cmp key d = 0))) := by
  rcases ks with _ | ⟨a, _ | ⟨b, _ | ⟨c, _ | ⟨e, _ | ⟨f, ks⟩⟩⟩⟩⟩
  · simp [Search_BPlus.scan, hk, hn, pad]
  · by_cases h1 : cmp key a = 0 <;>
      simp [Search_BPlus.scan, hk, hn, pad, deref, List.find?_cons, h1]
  · by_cases h1 : cmp key a = 0 <;> by_cases h2 : cmp key b = 0 <;>
      simp [Search_BPlus.scan, hk, hn, pad, deref, List.find?_cons, h1, h2]
  · by_cases h1 : cmp key a = 0 <;> by_cases h2 : cmp key b = 0 <;>
      by_cases h3 : cmp key c = 0 <;>
      simp [Search_BPlus.scan, hk, hn, pad, deref, List.find?_cons, h1, h2, h3]
  · by_cases h1 : cmp key a = 0 <;> by_cases h2 : cmp key b = 0 <;>
      by_cases h3 : cmp key c = 0 <;> by_cases h4 : cmp key e = 0 <;>
      simp [Search_BPlus.scan, hk, hn, pad, deref, List.find?_cons, h1, h2, h3, h4]
  · simp at hlen

theorem dupCheck_eq (cmp : V → V → Int) (key : V) (nd : GenericBPlusTreeNode V)
    (ks : List V) (hk : nd.keys = pad 4 ks) (hn : nd.num_keys = ks.length)
    (hlen : ks.length ≤ 4) :
    Insert_BPlus.dupCheck cmp key nd (nd.num_keys + 1) 0 status_code.SUCCESS =
      some (if ks.any (fun d => decide (cmp key d = 0)) then status_code.FAILURE
            else status_code.SUCCESS) := by
  rcases ks with _ | ⟨a, _ | ⟨b, _ | ⟨c, _ | ⟨e, _ | ⟨f, ks⟩⟩⟩⟩⟩
  · simp [Insert_BPlus.dupCheck, hk, hn, pad]
  · by_cases h1 : cmp key a = 0 <;>
      simp [Insert_BPlus.dupCheck, hk, hn, pad, deref, h1]
  · by_cases h1 : cmp key a = 0 <;> by_cases h2 : cmp key b = 0 <;>
      simp [Insert_BPlus.dupCheck, hk, hn, pad, deref, h1, h2]
  · by_cases h1 : cmp key a = 0 <;> by_cases h2 : cmp key b = 0 <;>
      by_cases h3 : cmp key c = 0 <;>
      simp [Insert_BPlus.dupCheck, hk, hn, pad, deref, h1, h2, h3]
  · by_cases h1 : cmp key a = 0 <;> by_cases h2 : cmp key b = 0 <;>
      by_cases h3 : cmp key c = 0 <;> by_cases h4 : cmp key e = 0 <;>
      simp [Insert_BPlus.dupCheck, hk, hn, pad, deref, h1, h2, h3, h4]
  · simp at hlen

theorem insertIntoLeaf_shift_eq (cmp : V → V → Int) (key d : V) (ks : List V)
    (hlen : ks.length < 4) :
    (insertIntoLeaf.shift cmp key (ks.length + 1) (pad 4 ks) ks.length).map
        (fun r => (r.1.set r.2 (some d), r.2)) =
      some (pad 4 (insAt (posR (fun x => decide (cmp key x < 0)) ks) d ks),
            posR (fun x => decide (cmp key x < 0)) ks) := by
  rcases ks with _ | ⟨a, _ | ⟨b, _ | ⟨c, _ | ⟨e, ks⟩⟩⟩⟩
  · simp [insertIntoLeaf.shift, pad, insAt, posR]
  · by_cases h1 : cmp key a < 0 <;>
      simp [insertIntoLeaf.shift, pad, insAt, posR, deref, List.takeWhile_cons, h1]
  · by_cases h1 : cmp key a < 0 <;> by_cases h2 : cmp key b < 0 <;>
      simp [insertIntoLeaf.shift, pad, insAt, posR, deref, List.takeWhile_cons, h1, h2]
  · by_cases h1 : cmp key a < 0 <;> by_cases h2 : cmp key b < 0 <;> by_cases h3 : cmp key c < 0 <;>
      simp [insertIntoLeaf.shift, pad, insAt, posR, deref, List.takeWhile_cons, h1, h2, h3]
  · simp at hlen; omega

theorem insertIntoParent_shift_eq (cmp : V → V → Int) (key d : V) (right : Nat) (ks : List V)
    (cas : List Nat) (hlen : ks.length < 4) (hc : cas.length = ks.length + 1) :
    (insertIntoParent.shift cmp key (ks.length + 1) (pad 4 ks) (pad 5 cas) ks.length).map
        (fun r => (r.1.set r.2.2 (some d), r.2.1.set (r.2.2 + 1) (some right))) =
      some (pad 4 (insAt (posR (fun x => decide (cmp key x < 0)) ks) d ks),
            pad 5 (insAt (posR (fun x => decide (cmp key x < 0)) ks + 1) right cas)) := by
  rcases ks with _ | ⟨a, _ | ⟨b, _ | ⟨c, _ | ⟨e, ks⟩⟩⟩⟩
  · rcases cas with _ | ⟨c0, _ | ⟨c1, cas⟩⟩ <;> simp at hc
    simp [insertIntoParent.shift, pad, insAt, posR]
  · rcases cas with _ | ⟨c0, _ | ⟨c1, _ | ⟨c2, cas⟩⟩⟩ <;> simp at hc
    by_cases h1 : cmp key a < 0 <;>
      simp [insertIntoParent.shift, pad, insAt, posR, deref, List.takeWhile_cons, h1]
  · rcases cas with _ | ⟨c0, _ | ⟨c1, _ | ⟨c2, _ | ⟨c3, cas⟩⟩⟩⟩ <;> simp at hc
    by_cases h1 : cmp key a < 0 <;> by_cases h2 : cmp key b < 0 <;>
      simp [insertIntoParent.shift, pad, insAt, posR, deref, List.takeWhile_cons, h1, h2]
  · rcases cas with _ | ⟨c0, _ | ⟨c1, _ | ⟨c2, _ | ⟨c3, _ | ⟨c4, cas⟩⟩⟩⟩⟩ <;> simp at hc
    by_cases h1 : cmp key a < 0 <;> by_cases h2 : cmp key b < 0 <;> by_cases h3 : cmp key c < 0 <;>
      simp [insertIntoParent.shift, pad, insAt, posR, deref, List.takeWhile_cons, h1, h2, h3]
  · simp at hlen; omega

theorem Insert_merge_eq (cmp : V → V → Int) (key d : V) (nd : GenericBPlusTreeNode V)
    (ks : List V) (hk : nd.keys = pad 4 ks) (hlen : ks.length = 4) :
    Insert_BPlus.merge cmp key nd d =
      some ((insAt (posL (fun x => decide (cmp key x > 0)) ks) d ks).map some) := by
  rcases ks with _ | ⟨a, _ | ⟨b, _ | ⟨c, _ | ⟨e, _ | ⟨f, ks⟩⟩⟩⟩⟩ <;> simp at hlen
  by_cases h1 : 0 < cmp key a <;> by_cases h2 : 0 < cmp key b <;>
    by_cases h3 : 0 < cmp key c <;> by_cases h4 : 0 < cmp key e <;>
    simp [Insert_BPlus.merge, Insert_BPlus.copyBefore, Insert_BPlus.copyAfter, MAXKEYS, ORDER,
      hk, pad, insAt, posL, deref, List.takeWhile_cons, h1, h2, h3, h4]

theorem insertIntoParent_merge_eq (cmp : V → V → Int) (key : V) (right : Nat)
    (nd : GenericBPlusTreeNode V) (ks : List V) (cas : List Nat)
    (hk : nd.keys = pad 4 ks) (hch : nd.children = pad 5 cas)
    (hlen : ks.length = 4) (hc : cas.length = 5) :
    insertIntoParent.merge cmp nd key right =
      some ((insAt (posL (fun x => decide (cmp key x > 0)) ks) key ks).map some,
            (insAt (posL (fun x => decide (cmp key x > 0)) ks + 1) right cas).map some) := by
  rcases ks with _ | ⟨a, _ | ⟨b, _ | ⟨c, _ | ⟨e, _ | ⟨f, ks⟩⟩⟩⟩⟩ <;> simp at hlen
  rcases cas with _ | ⟨c0, _ | ⟨c1, _ | ⟨c2, _ | ⟨c3, _ | ⟨c4, _ | ⟨c5, cas⟩⟩⟩⟩⟩⟩ <;> simp at hc
  by_cases h1 : 0 < cmp key a <;> by_cases h2 : 0 < cmp key b <;>
    by_cases h3 : 0 < cmp key c <;> by_cases h4 : 0 < cmp key e <;>
    simp [insertIntoParent.merge, insertIntoParent.copyBefore, insertIntoParent.copyAfter,
      MAXKEYS, MAXCHILDREN, ORDER, hk, hch, pad, insAt, posL, deref, List.takeWhile_cons,
      h1, h2, h3, h4]

/-! ## Heap updates -/

theorem range'_3_1 : List.range' 3 1 = [3] := rfl
theorem range'_2_2 : List.range' 2 2 = [2, 3] := rfl
theorem range'_3_2 : List.range' 3 2 = [3, 4] := rfl

theorem modify_eq {h : Heap V} {p : Nat} {nd : GenericBPlusTreeNode V}
    (f : GenericBPlusTreeNode V → GenericBPlusTreeNode V) (hp : h[p]? = some nd) :
    h.modify p f = some (h.set p (f nd)) := by
  simp [Heap.modify, hp]

theorem lookup_lt {h : Heap V} {p : Nat} {nd : GenericBPlusTreeNode V}
    (hp : h[p]? = some nd) : p < h.length := by
  by_contra hlt
  rw [List.getElem?_eq_none (by omega)] at hp
  cases hp

theorem insertIntoLeaf_eq (C : Capability V) (h : Heap V) (a : Nat)
    (nd : GenericBPlusTreeNode V) (rs : List V) (r : V)
    (ha : h[a]? = some nd) (hleaf : nd.is_leaf = true) (hk : nd.keys = pad 4 rs)
    (hn : nd.num_keys = rs.length) (hlen : rs.length < 4) :
    insertIntoLeaf C h (some a) r =
      some (status_code.SUCCESS, h.set a
        { nd with
          keys := pad 4 (insAt (posR (fun x => decide (C.cmp_data (C.getKey r) x < 0)) rs) r rs)
          num_keys := rs.length + 1 }) := by
  have hs := insertIntoLeaf_shift_eq C.cmp_data (C.getKey r) r rs hlen
  rcases hsh : insertIntoLeaf.shift C.cmp_data (C.getKey r) (rs.length + 1) (pad 4 rs) rs.length
    with _ | ⟨keys, j⟩
  · rw [hsh] at hs; simp at hs
  · rw [hsh] at hs
    simp only [Option.map_some', Option.some.injEq, Prod.mk.injEq] at hs
    obtain ⟨hs1, hs2⟩ := hs
    subst hs2
    simp [insertIntoLeaf, ha, hleaf, hk, hn, MAXKEYS, ORDER, hlen, hsh, hs1]

theorem splitLeaf_eq (C : Capability V) (h : Heap V) (a : Nat)
    (nd : GenericBPlusTreeNode V) (rs : List V) (r m0 m1 m2 m3 m4 : V)
    (ha : h[a]? = some nd) (hk : nd.keys = pad 4 rs) (hlen : rs.length = 4)
    (hm : insAt (posL (fun x => decide (C.cmp_data (C.getKey r) x > 0)) rs) r rs =
      [m0, m1, m2, m3, m4]) :
    Insert_BPlus.splitLeaf C h a r =
      some (h.set a { nd with num_keys := 3, keys := pad 4 [m0, m1, m2],
                              next_leaf := some h.length } ++
              [{ keys := pad 4 [m3, m4], children := List.replicate 5 none,
                 parent := nd.parent, next_leaf := nd.next_leaf, num_keys := 2,
                 is_leaf := true }],
            C.copyKey (C.getKey m3), h.length) := by
  have halt := lookup_lt ha
  have hne : a ≠ h.length := by omega
  have hmerge := Insert_merge_eq C.cmp_data (C.getKey r) r nd rs hk hlen
  rw [hm] at hmerge
  rcases rs with _ | ⟨a0, _ | ⟨a1, _ | ⟨a2, _ | ⟨a3, _ | ⟨a4, rs⟩⟩⟩⟩⟩ <;> simp at hlen
  simp [Insert_BPlus.splitLeaf, Insert_BPlus.distribute, Insert_BPlus.link,
    Insert_BPlus.copyOut, clearFrom, createGenericBPlusTreeNode, Heap.modify, ha, hmerge,
    MAXKEYS, MAXCHILDREN, ORDER, halt, hne, List.getElem?_set, List.getElem?_append, pad,
    deref, hk, range'_3_1, range'_2_2]

theorem len4 {α : Type} {l : List α} (h : l.length = 4) : ∃ a b c d, l = [a, b, c, d] := by
  rcases l with _ | ⟨a, _ | ⟨b, _ | ⟨c, _ | ⟨d, _ | ⟨e, l⟩⟩⟩⟩⟩ <;> simp at h
  exact ⟨a, b, c, d, rfl⟩

theorem len5 {α : Type} {l : List α} (h : l.length = 5) : ∃ a b c d e, l = [a, b, c, d, e] := by
  rcases l with _ | ⟨a, _ | ⟨b, _ | ⟨c, _ | ⟨d, _ | ⟨e, _ | ⟨f, l⟩⟩⟩⟩⟩⟩ <;> simp at h
  exact ⟨a, b, c, d, e, rfl⟩

theorem distributeLeft_eq (h : Heap V) (p : Nat) (nd : GenericBPlusTreeNode V)
    (t0 t1 t2 t3 t4 : V) (x0 x1 x2 x3 x4 x5 : Nat) (n0 n1 n2 : GenericBPlusTreeNode V)
    (hp : h[p]? = some nd) (hnk : nd.num_keys = 2)
    (hkl : nd.keys.length = 4) (hcl : nd.children.length = 5)
    (h0 : h[x0]? = some n0) (h1 : h[x1]? = some n1) (h2 : h[x2]? = some n2)
    (hnd : [p, x0, x1, x2].Nodup) :
    ∃ h', insertIntoParent.distributeLeft ([t0, t1, t2, t3, t4].map some)
        ([x0, x1, x2, x3, x4, x5].map some) p h = some h' ∧
      h'.length = h.length ∧
      h'[p]? = some { nd with keys := pad 4 [t0, t1], children := pad 5 [x0, x1, x2] } ∧
      h'[x0]? = some { n0 with parent := some p } ∧
      h'[x1]? = some { n1 with parent := some p } ∧
      h'[x2]? = some { n2 with parent := some p } ∧
      ∀ y, y ∉ [p, x0, x1, x2] → h'[y]? = h[y]? := by
  have hpl := lookup_lt hp
  have l0 := lookup_lt h0
  have l1 := lookup_lt h1
  have l2 := lookup_lt h2
  obtain ⟨a0, a1, a2, a3, hk⟩ := len4 hkl
  obtain ⟨b0, b1, b2, b3, b4, hc⟩ := len5 hcl
  obtain ⟨_, gp⟩ := List.getElem?_eq_some_iff.1 hp
  obtain ⟨_, g0⟩ := List.getElem?_eq_some_iff.1 h0
  obtain ⟨_, g1⟩ := List.getElem?_eq_some_iff.1 h1
  obtain ⟨_, g2⟩ := List.getElem?_eq_some_iff.1 h2
  have hnd' := List.nodup_reverse.2 hnd
  simp only [List.nodup_cons, List.mem_cons, List.mem_singleton, not_or, List.reverse_cons,
    List.reverse_nil, List.nil_append, List.cons_append, List.not_mem_nil, not_false_eq_true,
    List.nodup_nil, and_true] at hnd hnd'
  rcases hres : insertIntoParent.distributeLeft ([t0, t1, t2, t3, t4].map some)
      ([x0, x1, x2, x3, x4, x5].map some) p h with _ | h'
  · exfalso
    simp [insertIntoParent.distributeLeft, insertIntoParent.fill, setParentIfNonNull,
      clearFrom, Heap.modify, hp, h0, h1, h2, hnk, hk, hc,
      MAXKEYS, MAXCHILDREN, ORDER, hpl, l0, l1, l2, hnd, hnd',
      List.getElem?_set, range'_3_1, range'_2_2, range'_3_2] at hres
  · simp [insertIntoParent.distributeLeft, insertIntoParent.fill, setParentIfNonNull,
      clearFrom, Heap.modify, hp, h0, h1, h2, hnk, hk, hc,
      MAXKEYS, MAXCHILDREN, ORDER, hpl, l0, l1, l2, hnd, hnd',
      List.getElem?_set, range'_3_1, range'_2_2, range'_3_2] at hres
    subst hres
    refine ⟨_, rfl, by simp, ?_, ?_, ?_, ?_, ?_⟩
    · simp [List.getElem?_set, hpl, hnd, hnd', pad, hk, hc, hnk, gp]
    · simp [List.getElem?_set, hpl, l0, hnd, hnd', g0]
    · simp [List.getElem?_set, hpl, l1, hnd, hnd', g1]
    · simp [List.getElem?_set, hpl, l2, hnd, hnd', g2]
    · intro y hy
      simp only [List.mem_cons, List.mem_singleton, not_or, List.not_mem_nil,
        not_false_eq_true, and_true] at hy
      obtain ⟨y1, y2, y3, y4⟩ := hy
      simp [List.getElem?_set, Ne.symm y1, Ne.symm y2, Ne.symm y3, Ne.symm y4]

theorem distributeRight_eq (h : Heap V) (p : Nat) (nd : GenericBPlusTreeNode V)
    (t0 t1 t2 t3 t4 : V) (x0 x1 x2 x3 x4 x5 : Nat) (n3 n4 n5 : GenericBPlusTreeNode V)
    (hp : h[p]? = some nd) (hnk : nd.num_keys = 2)
    (hkl : nd.keys.length = 4) (hcl : nd.children.length = 5)
    (h3 : h[x3]? = some n3) (h4 : h[x4]? = some n4) (h5 : h[x5]? = some n5)
    (hnd : [p, x3, x4, x5].Nodup) :
    ∃ h', insertIntoParent.distributeRight ([t0, t1, t2, t3, t4].map some)
        ([x0, x1, x2, x3, x4, x5].map some) p 2 h = some h' ∧
      h'.length = h.length ∧
      h'[p]? = some { nd with keys := pad 4 [t3, t4], children := pad 5 [x3, x4, x5] } ∧
      h'[x3]? = some { n3 with parent := some p } ∧
      h'[x4]? = some { n4 with parent := some p } ∧
      h'[x5]? = some { n5 with parent := some p } ∧
      ∀ y, y ∉ [p, x3, x4, x5] → h'[y]? = h[y]? := by
  have hpl := lookup_lt hp
  have l0 := lookup_lt h3
  have l1 := lookup_lt h4
  have l2 := lookup_lt h5
  obtain ⟨a0, a1, a2, a3, hk⟩ := len4 hkl
  obtain ⟨b0, b1, b2, b3, b4, hc⟩ := len5 hcl
  obtain ⟨_, gp⟩ := List.getElem?_eq_some_iff.1 hp
  obtain ⟨_, g0⟩ := List.getElem?_eq_some_iff.1 h3
  obtain ⟨_, g1⟩ := List.getElem?_eq_some_iff.1 h4
  obtain ⟨_, g2⟩ := List.getElem?_eq_some_iff.1 h5
  have hnd' := List.nodup_reverse.2 hnd
  simp only [List.nodup_cons, List.mem_cons, List.mem_singleton, not_or, List.reverse_cons,
    List.reverse_nil, List.nil_append, List.cons_append, List.not_mem_nil, not_false_eq_true,
    List.nodup_nil, and_true] at hnd hnd'
  rcases hres : insertIntoParent.distributeRight ([t0, t1, t2, t3, t4].map some)
      ([x0, x1, x2, x3, x4, x5].map some) p 2 h with _ | h'
  · exfalso
    simp [insertIntoParent.distributeRight, insertIntoParent.fill, setParentIfNonNull,
      clearFrom, Heap.modify, hp, h3, h4, h5, hnk, hk, hc,
      MAXKEYS, MAXCHILDREN, ORDER, hpl, l0, l1, l2, hnd, hnd',
      List.getElem?_set, range'_3_1, range'_2_2, range'_3_2] at hres
  · simp [insertIntoParent.distributeRight, insertIntoParent.fill, setParentIfNonNull,
      clearFrom, Heap.modify, hp, h3, h4, h5, hnk, hk, hc,
      MAXKEYS, MAXCHILDREN, ORDER, hpl, l0, l1, l2, hnd, hnd',
      List.getElem?_set, range'_3_1, range'_2_2, range'_3_2] at hres
    subst hres
    refine ⟨_, rfl, by simp, ?_, ?_, ?_, ?_, ?_⟩
    · simp [List.getElem?_set, hpl, hnd, hnd', pad, hk, hc, hnk, gp]
    · simp [List.getElem?_set, hpl, l0, hnd, hnd', g0]
    · simp [List.getElem?_set, hpl, l1, hnd, hnd', g1]
    · simp [List.getElem?_set, hpl, l2, hnd, hnd', g2]
    · intro y hy
      simp only [List.mem_cons, List.mem_singleton, not_or, List.not_mem_nil,
        not_false_eq_true, and_true] at hy
      obtain ⟨y1, y2, y3, y4⟩ := hy
      simp [List.getElem?_set, Ne.symm y1, Ne.symm y2, Ne.symm y3, Ne.symm y4]

theorem split_eq (cmp : V → V → Int) (h : Heap V) (p : Nat) (sep : V) (right : Nat)
    (pn : GenericBPlusTreeNode V)
    (t0 t1 t2 t3 t4 : V) (x0 x1 x2 x3 x4 x5 : Nat)
    (n0 n1 n2 n3 n4 n5 : GenericBPlusTreeNode V)
    (hp : h[p]? = some pn) (hkl : pn.keys.length = 4) (hcl : pn.children.length = 5)
    (hmerge : insertIntoParent.merge cmp pn sep right =
      some ([t0, t1, t2, t3, t4].map some, [x0, x1, x2, x3, x4, x5].map some))
    (h0 : h[x0]? = some n0) (h1 : h[x1]? = some n1) (h2 : h[x2]? = some n2)
    (h3 : h[x3]? = some n3) (h4 : h[x4]? = some n4) (h5 : h[x5]? = some n5)
    (hnd : [p, x0, x1, x2, x3, x4, x5].Nodup) :
    ∃ h', insertIntoParent.split cmp h p sep right = some (h', t2, h.length) ∧
      h'.length = h.length + 1 ∧
      h'[p]? = some { pn with num_keys := 2, keys := pad 4 [t0, t1],
                              children := pad 5 [x0, x1, x2] } ∧
      h'[h.length]? = some { keys := pad 4 [t3, t4], children := pad 5 [x3, x4, x5],
                             parent := pn.parent, next_leaf := none, num_keys := 2,
                             is_leaf := false } ∧
      h'[x0]? = some { n0 with parent := some p } ∧
      h'[x1]? = some { n1 with parent := some p } ∧
      h'[x2]? = some { n2 with parent := some p } ∧
      h'[x3]? = some { n3 with parent := some h.length } ∧
      h'[x4]? = some { n4 with parent := some h.length } ∧
      h'[x5]? = some { n5 with parent := some h.length } ∧
      ∀ y, y ∉ [p, x0, x1, x2, x3, x4, x5] → y < h.length → h'[y]? = h[y]? := by
  have hpl := lookup_lt hp
  have l0 := lookup_lt h0
  have l1 := lookup_lt h1
  have l2 := lookup_lt h2
  have l3 := lookup_lt h3
  have l4 := lookup_lt h4
  have l5 := lookup_lt h5
  have hnd0 := hnd
  simp only [List.nodup_cons, List.mem_cons, List.mem_singleton, not_or, List.not_mem_nil,
    not_false_eq_true, List.nodup_nil, and_true] at hnd
  obtain ⟨⟨p0, p1, p2, p3, p4, p5⟩, ⟨q01, q02, q03, q04, q05⟩, ⟨q12, q13, q14, q15⟩,
    ⟨q23, q24, q25⟩, ⟨q34, q35⟩, q45⟩ := hnd
  -- the heap after the allocation and the two `num_keys` assignments
  set fresh : GenericBPlusTreeNode V :=
    { keys := List.replicate MAXKEYS none, children := List.replicate MAXCHILDREN none,
      parent := none, next_leaf := none, num_keys := 0, is_leaf := false } with hfresh
  set hB : Heap V := ((h ++ [fresh]).set p { pn with num_keys := 2 }).set h.length
    { fresh with num_keys := 2 } with hhB
  have old : ∀ y, y < h.length → y ≠ p → hB[y]? = h[y]? := by
    intro y hy hyp
    rw [hhB, List.getElem?_set_ne (by omega), List.getElem?_set_ne (Ne.symm hyp),
      List.getElem?_append_left hy]
  have hBp : hB[p]? = some { pn with num_keys := 2 } := by
    rw [hhB, List.getElem?_set_ne (by omega), List.getElem?_set_self (by simp; omega)]
  have hBn : hB[h.length]? = some { fresh with num_keys := 2 } := by
    rw [hhB, List.getElem?_set_self (by simp)]
  have hBlen : hB.length = h.length + 1 := by simp [hhB]
  obtain ⟨hL, hLeq, hLlen, hLp, hL0, hL1, hL2, hLo⟩ :=
    distributeLeft_eq hB p { pn with num_keys := 2 } t0 t1 t2 t3 t4 x0 x1 x2 x3 x4 x5 n0 n1 n2
      hBp rfl hkl hcl (by rw [old x0 l0 (Ne.symm p0)]; exact h0)
      (by rw [old x1 l1 (Ne.symm p1)]; exact h1) (by rw [old x2 l2 (Ne.symm p2)]; exact h2)
      (by simp [p0, p1, p2, q01, q02, q12])
  have hLn : hL[h.length]? = some { fresh with num_keys := 2 } := by
    rw [hLo _ (by simp; omega)]; exact hBn
  have hLx : ∀ y, y < h.length → y ∉ [p, x0, x1, x2] → hL[y]? = h[y]? := by
    intro y hy hyn
    rw [hLo y hyn]
    exact old y hy (by simp at hyn; exact hyn.1)
  obtain ⟨hR, hReq, hRlen, hRp, hR3, hR4, hR5, hRo⟩ :=
    distributeRight_eq hL h.length { fresh with num_keys := 2 } t0 t1 t2 t3 t4 x0 x1 x2 x3 x4 x5
      n3 n4 n5 hLn rfl (by simp [hfresh, MAXKEYS, ORDER]) (by simp [hfresh, MAXCHILDREN, ORDER])
      (by rw [hLx x3 l3 (by simp [Ne.symm p3, Ne.symm q03, Ne.symm q13, Ne.symm q23])]; exact h3)
      (by rw [hLx x4 l4 (by simp [Ne.symm p4, Ne.symm q04, Ne.symm q14, Ne.symm q24])]; exact h4)
      (by rw [hLx x5 l5 (by simp [Ne.symm p5, Ne.symm q05, Ne.symm q15, Ne.symm q25])]; exact h5)
      (by simp [q34, q35, q45]; omega)
  have hRP : hR[p]? = some { pn with num_keys := 2, keys := pad 4 [t0, t1],
                                     children := pad 5 [x0, x1, x2] } := by
    rw [hRo p (by simp [p3, p4, p5]; omega)]; exact hLp
  have hd : deref ([t0, t1, t2, t3, t4].map some) 2 = some t2 := by
    simp [deref]
  have hlast : hR.length = h.length + 1 := by rw [hRlen, hLlen, hBlen]
  refine ⟨hR.set h.length { keys := pad 4 [t3, t4], children := pad 5 [x3, x4, x5],
                            parent := pn.parent, next_leaf := none, num_keys := 2,
                            is_leaf := false }, ?_, ?_, ?_, ?_, ?_, ?_, ?_, ?_, ?_, ?_, ?_⟩
  · have hA : (h ++ [fresh])[p]? = some pn := by
      rw [List.getElem?_append_left hpl]; exact hp
    have hA2 : ((h ++ [fresh]).set p { pn with num_keys := 2 })[h.length]? = some fresh := by
      rw [List.getElem?_set_ne (by omega), List.getElem?_concat_length]
    have hRn : hR[h.length]? = some { keys := pad 4 [t3, t4], children := pad 5 [x3, x4, x5],
                                      parent := none, next_leaf := none, num_keys := 2,
                                      is_leaf := false } := by
      rw [hRp, hfresh]
    have e1 : MAXKEYS / 2 = 2 := rfl
    have e2 : MAXKEYS - 2 = 2 := rfl
    simp only [insertIntoParent.split, createGenericBPlusTreeNode, e1, e2, ← hfresh, hA,
      Option.some_bind, hmerge, hd, modify_eq _ hA, modify_eq _ hA2, ← hhB, hLeq, hReq, hRP,
      modify_eq _ hRn]
  · simp [hlast]
  · rw [List.getElem?_set_ne (by omega)]; exact hRP
  · rw [List.getElem?_set_self (by omega)]
  · rw [List.getElem?_set_ne (by omega), hRo _ (by simp [q03, q04, q05]; omega)]; exact hL0
  · rw [List.getElem?_set_ne (by omega), hRo _ (by simp [q13, q14, q15]; omega)]; exact hL1
  · rw [List.getElem?_set_ne (by omega), hRo _ (by simp [q23, q24, q25]; omega)]; exact hL2
  · rw [List.getElem?_set_ne (by omega)]; exact hR3
  · rw [List.getElem?_set_ne (by omega)]; exact hR4
  · rw [List.getElem?_set_ne (by omega)]; exact hR5
  · intro y hy hlt
    simp only [List.mem_cons, List.mem_singleton, not_or, List.not_mem_nil,
      not_false_eq_true, and_true] at hy
    obtain ⟨y0, y1, y2, y3, y4, y5, y6⟩ := hy
    rw [List.getElem?_set_ne (by omega), hRo _ (by simp [y4, y5, y6]; omega),
      hLx y hlt (by simp [y0, y1, y2, y3])]

theorem insertIntoParent_root (cmp : V → V → Int) (fuel : Nat) (t : Tree V) (left right : Nat)
    (sep : V) (l rn : GenericBPlusTreeNode V)
    (hl : t.heap[left]? = some l) (hpar : l.parent = none) (hr : t.heap[right]? = some rn)
    (hne : left ≠ right) :
    ∃ h', insertIntoParent cmp (fuel + 1) t left sep right =
        some (status_code.SUCCESS, { heap := h', root := some t.heap.length }) ∧
      h'.length = t.heap.length + 1 ∧
      h'[t.heap.length]? = some { keys := pad 4 [sep], children := pad 5 [left, right],
                                  parent := none, next_leaf := none, num_keys := 1,
                                  is_leaf := false } ∧
      h'[left]? = some { l with parent := some t.heap.length } ∧
      h'[right]? = some { rn with parent := some t.heap.length } ∧
      ∀ y, y ≠ left → y ≠ right → y < t.heap.length → h'[y]? = t.heap[y]? := by
  have ll := lookup_lt hl
  have lr := lookup_lt hr
  obtain ⟨_, gl⟩ := List.getElem?_eq_some_iff.1 hl
  obtain ⟨_, gr⟩ := List.getElem?_eq_some_iff.1 hr
  have n1 : ¬ left = t.heap.length := by omega
  have n2 : ¬ right = t.heap.length := by omega
  have n3 : ¬ t.heap.length = left := by omega
  have n4 : ¬ t.heap.length = right := by omega
  refine ⟨((t.heap ++ [({ keys := pad 4 [sep], children := pad 5 [left, right],
                          parent := none, next_leaf := none, num_keys := 1,
                          is_leaf := false } : GenericBPlusTreeNode V)]).set left
      { l with parent := some t.heap.length }).set
      right { rn with parent := some t.heap.length }, ?_, ?_, ?_, ?_, ?_, ?_⟩
  · simp [insertIntoParent, hl, hpar, createGenericBPlusTreeNode, Heap.modify,
      List.getElem?_set, List.getElem?_append, ll, lr, hne, Ne.symm hne, n1, n2, n3, n4, gl, gr,
      pad, MAXKEYS, MAXCHILDREN, ORDER]
  · simp
  · rw [List.getElem?_set_ne (by omega), List.getElem?_set_ne (by omega),
      List.getElem?_concat_length]
  · rw [List.getElem?_set_ne (Ne.symm hne), List.getElem?_set_self (by simp; omega)]
  · rw [List.getElem?_set_self (by simp; omega)]
  · intro y h1 h2 h3
    rw [List.getElem?_set_ne (Ne.symm h2), List.getElem?_set_ne (Ne.symm h1),
      List.getElem?_append_left h3]

theorem insertIntoParent_room (cmp : V → V → Int) (fuel : Nat) (t : Tree V) (left right p : Nat)
    (sep : V) (l pn rn : GenericBPlusTreeNode V) (ks : List V) (cas : List Nat)
    (hl : t.heap[left]? = some l) (hpar : l.parent = some p) (hp : t.heap[p]? = some pn)
    (hn : pn.num_keys = ks.length) (hk : pn.keys = pad 4 ks) (hc : pn.children = pad 5 cas)
    (hlen : ks.length < 4) (hcl : cas.length = ks.length + 1)
    (hr : t.heap[right]? = some rn) (hne : p ≠ right) :
    ∃ h', insertIntoParent cmp (fuel + 1) t left sep right =
        some (status_code.SUCCESS, { heap := h', root := t.root }) ∧
      h'.length = t.heap.length ∧
      h'[p]? = some { pn with
        keys := pad 4 (insAt (posR (fun x => decide (cmp sep x < 0)) ks) sep ks)
        children := pad 5 (insAt (posR (fun x => decide (cmp sep x < 0)) ks + 1) right cas)
        num_keys := ks.length + 1 } ∧
      h'[right]? = some { rn with parent := some p } ∧
      ∀ y, y ≠ p → y ≠ right → h'[y]? = t.heap[y]? := by
  have lp := lookup_lt hp
  have lr := lookup_lt hr
  obtain ⟨_, gr⟩ := List.getElem?_eq_some_iff.1 hr
  have hs := insertIntoParent_shift_eq cmp sep sep right ks cas hlen hcl
  rcases hsh : insertIntoParent.shift cmp sep (ks.length + 1) (pad 4 ks) (pad 5 cas) ks.length
    with _ | ⟨keys, children, j⟩
  · rw [hsh] at hs; simp at hs
  · rw [hsh] at hs
    simp only [Option.map_some', Option.some.injEq, Prod.mk.injEq] at hs
    obtain ⟨hs1, hs2⟩ := hs
    refine ⟨(t.heap.set p { pn with
        keys := pad 4 (insAt (posR (fun x => decide (cmp sep x < 0)) ks) sep ks)
        children := pad 5 (insAt (posR (fun x => decide (cmp sep x < 0)) ks + 1) right cas)
        num_keys := ks.length + 1 }).set right { rn with parent := some p }, ?_, ?_, ?_, ?_, ?_⟩
    · simp [insertIntoParent, hl, hpar, hp, hn, hk, hc, hlen, MAXKEYS, ORDER, hsh, hs1, hs2,
        Heap.modify, List.getElem?_set, hne, lr, gr]
    · simp
    · rw [List.getElem?_set_ne (Ne.symm hne), List.getElem?_set_self lp]
    · rw [List.getElem?_set_self (by simp; omega)]
    · intro y h1 h2
      rw [List.getElem?_set_ne (Ne.symm h2), List.getElem?_set_ne (Ne.symm h1)]

theorem insertIntoParent_full (cmp : V → V → Int) (fuel : Nat) (t : Tree V) (left right p : Nat)
    (sep : V) (l pn : GenericBPlusTreeNode V) (h' : Heap V) (k : V) (nw : Nat)
    (hl : t.heap[left]? = some l) (hpar : l.parent = some p) (hp : t.heap[p]? = some pn)
    (hn : pn.num_keys = 4)
    (hs : insertIntoParent.split cmp t.heap p sep right = some (h', k, nw)) :
    insertIntoParent cmp (fuel + 1) t left sep right =
      insertIntoParent cmp fuel { heap := h', root := t.root } p k nw := by
  simp [insertIntoParent, hl, hpar, hp, hn, MAXKEYS, ORDER, hs]

/-! ## The recursion of `insertIntoParent` -/

theorem insertIntoParent_succ (cmp : V → V → Int) : ∀ (f : Nat) (t : Tree V) (left : Nat)
    (sep : V) (right : Nat) (res : status_code × Tree V),
    insertIntoParent cmp f t left sep right = some res →
    insertIntoParent cmp (f + 1) t left sep right = some res
  | 0, _, _, _, _, _, h => by simp [insertIntoParent] at h
  | f + 1, t, left, sep, right, res, h => by
    rw [insertIntoParent] at h ⊢
    cases hl : t.heap[left]? with
    | none => rw [hl] at h; cases h
    | some l =>
      rw [hl] at h
      simp only at h ⊢
      cases hpar : l.parent with
      | none => rw [hpar] at h; exact h
      | some p =>
        rw [hpar] at h
        simp only at h ⊢
        cases hp : t.heap[p]? with
        | none => rw [hp] at h; cases h
        | some pn =>
          rw [hp] at h
          simp only at h ⊢
          by_cases hk : pn.num_keys < MAXKEYS
          · rw [if_pos hk] at h ⊢; exact h
          · rw [if_neg hk] at h ⊢
            cases hs : insertIntoParent.split cmp t.heap p sep right with
            | none => rw [hs] at h; cases h
            | some x =>
              obtain ⟨h', k, nw⟩ := x
              rw [hs] at h
              simp only at h ⊢
              exact insertIntoParent_succ cmp f _ _ _ _ _ h

theorem insertIntoParent_mono (cmp : V → V → Int) (t : Tree V) (left : Nat) (sep : V)
    (right : Nat) (res : status_code × Tree V) (f : Nat)
    (h : insertIntoParent cmp f t left sep right = some res) :
    ∀ f', f ≤ f' → insertIntoParent cmp f' t left sep right = some res := by
  intro f' hf
  induction hf with
  | refl => exact h
  | step _ ih => exact insertIntoParent_succ cmp _ t left sep right res ih

theorem lefts_one (cmp : V → V → Int) (t : Tree V) (left : Nat) (sep : V) (right : Nat) :
    insertIntoParent.lefts cmp 1 t left sep right = [left] := by
  rw [insertIntoParent.lefts]
  cases t.heap[left]? with
  | none => rfl
  | some l =>
    simp only
    cases l.parent with
    | none => rfl
    | some p =>
      simp only
      cases t.heap[p]? with
      | none => rfl
      | some pn =>
        simp only
        split
        · rfl
        · cases insertIntoParent.split cmp t.heap p sep right with
          | none => rfl
          | some x => simp [insertIntoParent.lefts]

theorem lefts_full (cmp : V → V → Int) (fuel : Nat) (t : Tree V) (left right p : Nat)
    (sep : V) (l pn : GenericBPlusTreeNode V) (h' : Heap V) (k : V) (nw : Nat)
    (hl : t.heap[left]? = some l) (hpar : l.parent = some p) (hp : t.heap[p]? = some pn)
    (hn : pn.num_keys = 4)
    (hs : insertIntoParent.split cmp t.heap p sep right = some (h', k, nw)) :
    insertIntoParent.lefts cmp (fuel + 1) t left sep right =
      left :: insertIntoParent.lefts cmp fuel { heap := h', root := t.root } p k nw := by
  simp [insertIntoParent.lefts, hl, hpar, hp, hn, MAXKEYS, ORDER, hs]

theorem lefts_length_le (cmp : V → V → Int) : ∀ (f : Nat) (t : Tree V) (left : Nat)
    (sep : V) (right : Nat), (insertIntoParent.lefts cmp f t left sep right).length ≤ f
  | 0, _, _, _, _ => by simp [insertIntoParent.lefts]
  | f + 1, t, left, sep, right => by
    rw [insertIntoParent.lefts]
    simp only [List.length_cons, Nat.add_le_add_iff_right]
    cases t.heap[left]? with
    | none => simp
    | some l =>
      simp only
      cases l.parent with
      | none => simp
      | some p =>
        simp only
        cases t.heap[p]? with
        | none => simp
        | some pn =>
          simp only
          split
          · simp
          · cases insertIntoParent.split cmp t.heap p sep right with
            | none => simp
            | some x => exact lefts_length_le cmp f _ _ _ _

/-! ## Ghost trees and the heap -/

theorem GT.addr_mem : ∀ (n : Nat) (g : GT V n), GT.addr n g ∈ GT.addrs n g
  | 0, g => by simp [GT.addr, GT.addrs]
  | _ + 1, g => by simp [GT.addr, GT.addrs]

theorem Rep_lookup {h : Heap V} : ∀ (n : Nat) (g : GT V n) (par : Option Nat),
    Rep h n g par → ∃ nd, h[GT.addr n g]? = some nd ∧ nd.parent = par
  | 0, g, par, hr => by
    obtain ⟨nd, h1, _, h3, _⟩ := hr
    exact ⟨nd, h1, h3⟩
  | _ + 1, g, par, hr => by
    obtain ⟨nd, h1, _, h3, _⟩ := hr
    exact ⟨nd, h1, h3⟩

theorem Rep_congr {h h' : Heap V} : ∀ (n : Nat) (g : GT V n) (par : Option Nat),
    (∀ a ∈ GT.addrs n g, h'[a]? = h[a]?) → Rep h n g par → Rep h' n g par
  | 0, g, par, hf, hr => by
    obtain ⟨nd, h1, h2⟩ := hr
    exact ⟨nd, by rw [hf _ (by simp [GT.addrs])]; exact h1, h2⟩
  | n + 1, g, par, hf, hr => by
    obtain ⟨nd, h1, h2, h3, h4, h5, h6, h7, h8, h9, h10, h11⟩ := hr
    refine ⟨nd, by rw [hf _ (by simp [GT.addrs])]; exact h1, h2, h3, h4, h5, h6, h7, h8, h9,
      h10, ?_⟩
    intro c hc
    refine Rep_congr n c _ ?_ (h11 c hc)
    intro a ha
    exact hf a (by simp only [GT.addrs, List.mem_cons, List.mem_flatMap]; exact Or.inr ⟨c, hc, ha⟩)

theorem Rep_addrs_lt {h : Heap V} : ∀ (n : Nat) (g : GT V n) (par : Option Nat),
    Rep h n g par → ∀ x ∈ GT.addrs n g, x < h.length
  | 0, g, par, hr, x, hx => by
    obtain ⟨nd, h1, _⟩ := hr
    simp only [GT.addrs, List.mem_singleton] at hx
    subst hx
    exact lookup_lt h1
  | n + 1, g, par, hr, x, hx => by
    obtain ⟨nd, h1, h2, h3, h4, h5, h6, h7, h8, h9, h10, h11⟩ := hr
    simp only [GT.addrs, List.mem_cons, List.mem_flatMap] at hx
    rcases hx with rfl | ⟨c, hc, hxc⟩
    · exact lookup_lt h1
    · exact Rep_addrs_lt n c _ (h11 c hc) x hxc

theorem node_eta (nd : GenericBPlusTreeNode V) : { nd with parent := nd.parent } = nd := by
  cases nd; rfl

theorem Rep_reparent {h h' : Heap V} : ∀ (n : Nat) (g : GT V n) (par par' : Option Nat),
    Rep h n g par →
    (∀ nd, h[GT.addr n g]? = some nd → h'[GT.addr n g]? = some { nd with parent := par' }) →
    (∀ a ∈ GT.addrs n g, a ≠ GT.addr n g → h'[a]? = h[a]?) →
    (GT.addrs n g).Nodup → Rep h' n g par'
  | 0, g, par, par', hr, hroot, _, _ => by
    obtain ⟨nd, h1, h2, h3, h4⟩ := hr
    exact ⟨{ nd with parent := par' }, hroot nd h1, h2, rfl, h4⟩
  | n + 1, g, par, par', hr, hroot, hf, hnd => by
    obtain ⟨nd, h1, h2, h3, h4, h5, h6, h7, h8, h9, h10, h11⟩ := hr
    refine ⟨{ nd with parent := par' }, hroot nd h1, h2, rfl, h4, h5, h6, h7, h8, h9, h10, ?_⟩
    intro c hc
    refine Rep_congr n c _ ?_ (h11 c hc)
    intro a ha
    have hmem : a ∈ g.2.2.flatMap (GT.addrs n) := List.mem_flatMap.2 ⟨c, hc, ha⟩
    apply hf a (by simp only [GT.addrs, List.mem_cons]; exact Or.inr hmem)
    intro heq
    simp only [GT.addrs, List.nodup_cons] at hnd
    apply hnd.1
    simp only [GT.addr] at heq
    rw [← heq]; exact hmem

/-! ## Bounds of the children of a node -/

theorem lastLo_nil (lo : Option V) : lastLo lo [] = lo := rfl

theorem lastLo_cons (lo : Option V) (k : V) (ks : List V) :
    lastLo lo (k :: ks) = lastLo (some k) ks := by
  cases ks with
  | nil => simp [lastLo]
  | cons a l =>
    cases h : (a :: l).getLast? with
    | none => simp at h
    | some x => simp [lastLo, List.getLast?_cons_cons, h]

theorem OrdKids_mem_lo {T : Type} (P : T → Option V → Option V → Prop) :
    ∀ (ks : List V) (cs : List T) (k : V) (hi : Option V),
      OrdKids P (some k) ks cs hi → ∀ d ∈ cs, ∃ y ∈ k :: ks, ∃ u, P d (some y) u
  | [], [], _, _, h => by simp [OrdKids] at h
  | [], [c], k, hi, h => by
    intro d hd
    simp only [List.mem_singleton] at hd
    subst hd
    exact ⟨k, by simp, hi, by simpa [OrdKids] using h⟩
  | [], _ :: _ :: _, _, _, h => by simp [OrdKids] at h
  | _ :: _, [], _, _, h => by simp [OrdKids] at h
  | k' :: ks, c :: cs, k, hi, h => by
    simp only [OrdKids] at h
    intro d hd
    rcases List.mem_cons.1 hd with rfl | hd
    · exact ⟨k, by simp, some k', h.1⟩
    · obtain ⟨y, hy, u, hu⟩ := OrdKids_mem_lo P ks cs k' hi h.2 d hd
      exact ⟨y, by simp only [List.mem_cons] at hy ⊢; tauto, u, hu⟩

theorem OrdKids_mid {T : Type} (P : T → Option V → Option V → Prop) :
    ∀ (ks1 ks2 : List V) (cs1 cs2 : List T) (c : T) (lo hi : Option V),
      OrdKids P lo (ks1 ++ ks2) (cs1 ++ c :: cs2) hi → cs1.length = ks1.length →
      P c (lastLo lo ks1) (headHi ks2 hi) ∧
      (∀ cL cR sep, P cL (lastLo lo ks1) (some sep) → P cR (some sep) (headHi ks2 hi) →
        OrdKids P lo (ks1 ++ sep :: ks2) (cs1 ++ cL :: cR :: cs2) hi) ∧
      (∀ c', P c' (lastLo lo ks1) (headHi ks2 hi) →
        OrdKids P lo (ks1 ++ ks2) (cs1 ++ c' :: cs2) hi) ∧
      (∀ d ∈ cs1, ∃ u ∈ ks1, ∃ l, P d l (some u)) ∧
      (∀ d ∈ cs2, ∃ y ∈ ks2, ∃ u, P d (some y) u)
  | [], ks2, [], cs2, c, lo, hi, h, _ => by
    cases ks2 with
    | nil =>
      cases cs2 with
      | nil =>
        simp only [List.nil_append, OrdKids] at h
        refine ⟨h, ?_, ?_, by simp, by simp⟩
        · intro cL cR sep h1 h2
          simpa [OrdKids, lastLo, headHi] using ⟨h1, h2⟩
        · intro c' h1
          simpa [OrdKids, lastLo, headHi] using h1
      | cons d cs2 => simp [OrdKids] at h
    | cons k ks2 =>
      simp only [List.nil_append, OrdKids] at h
      refine ⟨h.1, ?_, ?_, by simp, ?_⟩
      · intro cL cR sep h1 h2
        simp only [List.nil_append, OrdKids]
        exact ⟨h1, h2, h.2⟩
      · intro c' h1
        simp only [List.nil_append, OrdKids]
        exact ⟨h1, h.2⟩
      · exact OrdKids_mem_lo P ks2 cs2 k hi h.2
  | [], _, _ :: _, _, _, _, _, _, hl => by simp at hl
  | _ :: _, _, [], _, _, _, _, _, hl => by simp at hl
  | k :: ks1, ks2, d0 :: cs1, cs2, c, lo, hi, h, hl => by
    simp only [List.cons_append, OrdKids] at h
    have hl' : cs1.length = ks1.length := by simpa using hl
    obtain ⟨i1, i2, i3, i4, i5⟩ := OrdKids_mid P ks1 ks2 cs1 cs2 c (some k) hi h.2 hl'
    rw [lastLo_cons]
    refine ⟨i1, ?_, ?_, ?_, i5⟩
    · intro cL cR sep h1 h2
      simp only [List.cons_append, OrdKids]
      exact ⟨h.1, i2 cL cR sep h1 h2⟩
    · intro c' h1
      simp only [List.cons_append, OrdKids]
      exact ⟨h.1, i3 c' h1⟩
    · intro d hd
      rcases List.mem_cons.1 hd with rfl | hd
      · exact ⟨k, by simp, lo, h.1⟩
      · obtain ⟨u, hu, l, hp⟩ := i4 d hd
        exact ⟨u, by simp [hu], l, hp⟩

theorem OrdKids_length {T : Type} (P : T → Option V → Option V → Prop) :
    ∀ (ks : List V) (cs : List T) (lo hi : Option V),
      OrdKids P lo ks cs hi → cs.length = ks.length + 1
  | [], [], _, _, h => by simp [OrdKids] at h
  | [], [_], _, _, _ => rfl
  | [], _ :: _ :: _, _, _, h => by simp [OrdKids] at h
  | _ :: _, [], _, _, h => by simp [OrdKids] at h
  | k :: ks, c :: cs, lo, hi, h => by
    simp only [OrdKids] at h
    simp [OrdKids_length P ks cs (some k) hi h.2]

/-! ## Bounds -/

theorem lastLo_cases (lo : Option V) (ks : List V) :
    (ks = [] ∧ lastLo lo ks = lo) ∨ ∃ u ∈ ks, lastLo lo ks = some u := by
  induction ks generalizing lo with
  | nil => exact Or.inl ⟨rfl, rfl⟩
  | cons k ks ih =>
    right
    rw [lastLo_cons]
    rcases ih (some k) with ⟨h1, h2⟩ | ⟨u, hu, h2⟩
    · exact ⟨k, by simp, h2⟩
    · exact ⟨u, by simp [hu], h2⟩

theorem headHi_cases (ks : List V) (hi : Option V) :
    (ks = [] ∧ headHi ks hi = hi) ∨ ∃ u ∈ ks, headHi ks hi = some u := by
  cases ks with
  | nil => exact Or.inl ⟨rfl, rfl⟩
  | cons k ks => exact Or.inr ⟨k, by simp, rfl⟩

theorem OrdKids_mem {T : Type} (P : T → Option V → Option V → Prop) :
    ∀ (ks : List V) (cs : List T) (lo hi : Option V),
      OrdKids P lo ks cs hi → ∀ d ∈ cs, ∃ l u, P d l u ∧
        (l = lo ∨ ∃ k ∈ ks, l = some k) ∧ (u = hi ∨ ∃ k ∈ ks, u = some k)
  | [], [], _, _, h => by simp [OrdKids] at h
  | [], [c], lo, hi, h => by
    intro d hd
    simp only [List.mem_singleton] at hd
    subst hd
    exact ⟨lo, hi, by simpa [OrdKids] using h, Or.inl rfl, Or.inl rfl⟩
  | [], _ :: _ :: _, _, _, h => by simp [OrdKids] at h
  | _ :: _, [], _, _, h => by simp [OrdKids] at h
  | k :: ks, c :: cs, lo, hi, h => by
    simp only [OrdKids] at h
    intro d hd
    rcases List.mem_cons.1 hd with rfl | hd
    · exact ⟨lo, some k, h.1, Or.inl rfl, Or.inr ⟨k, by simp, rfl⟩⟩
    · obtain ⟨l, u, hp, hl, hu⟩ := OrdKids_mem P ks cs (some k) hi h.2 d hd
      refine ⟨l, u, hp, ?_, ?_⟩
      · rcases hl with rfl | ⟨k', hk', rfl⟩
        · exact Or.inr ⟨k, by simp, rfl⟩
        · exact Or.inr ⟨k', by simp [hk'], rfl⟩
      · rcases hu with rfl | ⟨k', hk', rfl⟩
        · exact Or.inl rfl
        · exact Or.inr ⟨k', by simp [hk'], rfl⟩

theorem GT.recs_zero (g : GT V 0) : GT.recs 0 g = g.2 := by
  simp [GT.recs, GT.leafList]

theorem GT.recs_succ (n : Nat) (g : GT V (n + 1)) :
    GT.recs (n + 1) g = g.2.2.flatMap (GT.recs n) := by
  simp only [GT.recs, GT.leafList, List.flatMap_assoc]
  rfl

theorem Ord_recs_bounds {C : Capability V} (L : Lawful C) :
    ∀ (n : Nat) (g : GT V n) (lo hi : Option V), Ord C n g lo hi →
      ∀ x ∈ GT.recs n g, loLe C lo (C.getKey x) ∧ ltHi C (C.getKey x) hi
  | 0, g, lo, hi, h, x, hx => by
    rw [GT.recs_zero] at hx
    exact h.2 x hx
  | n + 1, g, lo, hi, h, x, hx => by
    rw [GT.recs_succ] at hx
    obtain ⟨c, hc, hxc⟩ := List.mem_flatMap.1 hx
    obtain ⟨_, hb, hk⟩ := h
    obtain ⟨l, u, hp, hl, hu⟩ := OrdKids_mem (Ord C n) _ _ lo hi hk c hc
    obtain ⟨b1, b2⟩ := Ord_recs_bounds L n c l u hp x hxc
    constructor
    · rcases hl with rfl | ⟨k, hk', rfl⟩
      · exact b1
      · have := (hb k hk').1
        cases lo with
        | none => trivial
        | some l0 => exact le_of_lt (L.lt_of_lt_of_le this b1)
    · rcases hu with rfl | ⟨k, hk', rfl⟩
      · exact b2
      · have := (hb k hk').2
        cases hi with
        | none => trivial
        | some u0 => exact L.lt_trans b2 this

/-! ## Descent -/

theorem exists_split_at {α : Type} (l : List α) (i : Nat) (hi : i < l.length) :
    ∃ l1 c l2, l = l1 ++ c :: l2 ∧ l1.length = i := by
  refine ⟨l.take i, l[i], l.drop (i + 1), ?_, ?_⟩
  · rw [List.getElem_cons_drop l i hi, List.take_append_drop]
  · simp; omega

theorem pad_map_lookup {α β : Type} (f : α → β) (m : Nat) (l1 l2 : List α) (c : α) :
    (pad m ((l1 ++ c :: l2).map f))[l1.length]? = some (some (f c)) := by
  have : pad m ((l1 ++ c :: l2).map f) =
      l1.map (some ∘ f) ++ (some (f c) :: (l2.map (some ∘ f) ++
        List.replicate (m - (l1 ++ c :: l2).length) none)) := by
    simp [pad]
  rw [this, List.getElem?_append_right (by simp)]
  simp

theorem descend_leaf (cmp : V → V → Int) (h : Heap V) (k : V) (fuel a : Nat)
    (nd : GenericBPlusTreeNode V) (ha : h[a]? = some nd) (hl : nd.is_leaf = true) :
    findLeaf.descend cmp h k (fuel + 1) a = some a := by
  simp [findLeaf.descend, ha, hl]

theorem mono_ge {C : Capability V} (L : Lawful C) (k : V) :
    ∀ a b, klt C a b → decide (C.cmp_internal k b ≥ 0) = true →
      decide (C.cmp_internal k a ≥ 0) = true := by
  intro a b hab hb
  simp only [ge_iff_le, decide_eq_true_eq] at hb ⊢
  have h1 : C.cmp_internal b k ≤ 0 := (L.ge_iff k b).1 hb
  have h2 := L.lt_of_lt_of_le hab h1
  have := (L.anti a k).1 h2
  omega

theorem descend_step {C : Capability V} (L : Lawful C) (n : Nat) (g : GT V (n + 1))
    (h : Heap V) (lo hi : Option V) (par' : Option Nat) (k : V) (fuel : Nat)
    (hr : Rep h (n + 1) g par') (ho : Ord C (n + 1) g lo hi)
    (hlo : loLe C lo k) (hhi : ltHi C k hi) :
    ∃ ks1 ks2 cs1 c cs2, g.2.1 = ks1 ++ ks2 ∧ g.2.2 = cs1 ++ c :: cs2 ∧
      cs1.length = ks1.length ∧
      (∀ x ∈ ks1, C.cmp_internal k x ≥ 0) ∧ (∀ x ∈ ks2, C.cmp_internal k x < 0) ∧
      loLe C (lastLo lo ks1) k ∧ ltHi C k (headHi ks2 hi) ∧
      findLeaf.descend C.cmp_internal h k (fuel + 1) g.1 =
        findLeaf.descend C.cmp_internal h k fuel (GT.addr n c) := by
  obtain ⟨nd, h1, h2, h3, h4, h5, h6, h7, h8, h9, h10, h11⟩ := hr
  obtain ⟨o1, o2, o3⟩ := ho
  obtain ⟨ks1, ks2, hks, p1, p2⟩ := split_mono (klt C)
    (fun x => decide (C.cmp_internal k x ≥ 0)) g.2.1 o1 (mono_ge L k)
  have hlen : ks1.length < g.2.2.length := by
    rw [h8, hks, List.length_append]; omega
  obtain ⟨cs1, c, cs2, hcs, hcl⟩ := exists_split_at g.2.2 ks1.length hlen
  refine ⟨ks1, ks2, cs1, c, cs2, hks, hcs, hcl, ?_, ?_, ?_, ?_, ?_⟩
  · intro x hx; simpa using p1 x hx
  · intro x hx; simpa using p2 x hx
  · rcases lastLo_cases lo ks1 with ⟨_, e⟩ | ⟨u, hu, e⟩
    · rw [e]; exact hlo
    · rw [e]
      have := p1 u hu
      simp only [ge_iff_le, decide_eq_true_eq] at this
      exact (L.ge_iff k u).1 this
  · rcases headHi_cases ks2 hi with ⟨_, e⟩ | ⟨u, hu, e⟩
    · rw [e]; exact hhi
    · rw [e]
      have := p2 u hu
      simpa using this
  · have hscan := findLeaf_scan_eq C.cmp_internal k nd g.2.1 h5 h4 h10
    rw [hks, posL_append _ ks1 ks2 p1 p2] at hscan
    have hch : nd.children[ks1.length]? = some (some (GT.addr n c)) := by
      rw [h6, hcs, ← hcl]; exact pad_map_lookup _ _ _ _ _
    simp only [findLeaf.descend, h1, h2, hscan, hch]
    simp

theorem leaf_of_Rep {h : Heap V} : ∀ (n : Nat) (g : GT V n) (par : Option Nat),
    Rep h n g par → ∀ la rs, (la, rs) ∈ GT.leafList n g →
      ∃ nd, h[la]? = some nd ∧ nd.is_leaf = true ∧ nd.num_keys = rs.length ∧
        nd.keys = pad 4 rs ∧ 1 ≤ rs.length ∧ rs.length ≤ 4
  | 0, g, par, hr, la, rs, hm => by
    obtain ⟨nd, h1, h2, h3, h4, h5, h6, h7, h8⟩ := hr
    simp only [GT.leafList, List.mem_singleton, Prod.mk.injEq] at hm
    obtain ⟨rfl, rfl⟩ := hm
    exact ⟨nd, h1, h2, h4, h5, h7, h8⟩
  | n + 1, g, par, hr, la, rs, hm => by
    obtain ⟨nd, h1, h2, h3, h4, h5, h6, h7, h8, h9, h10, h11⟩ := hr
    simp only [GT.leafList, List.mem_flatMap] at hm
    obtain ⟨c, hc, hm⟩ := hm
    exact leaf_of_Rep n c _ (h11 c hc) la rs hm

theorem descend_spec {C : Capability V} (L : Lawful C) :
    ∀ (n : Nat) (g : GT V n) (h : Heap V) (par : Option Nat) (lo hi : Option V) (k : V)
      (fuel : Nat), Rep h n g par → Ord C n g lo hi → loLe C lo k → ltHi C k hi →
      n + 1 ≤ fuel →
      ∃ la rs, findLeaf.descend C.cmp_internal h k fuel (GT.addr n g) = some la ∧
        (la, rs) ∈ GT.leafList n g ∧
        ∀ x ∈ GT.recs n g, C.cmp_internal k (C.getKey x) = 0 → x ∈ rs
  | 0, g, h, par, lo, hi, k, fuel, hr, _, _, _, hf => by
    obtain ⟨nd, h1, h2, _⟩ := hr
    obtain ⟨f, rfl⟩ : ∃ f, fuel = f + 1 := ⟨fuel - 1, by omega⟩
    refine ⟨g.1, g.2, descend_leaf _ h k f g.1 nd h1 h2, by simp [GT.leafList], ?_⟩
    intro x hx _
    rw [GT.recs_zero] at hx
    exact hx
  | n + 1, g, h, par, lo, hi, k, fuel, hr, ho, hlo, hhi, hf => by
    obtain ⟨f, rfl⟩ : ∃ f, fuel = f + 1 := ⟨fuel - 1, by omega⟩
    obtain ⟨ks1, ks2, cs1, c, cs2, hks, hcs, hcl, p1, p2, b1, b2, hd⟩ :=
      descend_step L n g h lo hi par k f hr ho hlo hhi
    obtain ⟨nd, h1, h2, h3, h4, h5, h6, h7, h8, h9, h10, h11⟩ := hr
    obtain ⟨o1, o2, o3⟩ := ho
    rw [hks, hcs] at o3
    obtain ⟨m1, _, _, m4, m5⟩ := OrdKids_mid (Ord C n) ks1 ks2 cs1 cs2 c lo hi o3 hcl
    have hcm : c ∈ g.2.2 := by rw [hcs]; simp
    obtain ⟨la, rs, e1, e2, e3⟩ :=
      descend_spec L n c h (some g.1) _ _ k f (h11 c hcm) m1 b1 b2 (by omega)
    refine ⟨la, rs, ?_, ?_, ?_⟩
    · simp only [GT.addr]; rw [hd]; exact e1
    · simp only [GT.leafList, List.mem_flatMap]; exact ⟨c, hcm, e2⟩
    · intro x hx hxk
      rw [GT.recs_succ, hcs] at hx
      obtain ⟨d, hd', hxd⟩ := List.mem_flatMap.1 hx
      simp only [List.mem_append, List.mem_cons] at hd'
      rcases hd' with hd' | rfl | hd'
      · exfalso
        obtain ⟨u, hu, l, hp⟩ := m4 d hd'
        have hb := (Ord_recs_bounds L n d l (some u) hp x hxd).2
        have h1' : C.cmp_internal u k ≤ 0 := (L.ge_iff k u).1 (p1 u hu)
        have h2' := L.lt_of_lt_of_le hb h1'
        have := L.eq_symm hxk
        omega
      · exact e3 x hxd hxk
      · exfalso
        obtain ⟨y, hy, u, hp⟩ := m5 d hd'
        have hb := (Ord_recs_bounds L n d (some y) u hp x hxd).1
        have := L.lt_of_lt_of_le (p2 y hy) hb
        omega

/-! ## The leaf phase -/

theorem sorted_split_key {C : Capability V} (L : Lawful C) (r : V) (rs : List V)
    (hs : rs.Pairwise (fun a b => klt C (C.getKey a) (C.getKey b)))
    (hnd : ∀ x ∈ rs, C.cmp_data (C.getKey r) x ≠ 0) :
    ∃ l1 l2, rs = l1 ++ l2 ∧
      (∀ x ∈ l1, C.cmp_internal (C.getKey x) (C.getKey r) < 0) ∧
      (∀ x ∈ l2, C.cmp_internal (C.getKey r) (C.getKey x) < 0) ∧
      posL (fun x => decide (C.cmp_data (C.getKey r) x > 0)) rs = l1.length ∧
      posR (fun x => decide (C.cmp_data (C.getKey r) x < 0)) rs = l1.length := by
  obtain ⟨l1, l2, rfl, p1, p2⟩ := split_mono (fun a b => klt C (C.getKey a) (C.getKey b))
    (fun x => decide (C.cmp_internal (C.getKey r) (C.getKey x) ≥ 0)) rs hs
    (fun a b hab hb => mono_ge L (C.getKey r) (C.getKey a) (C.getKey b) hab hb)
  have q1 : ∀ x ∈ l1, C.cmp_internal (C.getKey x) (C.getKey r) < 0 := by
    intro x hx
    have h1 := p1 x hx
    simp only [ge_iff_le, decide_eq_true_eq] at h1
    have h2 := hnd x (by simp [hx])
    rw [L.data] at h2
    exact (L.anti _ _).2 (by omega)
  have q2 : ∀ x ∈ l2, C.cmp_internal (C.getKey r) (C.getKey x) < 0 := by
    intro x hx
    simpa using p2 x hx
  refine ⟨l1, l2, rfl, q1, q2, ?_, ?_⟩
  · apply posL_append
    · intro x hx
      have := (L.anti _ _).1 (q1 x hx)
      simp only [L.data, gt_iff_lt, decide_eq_true_eq]; exact this
    · intro x hx
      have := q2 x hx
      simp only [L.data, gt_iff_lt, decide_eq_false_iff_not]; omega
  · apply posR_append
    · intro x hx
      have := (L.anti _ _).1 (q1 x hx)
      simp only [L.data, decide_eq_false_iff_not]; omega
    · intro x hx
      have := q2 x hx
      simp only [L.data, decide_eq_true_eq]; exact this

theorem sortedIns_sorted {C : Capability V} (L : Lawful C) (r : V) (rs : List V)
    (hs : rs.Pairwise (fun a b => klt C (C.getKey a) (C.getKey b)))
    (hnd : ∀ x ∈ rs, C.cmp_data (C.getKey r) x ≠ 0) :
    (sortedIns C r rs).Pairwise (fun a b => klt C (C.getKey a) (C.getKey b)) ∧
    sortedIns C r rs =
      insAt (posR (fun x => decide (C.cmp_data (C.getKey r) x < 0)) rs) r rs ∧
    (∀ x, x ∈ sortedIns C r rs ↔ x = r ∨ x ∈ rs) ∧
    (sortedIns C r rs).length = rs.length + 1 := by
  obtain ⟨l1, l2, rfl, q1, q2, e1, e2⟩ := sorted_split_key L r rs hs hnd
  have hins : sortedIns C r (l1 ++ l2) = l1 ++ r :: l2 := by
    simp [sortedIns, e1, insAt]
  refine ⟨?_, ?_, ?_, ?_⟩
  · rw [hins]
    rw [List.pairwise_append] at hs ⊢
    refine ⟨hs.1, ?_, ?_⟩
    · rw [List.pairwise_cons]
      exact ⟨fun x hx => q2 x hx, hs.2.1⟩
    · intro a ha b hb
      rcases List.mem_cons.1 hb with rfl | hb
      · exact q1 a ha
      · exact hs.2.2 a ha b hb
  · rw [hins, e2]; simp [insAt]
  · intro x; rw [hins]; simp only [List.mem_append, List.mem_cons]; tauto
  · rw [hins]; simp; omega

theorem dupCheck_ok (C : Capability V) (k : V) (nd : GenericBPlusTreeNode V) (rs : List V)
    (hk : nd.keys = pad 4 rs) (hn : nd.num_keys = rs.length) (hlen : rs.length ≤ 4)
    (hnd : ∀ x ∈ rs, C.cmp_data k x ≠ 0) :
    Insert_BPlus.dupCheck C.cmp_data k nd (nd.num_keys + 1) 0 status_code.SUCCESS =
      some status_code.SUCCESS := by
  rw [dupCheck_eq C.cmp_data k nd rs hk hn hlen]
  have : rs.any (fun d => decide (C.cmp_data k d = 0)) = false := by
    rw [List.any_eq_false]
    intro x hx
    simpa using hnd x hx
  simp [this]

theorem dupCheck_dup (C : Capability V) (k : V) (nd : GenericBPlusTreeNode V) (rs : List V)
    (hk : nd.keys = pad 4 rs) (hn : nd.num_keys = rs.length) (hlen : rs.length ≤ 4)
    (hd : ∃ x ∈ rs, C.cmp_data k x = 0) :
    Insert_BPlus.dupCheck C.cmp_data k nd (nd.num_keys + 1) 0 status_code.SUCCESS =
      some status_code.FAILURE := by
  rw [dupCheck_eq C.cmp_data k nd rs hk hn hlen]
  have : rs.any (fun d => decide (C.cmp_data k d = 0)) = true := by
    rw [List.any_eq_true]
    obtain ⟨x, hx, h0⟩ := hd
    exact ⟨x, hx, by simpa using h0⟩
  simp [this]

theorem atLeaf_dup (C : Capability V) (t : Tree V) (a : Nat) (r : V)
    (nd : GenericBPlusTreeNode V) (rs : List V) (ha : t.heap[a]? = some nd)
    (hk : nd.keys = pad 4 rs) (hn : nd.num_keys = rs.length) (hlen : rs.length ≤ 4)
    (hd : ∃ x ∈ rs, C.cmp_data (C.getKey r) x = 0) :
    Insert_BPlus.atLeaf C t a r = some (status_code.FAILURE, t) := by
  simp [Insert_BPlus.atLeaf, ha, dupCheck_dup C (C.getKey r) nd rs hk hn hlen hd]

theorem atLeaf_absorb {C : Capability V} (L : Lawful C) (t : Tree V) (g : GT V 0)
    (par : Option Nat) (lo hi : Option V) (r : V)
    (hr : Rep t.heap 0 g par) (ho : Ord C 0 g lo hi)
    (hlo : loLe C lo (C.getKey r)) (hhi : ltHi C (C.getKey r) hi)
    (hnd : ∀ x ∈ g.2, C.cmp_data (C.getKey r) x ≠ 0) (hlen : g.2.length < 4) :
    ∃ h', Insert_BPlus.atLeaf C t g.1 r = some (status_code.SUCCESS, { heap := h', root := t.root }) ∧
      h'.length = t.heap.length ∧
      Rep h' 0 (g.1, sortedIns C r g.2) par ∧ Ord C 0 (g.1, sortedIns C r g.2) lo hi ∧
      (∀ y, y ≠ g.1 → h'[y]? = t.heap[y]?) ∧ nextOf h' g.1 = nextOf t.heap g.1 := by
  obtain ⟨nd, h1, h2, h3, h4, h5, h6, h7, h8⟩ := hr
  obtain ⟨s1, s2, s3, s4⟩ := sortedIns_sorted L r g.2 ho.1 hnd
  have hlt := lookup_lt h1
  have hdc := dupCheck_ok C (C.getKey r) nd g.2 h5 h4 (by omega) hnd
  have hins := insertIntoLeaf_eq C t.heap g.1 nd g.2 r h1 h2 h5 h4 hlen
  rw [h4] at hdc
  rw [← s2] at hins
  refine ⟨t.heap.set g.1 { nd with keys := pad 4 (sortedIns C r g.2),
                                   num_keys := g.2.length + 1 }, ?_, ?_, ?_, ?_, ?_, ?_⟩
  · simp only [Insert_BPlus.atLeaf, h1, hdc, h4, MAXKEYS, ORDER, hlen, hins]
    simp
  · simp
  · refine ⟨{ nd with keys := pad 4 (sortedIns C r g.2), num_keys := g.2.length + 1 },
      List.getElem?_set_self hlt, h2, h3, ?_, rfl, h6, ?_, ?_⟩
    · simp [s4]
    · simp [s4]
    · simp only [s4, MAXKEYS, ORDER]; omega
  · refine ⟨s1, ?_⟩
    intro x hx
    rcases (s3 x).1 hx with rfl | hx
    · exact ⟨hlo, hhi⟩
    · exact ho.2 x hx
  · intro y hy
    rw [List.getElem?_set_ne (Ne.symm hy)]
  · simp [nextOf, List.getElem?_set_self hlt, h1]

theorem atLeaf_split {C : Capability V} (L : Lawful C) (t : Tree V) (g : GT V 0)
    (par : Option Nat) (lo hi : Option V) (r : V)
    (hr : Rep t.heap 0 g par) (ho : Ord C 0 g lo hi)
    (hlo : loLe C lo (C.getKey r)) (hhi : ltHi C (C.getKey r) hi)
    (hnd : ∀ x ∈ g.2, C.cmp_data (C.getKey r) x ≠ 0) (hlen : g.2.length = 4) :
    ∃ h' sep, Insert_BPlus.atLeaf C t g.1 r =
        insertIntoParent C.cmp_internal (t.heap.length + 1) { heap := h', root := t.root }
          g.1 sep t.heap.length ∧
      h'.length = t.heap.length + 1 ∧
      Rep h' 0 (g.1, (sortedIns C r g.2).take 3) par ∧
      Rep h' 0 (t.heap.length, (sortedIns C r g.2).drop 3) par ∧
      Ord C 0 (g.1, (sortedIns C r g.2).take 3) lo (some sep) ∧
      Ord C 0 (t.heap.length, (sortedIns C r g.2).drop 3) (some sep) hi ∧
      loLt C lo sep ∧ ltHi C sep hi ∧
      (∀ y, y ≠ g.1 → y < t.heap.length → h'[y]? = t.heap[y]?) ∧
      nextOf h' g.1 = some (some t.heap.length) ∧
      nextOf h' t.heap.length = nextOf t.heap g.1 ∧
      Insert_BPlus.splitLeaf C t.heap g.1 r = some (h', sep, t.heap.length) := by
  obtain ⟨nd, h1, h2, h3, h4, h5, h6, h7, h8⟩ := hr
  obtain ⟨s1, s2, s3, s4⟩ := sortedIns_sorted L r g.2 ho.1 hnd
  have hlt := lookup_lt h1
  have hdc := dupCheck_ok C (C.getKey r) nd g.2 h5 h4 (by omega) hnd
  obtain ⟨m0, m1, m2, m3, m4, hm⟩ := len5 (l := sortedIns C r g.2) (by omega)
  rw [h4, hlen] at hdc
  have hsp := splitLeaf_eq C t.heap g.1 nd g.2 r m0 m1 m2 m3 m4 h1 h5 hlen hm
  have hb : ∀ x ∈ [m0, m1, m2, m3, m4], loLe C lo (C.getKey x) ∧ ltHi C (C.getKey x) hi := by
    intro x hx
    rw [← hm] at hx
    rcases (s3 x).1 hx with rfl | hx
    · exact ⟨hlo, hhi⟩
    · exact ho.2 x hx
  rw [hm] at s1
  simp only [List.pairwise_cons, List.mem_cons, List.mem_singleton, forall_eq_or_imp, forall_eq,
    List.not_mem_nil, IsEmpty.forall_iff, implies_true, List.Pairwise.nil, and_true, klt] at s1
  simp only [List.mem_cons, List.mem_singleton, forall_eq_or_imp, forall_eq,
    List.not_mem_nil, IsEmpty.forall_iff, implies_true, and_true] at hb
  obtain ⟨⟨a01, a02, a03, a04⟩, ⟨a12, a13, a14⟩, ⟨a23, a24⟩, a34⟩ := s1
  obtain ⟨b0, b1, b2, b3, b4⟩ := hb
  have c0 := L.copy (C.getKey m3)
  refine ⟨t.heap.set g.1 { nd with num_keys := 3, keys := pad 4 [m0, m1, m2],
                                   next_leaf := some t.heap.length } ++
      [{ keys := pad 4 [m3, m4], children := List.replicate 5 none,
         parent := nd.parent, next_leaf := nd.next_leaf, num_keys := 2,
         is_leaf := true }], C.copyKey (C.getKey m3), ?_, ?_, ?_, ?_, ?_, ?_, ?_, ?_, ?_, ?_, ?_,
      hsp⟩
  · simp only [Insert_BPlus.atLeaf, h1, hdc, h4, MAXKEYS, ORDER, hlen, hsp]
    simp
  · simp
  · refine ⟨{ nd with num_keys := 3, keys := pad 4 [m0, m1, m2],
                      next_leaf := some t.heap.length }, ?_, h2, h3, ?_, ?_, h6, ?_, ?_⟩
    · rw [List.getElem?_append_left (by simpa using hlt), List.getElem?_set_self hlt]
    · simp [hm]
    · simp [hm, MAXKEYS, ORDER]
    · simp [hm]
    · simp [hm, MAXKEYS, ORDER]
  · refine ⟨{ keys := pad 4 [m3, m4], children := List.replicate 5 none,
              parent := nd.parent, next_leaf := nd.next_leaf, num_keys := 2,
              is_leaf := true }, ?_, rfl, h3, ?_, ?_, ?_, ?_, ?_⟩
    · rw [List.getElem?_append_right (by simp)]; simp
    · simp [hm]
    · simp [hm, MAXKEYS, ORDER]
    · simp [MAXCHILDREN, ORDER]
    · simp [hm]
    · simp [hm, MAXKEYS, ORDER]
  · simp only [Ord, hm, List.take_succ_cons, List.take_zero, List.pairwise_cons, List.mem_cons,
      List.mem_singleton, forall_eq_or_imp, forall_eq, List.not_mem_nil, IsEmpty.forall_iff,
      implies_true, List.Pairwise.nil, and_true, klt, ltHi]
    refine ⟨⟨⟨a01, a02⟩, a12⟩, ⟨b0.1, ?_⟩, ⟨b1.1, ?_⟩, b2.1, ?_⟩
    · exact (L.copy_right _ _).2 a03
    · exact (L.copy_right _ _).2 a13
    · exact (L.copy_right _ _).2 a23
  · simp only [Ord, hm, List.drop_succ_cons, List.drop_zero, List.pairwise_cons, List.mem_cons,
      List.mem_singleton, forall_eq_or_imp, forall_eq, List.not_mem_nil, IsEmpty.forall_iff,
      implies_true, List.Pairwise.nil, and_true, klt, loLe]
    refine ⟨a34, ⟨le_of_eq c0, b3.2⟩, ?_, b4.2⟩
    exact le_of_lt ((L.copy_left _ _).2 a34)
  · cases lo with
    | none => trivial
    | some l => exact (L.copy_right _ _).2 (L.lt_of_le_of_lt b0.1 a03)
  · cases hi with
    | none => trivial
    | some u => exact (L.copy_left _ _).2 b3.2
  · intro y hy hyl
    rw [List.getElem?_append_left (by simpa using hyl), List.getElem?_set_ne (Ne.symm hy)]
  · simp [nextOf, List.getElem?_append_left (show g.1 < (t.heap.set g.1 _).length by simpa using hlt),
      List.getElem?_set_self hlt]
  · simp [nextOf, h1]

/-! ## Order after inserting a separator -/

theorem lastLo_concat (lo : Option V) (ks : List V) :
    (ks = [] ∧ lastLo lo ks = lo) ∨ ∃ init u, ks = init ++ [u] ∧ lastLo lo ks = some u := by
  induction ks generalizing lo with
  | nil => exact Or.inl ⟨rfl, rfl⟩
  | cons k ks ih =>
    right
    rw [lastLo_cons]
    rcases ih (some k) with ⟨h1, h2⟩ | ⟨init, u, h1, h2⟩
    · exact ⟨[], k, by simp [h1], h2⟩
    · exact ⟨k :: init, u, by simp [h1], h2⟩

theorem keys_around {C : Capability V} (L : Lawful C) (ks1 ks2 : List V) (lo hi : Option V)
    (sep : V) (hs : (ks1 ++ ks2).Pairwise (klt C))
    (h1 : loLt C (lastLo lo ks1) sep) (h2 : ltHi C sep (headHi ks2 hi)) :
    (∀ x ∈ ks1, klt C x sep) ∧ (∀ y ∈ ks2, klt C sep y) := by
  rw [List.pairwise_append] at hs
  constructor
  · rcases lastLo_concat lo ks1 with ⟨e, _⟩ | ⟨init, u, e, e2⟩
    · simp [e]
    · rw [e2] at h1
      intro x hx
      rw [e] at hx hs
      rcases List.mem_append.1 hx with hx | hx
      · have := (List.pairwise_append.1 hs.1).2.2 x hx u (by simp)
        exact L.lt_trans this h1
      · simp only [List.mem_singleton] at hx; subst hx; exact h1
  · cases ks2 with
    | nil => simp
    | cons v rest =>
      simp only [headHi, List.head?_cons, ltHi] at h2
      intro y hy
      rcases List.mem_cons.1 hy with rfl | hy
      · exact h2
      · exact L.lt_trans h2 ((List.pairwise_cons.1 hs.2.1).1 y hy)

theorem Ord_insert_sep {C : Capability V} (L : Lawful C) (n a : Nat) (ks1 ks2 : List V)
    (cs1 cs2 : List (GT V n)) (c cL cR : GT V n) (lo hi : Option V) (sep : V)
    (ho : Ord C (n + 1) (a, ks1 ++ ks2, cs1 ++ c :: cs2) lo hi) (hcl : cs1.length = ks1.length)
    (hL : Ord C n cL (lastLo lo ks1) (some sep)) (hR : Ord C n cR (some sep) (headHi ks2 hi))
    (h1 : loLt C (lastLo lo ks1) sep) (h2 : ltHi C sep (headHi ks2 hi)) :
    Ord C (n + 1) (a, ks1 ++ sep :: ks2, cs1 ++ cL :: cR :: cs2) lo hi ∧
    (∀ x ∈ ks1, klt C x sep) ∧ (∀ y ∈ ks2, klt C sep y) := by
  obtain ⟨o1, o2, o3⟩ := ho
  simp only at o1 o2 o3
  obtain ⟨k1, k2⟩ := keys_around L ks1 ks2 lo hi sep o1 h1 h2
  refine ⟨⟨?_, ?_, ?_⟩, k1, k2⟩
  · show (ks1 ++ sep :: ks2).Pairwise (klt C)
    rw [List.pairwise_append] at o1 ⊢
    refine ⟨o1.1, List.pairwise_cons.2 ⟨k2, o1.2.1⟩, ?_⟩
    intro x hx y hy
    rcases List.mem_cons.1 hy with rfl | hy
    · exact k1 x hx
    · exact o1.2.2 x hx y hy
  · intro k hk
    have hk' : k ∈ ks1 ++ sep :: ks2 := hk
    simp only [List.mem_append, List.mem_cons] at hk'
    rcases hk' with hk' | rfl | hk'
    · exact o2 k (List.mem_append_left _ hk')
    · constructor
      · rcases lastLo_cases lo ks1 with ⟨_, e⟩ | ⟨u, hu, e⟩
        · rw [e] at h1; exact h1
        · rw [e] at h1
          have := (o2 u (List.mem_append_left _ hu)).1
          cases lo with
          | none => trivial
          | some l => exact L.lt_trans this h1
      · rcases headHi_cases ks2 hi with ⟨_, e⟩ | ⟨u, hu, e⟩
        · rw [e] at h2; exact h2
        · rw [e] at h2
          have := (o2 u (List.mem_append_right _ hu)).2
          cases hi with
          | none => trivial
          | some l => exact L.lt_trans h2 this
    · exact o2 k (List.mem_append_right _ hk')
  · exact (OrdKids_mid (Ord C n) ks1 ks2 cs1 cs2 c lo hi o3 hcl).2.1 cL cR sep hL hR

theorem Ord_replace_child {C : Capability V} (n a : Nat) (ks1 ks2 : List V)
    (cs1 cs2 : List (GT V n)) (c c' : GT V n) (lo hi : Option V)
    (ho : Ord C (n + 1) (a, ks1 ++ ks2, cs1 ++ c :: cs2) lo hi) (hcl : cs1.length = ks1.length)
    (hc : Ord C n c' (lastLo lo ks1) (headHi ks2 hi)) :
    Ord C (n + 1) (a, ks1 ++ ks2, cs1 ++ c' :: cs2) lo hi := by
  obtain ⟨o1, o2, o3⟩ := ho
  exact ⟨o1, o2, (OrdKids_mid (Ord C n) ks1 ks2 cs1 cs2 c lo hi o3 hcl).2.2.1 c' hc⟩

theorem Ord_split_node {C : Capability V} (n a b : Nat) (t0 t1 t2 t3 t4 : V)
    (d0 d1 d2 d3 d4 d5 : GT V n) (lo hi : Option V)
    (ho : Ord C (n + 1) (a, [t0, t1, t2, t3, t4], [d0, d1, d2, d3, d4, d5]) lo hi) :
    Ord C (n + 1) (a, [t0, t1], [d0, d1, d2]) lo (some t2) ∧
    Ord C (n + 1) (b, [t3, t4], [d3, d4, d5]) (some t2) hi ∧
    loLt C lo t2 ∧ ltHi C t2 hi := by
  obtain ⟨o1, o2, o3⟩ := ho
  simp only [List.pairwise_cons, List.mem_cons, List.mem_singleton, forall_eq_or_imp, forall_eq,
    List.not_mem_nil, IsEmpty.forall_iff, implies_true, List.Pairwise.nil, and_true, klt] at o1
  simp only [List.mem_cons, List.mem_singleton, forall_eq_or_imp, forall_eq,
    List.not_mem_nil, IsEmpty.forall_iff, implies_true, and_true] at o2
  simp only [OrdKids] at o3
  obtain ⟨⟨a01, a02, a03, a04⟩, ⟨a12, a13, a14⟩, ⟨a23, a24⟩, a34⟩ := o1
  obtain ⟨b0, b1, b2, b3, b4⟩ := o2
  obtain ⟨c0, c1, c2, c3, c4, c5⟩ := o3
  refine ⟨⟨?_, ?_, ?_⟩, ⟨?_, ?_, ?_⟩, b2.1, b2.2⟩
  · simpa [klt] using a01
  · simp only [List.mem_cons, List.mem_singleton, forall_eq_or_imp, forall_eq,
      List.not_mem_nil, IsEmpty.forall_iff, implies_true, and_true, ltHi]
    exact ⟨⟨b0.1, a02⟩, b1.1, a12⟩
  · simp only [OrdKids]; exact ⟨c0, c1, c2⟩
  · simpa [klt] using a34
  · simp only [List.mem_cons, List.mem_singleton, forall_eq_or_imp, forall_eq,
      List.not_mem_nil, IsEmpty.forall_iff, implies_true, and_true, loLt]
    exact ⟨⟨a23, b3.2⟩, a24, b4.2⟩
  · simp only [OrdKids]; exact ⟨c3, c4, c5⟩

/-! ## The parent step on ghost trees -/

theorem insAt_length_append {α : Type} (l1 l2 : List α) (x : α) :
    insAt l1.length x (l1 ++ l2) = l1 ++ x :: l2 := by
  simp [insAt]

theorem insAt_length_succ {α : Type} (l1 l2 : List α) (c x : α) :
    insAt (l1.length + 1) x (l1 ++ c :: l2) = l1 ++ c :: x :: l2 := by
  have : l1.length + 1 = (l1 ++ [c]).length := by simp
  rw [this, show l1 ++ c :: l2 = (l1 ++ [c]) ++ l2 by simp, insAt_length_append]
  simp

theorem len6 {α : Type} {l : List α} (h : l.length = 6) :
    ∃ a b c d e f, l = [a, b, c, d, e, f] := by
  rcases l with _ | ⟨a, _ | ⟨b, _ | ⟨c, _ | ⟨d, _ | ⟨e, _ | ⟨f, _ | ⟨g, l⟩⟩⟩⟩⟩⟩⟩ <;> simp at h
  exact ⟨a, b, c, d, e, f, rfl⟩

theorem addrs_disjoint (n : Nat) : ∀ (l : List (GT V n)),
    (l.flatMap (GT.addrs n)).Nodup → ∀ d ∈ l, ∀ e ∈ l, ∀ x, x ∈ GT.addrs n d →
      x ∈ GT.addrs n e → d = e
  | [], _, d, hd, _, _, _, _, _ => by simp at hd
  | c :: l, hnd, d, hd, e, he, x, hxd, hxe => by
    simp only [List.flatMap_cons, List.nodup_append] at hnd
    obtain ⟨_, h2, h3⟩ := hnd
    rcases List.mem_cons.1 hd with hd1 | hd1 <;> rcases List.mem_cons.1 he with he1 | he1
    · rw [hd1, he1]
    · subst hd1; exact (h3 hxd (List.mem_flatMap.2 ⟨e, he1, hxe⟩)).elim
    · subst he1; exact (h3 hxe (List.mem_flatMap.2 ⟨d, hd1, hxd⟩)).elim
    · exact addrs_disjoint n l h2 d hd1 e he1 x hxd hxe

theorem addrs_roots_nodup (n : Nat) : ∀ (l : List (GT V n)),
    (l.flatMap (GT.addrs n)).Nodup → (l.map (GT.addr n)).Nodup
  | [], _ => by simp
  | c :: l, hnd => by
    simp only [List.flatMap_cons, List.nodup_append] at hnd
    obtain ⟨_, h2, h3⟩ := hnd
    simp only [List.map_cons, List.nodup_cons]
    refine ⟨?_, addrs_roots_nodup n l h2⟩
    intro hm
    obtain ⟨e, he, hee⟩ := List.mem_map.1 hm
    exact h3 (GT.addr_mem n c) (List.mem_flatMap.2 ⟨e, he, hee ▸ GT.addr_mem n e⟩)

theorem child_nodup (n : Nat) (l : List (GT V n)) (hnd : (l.flatMap (GT.addrs n)).Nodup)
    (d : GT V n) (hd : d ∈ l) : (GT.addrs n d).Nodup := by
  induction l with
  | nil => simp at hd
  | cons c l ih =>
    simp only [List.flatMap_cons, List.nodup_append] at hnd
    rcases List.mem_cons.1 hd with rfl | hd
    · exact hnd.1
    · exact ih hnd.2.1 hd

theorem parent_room {C : Capability V} (L : Lawful C) (n : Nat) (h' : Heap V)
    (root : Option Nat) (a : Nat) (par : Option Nat) (nd : GenericBPlusTreeNode V)
    (ks1 ks2 : List V) (cs1 cs2 : List (GT V n)) (c cL cR : GT V n) (sep : V) (f : Nat)
    (ha : h'[a]? = some nd) (hleaf : nd.is_leaf = false) (hpar : nd.parent = par)
    (hnk : nd.num_keys = (ks1 ++ ks2).length) (hk : nd.keys = pad 4 (ks1 ++ ks2))
    (hc : nd.children = pad 5 ((cs1 ++ c :: cs2).map (GT.addr n)))
    (hnl : nd.next_leaf = none) (hcl : cs1.length = ks1.length)
    (hlen : (cs1 ++ c :: cs2).length = (ks1 ++ ks2).length + 1)
    (hroom : (ks1 ++ ks2).length < 4)
    (haddr : GT.addr n cL = GT.addr n c)
    (hall : ∀ d ∈ cs1 ++ cL :: cR :: cs2, Rep h' n d (some a))
    (hnd : a ∉ (cs1 ++ cL :: cR :: cs2).flatMap (GT.addrs n))
    (k1 : ∀ x ∈ ks1, klt C x sep) (k2 : ∀ y ∈ ks2, klt C sep y) :
    ∃ h'', insertIntoParent C.cmp_internal (f + 1) { heap := h', root := root }
        (GT.addr n cL) sep (GT.addr n cR) =
          some (status_code.SUCCESS, { heap := h'', root := root }) ∧
      h''.length = h'.length ∧
      Rep h'' (n + 1) (a, ks1 ++ sep :: ks2, cs1 ++ cL :: cR :: cs2) par ∧
      (∀ y, y ≠ a → h''[y]? = h'[y]?) ∧ (∀ y, nextOf h'' y = nextOf h' y) := by
  obtain ⟨l, hl1, hl2⟩ := Rep_lookup n cL _ (hall cL (by simp))
  obtain ⟨rn, hr1, hr2⟩ := Rep_lookup n cR _ (hall cR (by simp))
  have hne : a ≠ GT.addr n cR := by
    intro e
    apply hnd
    rw [e]
    exact List.mem_flatMap.2 ⟨cR, by simp, GT.addr_mem n cR⟩
  have hposR : posR (fun x => decide (C.cmp_internal sep x < 0)) (ks1 ++ ks2) = ks1.length := by
    apply posR_append
    · intro x hx
      have := (L.anti _ _).1 (k1 x hx)
      simp only [decide_eq_false_iff_not]; omega
    · intro y hy
      simpa [klt] using k2 y hy
  obtain ⟨h'', e1, e2, e3, e4, e5⟩ := insertIntoParent_room C.cmp_internal f
    { heap := h', root := root } (GT.addr n cL) (GT.addr n cR) a sep l nd rn (ks1 ++ ks2)
    ((cs1 ++ c :: cs2).map (GT.addr n)) hl1 hl2 ha hnk hk hc hroom (by simpa using hlen) hr1 hne
  simp only at e1 e2 e3 e4 e5
  rw [hposR, insAt_length_append] at e3
  have hkids : insAt (ks1.length + 1) (GT.addr n cR) ((cs1 ++ c :: cs2).map (GT.addr n)) =
      (cs1 ++ cL :: cR :: cs2).map (GT.addr n) := by
    have := insAt_length_succ (cs1.map (GT.addr n)) (cs2.map (GT.addr n)) (GT.addr n c)
      (GT.addr n cR)
    simp only [List.length_map, hcl] at this
    simp only [List.map_append, List.map_cons, haddr]
    exact this
  rw [hkids] at e3
  have hsame : ∀ y, y ≠ a → h''[y]? = h'[y]? := by
    intro y hy
    by_cases hyr : y = GT.addr n cR
    · subst hyr
      rw [e4, hr1, ← hr2, node_eta]
    · exact e5 y hy hyr
  refine ⟨h'', e1, e2, ?_, hsame, ?_⟩
  · refine ⟨_, e3, hleaf, hpar, ?_, rfl, rfl, hnl, ?_, ?_, ?_, ?_⟩
    · simp only [List.length_append, List.length_cons]; omega
    · simp only [List.length_append, List.length_cons] at hlen ⊢; omega
    · simp only [List.length_append, List.length_cons]; omega
    · simp only [List.length_append, List.length_cons, MAXKEYS, ORDER] at hroom ⊢; omega
    · intro d hd
      refine Rep_congr n d _ ?_ (hall d hd)
      intro x hx
      apply hsame
      intro e
      apply hnd
      rw [← e]
      exact List.mem_flatMap.2 ⟨d, hd, hx⟩
  · intro y
    by_cases hy : y = a
    · subst hy
      simp [nextOf, e3, ha]
    · simp [nextOf, hsame y hy]

theorem parent_full {C : Capability V} (L : Lawful C) (n : Nat) (h' : Heap V)
    (root : Option Nat) (a : Nat) (par : Option Nat) (nd : GenericBPlusTreeNode V)
    (ks1 ks2 : List V) (cs1 cs2 : List (GT V n)) (c cL cR : GT V n) (sep : V) (f : Nat)
    (ha : h'[a]? = some nd) (hleaf : nd.is_leaf = false) (hpar : nd.parent = par)
    (hnk : nd.num_keys = (ks1 ++ ks2).length) (hk : nd.keys = pad 4 (ks1 ++ ks2))
    (hc : nd.children = pad 5 ((cs1 ++ c :: cs2).map (GT.addr n)))
    (hnl : nd.next_leaf = none) (hcl : cs1.length = ks1.length)
    (hlen : (cs1 ++ c :: cs2).length = (ks1 ++ ks2).length + 1)
    (hfull : (ks1 ++ ks2).length = 4)
    (haddr : GT.addr n cL = GT.addr n c)
    (hall : ∀ d ∈ cs1 ++ cL :: cR :: cs2, Rep h' n d (some a))
    (hnd : (a :: (cs1 ++ cL :: cR :: cs2).flatMap (GT.addrs n)).Nodup)
    (k1 : ∀ x ∈ ks1, klt C x sep) (k2 : ∀ y ∈ ks2, klt C sep y) :
    ∃ h'' t0 t1 t2 t3 t4 d0 d1 d2 d3 d4 d5,
      ks1 ++ sep :: ks2 = [t0, t1, t2, t3, t4] ∧
      cs1 ++ cL :: cR :: cs2 = [d0, d1, d2, d3, d4, d5] ∧
      insertIntoParent C.cmp_internal (f + 1) { heap := h', root := root }
          (GT.addr n cL) sep (GT.addr n cR) =
        insertIntoParent C.cmp_internal f { heap := h'', root := root } a t2 h'.length ∧
      h''.length = h'.length + 1 ∧
      Rep h'' (n + 1) (a, [t0, t1], [d0, d1, d2]) par ∧
      Rep h'' (n + 1) (h'.length, [t3, t4], [d3, d4, d5]) par ∧
      (∀ y, y < h'.length → y ∉ a :: (cs1 ++ cL :: cR :: cs2).flatMap (GT.addrs n) →
        h''[y]? = h'[y]?) ∧
      (∀ y, y < h'.length → nextOf h'' y = nextOf h' y) ∧
      insertIntoParent.split C.cmp_internal h' a sep (GT.addr n cR) =
        some (h'', t2, h'.length) := by
  obtain ⟨t0, t1, t2, t3, t4, hks⟩ := len5 (l := ks1 ++ sep :: ks2) (by
    simp only [List.length_append, List.length_cons] at hfull ⊢; omega)
  obtain ⟨d0, d1, d2, d3, d4, d5, hcs⟩ := len6 (l := cs1 ++ cL :: cR :: cs2) (by
    simp only [List.length_append, List.length_cons] at hfull hlen ⊢; omega)
  rw [hcs] at hall hnd
  have hposL : posL (fun x => decide (C.cmp_internal sep x > 0)) (ks1 ++ ks2) = ks1.length := by
    apply posL_append
    · intro x hx
      have := (L.anti _ _).1 (k1 x hx)
      simpa using this
    · intro y hy
      have : C.cmp_internal sep y < 0 := k2 y hy
      simp only [gt_iff_lt, decide_eq_false_iff_not]; omega
  have hkids : insAt (ks1.length + 1) (GT.addr n cR) ((cs1 ++ c :: cs2).map (GT.addr n)) =
      [d0, d1, d2, d3, d4, d5].map (GT.addr n) := by
    have := insAt_length_succ (cs1.map (GT.addr n)) (cs2.map (GT.addr n)) (GT.addr n c)
      (GT.addr n cR)
    simp only [List.length_map, hcl] at this
    rw [← hcs]
    simp only [List.map_append, List.map_cons, haddr]
    exact this
  have hmerge := insertIntoParent_merge_eq C.cmp_internal sep (GT.addr n cR) nd (ks1 ++ ks2)
    ((cs1 ++ c :: cs2).map (GT.addr n)) hk hc hfull (by
      simp only [List.length_map]; rw [hlen, hfull])
  rw [hposL, insAt_length_append, hks, hkids] at hmerge
  obtain ⟨n0, g0, q0⟩ := Rep_lookup n d0 _ (hall d0 (by simp))
  obtain ⟨n1, g1, q1⟩ := Rep_lookup n d1 _ (hall d1 (by simp))
  obtain ⟨n2, g2, q2⟩ := Rep_lookup n d2 _ (hall d2 (by simp))
  obtain ⟨n3, g3, q3⟩ := Rep_lookup n d3 _ (hall d3 (by simp))
  obtain ⟨n4, g4, q4⟩ := Rep_lookup n d4 _ (hall d4 (by simp))
  obtain ⟨n5, g5, q5⟩ := Rep_lookup n d5 _ (hall d5 (by simp))
  have hroots := addrs_roots_nodup n _ (List.nodup_cons.1 hnd).2
  have hanot : ∀ d ∈ [d0, d1, d2, d3, d4, d5], ∀ x ∈ GT.addrs n d, x ≠ a := by
    intro d hd x hx e
    apply (List.nodup_cons.1 hnd).1
    rw [← e]
    exact List.mem_flatMap.2 ⟨d, hd, hx⟩
  have hnd7 : [a, GT.addr n d0, GT.addr n d1, GT.addr n d2, GT.addr n d3, GT.addr n d4,
      GT.addr n d5].Nodup := by
    refine List.nodup_cons.2 ⟨?_, by simpa using hroots⟩
    intro hm
    simp only [List.mem_cons, List.mem_singleton, List.not_mem_nil, or_false] at hm
    rcases hm with e | e | e | e | e | e
    · exact hanot d0 (by simp) _ (GT.addr_mem n d0) e.symm
    · exact hanot d1 (by simp) _ (GT.addr_mem n d1) e.symm
    · exact hanot d2 (by simp) _ (GT.addr_mem n d2) e.symm
    · exact hanot d3 (by simp) _ (GT.addr_mem n d3) e.symm
    · exact hanot d4 (by simp) _ (GT.addr_mem n d4) e.symm
    · exact hanot d5 (by simp) _ (GT.addr_mem n d5) e.symm
  obtain ⟨h'', s0, s1, sp, sn, r0, r1, r2, r3, r4, r5, sfr⟩ :=
    split_eq C.cmp_internal h' a sep (GT.addr n cR) nd t0 t1 t2 t3 t4
      (GT.addr n d0) (GT.addr n d1) (GT.addr n d2) (GT.addr n d3) (GT.addr n d4) (GT.addr n d5)
      n0 n1 n2 n3 n4 n5 ha (by
        simp only [hk, pad, List.length_append, List.length_map, List.length_replicate] at hfull ⊢
        omega) (by
        simp only [hc, pad, List.length_append, List.length_map, List.length_replicate,
          List.length_cons] at hfull hlen ⊢
        omega)
      (by simpa using hmerge) g0 g1 g2 g3 g4 g5 hnd7
  obtain ⟨l, hl1, hl2⟩ := Rep_lookup n cL _ (hall cL (by rw [← hcs]; simp))
  have hstep := insertIntoParent_full C.cmp_internal f { heap := h', root := root }
    (GT.addr n cL) (GT.addr n cR) a sep l nd h'' t2 h'.length hl1 hl2 ha (by rw [hnk, hfull]) s0
  -- frame for the subtree below a child
  have hre : ∀ d ∈ [d0, d1, d2, d3, d4, d5], ∀ p' : Option Nat,
      (∀ x, h'[GT.addr n d]? = some x → h''[GT.addr n d]? = some { x with parent := p' }) →
      Rep h'' n d p' := by
    intro d hd p' hroot
    refine Rep_reparent n d (some a) p' (hall d hd) hroot ?_
      (child_nodup n _ (List.nodup_cons.1 hnd).2 d hd)
    intro x hx hxne
    apply sfr x ?_ (Rep_addrs_lt n d _ (hall d hd) x hx)
    intro hm
    simp only [List.mem_cons, List.mem_singleton, List.not_mem_nil, or_false] at hm
    have key : ∀ e ∈ [d0, d1, d2, d3, d4, d5], x = GT.addr n e → False := by
      intro e he hxe
      have := addrs_disjoint n _ (List.nodup_cons.1 hnd).2 d hd e he x hx
        (hxe ▸ GT.addr_mem n e)
      subst this
      exact hxne hxe
    rcases hm with e | e | e | e | e | e | e
    · exact hanot d hd x hx e
    · exact key d0 (by simp) e
    · exact key d1 (by simp) e
    · exact key d2 (by simp) e
    · exact key d3 (by simp) e
    · exact key d4 (by simp) e
    · exact key d5 (by simp) e
  refine ⟨h'', t0, t1, t2, t3, t4, d0, d1, d2, d3, d4, d5, hks, hcs, hstep, s1, ?_, ?_, ?_, ?_,
    s0⟩
  · refine ⟨_, sp, hleaf, hpar, rfl, rfl, rfl, hnl, rfl, by simp, by simp [MAXKEYS, ORDER], ?_⟩
    intro d hd
    simp only [List.mem_cons, List.mem_singleton, List.not_mem_nil, or_false] at hd
    rcases hd with rfl | rfl | rfl
    · exact hre _ (by simp) _ (fun x hx => by rw [g0] at hx; cases hx; exact r0)
    · exact hre _ (by simp) _ (fun x hx => by rw [g1] at hx; cases hx; exact r1)
    · exact hre _ (by simp) _ (fun x hx => by rw [g2] at hx; cases hx; exact r2)
  · refine ⟨_, sn, rfl, hpar, rfl, rfl, rfl, rfl, rfl, by simp, by simp [MAXKEYS, ORDER], ?_⟩
    intro d hd
    simp only [List.mem_cons, List.mem_singleton, List.not_mem_nil, or_false] at hd
    rcases hd with rfl | rfl | rfl
    · exact hre _ (by simp) _ (fun x hx => by rw [g3] at hx; cases hx; exact r3)
    · exact hre _ (by simp) _ (fun x hx => by rw [g4] at hx; cases hx; exact r4)
    · exact hre _ (by simp) _ (fun x hx => by rw [g5] at hx; cases hx; exact r5)
  · intro y hy hyn
    apply sfr y ?_ hy
    intro hm
    apply hyn
    simp only [List.mem_cons, List.mem_singleton, List.not_mem_nil, or_false] at hm
    rw [hcs]
    rcases hm with e | e | e | e | e | e | e
    · simp [e]
    · exact List.mem_cons_of_mem _ (List.mem_flatMap.2 ⟨d0, by simp, e ▸ GT.addr_mem n d0⟩)
    · exact List.mem_cons_of_mem _ (List.mem_flatMap.2 ⟨d1, by simp, e ▸ GT.addr_mem n d1⟩)
    · exact List.mem_cons_of_mem _ (List.mem_flatMap.2 ⟨d2, by simp, e ▸ GT.addr_mem n d2⟩)
    · exact List.mem_cons_of_mem _ (List.mem_flatMap.2 ⟨d3, by simp, e ▸ GT.addr_mem n d3⟩)
    · exact List.mem_cons_of_mem _ (List.mem_flatMap.2 ⟨d4, by simp, e ▸ GT.addr_mem n d4⟩)
    · exact List.mem_cons_of_mem _ (List.mem_flatMap.2 ⟨d5, by simp, e ▸ GT.addr_mem n d5⟩)
  · intro y hy
    by_cases hm : y ∈ [a, GT.addr n d0, GT.addr n d1, GT.addr n d2, GT.addr n d3,
        GT.addr n d4, GT.addr n d5]
    · simp only [List.mem_cons, List.mem_singleton, List.not_mem_nil, or_false] at hm
      rcases hm with e | e | e | e | e | e | e <;> subst e
      · simp [nextOf, sp, ha]
      · simp [nextOf, r0, g0]
      · simp [nextOf, r1, g1]
      · simp [nextOf, r2, g2]
      · simp [nextOf, r3, g3]
      · simp [nextOf, r4, g4]
      · simp [nextOf, r5, g5]
    · simp [nextOf, sfr y hm hy]

/-! ## The effect on the leaves, in a context -/

theorem LeafEffect.lift {C : Capability V} {r : V} {h h' : Heap V} {la : Nat}
    {ll ll' : List (Nat × List V)} (A B : List (Nat × List V))
    (hle : LeafEffect C r h h' la ll ll') :
    LeafEffect C r h h' la (A ++ ll ++ B) (A ++ ll' ++ B) := by
  obtain ⟨l1, l2, rs, e, b1, b2, fr, hc⟩ := hle
  refine ⟨A ++ l1, l2 ++ B, rs, by simp [e], b1, b2, fr, ?_⟩
  rcases hc with ⟨c1, c2, c3⟩ | ⟨c1, c0, c2, c3, c4⟩
  · exact Or.inl ⟨c1, by simp [c2], c3⟩
  · exact Or.inr ⟨c1, c0, by simp [c2], c3, c4⟩

theorem LeafEffect.later {C : Capability V} {r : V} {h h' : Heap V} {la : Nat}
    {ll ll' : List (Nat × List V)} (h'' : Heap V)
    (hle : LeafEffect C r h h' la ll ll') (hlen : h'.length ≤ h''.length)
    (hn : ∀ y, y < h'.length → nextOf h'' y = nextOf h' y) :
    LeafEffect C r h h'' la ll ll' := by
  obtain ⟨l1, l2, rs, e, b1, b2, fr, hc⟩ := hle
  refine ⟨l1, l2, rs, e, b1, by omega, ?_, ?_⟩
  · intro y hy hne
    rw [hn y (by omega)]
    exact fr y hy hne
  · rcases hc with ⟨c1, c2, c3⟩ | ⟨c1, c0, c2, c3, c4⟩
    · exact Or.inl ⟨c1, c2, by rw [hn la (by omega)]; exact c3⟩
    · exact Or.inr ⟨c1, by omega, c2, by rw [hn la (by omega)]; exact c3,
        by rw [hn _ c0]; exact c4⟩

/-! ## Replacing a child by its successors -/

theorem kids_frame (n : Nat) (h h' : Heap V) (a : Nat) (cs1 cs2 new : List (GT V n))
    (c : GT V n)
    (hnd : (a :: (cs1 ++ c :: cs2).flatMap (GT.addrs n)).Nodup)
    (hrep : ∀ d ∈ cs1 ++ c :: cs2, Rep h n d (some a))
    (hfr : ∀ y, y < h.length → y ∉ GT.addrs n c → h'[y]? = h[y]?)
    (hnew : ∀ d ∈ new, Rep h' n d (some a))
    (hnn : (new.flatMap (GT.addrs n)).Nodup)
    (hsub : ∀ x ∈ new.flatMap (GT.addrs n), x ∈ GT.addrs n c ∨ h.length ≤ x)
    (ha : a < h.length) :
    (∀ d ∈ cs1 ++ new ++ cs2, Rep h' n d (some a)) ∧
    (a :: (cs1 ++ new ++ cs2).flatMap (GT.addrs n)).Nodup ∧
    (∀ x ∈ (cs1 ++ new ++ cs2).flatMap (GT.addrs n),
      x ∈ (cs1 ++ c :: cs2).flatMap (GT.addrs n) ∨ h.length ≤ x) := by
  simp only [List.flatMap_append, List.flatMap_cons, List.nodup_cons, List.nodup_append,
    List.mem_append, not_or] at hnd
  obtain ⟨⟨na1, nac, na2⟩, n1, ⟨nc, n2, dc2⟩, d1⟩ := hnd
  have lt1 : ∀ x ∈ cs1.flatMap (GT.addrs n), x < h.length := by
    intro x hx
    obtain ⟨d, hd, hxd⟩ := List.mem_flatMap.1 hx
    exact Rep_addrs_lt n d _ (hrep d (by simp [hd])) x hxd
  have lt2 : ∀ x ∈ cs2.flatMap (GT.addrs n), x < h.length := by
    intro x hx
    obtain ⟨d, hd, hxd⟩ := List.mem_flatMap.1 hx
    exact Rep_addrs_lt n d _ (hrep d (by simp [hd])) x hxd
  have o1 : ∀ x ∈ cs1.flatMap (GT.addrs n), x ∉ GT.addrs n c := by
    intro x hx hc
    exact d1 hx (List.mem_append_left _ hc)
  have o2 : ∀ x ∈ cs2.flatMap (GT.addrs n), x ∉ GT.addrs n c := by
    intro x hx hc
    exact dc2 hc hx
  refine ⟨?_, ?_, ?_⟩
  · intro d hd
    simp only [List.mem_append] at hd
    rcases hd with (hd | hd) | hd
    · refine Rep_congr n d _ ?_ (hrep d (by simp [hd]))
      intro x hx
      have hm : x ∈ cs1.flatMap (GT.addrs n) := List.mem_flatMap.2 ⟨d, hd, hx⟩
      exact hfr x (lt1 x hm) (o1 x hm)
    · exact hnew d hd
    · refine Rep_congr n d _ ?_ (hrep d (by simp [hd]))
      intro x hx
      have hm : x ∈ cs2.flatMap (GT.addrs n) := List.mem_flatMap.2 ⟨d, hd, hx⟩
      exact hfr x (lt2 x hm) (o2 x hm)
  · simp only [List.flatMap_append, List.nodup_cons, List.nodup_append, List.mem_append, not_or]
    refine ⟨⟨⟨na1, ?_⟩, na2⟩, ⟨n1, hnn, ?_⟩, n2, ?_⟩
    · intro hm
      rcases hsub a hm with hx | hx
      · exact nac hx
      · omega
    · intro x hx1 hx2
      rcases hsub x hx2 with hx | hx
      · exact o1 x hx1 hx
      · have := lt1 x hx1; omega
    · intro x hx1 hx2
      rcases List.mem_append.1 hx1 with hx1 | hx1
      · exact d1 hx1 (List.mem_append_right _ hx2)
      · rcases hsub x hx1 with hx | hx
        · exact o2 x hx2 hx
        · have := lt2 x hx2; omega
  · intro x hx
    simp only [List.flatMap_append, List.flatMap_cons, List.mem_append] at hx ⊢
    rcases hx with (hx | hx) | hx
    · exact Or.inl (Or.inl hx)
    · rcases hsub x hx with hx | hx
      · exact Or.inl (Or.inr (Or.inl hx))
      · exact Or.inr hx
    · exact Or.inl (Or.inr (Or.inr hx))

/-! ## Rearranging separator lists -/

theorem perm_ctx {α : Type} (A B K X Y cp : List α) (h : X.Perm (cp ++ Y)) :
    (A ++ (X ++ B) ++ K).Perm (cp ++ (A ++ (Y ++ B) ++ K)) := by
  rw [← Multiset.coe_eq_coe] at h ⊢
  simp only [← Multiset.coe_add] at h ⊢
  rw [h]
  abel

theorem perm_room {α : Type} (A B K1 K2 X1 X2 Y cp : List α) (s : α)
    (h : (s :: (X1 ++ X2)).Perm (cp ++ Y)) :
    (A ++ (X1 ++ (X2 ++ B)) ++ (K1 ++ s :: K2)).Perm (cp ++ (A ++ (Y ++ B) ++ (K1 ++ K2))) := by
  have h' : ([s] ++ (X1 ++ X2)).Perm (cp ++ Y) := h
  have e : K1 ++ s :: K2 = K1 ++ ([s] ++ K2) := rfl
  rw [e]
  rw [← Multiset.coe_eq_coe] at h' ⊢
  simp only [← Multiset.coe_add] at h' ⊢
  have e2 : (A : Multiset α) + (↑X1 + (↑X2 + ↑B)) + (↑K1 + (↑[s] + ↑K2)) =
      (↑[s] + (↑X1 + ↑X2)) + (↑A + ↑B + ↑K1 + ↑K2) := by abel
  rw [e2, h']
  abel

theorem perm_full {α : Type} (X Y : List α) (t0 t1 t2 t3 t4 : α) :
    (t2 :: ((X ++ [t0, t1]) ++ (Y ++ [t3, t4]))).Perm ((X ++ Y) ++ [t0, t1, t2, t3, t4]) := by
  have e1 : t2 :: ((X ++ [t0, t1]) ++ (Y ++ [t3, t4])) =
      [t2] ++ ((X ++ [t0, t1]) ++ (Y ++ [t3, t4])) := rfl
  have e2 : [t0, t1, t2, t3, t4] = [t0, t1] ++ ([t2] ++ [t3, t4]) := rfl
  rw [e1, e2]
  rw [← Multiset.coe_eq_coe]
  simp only [← Multiset.coe_add]
  abel

/-! ## Insertion below a subtree -/

theorem DepthTo_prepend {h : Heap V} (p c : Nat) (nd : GenericBPlusTreeNode V) (i : Nat)
    (hnd : h[p]? = some nd) (hleaf : nd.is_leaf = false) (hi : i ≤ nd.num_keys)
    (hch : nd.children[i]? = some (some c)) (q d : Nat) (hp : DepthTo h c q d) :
    DepthTo h p q (d + 1) := by
  induction hp with
  | root => exact DepthTo.child p c 0 i nd DepthTo.root hnd hleaf hi hch
  | child p' c' d' i' nd' _ h1 h2 h3 h4 ih => exact DepthTo.child p' c' (d' + 1) i' nd' ih h1 h2 h3 h4

theorem insertFrom_leaf {C : Capability V} (L : Lawful C) (g : GT V 0) (t : Tree V)
    (par : Option Nat) (lo hi : Option V) (r : V) (fuel : Nat)
    (hr : Rep t.heap 0 g par) (ho : Ord C 0 g lo hi)
    (hlo : loLe C lo (C.getKey r)) (hhi : ltHi C (C.getKey r) hi)
    (hnd : ∀ x ∈ GT.recs 0 g, C.cmp_data (C.getKey r) x ≠ 0) (hf : 1 ≤ fuel) :
    ∃ la, findLeaf.descend C.cmp_internal t.heap (C.getKey r) fuel (GT.addr 0 g) = some la ∧
      (Absorbed C r t 0 g par lo hi la (insertFrom C fuel t (GT.addr 0 g) r) ∨
       SplitUp C r t 0 g par lo hi la (insertFrom C fuel t (GT.addr 0 g) r)) := by
  obtain ⟨f, rfl⟩ : ∃ f, fuel = f + 1 := ⟨fuel - 1, by omega⟩
  have hr' := hr
  obtain ⟨nd, h1, h2, h3, h4, h5, h6, h7, h8⟩ := hr'
  have hlt := lookup_lt h1
  have hd := descend_leaf C.cmp_internal t.heap (C.getKey r) f g.1 nd h1 h2
  rw [GT.recs_zero] at hnd
  refine ⟨g.1, hd, ?_⟩
  have hif : insertFrom C (f + 1) t (GT.addr 0 g) r = Insert_BPlus.atLeaf C t g.1 r := by
    simp only [insertFrom, GT.addr, hd]
  rw [hif]
  by_cases hlen : g.2.length < 4
  · left
    obtain ⟨h', e1, e2, e3, e4, e5, e6⟩ := atLeaf_absorb L t g par lo hi r hr ho hlo hhi hnd hlen
    have hnk : nd.num_keys < MAXKEYS := by rw [h4]; exact hlen
    refine ⟨h', (g.1, sortedIns C r g.2), e1, by omega, ?_, e3, e4, by simp [GT.addrs], rfl, ?_, ?_,
      ?_, ?_, fun _ => trivial, ?_⟩
    · intro y _ hy
      exact e5 y (by simpa [GT.addrs] using hy)
    · intro x hx; left; simpa [GT.addrs] using hx
    · refine ⟨[], [], g.2, by simp [GT.leafList], hlt, by omega, ?_, Or.inl ⟨hlen, ?_, e6⟩⟩
      · intro y _ hy
        simp [nextOf, e5 y hy]
      · simp [GT.leafList]
    · simp [leafCopies, h1, hnk, GT.seps]
    · simp only [GT.numKeys, sortedIns, insAt, List.length_append, List.length_cons,
        List.length_take, List.length_drop]
      omega
    · intro lf hlf hfull
      rw [h1] at hlf
      cases hlf
      exact (hfull hnk).elim
  · right
    have hlen4 : g.2.length = 4 := by
      simp only [MAXKEYS, ORDER] at h8; omega
    obtain ⟨h', sep, e1, e2, e3, e4, e5, e6, e7, e8, e9, e10, e11, e12⟩ :=
      atLeaf_split L t g par lo hi r hr ho hlo hhi hnd hlen4
    have hlen5 : (sortedIns C r g.2).length = 5 := by
      simp only [sortedIns, insAt, List.length_append, List.length_cons, List.length_take,
        List.length_drop]
      omega
    refine ⟨h', (g.1, (sortedIns C r g.2).take 3), (t.heap.length, (sortedIns C r g.2).drop 3),
      sep, e1, by omega, ?_, e3, e4, e5, e6, e7, e8, ?_, rfl, ?_, ?_, ?_, ?_, ?_,
      fun _ => ⟨trivial, trivial⟩, ?_⟩
    · intro y hy hyn
      exact e9 y (by simpa [GT.addrs] using hyn) hy
    · simp only [GT.addrs, List.singleton_append, List.nodup_cons, List.mem_singleton,
        List.not_mem_nil, not_false_eq_true, List.nodup_nil, and_true]
      omega
    · intro x hx
      simp only [GT.addrs, List.singleton_append, List.mem_cons, List.mem_singleton,
        List.not_mem_nil, or_false] at hx ⊢
      rcases hx with rfl | rfl
      · exact Or.inl rfl
      · exact Or.inr (le_refl _)
    · refine ⟨[], [], g.2, by simp [GT.leafList], hlt, by omega, ?_,
        Or.inr ⟨hlen4, by omega, ?_, e10, e11⟩⟩
      · intro y hy hyn
        simp [nextOf, e9 y hyn hy]
      · simp [GT.leafList]
    · have hnk : ¬ nd.num_keys < MAXKEYS := by rw [h4, hlen4]; decide
      simp [leafCopies, h1, hnk, e12, GT.seps]
    · simp only [GT.numKeys, List.length_take, hlen5, MINKEYS, MAXKEYS, ORDER]
      decide
    · simp only [GT.numKeys, List.length_drop, hlen5, MINKEYS, MAXKEYS, ORDER]
      decide
    · refine ⟨[], rfl, ?_, ?_⟩
      · intro i x hx
        simp at hx
      · intro F
        simp only [Insert_BPlus.parentCall, Insert_BPlus.parentLefts, e12, GT.addr,
          Nat.add_zero, List.nil_append, and_self]

set_option maxHeartbeats 1000000 in
theorem insertFrom_node {C : Capability V} (L : Lawful C) (n : Nat)
    (IH : ∀ (c : GT V n) (t : Tree V) (par : Option Nat) (lo hi : Option V) (r : V)
      (fuel : Nat), Rep t.heap n c par → Ord C n c lo hi → (GT.addrs n c).Nodup →
      loLe C lo (C.getKey r) → ltHi C (C.getKey r) hi →
      (∀ x ∈ GT.recs n c, C.cmp_data (C.getKey r) x ≠ 0) → n + 1 ≤ fuel →
      n + 1 ≤ t.heap.length →
      ∃ la, findLeaf.descend C.cmp_internal t.heap (C.getKey r) fuel (GT.addr n c) = some la ∧
        (Absorbed C r t n c par lo hi la (insertFrom C fuel t (GT.addr n c) r) ∨
         SplitUp C r t n c par lo hi la (insertFrom C fuel t (GT.addr n c) r)))
    (g : GT V (n + 1)) (t : Tree V) (par : Option Nat) (lo hi : Option V) (r : V) (fuel : Nat)
    (hr : Rep t.heap (n + 1) g par) (ho : Ord C (n + 1) g lo hi)
    (hnd : (GT.addrs (n + 1) g).Nodup)
    (hlo : loLe C lo (C.getKey r)) (hhi : ltHi C (C.getKey r) hi)
    (hdup : ∀ x ∈ GT.recs (n + 1) g, C.cmp_data (C.getKey r) x ≠ 0)
    (hf : n + 1 + 1 ≤ fuel) (hsz : n + 1 + 1 ≤ t.heap.length) :
    ∃ la, findLeaf.descend C.cmp_internal t.heap (C.getKey r) fuel (GT.addr (n + 1) g) =
        some la ∧
      (Absorbed C r t (n + 1) g par lo hi la (insertFrom C fuel t (GT.addr (n + 1) g) r) ∨
       SplitUp C r t (n + 1) g par lo hi la (insertFrom C fuel t (GT.addr (n + 1) g) r)) := by
  obtain ⟨f, rfl⟩ : ∃ f, fuel = f + 1 := ⟨fuel - 1, by omega⟩
  obtain ⟨ks1, ks2, cs1, c, cs2, hks, hcs, hcl, p1, p2, b1, b2, hd⟩ :=
    descend_step L n g t.heap lo hi par (C.getKey r) f hr ho hlo hhi
  obtain ⟨a, ks, cs⟩ := g
  simp only at hks hcs hd
  subst hks hcs
  have hr' := hr
  obtain ⟨nd, h1, h2, h3, h4, h5, h6, h7, h8, h9, h10, h11⟩ := hr'
  simp only at h1 h4 h5 h6 h8 h9 h10 h11
  have ho' := ho
  obtain ⟨o1, o2, o3⟩ := ho'
  simp only at o1 o2 o3
  obtain ⟨m1, -, -, -, -⟩ := OrdKids_mid (Ord C n) ks1 ks2 cs1 cs2 c lo hi o3 hcl
  have halt := lookup_lt h1
  have hnd0 : (a :: (cs1 ++ c :: cs2).flatMap (GT.addrs n)).Nodup := hnd
  have hcnd : (GT.addrs n c).Nodup :=
    child_nodup n _ (List.nodup_cons.1 hnd0).2 c (by simp)
  have hanc : a ∉ GT.addrs n c := by
    intro hm
    exact (List.nodup_cons.1 hnd0).1 (List.mem_flatMap.2 ⟨c, by simp, hm⟩)
  have hdupc : ∀ x ∈ GT.recs n c, C.cmp_data (C.getKey r) x ≠ 0 := by
    intro x hx
    apply hdup x
    rw [GT.recs_succ]
    exact List.mem_flatMap.2 ⟨c, by simp, hx⟩
  obtain ⟨la, hla, hcase⟩ := IH c t (some a) _ _ r f (h11 c (by simp)) m1 hcnd b1 b2 hdupc
    (by omega) (by omega)
  have hif : insertFrom C (f + 1) t (GT.addr (n + 1) (a, ks1 ++ ks2, cs1 ++ c :: cs2)) r =
      insertFrom C f t (GT.addr n c) r := by
    simp only [insertFrom, GT.addr, hd]
  have hla' : findLeaf.descend C.cmp_internal t.heap (C.getKey r) (f + 1)
      (GT.addr (n + 1) (a, ks1 ++ ks2, cs1 ++ c :: cs2)) = some la := by
    simp only [GT.addr, hd]; exact hla
  refine ⟨la, hla', ?_⟩
  rw [hif]
  have hLL : GT.leafList (n + 1) (a, ks1 ++ ks2, cs1 ++ c :: cs2) =
      cs1.flatMap (GT.leafList n) ++ GT.leafList n c ++ cs2.flatMap (GT.leafList n) := by
    simp [GT.leafList]
  have hsubc : ∀ x ∈ GT.addrs n c, x ∈ GT.addrs (n + 1) (a, ks1 ++ ks2, cs1 ++ c :: cs2) := by
    intro x hx
    simp only [GT.addrs, List.mem_cons]
    exact Or.inr (List.mem_flatMap.2 ⟨c, by simp, hx⟩)
  have hch : nd.children[cs1.length]? = some (some (GT.addr n c)) := by
    rw [h6]
    exact pad_map_lookup (GT.addr n) 5 cs1 cs2 c
  have hdepth : ∀ x d, DepthTo t.heap (GT.addr n c) x d → DepthTo t.heap a x (d + 1) :=
    fun x d hx => DepthTo_prepend a (GT.addr n c) nd cs1.length h1 h2
      (by rw [h4, hcl]; simp) hch x d hx
  rcases hcase with ⟨h', c', e1, e2, e3, e4, e5, e6, e7, e8, e9, et, fk, fm, cd⟩ |
    ⟨h', cL, cR, sep, e1, e2, e3, e4, e4', e5, e5', e6, e6', e7, e8, e9, e10, et, fL, fR, fm,
      cp⟩
  · -- the child absorbed the record
    left
    obtain ⟨k1, k2, k3⟩ := kids_frame n t.heap h' a cs1 cs2 [c'] c hnd0 h11 e3
      (by simpa using e4) (by simpa using e6) (by simpa using e8) halt
    simp only [List.append_assoc, List.singleton_append] at k1 k2 k3
    have hnode : h'[a]? = some nd := by rw [e3 a halt hanc]; exact h1
    refine ⟨h', (a, ks1 ++ ks2, cs1 ++ c' :: cs2), e1, e2, ?_, ?_, ?_, k2, rfl, ?_, ?_, ?_,
      le_refl _, ?_, ?_⟩
    · intro y hy hyn
      exact e3 y hy (fun hm => hyn (hsubc y hm))
    · refine ⟨nd, hnode, h2, h3, h4, h5, ?_, h7, ?_, h9, h10, k1⟩
      · simp only [h6, List.map_append, List.map_cons, e7]
      · simp only [List.length_append, List.length_cons] at h8 ⊢; exact h8
    · exact Ord_replace_child n a ks1 ks2 cs1 cs2 c c' lo hi ho hcl e5
    · intro x hx
      simp only [GT.addrs, List.mem_cons] at hx ⊢
      rcases hx with rfl | hx
      · exact Or.inl (Or.inl rfl)
      · rcases k3 x hx with hx | hx
        · exact Or.inl (Or.inr hx)
        · exact Or.inr hx
    · have := LeafEffect.lift (cs1.flatMap (GT.leafList n)) (cs2.flatMap (GT.leafList n)) e9
      rw [hLL]
      simpa [GT.leafList] using this
    · have := perm_ctx (cs1.flatMap (GT.seps n)) (cs2.flatMap (GT.seps n)) (ks1 ++ ks2) _ _ _ et
      simpa [GT.seps] using this
    · intro hmf d hd
      simp only [MinFill] at hmf
      simp only [List.mem_append, List.mem_cons] at hd
      rcases hd with hd | rfl | hd
      · exact hmf d (by simp [hd])
      · have := hmf c (by simp)
        exact ⟨le_trans this.1 fk, fm this.2⟩
      · exact hmf d (by simp [hd])
    · intro lf hlf hfull
      obtain ⟨F, f1, f2, f3, f4, f5⟩ := cd lf hlf hfull
      refine ⟨F, f1, by omega, f3, f4, ?_⟩
      intro i x hx
      have hi : i < F := by
        rw [← f4]
        exact (List.getElem?_eq_some_iff.1 hx).1
      have := hdepth x _ (f5 i x hx)
      simp only [GT.addr] at this ⊢
      have e : n + 1 - i = n - i + 1 := by omega
      rw [e]
      exact this
  · -- the child was split
    obtain ⟨k1, k2, k3⟩ := kids_frame n t.heap h' a cs1 cs2 [cL, cR] c hnd0 h11 e3
      (by
        intro d hd
        simp only [List.mem_cons, List.mem_singleton, List.not_mem_nil, or_false] at hd
        rcases hd with rfl | rfl
        · exact e4
        · exact e4')
      (by simpa using e7) (by simpa using e9) halt
    simp only [List.append_assoc, List.cons_append, List.nil_append] at k1 k2 k3
    have hnode : h'[a]? = some nd := by rw [e3 a halt hanc]; exact h1
    obtain ⟨ov, kk1, kk2⟩ := Ord_insert_sep L n a ks1 ks2 cs1 cs2 c cL cR lo hi sep ho hcl
      e5 e5' e6 e6'
    have hfuel : t.heap.length + 1 - n = (t.heap.length + 1 - (n + 1)) + 1 := by omega
    rw [e1, hfuel]
    have hLE := LeafEffect.lift (cs1.flatMap (GT.leafList n)) (cs2.flatMap (GT.leafList n)) e10
    rw [← hLL] at hLE
    have hanot : a ∉ (cs1 ++ cL :: cR :: cs2).flatMap (GT.addrs n) := (List.nodup_cons.1 k2).1
    have hkf : MinFill (n + 1) (a, ks1 ++ ks2, cs1 ++ c :: cs2) →
        ∀ d ∈ cs1 ++ cL :: cR :: cs2, MINKEYS ≤ GT.numKeys n d ∧ MinFill n d := by
      intro hmf d hd
      simp only [MinFill] at hmf
      simp only [List.mem_append, List.mem_cons] at hd
      rcases hd with hd | rfl | rfl | hd
      · exact hmf d (by simp [hd])
      · exact ⟨fL, (fm (hmf c (by simp)).2).1⟩
      · exact ⟨fR, (fm (hmf c (by simp)).2).2⟩
      · exact hmf d (by simp [hd])
    obtain ⟨pre, p1, p2, p3⟩ := cp
    have hpre : ∀ i x, (pre ++ [GT.addr n cL])[i]? = some x →
        DepthTo t.heap a x (n + 1 - i) := by
      intro i x hx
      by_cases hi : i < pre.length
      · rw [List.getElem?_append_left hi] at hx
        have := hdepth x _ (p2 i x hx)
        have e : n + 1 - i = n - i + 1 := by omega
        rw [e]
        exact this
      · have hi' : i = pre.length := by
          have := (List.getElem?_eq_some_iff.1 hx).1
          simp only [List.length_append, List.length_singleton] at this
          omega
        rw [List.getElem?_append_right (by omega), hi', Nat.sub_self] at hx
        simp only [List.getElem?_cons_zero, Option.some.injEq] at hx
        rw [← hx, e8, hi', p1, Nat.add_sub_cancel_left]
        exact hdepth _ 0 DepthTo.root
    by_cases hroom : (ks1 ++ ks2).length < 4
    · left
      obtain ⟨h'', q1, q2, q3, q4, q5⟩ := parent_room L n h' t.root a par nd ks1 ks2 cs1 cs2 c
        cL cR sep (t.heap.length + 1 - (n + 1)) hnode h2 h3 h4 h5 h6 h7 hcl h8 hroom e8 k1
        hanot kk1 kk2
      obtain ⟨h0, z1, -⟩ := parent_room L n h' t.root a par nd ks1 ks2 cs1 cs2 c
        cL cR sep 0 hnode h2 h3 h4 h5 h6 h7 hcl h8 hroom e8 k1 hanot kk1 kk2
      have z2 := insertIntoParent_mono _ _ _ _ _ _ _ z1 (t.heap.length + 1 - (n + 1) + 1)
        (by omega)
      rw [q1] at z2
      rw [← z2] at z1
      refine ⟨h'', (a, ks1 ++ sep :: ks2, cs1 ++ cL :: cR :: cs2), q1, by omega, ?_, q3, ov, k2,
        rfl, ?_, ?_, ?_, ?_, ?_, ?_⟩
      · intro y hy hyn
        have hya : y ≠ a := by
          intro e; apply hyn; rw [e]; simp [GT.addrs]
        rw [q4 y hya]
        exact e3 y hy (fun hm => hyn (hsubc y hm))
      · intro x hx
        simp only [GT.addrs, List.mem_cons] at hx ⊢
        rcases hx with rfl | hx
        · exact Or.inl (Or.inl rfl)
        · rcases k3 x hx with hx | hx
          · exact Or.inl (Or.inr hx)
          · exact Or.inr hx
      · have := LeafEffect.later h'' hLE (by omega) (fun y _ => q5 y)
        simpa [GT.leafList] using this
      · have := perm_room (cs1.flatMap (GT.seps n)) (cs2.flatMap (GT.seps n)) ks1 ks2 _ _ _ _ sep et
        simpa [GT.seps] using this
      · simp [GT.numKeys]
      · intro hmf
        simp only [MinFill]
        exact hkf hmf
      · intro lf hlf hfull
        have c1 := (p3 1).1
        have c2 := (p3 1).2
        rw [lefts_one] at c2
        rw [Nat.add_comm 1 n] at c1 c2
        refine ⟨n + 1, by omega, le_refl _, ?_, ?_, ?_⟩
        · rw [c1, z1, q1]
        · rw [c2]; simp [p1]
        · intro i x hx
          rw [c2] at hx
          exact hpre i x hx
    · right
      have hfull : (ks1 ++ ks2).length = 4 := by
        simp only [MAXKEYS, ORDER] at h10; omega
      obtain ⟨lL, hlL1, hlL2⟩ := Rep_lookup n cL _ (k1 cL (by simp))
      obtain ⟨h'', t0, t1, t2, t3, t4, d0, d1, d2, d3, d4, d5, hks', hcs', q1, q2, q3, q4, q5,
        q6, q7⟩ := parent_full L n h' t.root a par nd ks1 ks2 cs1 cs2 c cL cR sep
          (t.heap.length + 1 - (n + 1)) hnode h2 h3 h4 h5 h6 h7 hcl h8 hfull e8 k1 k2 kk1 kk2
      rw [hks', hcs'] at ov
      obtain ⟨v1, v2, v3, v4⟩ := Ord_split_node n a h'.length t0 t1 t2 t3 t4 d0 d1 d2 d3 d4 d5
        lo hi ov
      have hkf' := hkf
      rw [hcs'] at k1 k2 k3 hkf'
      have hltd : ∀ x ∈ [d0, d1, d2, d3, d4, d5].flatMap (GT.addrs n), x < h'.length := by
        intro x hx
        obtain ⟨d, hd, hxd⟩ := List.mem_flatMap.1 hx
        exact Rep_addrs_lt n d _ (k1 d hd) x hxd
      refine ⟨h'', (a, [t0, t1], [d0, d1, d2]), (h'.length, [t3, t4], [d3, d4, d5]), t2, q1,
        by omega, ?_, q3, q4, v1, v2, v3, v4, ?_, rfl, ?_, ?_, ?_, by simp [GT.numKeys, MINKEYS,
          MAXKEYS, ORDER], by simp [GT.numKeys, MINKEYS, MAXKEYS, ORDER], ?_, ?_⟩
      · intro y hy hyn
        rw [q5 y (by omega) ?_]
        · exact e3 y hy (fun hm => hyn (hsubc y hm))
        · intro hm
          rw [hcs'] at hm
          rcases List.mem_cons.1 hm with e | hm
          · apply hyn; rw [e]; simp [GT.addrs]
          · rcases k3 y hm with hx | hx
            · apply hyn; simp only [GT.addrs, List.mem_cons]; exact Or.inr hx
            · omega
      · have e : GT.addrs (n + 1) (a, [t0, t1], [d0, d1, d2]) ++
            GT.addrs (n + 1) (h'.length, [t3, t4], [d3, d4, d5]) =
            (a :: [d0, d1, d2].flatMap (GT.addrs n)) ++
              (h'.length :: [d3, d4, d5].flatMap (GT.addrs n)) := rfl
        have e' : (a :: [d0, d1, d2].flatMap (GT.addrs n)) ++ [d3, d4, d5].flatMap (GT.addrs n) =
            a :: [d0, d1, d2, d3, d4, d5].flatMap (GT.addrs n) := by
          simp
        rw [e, List.perm_middle.nodup_iff, List.nodup_cons, e']
        refine ⟨?_, k2⟩
        intro hm
        rcases List.mem_cons.1 hm with e | hm
        · omega
        · have := hltd _ hm; omega
      · intro x hx
        simp only [GT.addrs, List.mem_append, List.mem_cons] at hx ⊢
        rcases hx with (rfl | hx) | (rfl | hx)
        · exact Or.inl (Or.inl rfl)
        · rcases k3 x (by
            simp only [List.flatMap_cons, List.flatMap_nil, List.append_nil, List.mem_append] at hx ⊢
            tauto) with hx | hx
          · exact Or.inl (Or.inr hx)
          · exact Or.inr hx
        · exact Or.inr e2
        · rcases k3 x (by
            simp only [List.flatMap_cons, List.flatMap_nil, List.append_nil, List.mem_append] at hx ⊢
            tauto) with hx | hx
          · exact Or.inl (Or.inr hx)
          · exact Or.inr hx
      · have := LeafEffect.later h'' hLE (by omega) q6
        have hl : cs1.flatMap (GT.leafList n) ++ (GT.leafList n cL ++ GT.leafList n cR) ++
            cs2.flatMap (GT.leafList n) =
            GT.leafList (n + 1) (a, [t0, t1], [d0, d1, d2]) ++
              GT.leafList (n + 1) (h'.length, [t3, t4], [d3, d4, d5]) := by
          have : (cs1 ++ cL :: cR :: cs2).flatMap (GT.leafList n) =
              [d0, d1, d2, d3, d4, d5].flatMap (GT.leafList n) := by rw [hcs']
          simp only [GT.leafList]
          simp only [List.flatMap_append, List.flatMap_cons, List.flatMap_nil,
            List.append_nil, List.append_assoc] at this ⊢
          exact this
        rw [hl] at this
        exact this
      · have p1 := perm_full ([d0, d1, d2].flatMap (GT.seps n)) ([d3, d4, d5].flatMap (GT.seps n))
          t0 t1 t2 t3 t4
        have e1' : [d0, d1, d2].flatMap (GT.seps n) ++ [d3, d4, d5].flatMap (GT.seps n) =
            (cs1 ++ cL :: cR :: cs2).flatMap (GT.seps n) := by
          rw [hcs']; simp
        rw [e1', ← hks'] at p1
        have p2 := perm_room (cs1.flatMap (GT.seps n)) (cs2.flatMap (GT.seps n)) ks1 ks2 _ _ _ _
          sep et
        have eg : GT.seps (n + 1) (a, ks1 ++ ks2, cs1 ++ c :: cs2) =
            cs1.flatMap (GT.seps n) ++ (GT.seps n c ++ cs2.flatMap (GT.seps n)) ++ (ks1 ++ ks2) := by
          simp [GT.seps]
        rw [eg]
        have p3 : ((cs1 ++ cL :: cR :: cs2).flatMap (GT.seps n) ++ (ks1 ++ sep :: ks2)).Perm
            (cs1.flatMap (GT.seps n) ++ (GT.seps n cL ++ (GT.seps n cR ++
              cs2.flatMap (GT.seps n))) ++ (ks1 ++ sep :: ks2)) := by
          simp
        exact (List.Perm.trans p1 p3).trans p2
      · intro hmf
        have hall := hkf' hmf
        constructor
        · intro d hd
          have hd' : d = d0 ∨ d = d1 ∨ d = d2 := by simpa using hd
          apply hall d
          rcases hd' with e | e | e <;> simp [e]
        · intro d hd
          have hd' : d = d3 ∨ d = d4 ∨ d = d5 := by simpa using hd
          apply hall d
          rcases hd' with e | e | e <;> simp [e]
      · refine ⟨pre ++ [GT.addr n cL], by simp [p1], hpre, ?_⟩
        intro F
        have c1 := (p3 (F + 1)).1
        have c2 := (p3 (F + 1)).2
        have s1 := insertIntoParent_full C.cmp_internal F { heap := h', root := t.root }
          (GT.addr n cL) (GT.addr n cR) a sep lL nd h'' t2 h'.length hlL1 hlL2 hnode
          (by rw [h4, hfull]) q7
        have s2 := lefts_full C.cmp_internal F { heap := h', root := t.root }
          (GT.addr n cL) (GT.addr n cR) a sep lL nd h'' t2 h'.length hlL1 hlL2 hnode
          (by rw [h4, hfull]) q7
        have ef : F + (n + 1) = F + 1 + n := by omega
        rw [ef, c1, c2, s1, s2]
        simp [GT.addr]

theorem insertFrom_spec {C : Capability V} (L : Lawful C) :
    ∀ (n : Nat) (g : GT V n) (t : Tree V) (par : Option Nat) (lo hi : Option V) (r : V)
      (fuel : Nat), Rep t.heap n g par → Ord C n g lo hi → (GT.addrs n g).Nodup →
      loLe C lo (C.getKey r) → ltHi C (C.getKey r) hi →
      (∀ x ∈ GT.recs n g, C.cmp_data (C.getKey r) x ≠ 0) → n + 1 ≤ fuel →
      n + 1 ≤ t.heap.length →
      ∃ la, findLeaf.descend C.cmp_internal t.heap (C.getKey r) fuel (GT.addr n g) = some la ∧
        (Absorbed C r t n g par lo hi la (insertFrom C fuel t (GT.addr n g) r) ∨
         SplitUp C r t n g par lo hi la (insertFrom C fuel t (GT.addr n g) r))
  | 0, g, t, par, lo, hi, r, fuel, hr, ho, _, hlo, hhi, hd, hf, _ =>
    insertFrom_leaf L g t par lo hi r fuel hr ho hlo hhi hd hf
  | n + 1, g, t, par, lo, hi, r, fuel, hr, ho, hn, hlo, hhi, hd, hf, hs =>
    insertFrom_node L n (insertFrom_spec L n) g t par lo hi r fuel hr ho hn hlo hhi hd hf hs

/-! ## The leaf chain -/

/-- The address a leaf followed by `rest` points to. -/
theorem Chain_cons (h : Heap V) (a : Nat) (rest : List Nat) (last : Option Nat) :
    Chain h (a :: rest) last ↔
      nextOf h a = some (match rest.head? with | some b => some b | none => last) ∧
        Chain h rest last := by
  cases rest with
  | nil => simp [Chain]
  | cons b rest => simp [Chain]

theorem Chain_congr (h h' : Heap V) (last : Option Nat) : ∀ (ls : List Nat),
    (∀ a ∈ ls, nextOf h' a = nextOf h a) → Chain h ls last → Chain h' ls last
  | [], _, _ => trivial
  | a :: rest, hf, hc => by
    rw [Chain_cons] at hc ⊢
    exact ⟨by rw [hf a (by simp)]; exact hc.1,
      Chain_congr h h' last rest (fun x hx => hf x (by simp [hx])) hc.2⟩

theorem Chain_insert (h h' : Heap V) (la nw : Nat) (last : Option Nat) (B : List Nat) :
    ∀ (A : List Nat), (∀ a ∈ A ++ B, nextOf h' a = nextOf h a) →
      nextOf h' la = some (some nw) → nextOf h' nw = nextOf h la →
      Chain h (A ++ la :: B) last → Chain h' (A ++ la :: nw :: B) last
  | [], hf, h1, h2, hc => by
    simp only [List.nil_append] at hc hf ⊢
    rw [Chain_cons] at hc
    rw [Chain_cons, Chain_cons]
    refine ⟨by simpa using h1, by rw [h2]; exact hc.1, Chain_congr h h' last B hf hc.2⟩
  | x :: A, hf, h1, h2, hc => by
    simp only [List.cons_append] at hc ⊢
    rw [Chain_cons] at hc ⊢
    refine ⟨?_, Chain_insert h h' la nw last B A (fun a ha => hf a (by
      simp only [List.cons_append, List.mem_cons]; exact Or.inr ha)) h1 h2 hc.2⟩
    rw [hf x (by simp)]
    have : (A ++ la :: nw :: B).head? = (A ++ la :: B).head? := by
      cases A <;> simp
    rw [this]
    exact hc.1

theorem Chain_LeafEffect {C : Capability V} {r : V} {h h' : Heap V} {la : Nat}
    {ll ll' : List (Nat × List V)} (hle : LeafEffect C r h h' la ll ll')
    (hnd : (ll.map Prod.fst).Nodup) (hlt : ∀ a ∈ ll.map Prod.fst, a < h.length)
    (hc : Chain h (ll.map Prod.fst) none) : Chain h' (ll'.map Prod.fst) none := by
  obtain ⟨l1, l2, rs, e, b1, b2, fr, hcase⟩ := hle
  subst e
  simp only [List.map_append, List.map_cons] at hnd hlt hc
  have hne : ∀ a ∈ l1.map Prod.fst ++ l2.map Prod.fst, nextOf h' a = nextOf h a := by
    intro a ha
    apply fr a (hlt a (by simp only [List.mem_append, List.mem_cons] at ha ⊢; tauto))
    rintro rfl
    rw [List.nodup_append] at hnd
    rcases List.mem_append.1 ha with ha | ha
    · exact hnd.2.2 ha (by simp)
    · exact (List.nodup_cons.1 hnd.2.1).1 ha
  rcases hcase with ⟨_, c2, c3⟩ | ⟨_, _, c2, c3, c4⟩
  · subst c2
    simp only [List.map_append, List.map_cons]
    apply Chain_congr h h' none _ _ hc
    intro a ha
    simp only [List.mem_append, List.mem_cons] at ha
    rcases ha with ha | rfl | ha
    · exact hne a (List.mem_append_left _ ha)
    · exact c3
    · exact hne a (List.mem_append_right _ ha)
  · subst c2
    simp only [List.map_append, List.map_cons]
    exact Chain_insert h h' la h.length none _ _ hne c3 c4 hc

/-! ## Sizes and leaf addresses -/

theorem nodup_length_le (l : List Nat) (m : Nat) (hnd : l.Nodup) (hlt : ∀ x ∈ l, x < m) :
    l.length ≤ m := by
  have hsub : l ⊆ List.range m := fun x hx => List.mem_range.2 (hlt x hx)
  have := (List.subperm_of_subset hnd hsub).length_le
  simpa using this

theorem addrs_length_ge {h : Heap V} : ∀ (n : Nat) (g : GT V n) (par : Option Nat),
    Rep h n g par → n + 1 ≤ (GT.addrs n g).length
  | 0, g, par, _ => by simp [GT.addrs]
  | n + 1, g, par, hr => by
    obtain ⟨nd, h1, h2, h3, h4, h5, h6, h7, h8, h9, h10, h11⟩ := hr
    obtain ⟨a, ks, cs⟩ := g
    simp only at h8 h11
    cases cs with
    | nil => simp at h8
    | cons c cs =>
      have := addrs_length_ge n c _ (h11 c (by simp))
      simp only [GT.addrs, List.flatMap_cons, List.length_cons, List.length_append]
      omega

theorem heap_size {h : Heap V} (n : Nat) (g : GT V n) (par : Option Nat)
    (hr : Rep h n g par) (hnd : (GT.addrs n g).Nodup) : n + 1 ≤ h.length :=
  le_trans (addrs_length_ge n g par hr)
    (nodup_length_le _ _ hnd (Rep_addrs_lt n g par hr))

theorem sublist_flatMap {α β : Type} (f g : α → List β) (hfg : ∀ x, (f x).Sublist (g x)) :
    ∀ l : List α, (l.flatMap f).Sublist (l.flatMap g)
  | [] => by simp
  | x :: l => by
    simp only [List.flatMap_cons]
    exact (hfg x).append (sublist_flatMap f g hfg l)

theorem leafAddrs_sublist : ∀ (n : Nat) (g : GT V n),
    ((GT.leafList n g).map Prod.fst).Sublist (GT.addrs n g)
  | 0, g => by simp [GT.leafList, GT.addrs]
  | n + 1, g => by
    simp only [GT.leafList, GT.addrs, List.map_flatMap]
    exact (sublist_flatMap _ _ (fun c => leafAddrs_sublist n c) _).trans
      (List.sublist_cons_self _ _)

/-! ## `Insert_BPlus` on a represented tree -/

theorem Insert_eq_insertFrom (C : Capability V) (t : Tree V) (root : Nat) (r : V)
    (hroot : t.root = some root) :
    Insert_BPlus C t r = insertFrom C t.heap.length t root r := by
  simp only [Insert_BPlus, hroot, findLeaf, insertFrom]
  cases findLeaf.descend C.cmp_internal t.heap (C.getKey r) t.heap.length root <;> rfl

theorem findLeaf_eq (C : Capability V) (t : Tree V) (root la : Nat) (k : V)
    (hroot : t.root = some root)
    (hd : findLeaf.descend C.cmp_internal t.heap k t.heap.length root = some la) :
    findLeaf C.cmp_internal t.heap t.root k = some (some la) := by
  simp [findLeaf, hroot, hd]

theorem Insert_dup {C : Capability V} (L : Lawful C) (t : Tree V) (n : Nat) (g : GT V n)
    (r : V) (hm : Model C t n g)
    (hd : ∃ x ∈ GT.recs n g, C.cmp_data (C.getKey r) x = 0) :
    Insert_BPlus C t r = some (status_code.FAILURE, t) := by
  obtain ⟨m1, m2, m3, m4, m5⟩ := hm
  have hsz := heap_size n g none m2 m4
  obtain ⟨la, rs, e1, e2, e3⟩ := descend_spec L n g t.heap none none none (C.getKey r)
    t.heap.length m2 m3 trivial trivial hsz
  obtain ⟨nd, l1, l2, l3, l4, l5, l6⟩ := leaf_of_Rep n g none m2 la rs e2
  obtain ⟨x, hx, hx0⟩ := hd
  have hx' : x ∈ rs := e3 x hx (by rw [← L.data]; exact hx0)
  rw [Insert_eq_insertFrom C t _ r m1]
  simp only [insertFrom, e1]
  exact atLeaf_dup C t la r nd rs l1 l4 l3 l6 ⟨x, hx', hx0⟩

theorem Insert_track {C : Capability V} (L : Lawful C) (t : Tree V) (n : Nat) (g : GT V n)
    (r : V) (hm : Model C t n g)
    (hd : ∀ x ∈ GT.recs n g, C.cmp_data (C.getKey r) x ≠ 0) :
    ∃ (t' : Tree V) (n' : Nat) (g' : GT V n') (la : Nat),
      Insert_BPlus C t r = some (status_code.SUCCESS, t') ∧ Model C t' n' g' ∧
      findLeaf C.cmp_internal t.heap t.root (C.getKey r) = some (some la) ∧
      LeafEffect C r t.heap t'.heap la (GT.leafList n g) (GT.leafList n' g') ∧
      ((n' = n ∧ t'.root = t.root) ∨
        (n' = n + 1 ∧ ∃ q, t'.root = some q ∧ t.heap.length ≤ q)) ∧
      (GT.seps n' g').Perm (leafCopies C t la r ++ GT.seps n g) ∧
      (MinFill n g → MinFill n' g') ∧
      ∀ lf, t.heap[la]? = some lf → ¬ lf.num_keys < MAXKEYS →
        ∃ F, 1 ≤ F ∧ F ≤ n + 1 ∧
          Insert_BPlus.parentCall C t la r F = Insert_BPlus C t r ∧
          (Insert_BPlus.parentLefts C t la r F).length = F ∧
          ∀ i x, (Insert_BPlus.parentLefts C t la r F)[i]? = some x →
            DepthTo t.heap (GT.addr n g) x (n - i) := by
  obtain ⟨m1, m2, m3, m4, m5⟩ := hm
  have hsz := heap_size n g none m2 m4
  have hlnd : ((GT.leafList n g).map Prod.fst).Nodup := m4.sublist (leafAddrs_sublist n g)
  have hllt : ∀ a ∈ (GT.leafList n g).map Prod.fst, a < t.heap.length := fun a ha =>
    Rep_addrs_lt n g none m2 a ((leafAddrs_sublist n g).subset ha)
  obtain ⟨la, e1, hcase⟩ := insertFrom_spec L n g t none none none r t.heap.length m2 m3 m4
    trivial trivial hd hsz hsz
  rw [← Insert_eq_insertFrom C t _ r m1] at hcase
  have hfl := findLeaf_eq C t _ la (C.getKey r) m1 e1
  rcases hcase with ⟨h', g', e1, e2, e3, e4, e5, e6, e7, e8, e9, et, -, fm, cd⟩ |
    ⟨h', gL, gR, sep, e1, e2, e3, e4, e4', e5, e5', e6, e6', e7, e8, e9, e10, et, fL, fR, fm,
      cp⟩
  · refine ⟨{ heap := h', root := t.root }, n, g', la, e1, ⟨?_, e4, e5, e6, ?_⟩, hfl, e9,
      Or.inl ⟨rfl, rfl⟩, et, fm, ?_⟩
    · simp only [m1, e7]
    · exact Chain_LeafEffect e9 hlnd hllt m5
    · intro lf hlf hfull
      obtain ⟨F, f1, f2, f3, f4, f5⟩ := cd lf hlf hfull
      exact ⟨F, f1, by omega, f3, f4, f5⟩
  · obtain ⟨f, hf⟩ : ∃ f, t.heap.length + 1 - n = f + 1 := ⟨t.heap.length - n, by omega⟩
    rw [hf] at e1
    obtain ⟨l, hl1, hl2⟩ := Rep_lookup n gL _ e4
    obtain ⟨rn, hr1, hr2⟩ := Rep_lookup n gR _ e4'
    have hne : GT.addr n gL ≠ GT.addr n gR := by
      intro e
      rw [List.nodup_append] at e7
      exact e7.2.2 (GT.addr_mem n gL) (e ▸ GT.addr_mem n gR)
    obtain ⟨h'', q1, q2, q3, q4, q5, q6⟩ := insertIntoParent_root C.cmp_internal f
      { heap := h', root := t.root } (GT.addr n gL) (GT.addr n gR) sep l rn hl1 hl2 hr1 hne
    simp only at q1 q2 q3 q4 q5 q6
    have hltL := Rep_addrs_lt n gL _ e4
    have hltR := Rep_addrs_lt n gR _ e4'
    have hnext : ∀ y, y < h'.length → nextOf h'' y = nextOf h' y := by
      intro y hy
      by_cases h1 : y = GT.addr n gL
      · subst h1; simp [nextOf, q4, hl1]
      · by_cases h2 : y = GT.addr n gR
        · subst h2; simp [nextOf, q5, hr1]
        · simp [nextOf, q6 y h1 h2 hy]
    have hLE := LeafEffect.later h'' e10 (by omega) hnext
    rw [List.nodup_append] at e7
    have repL : Rep h'' n gL (some h'.length) := by
      refine Rep_reparent n gL none _ e4 ?_ ?_ e7.1
      · intro x hx; rw [hl1] at hx; cases hx; exact q4
      · intro x hx hxne
        apply q6 x hxne ?_ (hltL x hx)
        intro e
        exact e7.2.2 hx (e ▸ GT.addr_mem n gR)
    have repR : Rep h'' n gR (some h'.length) := by
      refine Rep_reparent n gR none _ e4' ?_ ?_ e7.2.1
      · intro x hx; rw [hr1] at hx; cases hx; exact q5
      · intro x hx hxne
        apply q6 x ?_ hxne (hltR x hx)
        intro e
        exact e7.2.2 (e ▸ GT.addr_mem n gL) hx
    refine ⟨{ heap := h'', root := some h'.length }, n + 1, (h'.length, [sep], [gL, gR]), la,
      by rw [e1, q1], ⟨rfl, ?_, ?_, ?_, ?_⟩, hfl, ?_, Or.inr ⟨rfl, _, rfl, e2⟩, ?_, ?_, ?_⟩
    · refine ⟨_, q3, rfl, rfl, rfl, rfl, rfl, rfl, rfl, by simp, by simp [MAXKEYS, ORDER], ?_⟩
      intro c hc
      simp only [List.mem_cons, List.mem_singleton, List.not_mem_nil, or_false] at hc
      rcases hc with rfl | rfl
      · exact repL
      · exact repR
    · refine ⟨by simp, by simp [loLt, ltHi], ?_⟩
      simp only [OrdKids]
      exact ⟨e5, e5'⟩
    · simp only [GT.addrs, List.flatMap_cons, List.flatMap_nil, List.append_nil,
        List.nodup_cons, List.mem_append, not_or, List.nodup_append]
      refine ⟨⟨?_, ?_⟩, e7.1, e7.2.1, e7.2.2⟩
      · intro hm; have := hltL _ hm; omega
      · intro hm; have := hltR _ hm; omega
    · have : GT.leafList (n + 1) (h'.length, [sep], [gL, gR]) =
          GT.leafList n gL ++ GT.leafList n gR := by
        simp [GT.leafList]
      rw [this]
      exact Chain_LeafEffect hLE hlnd hllt m5
    · have : GT.leafList (n + 1) (h'.length, [sep], [gL, gR]) =
          GT.leafList n gL ++ GT.leafList n gR := by
        simp [GT.leafList]
      rw [this]
      exact hLE
    · refine List.Perm.trans ?_ et
      have : GT.seps (n + 1) (h'.length, [sep], [gL, gR]) =
          (GT.seps n gL ++ GT.seps n gR) ++ [sep] := by
        simp [GT.seps]
      rw [this]
      exact List.perm_append_singleton _ _
    · intro hmf
      simp only [MinFill]
      intro c hc
      simp only [List.mem_cons, List.mem_singleton, List.not_mem_nil, or_false] at hc
      rcases hc with rfl | rfl
      · exact ⟨fL, (fm hmf).1⟩
      · exact ⟨fR, (fm hmf).2⟩
    · intro lf hlf hfull
      obtain ⟨pre, p1, p2, p3⟩ := cp
      obtain ⟨h0, z1, -⟩ := insertIntoParent_root C.cmp_internal 0
        { heap := h', root := t.root } (GT.addr n gL) (GT.addr n gR) sep l rn hl1 hl2 hr1 hne
      have z2 := insertIntoParent_mono _ _ _ _ _ _ _ z1 (f + 1) (by omega)
      rw [q1] at z2
      rw [← z2] at z1
      have c1 := (p3 1).1
      have c2 := (p3 1).2
      rw [lefts_one] at c2
      rw [Nat.add_comm 1 n] at c1 c2
      refine ⟨n + 1, by omega, le_refl _, ?_, ?_, ?_⟩
      · rw [c1, z1, e1, q1]
      · rw [c2]; simp [p1]
      · intro i x hx
        rw [c2] at hx
        by_cases hi : i < pre.length
        · rw [List.getElem?_append_left hi] at hx
          exact p2 i x hx
        · have hi' : i = pre.length := by
            have := (List.getElem?_eq_some_iff.1 hx).1
            simp only [List.length_append, List.length_singleton] at this
            omega
          rw [List.getElem?_append_right (by omega), hi', Nat.sub_self] at hx
          simp only [List.getElem?_cons_zero, Option.some.injEq] at hx
          rw [← hx, e8, hi', p1, Nat.sub_self]
          exact DepthTo.root

theorem Insert_grow {C : Capability V} (L : Lawful C) (t : Tree V) (n : Nat) (g : GT V n)
    (r : V) (hm : Model C t n g)
    (hd : ∀ x ∈ GT.recs n g, C.cmp_data (C.getKey r) x ≠ 0) :
    ∃ (t' : Tree V) (n' : Nat) (g' : GT V n') (la : Nat),
      Insert_BPlus C t r = some (status_code.SUCCESS, t') ∧ Model C t' n' g' ∧
      findLeaf C.cmp_internal t.heap t.root (C.getKey r) = some (some la) ∧
      LeafEffect C r t.heap t'.heap la (GT.leafList n g) (GT.leafList n' g') ∧
      ((n' = n ∧ t'.root = t.root) ∨
        (n' = n + 1 ∧ ∃ q, t'.root = some q ∧ t.heap.length ≤ q)) ∧
      (GT.seps n' g').Perm (leafCopies C t la r ++ GT.seps n g) := by
  obtain ⟨t', n', g', la, e1, e2, e3, e4, e5, e6, _⟩ := Insert_track L t n g r hm hd
  exact ⟨t', n', g', la, e1, e2, e3, e4, e5, e6⟩

theorem Insert_nodup {C : Capability V} (L : Lawful C) (t : Tree V) (n : Nat) (g : GT V n)
    (r : V) (hm : Model C t n g)
    (hd : ∀ x ∈ GT.recs n g, C.cmp_data (C.getKey r) x ≠ 0) :
    ∃ (t' : Tree V) (n' : Nat) (g' : GT V n') (la : Nat),
      Insert_BPlus C t r = some (status_code.SUCCESS, t') ∧ Model C t' n' g' ∧
      findLeaf C.cmp_internal t.heap t.root (C.getKey r) = some (some la) ∧
      LeafEffect C r t.heap t'.heap la (GT.leafList n g) (GT.leafList n' g') ∧
      (n' = n ∨ n' = n + 1) := by
  obtain ⟨t', n', g', la, e1, e2, e3, e4, e5, _⟩ := Insert_grow L t n g r hm hd
  refine ⟨t', n', g', la, e1, e2, e3, e4, ?_⟩
  rcases e5 with ⟨h, _⟩ | ⟨h, _⟩
  · exact Or.inl h
  · exact Or.inr h

theorem Insert_empty (C : Capability V) (t : Tree V) (r : V) (hroot : t.root = none) :
    ∃ t', Insert_BPlus C t r = some (status_code.SUCCESS, t') ∧
      Model C t' 0 (t.heap.length, [r]) ∧ t.heap.length < t'.heap.length := by
  refine ⟨{ heap := t.heap ++ [{ keys := pad 4 [r], children := List.replicate 5 none,
                                 parent := none, next_leaf := none, num_keys := 1,
                                 is_leaf := true }], root := some t.heap.length }, ?_, ?_, ?_⟩
  · simp [Insert_BPlus, hroot, createGenericBPlusTreeNode, Heap.modify, pad, MAXKEYS,
      MAXCHILDREN, ORDER]
  · refine ⟨rfl, ⟨_, List.getElem?_concat_length _ _, rfl, rfl, rfl, rfl, rfl, by simp,
      by simp [MAXKEYS, ORDER]⟩, ⟨by simp, by simp [loLe, ltHi]⟩, by simp [GT.addrs], ?_⟩
    simp [GT.leafList, Chain, nextOf]
  · simp

/-! ## Traversal -/

theorem leafRecords_eq (nd : GenericBPlusTreeNode V) (rs : List V)
    (hk : nd.keys = pad 4 rs) (hn : nd.num_keys = rs.length) (hlen : rs.length ≤ 4) :
    leafRecords nd (nd.num_keys + 1) 0 = some rs := by
  rcases rs with _ | ⟨a, _ | ⟨b, _ | ⟨c, _ | ⟨e, _ | ⟨f, rs⟩⟩⟩⟩⟩
  · simp [leafRecords, hk, hn, pad]
  · simp [leafRecords, hk, hn, pad]
  · simp [leafRecords, hk, hn, pad]
  · simp [leafRecords, hk, hn, pad]
  · simp [leafRecords, hk, hn, pad]
  · simp at hlen

theorem leftmostLeaf_eq {h : Heap V} : ∀ (n : Nat) (g : GT V n) (par : Option Nat) (fuel : Nat),
    Rep h n g par → n + 1 ≤ fuel →
    ∃ e rest, GT.leafList n g = e :: rest ∧
      leftmostLeaf h fuel (some (GT.addr n g)) = some (some e.1)
  | 0, g, par, fuel, hr, hf => by
    obtain ⟨nd, h1, h2, _⟩ := hr
    obtain ⟨f, rfl⟩ : ∃ f, fuel = f + 1 := ⟨fuel - 1, by omega⟩
    exact ⟨(g.1, g.2), [], rfl, by simp [leftmostLeaf, GT.addr, h1, h2]⟩
  | n + 1, g, par, fuel, hr, hf => by
    obtain ⟨nd, h1, h2, h3, h4, h5, h6, h7, h8, h9, h10, h11⟩ := hr
    obtain ⟨f, rfl⟩ : ∃ f, fuel = f + 1 := ⟨fuel - 1, by omega⟩
    obtain ⟨a, ks, cs⟩ := g
    simp only at h1 h6 h8 h11
    cases cs with
    | nil => simp at h8
    | cons c cs =>
      obtain ⟨e, rest, e1, e2⟩ := leftmostLeaf_eq n c _ f (h11 c (by simp)) (by omega)
      refine ⟨e, rest ++ cs.flatMap (GT.leafList n), by simp [GT.leafList, e1], ?_⟩
      have hch : nd.children[0]? = some (some (GT.addr n c)) := by
        rw [h6]; simp [pad]
      simp only [leftmostLeaf, GT.addr, h1, h2, hch]
      exact e2

theorem walkChain_eq (h : Heap V) : ∀ (ll : List (Nat × List V)) (fuel : Nat),
    (∀ e ∈ ll, ∃ nd, h[e.1]? = some nd ∧ nd.num_keys = e.2.length ∧ nd.keys = pad 4 e.2 ∧
      e.2.length ≤ 4) →
    Chain h (ll.map Prod.fst) none → ll.length + 1 ≤ fuel →
    walkChain h fuel ((ll.map Prod.fst).head?) = some (ll.flatMap (fun l => l.2))
  | [], fuel, _, _, hf => by
    obtain ⟨f, rfl⟩ : ∃ f, fuel = f + 1 := ⟨fuel - 1, by omega⟩
    simp [walkChain]
  | e :: rest, fuel, hnode, hc, hf => by
    obtain ⟨f, rfl⟩ : ∃ f, fuel = f + 1 := ⟨fuel - 1, by omega⟩
    obtain ⟨nd, h1, h2, h3, h4⟩ := hnode e (by simp)
    simp only [List.map_cons] at hc
    rw [Chain_cons] at hc
    have hnext : nd.next_leaf = (rest.map Prod.fst).head? := by
      have := hc.1
      simp only [nextOf, h1, Option.map_some', Option.some.injEq] at this
      rw [this]
      cases (rest.map Prod.fst).head? <;> rfl
    have ih := walkChain_eq h rest f (fun x hx => hnode x (by simp [hx])) hc.2
      (by simp only [List.length_cons] at hf; omega)
    simp only [List.map_cons, List.head?_cons, walkChain, h1, leafRecords_eq nd e.2 h3 h2 h4,
      hnext, ih, List.flatMap_cons]

theorem extractToList_eq {C : Capability V} (t : Tree V) (n : Nat) (g : GT V n)
    (hm : Model C t n g) : extractToList t = some (GT.recs n g) := by
  obtain ⟨m1, m2, m3, m4, m5⟩ := hm
  have hsz := heap_size n g none m2 m4
  obtain ⟨e, rest, e1, e2⟩ := leftmostLeaf_eq n g none (t.heap.length + 1) m2 (by omega)
  have hlnd : ((GT.leafList n g).map Prod.fst).Nodup := m4.sublist (leafAddrs_sublist n g)
  have hllt : ∀ a ∈ (GT.leafList n g).map Prod.fst, a < t.heap.length := fun a ha =>
    Rep_addrs_lt n g none m2 a ((leafAddrs_sublist n g).subset ha)
  have hlen : (GT.leafList n g).length ≤ t.heap.length := by
    have := nodup_length_le _ _ hlnd hllt
    simpa using this
  have hw := walkChain_eq t.heap (GT.leafList n g) (t.heap.length + 1)
    (fun x hx => by
      obtain ⟨nd, l1, l2, l3, l4, l5, l6⟩ := leaf_of_Rep n g none m2 x.1 x.2 hx
      exact ⟨nd, l1, l3, l4, l6⟩) m5 (by omega)
  rw [e1] at hw
  simp only [List.map_cons, List.head?_cons] at hw
  simp only [extractToList, m1, e2, hw, GT.recs, e1]

/-! ## Search -/

theorem leaf_sorted {C : Capability V} : ∀ (n : Nat) (g : GT V n) (lo hi : Option V),
    Ord C n g lo hi → ∀ la rs, (la, rs) ∈ GT.leafList n g →
      rs.Pairwise (fun a b => klt C (C.getKey a) (C.getKey b))
  | 0, g, lo, hi, ho, la, rs, hm => by
    simp only [GT.leafList, List.mem_singleton, Prod.mk.injEq] at hm
    obtain ⟨_, rfl⟩ := hm
    exact ho.1
  | n + 1, g, lo, hi, ho, la, rs, hm => by
    simp only [GT.leafList, List.mem_flatMap] at hm
    obtain ⟨c, hc, hm⟩ := hm
    obtain ⟨l, u, hp, _⟩ := OrdKids_mem (Ord C n) _ _ lo hi ho.2.2 c hc
    exact leaf_sorted n c l u hp la rs hm

theorem leaf_recs_subset (n : Nat) (g : GT V n) (la : Nat) (rs : List V)
    (hm : (la, rs) ∈ GT.leafList n g) : ∀ x ∈ rs, x ∈ GT.recs n g := by
  intro x hx
  exact List.mem_flatMap.2 ⟨(la, rs), hm, hx⟩

theorem Search_spec {C : Capability V} (L : Lawful C) (t : Tree V) (n : Nat) (g : GT V n)
    (hm : Model C t n g) (k : V) :
    ∃ la rs, findLeaf C.cmp_internal t.heap t.root k = some (some la) ∧
      (la, rs) ∈ GT.leafList n g ∧
      (∀ x ∈ GT.recs n g, C.cmp_internal k (C.getKey x) = 0 → x ∈ rs) ∧
      Search_BPlus C t k = some (rs.find? (fun d => decide (C.cmp_data k d = 0))) := by
  obtain ⟨m1, m2, m3, m4, m5⟩ := hm
  have hsz := heap_size n g none m2 m4
  obtain ⟨la, rs, e1, e2, e3⟩ := descend_spec L n g t.heap none none none k
    t.heap.length m2 m3 trivial trivial hsz
  obtain ⟨nd, l1, l2, l3, l4, l5, l6⟩ := leaf_of_Rep n g none m2 la rs e2
  have hfl := findLeaf_eq C t _ la k m1 e1
  refine ⟨la, rs, hfl, e2, e3, ?_⟩
  simp only [Search_BPlus, hfl, l1, Search_scan_eq C.cmp_data k nd rs l4 l3 l6]
  simp only [m1]

theorem Search_found {C : Capability V} (L : Lawful C) (t : Tree V) (n : Nat) (g : GT V n)
    (hm : Model C t n g) (r : V) (hr : r ∈ GT.recs n g) :
    Search_BPlus C t (C.getKey r) = some (some r) := by
  obtain ⟨la, rs, _, e2, e3, e4⟩ := Search_spec L t n g hm (C.getKey r)
  have hrs : r ∈ rs := e3 r hr (L.refl _)
  have hsorted := leaf_sorted n g none none hm.2.2.1 la rs e2
  rw [e4]
  have hp : (fun d => decide (C.cmp_data (C.getKey r) d = 0)) r = true := by
    simp [L.data, L.refl]
  cases hf : rs.find? (fun d => decide (C.cmp_data (C.getKey r) d = 0)) with
  | none =>
    rw [List.find?_eq_none] at hf
    exact absurd hp (hf r hrs)
  | some d =>
    have hd1 := List.find?_some hf
    have hd2 := List.mem_of_find?_eq_some hf
    simp only [L.data, decide_eq_true_eq] at hd1
    by_cases hdr : d = r
    · rw [hdr]
    · exfalso
      have := List.Pairwise.forall_of_forall_of_flip (l := rs)
        (R := fun a b => a ≠ b → klt C (C.getKey a) (C.getKey b) ∨
          klt C (C.getKey b) (C.getKey a))
        (fun x _ hxx => absurd rfl hxx)
        (hsorted.imp (fun hab _ => Or.inl hab))
        (hsorted.imp (fun hab _ => Or.inr hab)) hd2 hrs hdr
      simp only [klt] at this
      rcases this with h1 | h1
      · have := L.eq_symm hd1; omega
      · omega

theorem Search_absent {C : Capability V} (L : Lawful C) (t : Tree V) (n : Nat) (g : GT V n)
    (hm : Model C t n g) (k : V) (hk : ∀ x ∈ GT.recs n g, C.cmp_data k x ≠ 0) :
    Search_BPlus C t k = some none := by
  obtain ⟨la, rs, _, e2, _, e4⟩ := Search_spec L t n g hm k
  rw [e4, List.find?_eq_none.2]
  intro x hx
  simpa using hk x (leaf_recs_subset n g la rs e2 x hx)

/-! ## Reachable trees satisfy the invariant -/

theorem Reachable_Inv {C : Capability V} (L : Lawful C) (t : Tree V) (hr : Reachable C t) :
    Inv C t := by
  induction hr with
  | empty h => exact Or.inl rfl
  | insert t t' r sc _ hins ih =>
    rcases ih with hroot | ⟨n, g, hm⟩
    · obtain ⟨t'', e1, e2, _⟩ := Insert_empty C t r hroot
      rw [e1] at hins
      cases hins
      exact Or.inr ⟨0, _, e2⟩
    · by_cases hd : ∃ x ∈ GT.recs n g, C.cmp_data (C.getKey r) x = 0
      · rw [Insert_dup L t n g r hm hd] at hins
        cases hins
        exact Or.inr ⟨n, g, hm⟩
      · push_neg at hd
        obtain ⟨t'', n', g', la, e1, e2, _⟩ := Insert_nodup L t n g r hm hd
        rw [e1] at hins
        cases hins
        exact Or.inr ⟨n', g', e2⟩

/-! ## Paths from the root and ghost subtrees -/

theorem pad_lookup_some {α : Type} (m : Nat) (l : List α) (i : Nat) (x : α)
    (h : (pad m l)[i]? = some (some x)) : l[i]? = some x := by
  unfold pad at h
  by_cases hi : i < l.length
  · rw [List.getElem?_append_left (by simpa using hi)] at h
    rw [List.getElem?_map] at h
    cases hl : l[i]? with
    | none => rw [hl] at h; cases h
    | some y => rw [hl] at h; simpa using h
  · rw [List.getElem?_append_right (by simpa using hi)] at h
    rw [List.getElem?_replicate] at h
    split_ifs at h
    cases h

theorem depth_sub {C : Capability V} {h : Heap V} (n : Nat) (g : GT V n) (par : Option Nat)
    (lo hi : Option V) (hr : Rep h n g par) (ho : Ord C n g lo hi) (q d : Nat)
    (hp : DepthTo h (GT.addr n g) q d) :
    ∃ (m : Nat) (s : GT V m) (par' : Option Nat) (lo' hi' : Option V),
      m + d = n ∧ GT.addr m s = q ∧ Rep h m s par' ∧ Ord C m s lo' hi' ∧
      ∀ e ∈ GT.leafList m s, e ∈ GT.leafList n g := by
  induction hp with
  | root => exact ⟨n, g, par, lo, hi, rfl, rfl, hr, ho, fun e he => he⟩
  | child p c d i nd _ hnd hleaf hi' hch ih =>
    obtain ⟨m, s, par', lo', hi'', e1, e2, e3, e4, e5⟩ := ih
    cases m with
    | zero =>
      obtain ⟨nd', h1, h2, _⟩ := e3
      simp only [GT.addr] at e2
      rw [e2, hnd] at h1
      cases h1
      rw [hleaf] at h2
      cases h2
    | succ m =>
      obtain ⟨nd', h1, h2, h3, h4, h5, h6, h7, h8, h9, h10, h11⟩ := e3
      simp only [GT.addr] at e2
      rw [e2, hnd] at h1
      cases h1
      have hc := pad_lookup_some _ _ _ _ (h6 ▸ hch)
      rw [List.getElem?_map] at hc
      cases hcs : s.2.2[i]? with
      | none => rw [hcs] at hc; cases hc
      | some cg =>
        rw [hcs] at hc
        simp only [Option.map_some', Option.some.injEq] at hc
        have hmem : cg ∈ s.2.2 := List.getElem?_mem hcs
        obtain ⟨l, u, hpo, _⟩ := OrdKids_mem (Ord C m) _ _ lo' hi'' e4.2.2 cg hmem
        refine ⟨m, cg, some s.1, l, u, by omega, hc, h11 cg hmem, hpo, ?_⟩
        intro e he
        apply e5
        simp only [GT.leafList, List.mem_flatMap]
        exact ⟨cg, hmem, he⟩

theorem leaf_depth {h : Heap V} : ∀ (n : Nat) (g : GT V n) (par : Option Nat),
    Rep h n g par → ∀ la rs, (la, rs) ∈ GT.leafList n g → DepthTo h (GT.addr n g) la n
  | 0, g, par, _, la, rs, hm => by
    simp only [GT.leafList, List.mem_singleton, Prod.mk.injEq] at hm
    obtain ⟨rfl, _⟩ := hm
    exact DepthTo.root
  | n + 1, g, par, hr, la, rs, hm => by
    obtain ⟨nd, h1, h2, h3, h4, h5, h6, h7, h8, h9, h10, h11⟩ := hr
    simp only [GT.leafList, List.mem_flatMap] at hm
    obtain ⟨c, hc, hm⟩ := hm
    have ih := leaf_depth n c _ (h11 c hc) la rs hm
    obtain ⟨i, hi, hci⟩ := List.getElem_of_mem hc
    have hch : nd.children[i]? = some (some (GT.addr n c)) := by
      rw [h6]
      simp only [pad, List.getElem?_append, List.length_map, hi, if_true, List.getElem?_map]
      simp [List.getElem?_eq_getElem hi, hci]
    exact DepthTo_prepend g.1 (GT.addr n c) nd i h1 h2 (by omega) hch la n ih

theorem StoredBelow_iff {C : Capability V} {h : Heap V} (n : Nat) (g : GT V n)
    (par : Option Nat) (lo hi : Option V) (hr : Rep h n g par) (ho : Ord C n g lo hi) (x : V) :
    StoredBelow h (GT.addr n g) x ↔ x ∈ GT.recs n g := by
  constructor
  · rintro ⟨q, d, nd, i, hp, hq, hl, hi', hk⟩
    obtain ⟨m, s, par', lo', hi'', e1, e2, e3, e4, e5⟩ := depth_sub n g par lo hi hr ho q d hp
    cases m with
    | succ m =>
      obtain ⟨nd', h1, h2, _⟩ := e3
      simp only [GT.addr] at e2
      rw [e2, hq] at h1
      cases h1
      rw [hl] at h2
      cases h2
    | zero =>
      obtain ⟨nd', h1, h2, h3, h4, h5, _⟩ := e3
      simp only [GT.addr] at e2
      rw [e2, hq] at h1
      cases h1
      have := pad_lookup_some _ _ _ _ (h5 ▸ hk)
      have hx : x ∈ s.2 := List.getElem?_mem this
      exact List.mem_flatMap.2 ⟨(s.1, s.2), e5 _ (by simp [GT.leafList]), hx⟩
  · intro hx
    obtain ⟨⟨la, rs⟩, he, hxe⟩ := List.mem_flatMap.1 hx
    simp only at hxe
    obtain ⟨nd, l1, l2, l3, l4, l5, l6⟩ := leaf_of_Rep n g par hr la rs he
    obtain ⟨i, hi', hxi⟩ := List.getElem_of_mem hxe
    refine ⟨la, n, nd, i, leaf_depth n g par hr la rs he, l1, l2, by omega, ?_⟩
    rw [l4]
    simp only [pad, List.getElem?_append, List.length_map, hi', if_true, List.getElem?_map]
    simp [List.getElem?_eq_getElem hi', hxi]

theorem Stored_iff {C : Capability V} (t : Tree V) (n : Nat) (g : GT V n)
    (hm : Model C t n g) (x : V) : Stored t x ↔ x ∈ GT.recs n g := by
  obtain ⟨m1, m2, m3, _, _⟩ := hm
  rw [← StoredBelow_iff n g none none none m2 m3 x]
  constructor
  · rintro ⟨root, h1, h2⟩
    rw [m1] at h1
    cases h1
    exact h2
  · intro h
    exact ⟨_, m1, h⟩

theorem Stored_empty (t : Tree V) (hroot : t.root = none) (x : V) : ¬ Stored t x := by
  rintro ⟨root, h1, _⟩
  rw [hroot] at h1
  cases h1

/-! ## Records of the tree: order and effect of an insertion -/

theorem insAt_perm {α : Type} (i : Nat) (d : α) (l : List α) : (insAt i d l).Perm (d :: l) := by
  unfold insAt
  refine List.perm_middle.trans ?_
  rw [List.take_append_drop]

theorem LeafEffect_perm {C : Capability V} {r : V} {h h' : Heap V} {la : Nat}
    {ll ll' : List (Nat × List V)} (he : LeafEffect C r h h' la ll ll') :
    (ll'.flatMap (fun l => l.2)).Perm (r :: ll.flatMap (fun l => l.2)) := by
  obtain ⟨l1, l2, rs, rfl, _, _, _, hc⟩ := he
  have hp : (sortedIns C r rs).Perm (r :: rs) := insAt_perm _ r rs
  rcases hc with ⟨_, rfl, _⟩ | ⟨_, _, rfl, _⟩
  · simp only [List.flatMap_append, List.flatMap_cons]
    refine ((List.Perm.append_right _ hp).append_left _).trans ?_
    simp only [List.cons_append]
    exact List.perm_middle
  · simp only [List.flatMap_append, List.flatMap_cons]
    rw [← List.append_assoc (List.take 3 _), List.take_append_drop]
    refine ((List.Perm.append_right _ hp).append_left _).trans ?_
    simp only [List.cons_append]
    exact List.perm_middle

theorem kids_sorted {C : Capability V} (L : Lawful C) (n : Nat)
    (ih : ∀ (c : GT V n) (lo hi : Option V), Ord C n c lo hi →
      (GT.recs n c).Pairwise (fun a b => klt C (C.getKey a) (C.getKey b))) :
    ∀ (ks : List V) (cs : List (GT V n)) (lo hi : Option V), ks.Pairwise (klt C) →
      (∀ k ∈ ks, loLt C lo k ∧ ltHi C k hi) → OrdKids (Ord C n) lo ks cs hi →
      (cs.flatMap (GT.recs n)).Pairwise (fun a b => klt C (C.getKey a) (C.getKey b))
  | [], [], _, _, _, _, h => by simp [OrdKids] at h
  | [], [c], lo, hi, _, _, h => by
    simp only [OrdKids] at h
    simpa using ih c lo hi h
  | [], _ :: _ :: _, _, _, _, _, h => by simp [OrdKids] at h
  | _ :: _, [], _, _, _, _, h => by simp [OrdKids] at h
  | k :: ks, c :: cs, lo, hi, hp, hb, h => by
    simp only [OrdKids] at h
    obtain ⟨h1, h2⟩ := h
    rw [List.pairwise_cons] at hp
    have hb' : ∀ k' ∈ ks, loLt C (some k) k' ∧ ltHi C k' hi := fun k' hk' =>
      ⟨hp.1 k' hk', (hb k' (List.mem_cons_of_mem _ hk')).2⟩
    have hrest := kids_sorted L n ih ks cs (some k) hi hp.2 hb' h2
    have hord : Ord C (n + 1) (0, ks, cs) (some k) hi := ⟨hp.2, hb', h2⟩
    rw [List.flatMap_cons, List.pairwise_append]
    refine ⟨ih c lo (some k) h1, hrest, ?_⟩
    intro a ha b hb2
    have ha' := (Ord_recs_bounds L n c lo (some k) h1 a ha).2
    have hb3 := (Ord_recs_bounds L (n + 1) (0, ks, cs) (some k) hi hord b
      (by rw [GT.recs_succ]; exact hb2)).1
    exact L.lt_of_lt_of_le ha' hb3

theorem recs_sorted {C : Capability V} (L : Lawful C) : ∀ (n : Nat) (g : GT V n)
    (lo hi : Option V), Ord C n g lo hi →
      (GT.recs n g).Pairwise (fun a b => klt C (C.getKey a) (C.getKey b))
  | 0, g, _, _, h => by
    rw [GT.recs_zero]
    exact h.1
  | n + 1, g, lo, hi, h => by
    rw [GT.recs_succ]
    exact kids_sorted L n (recs_sorted L n) g.2.1 g.2.2 lo hi h.1 h.2.1 h.2.2

theorem OrdKids_index {T : Type} (P : T → Option V → Option V → Prop) :
    ∀ (ks : List V) (cs : List T) (lo hi : Option V) (i : Nat) (k : V),
      OrdKids P lo ks cs hi → ks[i]? = some k →
      ∃ cl cr l u, cs[i]? = some cl ∧ cs[i + 1]? = some cr ∧ P cl l (some k) ∧ P cr (some k) u
  | [], _, _, _, _, _, _, hk => by simp at hk
  | _ :: _, [], _, _, _, _, h, _ => by simp [OrdKids] at h
  | k0 :: ks, c :: cs, lo, hi, 0, k, h, hk => by
    simp only [OrdKids] at h
    simp only [List.getElem?_cons_zero, Option.some.injEq] at hk
    subst hk
    obtain ⟨h1, h2⟩ := h
    cases ks with
    | nil =>
      cases cs with
      | nil => simp [OrdKids] at h2
      | cons c' cs' =>
        cases cs' with
        | nil => exact ⟨c, c', lo, hi, rfl, by simp, h1, by simpa [OrdKids] using h2⟩
        | cons _ _ => simp [OrdKids] at h2
    | cons k1 ks' =>
      cases cs with
      | nil => simp [OrdKids] at h2
      | cons c' cs' =>
        simp only [OrdKids] at h2
        exact ⟨c, c', lo, some k1, rfl, by simp, h1, h2.1⟩
  | k0 :: ks, c :: cs, lo, hi, i + 1, k, h, hk => by
    simp only [OrdKids] at h
    simp only [List.getElem?_cons_succ] at hk
    obtain ⟨cl, cr, l, u, e1, e2, e3, e4⟩ := OrdKids_index P ks cs (some k0) hi i k h.2 hk
    exact ⟨cl, cr, l, u, by simpa using e1, by simpa using e2, e3, e4⟩

/-! ## One call of `Insert_BPlus` on a tree that satisfies the invariant -/

theorem Inv_content {C : Capability V} (L : Lawful C) (t : Tree V) (hi : Inv C t) :
    ∃ l, extractToList t = some l ∧ (∀ x, Stored t x ↔ x ∈ l) ∧
      l.Pairwise (fun a b => klt C (C.getKey a) (C.getKey b)) := by
  rcases hi with hroot | ⟨n, g, hm⟩
  · refine ⟨[], by simp [extractToList, hroot], ?_, List.Pairwise.nil⟩
    intro x
    simpa using Stored_empty t hroot x
  · exact ⟨GT.recs n g, extractToList_eq t n g hm, Stored_iff t n g hm, recs_sorted L n g _ _ hm.2.2.1⟩

theorem Insert_step {C : Capability V} (L : Lawful C) (t : Tree V) (hi : Inv C t) (r : V)
    (l : List V) (hl : extractToList t = some l) :
    ((∃ x ∈ l, C.cmp_data (C.getKey r) x = 0) ∧
        Insert_BPlus C t r = some (status_code.FAILURE, t)) ∨
    ((∀ x ∈ l, C.cmp_data (C.getKey r) x ≠ 0) ∧ ∃ t' l',
        Insert_BPlus C t r = some (status_code.SUCCESS, t') ∧ Inv C t' ∧
        extractToList t' = some l' ∧ l'.Perm (r :: l)) := by
  rcases hi with hroot | ⟨n, g, hm⟩
  · have : l = [] := by
      simp only [extractToList, hroot, Option.some.injEq] at hl
      exact hl.symm
    subst this
    obtain ⟨t', e1, e2, _⟩ := Insert_empty C t r hroot
    refine Or.inr ⟨by simp, t', [r], e1, Or.inr ⟨0, _, e2⟩, ?_, List.Perm.refl _⟩
    rw [extractToList_eq t' 0 _ e2, GT.recs_zero]
  · rw [extractToList_eq t n g hm] at hl
    cases hl
    by_cases hd : ∃ x ∈ GT.recs n g, C.cmp_data (C.getKey r) x = 0
    · exact Or.inl ⟨hd, Insert_dup L t n g r hm hd⟩
    · push_neg at hd
      obtain ⟨t', n', g', la, e1, e2, _, e4, _⟩ := Insert_nodup L t n g r hm hd
      exact Or.inr ⟨hd, t', GT.recs n' g', e1, Or.inr ⟨n', g', e2⟩,
        extractToList_eq t' n' g' e2, LeafEffect_perm e4⟩

theorem Search_mem {C : Capability V} (L : Lawful C) (t : Tree V) (hi : Inv C t)
    (l : List V) (hl : extractToList t = some l) (r : V) (hr : r ∈ l) :
    Search_BPlus C t (C.getKey r) = some (some r) := by
  rcases hi with hroot | ⟨n, g, hm⟩
  · simp only [extractToList, hroot, Option.some.injEq] at hl
    subst hl
    simp at hr
  · rw [extractToList_eq t n g hm] at hl
    cases hl
    exact Search_found L t n g hm r hr

theorem Search_not_mem {C : Capability V} (L : Lawful C) (t : Tree V) (hi : Inv C t)
    (k : V) (hk : ∀ x, Stored t x → C.cmp_data k x ≠ 0) :
    Search_BPlus C t k = some none := by
  rcases hi with hroot | ⟨n, g, hm⟩
  · simp [Search_BPlus, hroot]
  · exact Search_absent L t n g hm k (fun x hx => hk x ((Stored_iff t n g hm x).2 hx))

/-! ## Sequences of insertions -/

theorem insertLog_spec {C : Capability V} (L : Lawful C) : ∀ (rs : List V) (t : Tree V)
    (l : List V), Reachable C t → extractToList t = some l →
    ∃ t' ok l', insertLog C t rs = some (t', ok) ∧ insertAll C t rs = some t' ∧
      Reachable C t' ∧ extractToList t' = some l' ∧ l'.Perm (ok ++ l) ∧
      ((∀ r ∈ rs, ∀ x ∈ l, C.cmp_data (C.getKey r) x ≠ 0) →
        rs.Pairwise (fun a b => C.cmp_internal (C.getKey a) (C.getKey b) ≠ 0) → ok = rs)
  | [], t, l, hr, hl => ⟨t, [], l, rfl, rfl, hr, hl, List.Perm.refl _, fun _ _ => rfl⟩
  | r :: rs, t, l, hr, hl => by
    rcases Insert_step L t (Reachable_Inv L t hr) r l hl with ⟨hd, e⟩ | ⟨hd, t1, l1, e, _, hl1, hp⟩
    · obtain ⟨t', ok, l', e1, e2, e3, e4, e5, _⟩ := insertLog_spec L rs t l hr hl
      refine ⟨t', ok, l', ?_, ?_, e3, e4, e5, ?_⟩
      · simp [insertLog, e, e1]
      · simp [insertAll, e, e2]
      · intro h1 _
        obtain ⟨x, hx, hx0⟩ := hd
        exact (h1 r (List.mem_cons_self _ _) x hx hx0).elim
    · have hr1 : Reachable C t1 := Reachable.insert t t1 r _ hr e
      obtain ⟨t', ok, l', e1, e2, e3, e4, e5, e6⟩ := insertLog_spec L rs t1 l1 hr1 hl1
      refine ⟨t', r :: ok, l', ?_, ?_, e3, e4, ?_, ?_⟩
      · simp [insertLog, e, e1]
      · simp [insertAll, e, e2]
      · refine e5.trans ?_
        refine (List.Perm.append_left ok hp).trans ?_
        simp only [List.cons_append]
        exact List.perm_middle
      · intro h1 h2
        rw [List.pairwise_cons] at h2
        rw [e6 ?_ h2.2]
        intro r' hr' x hx
        rcases List.mem_cons.1 (hp.subset hx) with rfl | hx
        · rw [L.data]
          intro h0
          exact h2.1 r' hr' (L.eq_symm h0)
        · exact h1 r' (List.mem_cons_of_mem _ hr') x hx

/-! ## The call of `insertIntoParent` made by a leaf split -/

theorem Insert_split_call {C : Capability V} (L : Lawful C) (t : Tree V) (n : Nat)
    (g : GT V n) (r : V) (la : Nat) (rs : List V) (nd : GenericBPlusTreeNode V)
    (hm : Model C t n g)
    (hfl : findLeaf C.cmp_internal t.heap t.root (C.getKey r) = some (some la))
    (hmem : (la, rs) ∈ GT.leafList n g) (hlen : rs.length = 4)
    (hnode : t.heap[la]? = some nd)
    (hnd : ∀ x ∈ rs, C.cmp_data (C.getKey r) x ≠ 0) :
    ∃ h' m0 m1 m2 m3 m4, sortedIns C r rs = [m0, m1, m2, m3, m4] ∧
      [m0, m1, m2, m3, m4].Pairwise (fun a b => klt C (C.getKey a) (C.getKey b)) ∧
      h' = t.heap.set la { nd with num_keys := 3, keys := [some m0, some m1, some m2, none],
                                   next_leaf := some t.heap.length } ++
        [{ keys := [some m3, some m4, none, none], children := List.replicate 5 none,
           parent := nd.parent, next_leaf := nd.next_leaf, num_keys := 2,
           is_leaf := true }] ∧
      Insert_BPlus.splitLeaf C t.heap la r =
        some (h', C.copyKey (C.getKey m3), t.heap.length) ∧
      Insert_BPlus C t r = insertIntoParent C.cmp_internal (t.heap.length + 1)
        { heap := h', root := t.root } la (C.copyKey (C.getKey m3)) t.heap.length := by
  obtain ⟨m1, m2, m3, _, _⟩ := hm
  obtain ⟨nd', h1, h2, h4, h5, _, _⟩ := leaf_of_Rep n g none m2 la rs hmem
  rw [hnode] at h1
  cases h1
  obtain ⟨s1, _, _, s4⟩ := sortedIns_sorted L r rs (leaf_sorted n g none none m3 la rs hmem) hnd
  have hdc := dupCheck_ok C (C.getKey r) nd rs h5 h4 (by omega) hnd
  obtain ⟨a0, a1, a2, a3, a4, ha⟩ := len5 (l := sortedIns C r rs) (by omega)
  rw [h4, hlen] at hdc
  have hsp := splitLeaf_eq C t.heap la nd rs r a0 a1 a2 a3 a4 hnode h5 hlen ha
  have hd : findLeaf.descend C.cmp_internal t.heap (C.getKey r) t.heap.length (GT.addr n g) =
      some la := by
    simp only [findLeaf, m1] at hfl
    cases hdd : findLeaf.descend C.cmp_internal t.heap (C.getKey r) t.heap.length (GT.addr n g) with
    | none => rw [hdd] at hfl; simp at hfl
    | some x => rw [hdd] at hfl; simpa using hfl
  have hp3 : pad 4 [a0, a1, a2] = [some a0, some a1, some a2, none] := rfl
  have hp2 : pad 4 [a3, a4] = [some a3, some a4, none, none] := rfl
  rw [hp3, hp2] at hsp
  refine ⟨_, a0, a1, a2, a3, a4, ha, by rw [← ha]; exact s1, rfl, hsp, ?_⟩
  rw [Insert_eq_insertFrom C t (GT.addr n g) r m1]
  simp only [insertFrom, hd, Insert_BPlus.atLeaf, hnode, hdc, h4, MAXKEYS, ORDER, hlen, hsp]
  simp

/-! ## Further facts used by the main theorems -/

theorem insertAll_reachable (C : Capability V) : ∀ (rs : List V) (t t' : Tree V),
    Reachable C t → insertAll C t rs = some t' → Reachable C t'
  | [], t, t', hr, h => by
    simp only [insertAll, Option.some.injEq] at h
    exact h ▸ hr
  | r :: rs, t, t', hr, h => by
    simp only [insertAll] at h
    cases hi : Insert_BPlus C t r with
    | none => rw [hi] at h; cases h
    | some p =>
      rw [hi] at h
      exact insertAll_reachable C rs p.2 t' (Reachable.insert t p.2 r p.1 hr hi) h

theorem leaf_depth_eq {C : Capability V} (t : Tree V) (n : Nat) (g : GT V n)
    (hm : Model C t n g) (q d : Nat) (nd : GenericBPlusTreeNode V)
    (hp : DepthTo t.heap (GT.addr n g) q d) (hq : t.heap[q]? = some nd)
    (hl : nd.is_leaf = true) : d = n := by
  obtain ⟨_, m2, m3, _, _⟩ := hm
  obtain ⟨m, s, par', lo', hi', e1, e2, e3, _, _⟩ := depth_sub n g none none none m2 m3 q d hp
  cases m with
  | zero => omega
  | succ m =>
    obtain ⟨nd', h1, h2, _⟩ := e3
    simp only [GT.addr] at e2
    rw [e2, hq] at h1
    cases h1
    rw [hl] at h2
    cases h2

theorem pad_lookup_lt {α : Type} (m : Nat) (l : List α) (i : Nat) (x : α)
    (h : l[i]? = some x) : (pad m l)[i]? = some (some x) := by
  have hi : i < l.length := (List.getElem?_eq_some_iff.1 h).1
  unfold pad
  rw [List.getElem?_append_left (by simpa using hi), List.getElem?_map, h]
  rfl

theorem Stored_of_extract {C : Capability V} (L : Lawful C) (t : Tree V)
    (hr : Reachable C t) (l : List V) (hl : extractToList t = some l) (x : V) :
    Stored t x ↔ x ∈ l := by
  obtain ⟨l', e1, e2, _⟩ := Inv_content L t (Reachable_Inv L t hr)
  rw [hl] at e1
  cases e1
  exact e2 x

/-! ## The example trees -/

theorem tree4_eq : insertAll intCap emptyTree [1, 2, 3, 4] = some tree4 := by decide

theorem tree5_eq : insertAll intCap emptyTree [1, 2, 3, 4, 5] = some tree5 := by decide

theorem tree4_reachable : Reachable intCap tree4 :=
  insertAll_reachable intCap _ _ _ (Reachable.empty []) tree4_eq

theorem tree5_reachable : Reachable intCap tree5 :=
  insertAll_reachable intCap _ _ _ (Reachable.empty []) tree5_eq

theorem tree4_extract : extractToList tree4 = some [1, 2, 3, 4] := by decide

theorem tree5_extract : extractToList tree5 = some [1, 2, 3, 4, 5] := by decide

theorem tree4_stored (x : Int) : Stored tree4 x ↔ x ∈ [1, 2, 3, 4] :=
  Stored_of_extract intCap_lawful tree4 tree4_reachable _ tree4_extract x

theorem tree5_stored (x : Int) : Stored tree5 x ↔ x ∈ [1, 2, 3, 4, 5] :=
  Stored_of_extract intCap_lawful tree5 tree5_reachable _ tree5_extract x

/-! ## Search -/

/-- C1: inserting records with pairwise distinct keys one by one with
`Insert_BPlus` into an empty tree yields a tree in which `Search_BPlus`, called
with the key of any inserted record, returns exactly that record. -/
theorem search_round_trip {C : Capability V} (L : Lawful C) (h0 : Heap V) (rs : List V)
    (hd : rs.Pairwise (fun a b => C.cmp_internal (C.getKey a) (C.getKey b) ≠ 0)) :
    ∃ t, insertAll C { heap := h0, root := none } rs = some t ∧
      ∀ r ∈ rs, Search_BPlus C t (C.getKey r) = some (some r) := by
  obtain ⟨t', ok, l', _, e2, e3, e4, e5, e6⟩ := insertLog_spec L rs
    { heap := h0, root := none } [] (Reachable.empty h0) (by simp [extractToList])
  have hok : ok = rs := e6 (by simp) hd
  subst hok
  exact ⟨t', e2, fun r hr => Search_mem L t' (Reachable_Inv L t' e3) l' e4 r
    (e5.symm.subset (by simpa using hr))⟩

theorem search_round_trip_witness :
    ∃ t, insertAll intCap emptyTree [5, 3, 8, 1, 9, 2, 7] = some t ∧
      ∀ r ∈ [5, 3, 8, 1, 9, 2, 7], Search_BPlus intCap t (intCap.getKey r) = some (some r) :=
  search_round_trip intCap_lawful [] [5, 3, 8, 1, 9, 2, 7] (by decide)

/-- C2: in a tree reachable from the empty tree by `Insert_BPlus` calls,
`Search_BPlus` returns `NULL` for every key that is not the key of a stored
record. -/
theorem search_absent_null {C : Capability V} (L : Lawful C) (t : Tree V)
    (hr : Reachable C t) (k : V)
    (hk : ∀ x, Stored t x → C.cmp_internal k (C.getKey x) ≠ 0) :
    Search_BPlus C t k = some none :=
  Search_not_mem L t (Reachable_Inv L t hr) k (fun x hx => by rw [L.data]; exact hk x hx)

theorem search_absent_null_witness :
    Search_BPlus intCap tree5 7 = some none ∧ Search_BPlus intCap emptyTree 7 = some none :=
  ⟨search_absent_null intCap_lawful tree5 tree5_reachable 7 (fun x hx => by
      have h := (tree5_stored x).1 hx
      simp only [List.mem_cons, List.mem_singleton, List.not_mem_nil, or_false] at h
      rcases h with rfl | rfl | rfl | rfl | rfl <;> decide),
    search_absent_null intCap_lawful emptyTree (Reachable.empty []) 7
      (fun x hx => (Stored_empty emptyTree rfl x hx).elim)⟩

/-! ## Traversal -/

/-- C3: after any sequence of `Insert_BPlus` calls on an empty tree, the
records visited by the leaf-chain traversal have strictly ascending keys. -/
theorem traversal_ascending {C : Capability V} (L : Lawful C) (h0 : Heap V) (rs : List V) :
    ∃ t l, insertAll C { heap := h0, root := none } rs = some t ∧
      extractToList t = some l ∧
      l.Pairwise (fun a b => C.cmp_internal (C.getKey a) (C.getKey b) < 0) := by
  obtain ⟨t', ok, l', _, e2, e3, _⟩ := insertLog_spec L rs
    { heap := h0, root := none } [] (Reachable.empty h0) (by simp [extractToList])
  obtain ⟨l, h1, _, h3⟩ := Inv_content L t' (Reachable_Inv L t' e3)
  exact ⟨t', l, e2, h1, h3⟩

theorem traversal_ascending_witness :
    ∃ t l, insertAll intCap emptyTree [5, 3, 8, 3, 1, 9, 2, 7, 5] = some t ∧
      extractToList t = some l ∧
      l.Pairwise (fun a b => intCap.cmp_internal (intCap.getKey a) (intCap.getKey b) < 0) :=
  traversal_ascending intCap_lawful [] [5, 3, 8, 3, 1, 9, 2, 7, 5]

/-- C4: after any sequence of `Insert_BPlus` calls on an empty tree, the list
produced by `extractToList` is a permutation of the records whose call
returned `SUCCESS`. -/
theorem traversal_perm_inserted {C : Capability V} (L : Lawful C) (h0 : Heap V)
    (rs : List V) :
    ∃ t ok l, insertLog C { heap := h0, root := none } rs = some (t, ok) ∧
      extractToList t = some l ∧ l.Perm ok := by
  obtain ⟨t', ok, l', e1, _, _, e4, e5, _⟩ := insertLog_spec L rs
    { heap := h0, root := none } [] (Reachable.empty h0) (by simp [extractToList])
  exact ⟨t', ok, l', e1, e4, by simpa using e5⟩

theorem traversal_perm_inserted_witness :
    ∃ t ok l, insertLog intCap emptyTree [5, 3, 8, 3, 1, 9, 2, 7, 5] = some (t, ok) ∧
      extractToList t = some l ∧ l.Perm ok :=
  traversal_perm_inserted intCap_lawful [] [5, 3, 8, 3, 1, 9, 2, 7, 5]

/-! ## Duplicate keys -/

/-- C5: in a reachable tree, `Insert_BPlus` of a record whose key equals the
key of a stored record returns `FAILURE` and leaves the root pointer and every
node unchanged, so the traversal is unchanged. -/
theorem duplicate_insert_unchanged {C : Capability V} (L : Lawful C) (t : Tree V)
    (hr : Reachable C t) (r : V)
    (hd : ∃ x, Stored t x ∧ C.cmp_internal (C.getKey r) (C.getKey x) = 0) :
    ∃ t', Insert_BPlus C t r = some (status_code.FAILURE, t') ∧ t'.root = t.root ∧
      t'.heap = t.heap ∧ extractToList t' = extractToList t := by
  have hinv := Reachable_Inv L t hr
  obtain ⟨l, h1, h2, _⟩ := Inv_content L t hinv
  obtain ⟨x, hx, hx0⟩ := hd
  rcases Insert_step L t hinv r l h1 with ⟨_, e⟩ | ⟨hn, _⟩
  · exact ⟨t, e, rfl, rfl, rfl⟩
  · exact (hn x ((h2 x).1 hx) (by rw [L.data]; exact hx0)).elim

theorem duplicate_insert_unchanged_witness :
    ∃ t', Insert_BPlus intCap tree5 3 = some (status_code.FAILURE, t') ∧
      t'.root = tree5.root ∧ t'.heap = tree5.heap ∧
      extractToList t' = extractToList tree5 :=
  duplicate_insert_unchanged intCap_lawful tree5 tree5_reachable 3
    ⟨3, (tree5_stored 3).2 (by decide), by decide⟩

/-- C6: in a reachable tree, `Insert_BPlus` returns a result for every record,
and the result is `SUCCESS` exactly when no stored record has a key equal to
the key of the new record. -/
theorem insert_success_iff {C : Capability V} (L : Lawful C) (t : Tree V)
    (hr : Reachable C t) (r : V) :
    ∃ sc t', Insert_BPlus C t r = some (sc, t') ∧
      (sc = status_code.SUCCESS ↔
        ∀ x, Stored t x → C.cmp_internal (C.getKey r) (C.getKey x) ≠ 0) := by
  have hinv := Reachable_Inv L t hr
  obtain ⟨l, h1, h2, _⟩ := Inv_content L t hinv
  rcases Insert_step L t hinv r l h1 with ⟨⟨x, hx, hx0⟩, e⟩ | ⟨hn, t', _, e, _⟩
  · refine ⟨status_code.FAILURE, t, e, ?_⟩
    constructor
    · intro h
      cases h
    · intro h
      exact (h x ((h2 x).2 hx) (by rw [← L.data]; exact hx0)).elim
  · refine ⟨status_code.SUCCESS, t', e, ?_⟩
    constructor
    · intro _ x hx
      rw [← L.data]
      exact hn x ((h2 x).1 hx)
    · intro _
      rfl

theorem insert_success_iff_witness :
    ∃ sc t', Insert_BPlus intCap tree5 6 = some (sc, t') ∧
      (sc = status_code.SUCCESS ↔
        ∀ x, Stored tree5 x → intCap.cmp_internal (intCap.getKey 6) (intCap.getKey x) ≠ 0) :=
  insert_success_iff intCap_lawful tree5 tree5_reachable 6

/-! ## Shape of the tree -/

/-- C7: after any sequence of `Insert_BPlus` calls on an empty tree, any two
leaves reached from the root by child pointers are at the same depth. -/
theorem leaves_same_depth {C : Capability V} (L : Lawful C) (h0 : Heap V) (rs : List V) :
    ∃ t, insertAll C { heap := h0, root := none } rs = some t ∧
      ∀ (root q1 q2 d1 d2 : Nat) (nd1 nd2 : GenericBPlusTreeNode V),
        t.root = some root →
        DepthTo t.heap root q1 d1 → t.heap[q1]? = some nd1 → nd1.is_leaf = true →
        DepthTo t.heap root q2 d2 → t.heap[q2]? = some nd2 → nd2.is_leaf = true →
        d1 = d2 := by
  obtain ⟨t', ok, l', _, e2, e3, _⟩ := insertLog_spec L rs
    { heap := h0, root := none } [] (Reachable.empty h0) (by simp [extractToList])
  refine ⟨t', e2, ?_⟩
  intro root q1 q2 d1 d2 nd1 nd2 hroot p1 a1 b1 p2 a2 b2
  rcases Reachable_Inv L t' e3 with hn | ⟨n, g, hm⟩
  · rw [hn] at hroot
    cases hroot
  · have hr := hm.1
    rw [hroot] at hr
    cases hr
    rw [leaf_depth_eq t' n g hm q1 d1 nd1 p1 a1 b1, leaf_depth_eq t' n g hm q2 d2 nd2 p2 a2 b2]

theorem leaves_same_depth_witness :
    ∃ t, insertAll intCap emptyTree [5, 3, 8, 1, 9, 2, 7, 4, 6, 10, 12, 11] = some t ∧
      ∀ (root q1 q2 d1 d2 : Nat) (nd1 nd2 : GenericBPlusTreeNode Int),
        t.root = some root →
        DepthTo t.heap root q1 d1 → t.heap[q1]? = some nd1 → nd1.is_leaf = true →
        DepthTo t.heap root q2 d2 → t.heap[q2]? = some nd2 → nd2.is_leaf = true →
        d1 = d2 :=
  leaves_same_depth intCap_lawful [] [5, 3, 8, 1, 9, 2, 7, 4, 6, 10, 12, 11]

/-- C8: with `ORDER = 5`, inserting 1, 2, 3, 4 into the empty tree gives a
single leaf holding 1, 2, 3, 4; inserting 5 then gives an internal root with
the one separator 4 and the leaves 1, 2, 3 and 4, 5, the first linked to the
second, and the traversal yields 1, 2, 3, 4, 5. -/
theorem scenario_order5 :
    ∃ t4 t5 : Tree Int,
      t4 = { heap := [{ keys := [some 1, some 2, some 3, some 4],
                        children := [none, none, none, none, none],
                        parent := none, next_leaf := none, num_keys := 4, is_leaf := true }],
             root := some 0 } ∧
      t5 = { heap := [{ keys := [some 1, some 2, some 3, none],
                        children := [none, none, none, none, none],
                        parent := some 2, next_leaf := some 1, num_keys := 3,
                        is_leaf := true },
                      { keys := [some 4, some 5, none, none],
                        children := [none, none, none, none, none],
                        parent := some 2, next_leaf := none, num_keys := 2,
                        is_leaf := true },
                      { keys := [some 4, none, none, none],
                        children := [some 0, some 1, none, none, none],
                        parent := none, next_leaf := none, num_keys := 1,
                        is_leaf := false }],
             root := some 2 } ∧
      insertAll intCap { heap := [], root := none } [1, 2, 3, 4] = some t4 ∧
      Insert_BPlus intCap t4 5 = some (status_code.SUCCESS, t5) ∧
      insertAll intCap { heap := [], root := none } [1, 2, 3, 4, 5] = some t5 ∧
      extractToList t5 = some [1, 2, 3, 4, 5] :=
  ⟨_, _, rfl, rfl, by decide, by decide, by decide, by decide⟩

/-- C9: in a reachable tree, when the record `r` has a new key and the leaf
`la` returned by `findLeaf` holds `MAXKEYS` records, the five merged records
`m0 .. m4` are the old records and `r` in ascending key order, the split step
leaves `m0, m1, m2` in the original leaf and puts `m3, m4` into a new leaf at
the first free address, `insertIntoParent` is called with a copy of the key
of `m3` as separator, and after `Insert_BPlus` the two leaves hold these
records. -/
theorem leaf_split_correct {C : Capability V} (L : Lawful C) (t : Tree V)
    (hr : Reachable C t) (r : V) (la : Nat) (nd : GenericBPlusTreeNode V)
    (hnew : ∀ x, Stored t x → C.cmp_internal (C.getKey r) (C.getKey x) ≠ 0)
    (hfl : findLeaf C.cmp_internal t.heap t.root (C.getKey r) = some (some la))
    (hnd : t.heap[la]? = some nd) (hfull : nd.num_keys = MAXKEYS) :
    ∃ (t' : Tree V) (h' : Heap V) (rs : List V) (m0 m1 m2 m3 m4 : V)
      (ndL ndR : GenericBPlusTreeNode V),
      nd.keys = rs.map some ∧ [m0, m1, m2, m3, m4].Perm (r :: rs) ∧
      [m0, m1, m2, m3, m4].Pairwise
        (fun a b => C.cmp_internal (C.getKey a) (C.getKey b) < 0) ∧
      h' = t.heap.set la { nd with num_keys := 3, keys := [some m0, some m1, some m2, none],
                                   next_leaf := some t.heap.length } ++
        [{ keys := [some m3, some m4, none, none], children := List.replicate 5 none,
           parent := nd.parent, next_leaf := nd.next_leaf, num_keys := 2,
           is_leaf := true }] ∧
      Insert_BPlus.splitLeaf C t.heap la r =
        some (h', C.copyKey (C.getKey m3), t.heap.length) ∧
      Insert_BPlus C t r = insertIntoParent C.cmp_internal (t.heap.length + 1)
        { heap := h', root := t.root } la (C.copyKey (C.getKey m3)) t.heap.length ∧
      C.cmp_internal (C.copyKey (C.getKey m3)) (C.getKey m3) = 0 ∧
      Insert_BPlus C t r = some (status_code.SUCCESS, t') ∧
      t'.heap[la]? = some ndL ∧ ndL.is_leaf = true ∧ ndL.num_keys = 3 ∧
      ndL.keys = [some m0, some m1, some m2, none] ∧
      t'.heap[t.heap.length]? = some ndR ∧ ndR.is_leaf = true ∧ ndR.num_keys = 2 ∧
      ndR.keys = [some m3, some m4, none, none] := by
  rcases Reachable_Inv L t hr with hn | ⟨n, g, hm⟩
  · simp [findLeaf, hn] at hfl
  · have hd : ∀ x ∈ GT.recs n g, C.cmp_data (C.getKey r) x ≠ 0 := fun x hx => by
      rw [L.data]
      exact hnew x ((Stored_iff t n g hm x).2 hx)
    obtain ⟨t', n', g', la', e1, e2, e3, e4, _⟩ := Insert_nodup L t n g r hm hd
    rw [hfl] at e3
    simp only [Option.some.injEq] at e3
    subst e3
    obtain ⟨l1, l2, rs, hll, _, _, _, hc⟩ := e4
    have hmem : (la, rs) ∈ GT.leafList n g := by rw [hll]; simp
    obtain ⟨nd', q1, _, q3, q4, _, _⟩ := leaf_of_Rep n g none hm.2.1 la rs hmem
    rw [hnd] at q1
    cases q1
    have hlen : rs.length = 4 := by rw [← q3, hfull]; rfl
    rcases hc with ⟨hlt, _⟩ | ⟨_, _, hll', _⟩
    · omega
    · have hsub : ∀ x ∈ rs, C.cmp_data (C.getKey r) x ≠ 0 := fun x hx =>
        hd x (leaf_recs_subset n g la rs hmem x hx)
      obtain ⟨h', m0, m1, m2, m3, m4, s1, s2, s3, s4, s5⟩ :=
        Insert_split_call L t n g r la rs nd hm hfl hmem hlen hnd hsub
      have hL : (la, [m0, m1, m2]) ∈ GT.leafList n' g' := by
        rw [hll', s1]; simp
      have hR : (t.heap.length, [m3, m4]) ∈ GT.leafList n' g' := by
        rw [hll', s1]; simp
      obtain ⟨ndL, a1, a2, a3, a4, _, _⟩ := leaf_of_Rep n' g' none e2.2.1 _ _ hL
      obtain ⟨ndR, b1, b2, b3, b4, _, _⟩ := leaf_of_Rep n' g' none e2.2.1 _ _ hR
      refine ⟨t', h', rs, m0, m1, m2, m3, m4, ndL, ndR, ?_, ?_, s2, s3, s4, s5, L.copy _, e1,
        a1, a2, a3, a4, b1, b2, b3, b4⟩
      · rw [q4]
        simp [pad, hlen]
      · rw [← s1]
        exact insAt_perm _ r rs

/-- C10: in a reachable tree, every internal node reached from the root has,
for every index `i < num_keys`, a key `keys[i]` and children `children[i]`,
`children[i+1]` such that every record stored below `children[i]` has a key
strictly less than `keys[i]` and every record stored below `children[i+1]`
has a key greater than or equal to `keys[i]`. -/
theorem descent_correct {C : Capability V} (L : Lawful C) (t : Tree V)
    (hr : Reachable C t) (root p d i : Nat) (nd : GenericBPlusTreeNode V)
    (hroot : t.root = some root) (hp : DepthTo t.heap root p d)
    (hnd : t.heap[p]? = some nd) (hint : nd.is_leaf = false) (hi : i < nd.num_keys) :
    ∃ k cl cr, nd.keys[i]? = some (some k) ∧ nd.children[i]? = some (some cl) ∧
      nd.children[i + 1]? = some (some cr) ∧
      (∀ x, StoredBelow t.heap cl x → C.cmp_internal (C.getKey x) k < 0) ∧
      (∀ x, StoredBelow t.heap cr x → 0 ≤ C.cmp_internal (C.getKey x) k) := by
  rcases Reachable_Inv L t hr with hn | ⟨n, g, hm⟩
  · rw [hn] at hroot
    cases hroot
  · obtain ⟨m1, m2, m3, _, _⟩ := hm
    rw [hroot] at m1
    cases m1
    obtain ⟨m, s, par', lo', hi', _, e2, e3, e4, _⟩ :=
      depth_sub n g none none none m2 m3 p d hp
    cases m with
    | zero =>
      obtain ⟨nd', h1, h2, _⟩ := e3
      simp only [GT.addr] at e2
      rw [e2, hnd] at h1
      cases h1
      rw [hint] at h2
      cases h2
    | succ m =>
      obtain ⟨nd', h1, h2, h3, h4, h5, h6, h7, h8, h9, h10, h11⟩ := e3
      simp only [GT.addr] at e2
      rw [e2, hnd] at h1
      cases h1
      have hik : i < s.2.1.length := by omega
      have hk : s.2.1[i]? = some (s.2.1[i]) := List.getElem?_eq_getElem hik
      obtain ⟨cl, cr, l, u, c1, c2, c3, c4⟩ :=
        OrdKids_index (Ord C m) s.2.1 s.2.2 lo' hi' i _ e4.2.2 hk
      have hcl : cl ∈ s.2.2 := List.getElem?_mem c1
      have hcr : cr ∈ s.2.2 := List.getElem?_mem c2
      refine ⟨s.2.1[i], GT.addr m cl, GT.addr m cr, ?_, ?_, ?_, ?_, ?_⟩
      · rw [h5]
        exact pad_lookup_lt _ _ _ _ hk
      · rw [h6]
        exact pad_lookup_lt _ _ _ _ (by rw [List.getElem?_map, c1]; rfl)
      · rw [h6]
        exact pad_lookup_lt _ _ _ _ (by rw [List.getElem?_map, c2]; rfl)
      · intro x hx
        have hx' := (StoredBelow_iff m cl (some s.1) l _ (h11 cl hcl) c3 x).1 hx
        exact (Ord_recs_bounds L m cl l _ c3 x hx').2
      · intro x hx
        have hx' := (StoredBelow_iff m cr (some s.1) _ u (h11 cr hcr) c4 x).1 hx
        exact (L.ge_iff _ _).2 (Ord_recs_bounds L m cr _ u c4 x hx').1

theorem leaf_split_correct_witness :
    ∃ (t' : Tree Int) (h' : Heap Int) (rs : List Int) (m0 m1 m2 m3 m4 : Int)
      (ndL ndR : GenericBPlusTreeNode Int),
      leaf4.keys = rs.map some ∧ [m0, m1, m2, m3, m4].Perm (5 :: rs) ∧
      [m0, m1, m2, m3, m4].Pairwise
        (fun a b => intCap.cmp_internal (intCap.getKey a) (intCap.getKey b) < 0) ∧
      h' = tree4.heap.set 0 { leaf4 with num_keys := 3,
                                         keys := [some m0, some m1, some m2, none],
                                         next_leaf := some tree4.heap.length } ++
        [{ keys := [some m3, some m4, none, none], children := List.replicate 5 none,
           parent := leaf4.parent, next_leaf := leaf4.next_leaf, num_keys := 2,
           is_leaf := true }] ∧
      Insert_BPlus.splitLeaf intCap tree4.heap 0 5 =
        some (h', intCap.copyKey (intCap.getKey m3), tree4.heap.length) ∧
      Insert_BPlus intCap tree4 5 = insertIntoParent intCap.cmp_internal (tree4.heap.length + 1)
        { heap := h', root := tree4.root } 0 (intCap.copyKey (intCap.getKey m3))
        tree4.heap.length ∧
      intCap.cmp_internal (intCap.copyKey (intCap.getKey m3)) (intCap.getKey m3) = 0 ∧
      Insert_BPlus intCap tree4 5 = some (status_code.SUCCESS, t') ∧
      t'.heap[0]? = some ndL ∧ ndL.is_leaf = true ∧ ndL.num_keys = 3 ∧
      ndL.keys = [some m0, some m1, some m2, none] ∧
      t'.heap[tree4.heap.length]? = some ndR ∧ ndR.is_leaf = true ∧ ndR.num_keys = 2 ∧
      ndR.keys = [some m3, some m4, none, none] :=
  leaf_split_correct intCap_lawful tree4 tree4_reachable 5 0 leaf4
    (fun x hx => by
      have h := (tree4_stored x).1 hx
      simp only [List.mem_cons, List.mem_singleton, List.not_mem_nil, or_false] at h
      rcases h with rfl | rfl | rfl | rfl <;> decide)
    (by decide) (by decide) (by decide)

theorem descent_correct_witness :
    ∃ k cl cr, root5.keys[0]? = some (some k) ∧ root5.children[0]? = some (some cl) ∧
      root5.children[0 + 1]? = some (some cr) ∧
      (∀ x, StoredBelow tree5.heap cl x → intCap.cmp_internal (intCap.getKey x) k < 0) ∧
      (∀ x, StoredBelow tree5.heap cr x → 0 ≤ intCap.cmp_internal (intCap.getKey x) k) :=
  descent_correct intCap_lawful tree5 tree5_reachable 2 2 0 0 root5 (by decide) DepthTo.root
    (by decide) (by decide) (by decide)

/-! ## Height -/

theorem levels_eq {h : Heap V} : ∀ (n : Nat) (g : GT V n) (par : Option Nat) (fuel : Nat),
    Rep h n g par → n + 1 ≤ fuel → levels h fuel (some (GT.addr n g)) = some (n + 1)
  | 0, g, par, fuel, hr, hf => by
    obtain ⟨f, rfl⟩ : ∃ f, fuel = f + 1 := ⟨fuel - 1, by omega⟩
    obtain ⟨nd, h1, h2, _⟩ := hr
    simp [levels, GT.addr, h1, h2]
  | n + 1, g, par, fuel, hr, hf => by
    obtain ⟨f, rfl⟩ : ∃ f, fuel = f + 1 := ⟨fuel - 1, by omega⟩
    obtain ⟨nd, h1, h2, h3, h4, h5, h6, h7, h8, h9, h10, h11⟩ := hr
    obtain ⟨c, cs, hcs⟩ : ∃ c cs, g.2.2 = c :: cs := by
      cases hg : g.2.2 with
      | nil => rw [hg] at h8; simp at h8
      | cons c cs => exact ⟨c, cs, rfl⟩
    have hc0 : nd.children[0]? = some (some (GT.addr n c)) := by
      rw [h6, hcs]
      simp [pad]
    have ih := levels_eq n c (some g.1) f (h11 c (by rw [hcs]; simp)) (by omega)
    show levels h (f + 1) (some g.1) = some (n + 1 + 1)
    simp only [levels, h1, h2, hc0, Bool.false_eq_true, if_false, ih]
    rfl

theorem height_eq {C : Capability V} (t : Tree V) (n : Nat) (g : GT V n)
    (hm : Model C t n g) : height t = some (n + 1) := by
  obtain ⟨m1, m2, _, m4, _⟩ := hm
  have hsz := heap_size n g none m2 m4
  simp only [height, m1]
  exact levels_eq n g none _ m2 (by omega)

theorem height_empty (t : Tree V) (hroot : t.root = none) : height t = some 0 := by
  simp [height, hroot, levels]

/-! ## The arrays of a node -/

theorem pad_lookup_ge {α : Type} (m : Nat) (l : List α) (i : Nat) (h1 : l.length ≤ i)
    (h2 : i < m) : (pad m l)[i]? = some none := by
  unfold pad
  rw [List.getElem?_append_right (by simpa using h1), List.getElem?_replicate]
  simp only [List.length_map]
  rw [if_pos (by omega)]

theorem pad_pairwise {α : Type} (R : α → α → Prop) (m : Nat) (l : List α)
    (hp : l.Pairwise R) (i j : Nat) (a b : α) (hij : i < j)
    (ha : (pad m l)[i]? = some (some a)) (hb : (pad m l)[j]? = some (some b)) : R a b := by
  have ha' := pad_lookup_some m l i a ha
  have hb' := pad_lookup_some m l j b hb
  obtain ⟨hi, ea⟩ := List.getElem?_eq_some_iff.1 ha'
  obtain ⟨hj, eb⟩ := List.getElem?_eq_some_iff.1 hb'
  rw [← ea, ← eb]
  exact List.pairwise_iff_getElem.1 hp i j hi hj hij

theorem pad_lookup_ex {α : Type} (m : Nat) (l : List α) (i : Nat) (h : i < l.length) :
    ∃ x, (pad m l)[i]? = some (some x) :=
  ⟨l[i], pad_lookup_lt m l i _ (List.getElem?_eq_getElem h)⟩

/-! ## The route taken by `findLeaf` -/

theorem deref_some (arr : List (Option V)) (i : Nat) (k : V) (h : deref arr i = some k) :
    arr[i]? = some (some k) := by
  unfold deref at h
  cases ha : arr[i]? with
  | none => rw [ha] at h; cases h
  | some o =>
    rw [ha] at h
    cases o with
    | none => cases h
    | some x =>
      simp only [Option.join] at h
      cases h
      rfl

theorem scan_spec (cmp : V → V → Int) (k : V) (nd : GenericBPlusTreeNode V) :
    ∀ (fuel i0 i : Nat), findLeaf.scan cmp k nd fuel i0 = some i →
      i0 ≤ i ∧
      (∀ j, i0 ≤ j → j < i → ∃ kj, nd.keys[j]? = some (some kj) ∧ 0 ≤ cmp k kj) ∧
      (i < nd.num_keys → ∃ ki, nd.keys[i]? = some (some ki) ∧ cmp k ki < 0) ∧
      (i0 ≤ nd.num_keys → i ≤ nd.num_keys)
  | 0, _, _, h => by simp [findLeaf.scan] at h
  | fuel + 1, i0, i, h => by
    simp only [findLeaf.scan] at h
    by_cases hlt : i0 < nd.num_keys
    · rw [if_pos hlt] at h
      cases hd : deref nd.keys i0 with
      | none => rw [hd] at h; cases h
      | some k0 =>
        rw [hd] at h
        simp only at h
        have hk0 := deref_some _ _ _ hd
        by_cases hge : cmp k k0 ≥ 0
        · rw [if_pos hge] at h
          obtain ⟨a1, a2, a3, a4⟩ := scan_spec cmp k nd fuel (i0 + 1) i h
          refine ⟨by omega, ?_, a3, fun _ => a4 (by omega)⟩
          intro j hj1 hj2
          by_cases hj : j = i0
          · subst hj
            exact ⟨k0, hk0, hge⟩
          · exact a2 j (by omega) hj2
        · rw [if_neg hge] at h
          cases h
          refine ⟨le_refl _, fun j h1 h2 => by omega, fun _ => ⟨k0, hk0, by omega⟩, fun h => h⟩
    · rw [if_neg hlt] at h
      cases h
      exact ⟨le_refl _, fun j h1 h2 => by omega, fun h => (hlt h).elim, fun h => h⟩

theorem descend_routes (cmp : V → V → Int) (h : Heap V) (k : V) :
    ∀ (fuel p la : Nat), findLeaf.descend cmp h k fuel p = some la →
      RoutesTo cmp h k p la ∧ ∃ nd, h[la]? = some nd ∧ nd.is_leaf = true
  | 0, _, _, hd => by simp [findLeaf.descend] at hd
  | fuel + 1, p, la, hd => by
    simp only [findLeaf.descend] at hd
    cases hp : h[p]? with
    | none => rw [hp] at hd; cases hd
    | some nd =>
      rw [hp] at hd
      simp only at hd
      cases hl : nd.is_leaf with
      | true =>
        rw [hl] at hd
        simp only [if_true, Option.some.injEq] at hd
        subst hd
        exact ⟨RoutesTo.here p, nd, hp, hl⟩
      | false =>
        rw [hl] at hd
        simp only [Bool.false_eq_true, if_false] at hd
        cases hs : findLeaf.scan cmp k nd (nd.num_keys + 1) 0 with
        | none => rw [hs] at hd; cases hd
        | some i =>
          rw [hs] at hd
          simp only at hd
          obtain ⟨_, a2, a3, a4⟩ := scan_spec cmp k nd _ 0 i hs
          have hi := a4 (Nat.zero_le _)
          cases hc : nd.children[i]? with
          | none => rw [hc] at hd; cases hd
          | some oc =>
            rw [hc] at hd
            cases oc with
            | none => cases hd
            | some c =>
              simp only at hd
              obtain ⟨r1, r2⟩ := descend_routes cmp h k fuel c la hd
              refine ⟨RoutesTo.step p c la i nd hp hl hi (fun j hj => a2 j (Nat.zero_le _) hj)
                ?_ hc r1, r2⟩
              by_cases hlt : i < nd.num_keys
              · exact Or.inr (a3 hlt)
              · exact Or.inl (by omega)

/-! ## Separators lie strictly inside the bounds -/

theorem loLt_of_loLt_of_lt {C : Capability V} (L : Lawful C) (lo : Option V) (a b : V)
    (h1 : loLt C lo a) (h2 : C.cmp_internal a b < 0) : loLt C lo b := by
  cases lo with
  | none => trivial
  | some l => exact L.lt_trans h1 h2

theorem ltHi_of_lt_of_ltHi {C : Capability V} (L : Lawful C) (hi : Option V) (a b : V)
    (h1 : C.cmp_internal a b < 0) (h2 : ltHi C b hi) : ltHi C a hi := by
  cases hi with
  | none => trivial
  | some u => exact L.lt_trans h1 h2

theorem GT.seps_succ (n : Nat) (g : GT V (n + 1)) :
    GT.seps (n + 1) g = g.2.2.flatMap (GT.seps n) ++ g.2.1 := rfl

theorem Ord_seps_bounds {C : Capability V} (L : Lawful C) :
    ∀ (n : Nat) (g : GT V n) (lo hi : Option V), Ord C n g lo hi →
      ∀ k ∈ GT.seps n g, loLt C lo k ∧ ltHi C k hi
  | 0, g, lo, hi, _, k, hk => by simp [GT.seps] at hk
  | n + 1, g, lo, hi, h, k, hk => by
    rw [GT.seps_succ, List.mem_append] at hk
    obtain ⟨_, hb, hkids⟩ := h
    rcases hk with hk | hk
    · obtain ⟨c, hc, hkc⟩ := List.mem_flatMap.1 hk
      obtain ⟨l, u, hp, hl, hu⟩ := OrdKids_mem (Ord C n) _ _ lo hi hkids c hc
      obtain ⟨b1, b2⟩ := Ord_seps_bounds L n c l u hp k hkc
      constructor
      · rcases hl with rfl | ⟨k', hk', rfl⟩
        · exact b1
        · exact loLt_of_loLt_of_lt L lo k' k (hb k' hk').1 b1
      · rcases hu with rfl | ⟨k', hk', rfl⟩
        · exact b2
        · exact ltHi_of_lt_of_ltHi L hi k k' b2 (hb k' hk').2
    · exact hb k hk

/-! ## Locating a record among the children of a node -/

theorem mem_le_lastLo {C : Capability V} (L : Lawful C) (lo : Option V) :
    ∀ (K1 : List V), K1.Pairwise (klt C) → ∀ u ∈ K1,
      ∃ w, lastLo lo K1 = some w ∧ C.cmp_internal u w ≤ 0
  | [], _, u, hu => by simp at hu
  | k :: K1, hp, u, hu => by
    rw [lastLo_cons]
    rw [List.pairwise_cons] at hp
    rcases List.mem_cons.1 hu with rfl | hu
    · rcases lastLo_cases (some u) K1 with ⟨_, e⟩ | ⟨w, hw, e⟩
      · exact ⟨u, e, le_of_eq (L.refl u)⟩
      · exact ⟨w, e, le_of_lt (hp.1 w hw)⟩
    · obtain ⟨w, e, hle⟩ := mem_le_lastLo L (some k) K1 hp.2 u hu
      exact ⟨w, e, hle⟩

theorem headHi_le_mem {C : Capability V} (L : Lawful C) (hi : Option V) (K2 : List V)
    (hp : K2.Pairwise (klt C)) (y : V) (hy : y ∈ K2) :
    ∃ w, headHi K2 hi = some w ∧ C.cmp_internal w y ≤ 0 := by
  cases K2 with
  | nil => simp at hy
  | cons k K2 =>
    rw [List.pairwise_cons] at hp
    rcases List.mem_cons.1 hy with rfl | hy
    · exact ⟨y, rfl, le_of_eq (L.refl y)⟩
    · exact ⟨k, rfl, le_of_lt (hp.1 y hy)⟩

theorem lt_irrefl' {C : Capability V} (L : Lawful C) (a : V) : ¬ C.cmp_internal a a < 0 := by
  rw [L.refl]
  omega

theorem kids_locate {C : Capability V} (L : Lawful C) (n : Nat) (K1 K2 : List V)
    (C1 C2 : List (GT V n)) (c : GT V n) (lo hi : Option V)
    (ho : OrdKids (Ord C n) lo (K1 ++ K2) (C1 ++ c :: C2) hi)
    (hp : (K1 ++ K2).Pairwise (klt C)) (hl : C1.length = K1.length) (x : V)
    (hx : x ∈ (C1 ++ c :: C2).flatMap (GT.recs n))
    (h1 : loLe C (lastLo lo K1) (C.getKey x)) (h2 : ltHi C (C.getKey x) (headHi K2 hi)) :
    x ∈ GT.recs n c := by
  obtain ⟨_, _, _, m4, m5⟩ := OrdKids_mid (Ord C n) K1 K2 C1 C2 c lo hi ho hl
  rw [List.pairwise_append] at hp
  obtain ⟨d, hd, hxd⟩ := List.mem_flatMap.1 hx
  simp only [List.mem_append, List.mem_cons] at hd
  rcases hd with hd | rfl | hd
  · exfalso
    obtain ⟨u, hu, l, hpd⟩ := m4 d hd
    have hb := (Ord_recs_bounds L n d l (some u) hpd x hxd).2
    obtain ⟨w, e, hle⟩ := mem_le_lastLo L lo K1 hp.1 u hu
    rw [e] at h1
    exact lt_irrefl' L (C.getKey x) (L.lt_of_lt_of_le (L.lt_of_lt_of_le hb hle) h1)
  · exact hxd
  · exfalso
    obtain ⟨y, hy, u, hpd⟩ := m5 d hd
    have hb := (Ord_recs_bounds L n d (some y) u hpd x hxd).1
    obtain ⟨w, e, hle⟩ := headHi_le_mem L hi K2 hp.2.1 y hy
    rw [e] at h2
    exact lt_irrefl' L (C.getKey x) (L.lt_of_lt_of_le (L.lt_of_lt_of_le h2 hle) hb)

/-! ## Every separator is the key of a record below the next child -/

theorem lastLo_snoc (lo : Option V) (ks : List V) (k : V) : lastLo lo (ks ++ [k]) = some k := by
  simp [lastLo]

theorem loLe_of_loLt_of_le {C : Capability V} (L : Lawful C) (lo : Option V) (a b : V)
    (h1 : loLt C lo a) (h2 : C.cmp_internal a b ≤ 0) : loLe C lo b := by
  cases lo with
  | none => trivial
  | some l => exact le_of_lt (L.lt_of_lt_of_le h1 h2)

theorem ltHi_of_le_of_ltHi {C : Capability V} (L : Lawful C) (hi : Option V) (a b : V)
    (h1 : C.cmp_internal a b ≤ 0) (h2 : ltHi C b hi) : ltHi C a hi := by
  cases hi with
  | none => trivial
  | some u => exact L.lt_of_le_of_lt h1 h2

theorem split_at_lookup {α : Type} (l : List α) (i : Nat) (x : α) (h : l[i]? = some x) :
    ∃ l1 l2, l = l1 ++ x :: l2 ∧ l1.length = i := by
  obtain ⟨hi, e⟩ := List.getElem?_eq_some_iff.1 h
  obtain ⟨l1, c, l2, el, e1⟩ := exists_split_at l i hi
  refine ⟨l1, l2, ?_, e1⟩
  have : (l1 ++ c :: l2)[i]? = some c := by
    rw [List.getElem?_append_right (by omega)]
    simp [e1]
  rw [← el, h] at this
  cases this
  exact el

theorem Tight_of {C : Capability V} (L : Lawful C) :
    ∀ (n : Nat) (g : GT V n) (lo hi : Option V), Ord C n g lo hi →
      (∀ k ∈ GT.seps n g, ∃ x ∈ GT.recs n g, C.cmp_internal k (C.getKey x) = 0) →
      Tight C n g
  | 0, _, _, _, _, _ => trivial
  | n + 1, g, lo, hi, ho, hs => by
    obtain ⟨a, ks, cs⟩ := g
    obtain ⟨o1, o2, o3⟩ := ho
    simp only at o1 o2 o3
    refine ⟨?_, ?_⟩
    · intro i k cr hk hcr
      simp only at hk hcr
      obtain ⟨K1, K2, eks, eK1⟩ := split_at_lookup ks i k hk
      obtain ⟨C1, C2, ecs, eC1⟩ := split_at_lookup cs (i + 1) cr hcr
      have eks' : ks = (K1 ++ [k]) ++ K2 := by rw [eks]; simp
      obtain ⟨x, hx, hxk⟩ := hs k (by
        rw [GT.seps_succ, List.mem_append]
        exact Or.inr (by rw [eks]; simp))
      refine ⟨x, ?_, hxk⟩
      rw [GT.recs_succ] at hx
      simp only at hx
      rw [ecs] at hx o3
      rw [eks'] at o1 o3
      refine kids_locate L n (K1 ++ [k]) K2 C1 C2 cr lo hi o3 o1 (by simp; omega) x hx ?_ ?_
      · rw [lastLo_snoc]
        exact le_of_eq hxk
      · have hle : C.cmp_internal (C.getKey x) k ≤ 0 := le_of_eq (L.eq_symm hxk)
        rcases headHi_cases K2 hi with ⟨_, e⟩ | ⟨u, hu, e⟩
        · rw [e]
          exact ltHi_of_le_of_ltHi L hi _ k hle (o2 k (by rw [eks]; simp)).2
        · rw [e]
          rw [List.pairwise_append] at o1
          exact L.lt_of_le_of_lt hle (o1.2.2 k (by simp) u hu)
    · intro c hc
      simp only at hc
      obtain ⟨C1, C2, ecs⟩ := List.append_of_mem hc
      have hlen := OrdKids_length (Ord C n) ks cs lo hi o3
      have hC1 : C1.length ≤ ks.length := by
        rw [ecs] at hlen
        simp only [List.length_append, List.length_cons] at hlen
        omega
      have eks : ks = ks.take C1.length ++ ks.drop C1.length := (List.take_append_drop _ _).symm
      have hl : C1.length = (ks.take C1.length).length := by
        rw [List.length_take]; omega
      rw [ecs] at o3
      rw [eks] at o1 o3
      obtain ⟨m1, _, _, _, _⟩ := OrdKids_mid (Ord C n) _ _ C1 C2 c lo hi o3 hl
      refine Tight_of L n c _ _ m1 ?_
      intro k hk
      obtain ⟨b1, b2⟩ := Ord_seps_bounds L n c _ _ m1 k hk
      obtain ⟨x, hx, hxk⟩ := hs k (by
        rw [GT.seps_succ, List.mem_append]
        exact Or.inl (List.mem_flatMap.2 ⟨c, hc, hk⟩))
      refine ⟨x, ?_, hxk⟩
      rw [GT.recs_succ] at hx
      simp only at hx
      rw [ecs] at hx
      refine kids_locate L n _ _ C1 C2 c lo hi o3 o1 hl x hx ?_ ?_
      · exact loLe_of_loLt_of_le L _ k _ b1 (le_of_eq hxk)
      · exact ltHi_of_le_of_ltHi L _ _ k (le_of_eq (L.eq_symm hxk)) b2

/-! ## The key copies made by an insertion -/

theorem leafCopies_has {C : Capability V} (L : Lawful C) (t : Tree V) (n : Nat) (g : GT V n)
    (r : V) (la : Nat) (hm : Model C t n g)
    (hd : ∀ x ∈ GT.recs n g, C.cmp_data (C.getKey r) x ≠ 0)
    (hfl : findLeaf C.cmp_internal t.heap t.root (C.getKey r) = some (some la)) :
    ∀ k ∈ leafCopies C t la r,
      ∃ x, (x = r ∨ x ∈ GT.recs n g) ∧ C.cmp_internal k (C.getKey x) = 0 := by
  have hm' := hm
  obtain ⟨m1, m2, m3, m4, _⟩ := hm'
  have hsz := heap_size n g none m2 m4
  obtain ⟨la', rs, e1, e2, _⟩ := descend_spec L n g t.heap none none none (C.getKey r)
    t.heap.length m2 m3 trivial trivial hsz
  have hfl' := findLeaf_eq C t _ la' (C.getKey r) m1 e1
  rw [hfl] at hfl'
  simp only [Option.some.injEq] at hfl'
  subst hfl'
  obtain ⟨nd, l1, l2, l3, l4, l5, l6⟩ := leaf_of_Rep n g none m2 la rs e2
  have hsub : ∀ x ∈ rs, C.cmp_data (C.getKey r) x ≠ 0 := fun x hx =>
    hd x (leaf_recs_subset n g la rs e2 x hx)
  intro k hk
  simp only [leafCopies, l1] at hk
  by_cases hnk : nd.num_keys < MAXKEYS
  · rw [if_pos hnk] at hk
    simp at hk
  · rw [if_neg hnk] at hk
    have hlen : rs.length = 4 := by
      simp only [MAXKEYS, ORDER] at hnk
      omega
    obtain ⟨h', m0, m1', m2', m3', m4', s1, _, _, s4, _⟩ :=
      Insert_split_call L t n g r la rs nd hm hfl e2 hlen l1 hsub
    rw [s4] at hk
    simp only [List.mem_singleton] at hk
    subst hk
    obtain ⟨_, _, s3, _⟩ := sortedIns_sorted L r rs (leaf_sorted n g none none m3 la rs e2) hsub
    have hmem : m3' ∈ sortedIns C r rs := by rw [s1]; simp
    refine ⟨m3', ?_, L.copy _⟩
    rcases (s3 m3').1 hmem with h | h
    · exact Or.inl h
    · exact Or.inr (leaf_recs_subset n g la rs e2 m3' h)

theorem keyCopies_empty (C : Capability V) (t : Tree V) (r : V) (hroot : t.root = none) :
    Insert_BPlus.keyCopies C t r = [] := by
  simp [Insert_BPlus.keyCopies, hroot]

theorem keyCopies_dup {C : Capability V} (L : Lawful C) (t : Tree V) (n : Nat) (g : GT V n)
    (r : V) (hm : Model C t n g)
    (hd : ∃ x ∈ GT.recs n g, C.cmp_data (C.getKey r) x = 0) :
    Insert_BPlus.keyCopies C t r = [] := by
  obtain ⟨m1, m2, m3, m4, _⟩ := hm
  have hsz := heap_size n g none m2 m4
  obtain ⟨la, rs, e1, e2, e3⟩ := descend_spec L n g t.heap none none none (C.getKey r)
    t.heap.length m2 m3 trivial trivial hsz
  obtain ⟨nd, l1, l2, l3, l4, l5, l6⟩ := leaf_of_Rep n g none m2 la rs e2
  obtain ⟨x, hx, hx0⟩ := hd
  have hx' : x ∈ rs := e3 x hx (by rw [← L.data]; exact hx0)
  have hfl := findLeaf_eq C t _ la (C.getKey r) m1 e1
  simp [Insert_BPlus.keyCopies, m1, hfl, l1,
    dupCheck_dup C (C.getKey r) nd rs l4 l3 l6 ⟨x, hx', hx0⟩]
  rw [← m1, hfl]
  simp [l1, dupCheck_dup C (C.getKey r) nd rs l4 l3 l6 ⟨x, hx', hx0⟩]

theorem keyCopies_nodup {C : Capability V} (L : Lawful C) (t : Tree V) (n : Nat) (g : GT V n)
    (r : V) (la : Nat) (hm : Model C t n g)
    (hd : ∀ x ∈ GT.recs n g, C.cmp_data (C.getKey r) x ≠ 0)
    (hfl : findLeaf C.cmp_internal t.heap t.root (C.getKey r) = some (some la)) :
    Insert_BPlus.keyCopies C t r = leafCopies C t la r := by
  obtain ⟨m1, m2, m3, m4, _⟩ := hm
  have hsz := heap_size n g none m2 m4
  obtain ⟨la', rs, e1, e2, _⟩ := descend_spec L n g t.heap none none none (C.getKey r)
    t.heap.length m2 m3 trivial trivial hsz
  have hfl' := findLeaf_eq C t _ la' (C.getKey r) m1 e1
  rw [hfl] at hfl'
  simp only [Option.some.injEq] at hfl'
  subst hfl'
  obtain ⟨nd, l1, l2, l3, l4, l5, l6⟩ := leaf_of_Rep n g none m2 la rs e2
  have hsub : ∀ x ∈ rs, C.cmp_data (C.getKey r) x ≠ 0 := fun x hx =>
    hd x (leaf_recs_subset n g la rs e2 x hx)
  have hdc := dupCheck_ok C (C.getKey r) nd rs l4 l3 l6 hsub
  unfold Insert_BPlus.keyCopies
  rw [hfl]
  simp only [m1, l1, hdc]

/-! ## Separators along a sequence of insertions -/

theorem Insert_seps {C : Capability V} (L : Lawful C) (t : Tree V) (S : List V)
    (hS : IsSeps C t S) (r : V) :
    ∃ sc t' S', Insert_BPlus C t r = some (sc, t') ∧ IsSeps C t' S' ∧
      S'.Perm (Insert_BPlus.keyCopies C t r ++ S) := by
  rcases hS with ⟨hn, rfl⟩ | ⟨n, g, hm, rfl⟩
  · obtain ⟨t', e1, e2, _⟩ := Insert_empty C t r hn
    refine ⟨status_code.SUCCESS, t', [], e1, Or.inr ⟨0, _, e2, rfl⟩, ?_⟩
    rw [keyCopies_empty C t r hn]
    exact List.Perm.refl _
  · by_cases hd : ∃ x ∈ GT.recs n g, C.cmp_data (C.getKey r) x = 0
    · refine ⟨status_code.FAILURE, t, GT.seps n g, Insert_dup L t n g r hm hd,
        Or.inr ⟨n, g, hm, rfl⟩, ?_⟩
      rw [keyCopies_dup L t n g r hm hd]
      exact List.Perm.refl _
    · push_neg at hd
      obtain ⟨t', n', g', la, e1, e2, e3, _, _, e6⟩ := Insert_grow L t n g r hm hd
      refine ⟨status_code.SUCCESS, t', GT.seps n' g', e1, Or.inr ⟨n', g', e2, rfl⟩, ?_⟩
      rw [keyCopies_nodup L t n g r la hm hd e3]
      exact e6

theorem Reachable_covered {C : Capability V} (L : Lawful C) (t : Tree V)
    (hr : Reachable C t) :
    t.root = none ∨ ∃ (n : Nat) (g : GT V n), Model C t n g ∧
      ∀ k ∈ GT.seps n g, ∃ x ∈ GT.recs n g, C.cmp_internal k (C.getKey x) = 0 := by
  induction hr with
  | empty h => exact Or.inl rfl
  | insert t t' r sc _ hins ih =>
    rcases ih with hn | ⟨n, g, hm, hc⟩
    · obtain ⟨t'', e1, e2, _⟩ := Insert_empty C t r hn
      rw [e1] at hins
      cases hins
      exact Or.inr ⟨0, _, e2, by simp [GT.seps]⟩
    · by_cases hd : ∃ x ∈ GT.recs n g, C.cmp_data (C.getKey r) x = 0
      · rw [Insert_dup L t n g r hm hd] at hins
        cases hins
        exact Or.inr ⟨n, g, hm, hc⟩
      · push_neg at hd
        obtain ⟨t'', n', g', la, e1, e2, e3, e4, _, e6⟩ := Insert_grow L t n g r hm hd
        rw [e1] at hins
        cases hins
        have hp : (GT.recs n' g').Perm (r :: GT.recs n g) := LeafEffect_perm e4
        refine Or.inr ⟨n', g', e2, ?_⟩
        intro k hk
        rcases List.mem_append.1 (e6.subset hk) with hk | hk
        · obtain ⟨x, hx, hxk⟩ := leafCopies_has L t n g r la hm hd e3 k hk
          refine ⟨x, hp.symm.subset ?_, hxk⟩
          rcases hx with rfl | hx
          · simp
          · exact List.mem_cons_of_mem _ hx
        · obtain ⟨x, hx, hxk⟩ := hc k hk
          exact ⟨x, hp.symm.subset (List.mem_cons_of_mem _ hx), hxk⟩

theorem Reachable_tight {C : Capability V} (L : Lawful C) (t : Tree V)
    (hr : Reachable C t) :
    t.root = none ∨ ∃ (n : Nat) (g : GT V n), Model C t n g ∧ Tight C n g := by
  rcases Reachable_covered L t hr with hn | ⟨n, g, hm, hc⟩
  · exact Or.inl hn
  · exact Or.inr ⟨n, g, hm, Tight_of L n g none none hm.2.2.1 hc⟩

/-! ## Paths from the root, with a property inherited by the children -/

theorem depth_sub_with {C : Capability V} {h : Heap V}
    (P : (n : Nat) → GT V n → Prop)
    (hP : ∀ (n : Nat) (g : GT V (n + 1)), P (n + 1) g → ∀ c ∈ g.2.2, P n c)
    (n : Nat) (g : GT V n) (par : Option Nat)
    (lo hi : Option V) (hr : Rep h n g par) (ho : Ord C n g lo hi) (hg : P n g) (q d : Nat)
    (hp : DepthTo h (GT.addr n g) q d) :
    ∃ (m : Nat) (s : GT V m) (par' : Option Nat) (lo' hi' : Option V),
      m + d = n ∧ GT.addr m s = q ∧ Rep h m s par' ∧ Ord C m s lo' hi' ∧ P m s := by
  induction hp with
  | root => exact ⟨n, g, par, lo, hi, rfl, rfl, hr, ho, hg⟩
  | child p c d i nd _ hnd hleaf hi' hch ih =>
    obtain ⟨m, s, par', lo', hi'', e1, e2, e3, e4, e5⟩ := ih
    cases m with
    | zero =>
      obtain ⟨nd', h1, h2, _⟩ := e3
      simp only [GT.addr] at e2
      rw [e2, hnd] at h1
      cases h1
      rw [hleaf] at h2
      cases h2
    | succ m =>
      obtain ⟨nd', h1, h2, h3, h4, h5, h6, h7, h8, h9, h10, h11⟩ := e3
      simp only [GT.addr] at e2
      rw [e2, hnd] at h1
      cases h1
      have hc := pad_lookup_some _ _ _ _ (h6 ▸ hch)
      rw [List.getElem?_map] at hc
      cases hcs : s.2.2[i]? with
      | none => rw [hcs] at hc; cases hc
      | some cg =>
        rw [hcs] at hc
        simp only [Option.map_some', Option.some.injEq] at hc
        have hmem : cg ∈ s.2.2 := List.getElem?_mem hcs
        obtain ⟨l, u, hpo, _⟩ := OrdKids_mem (Ord C m) _ _ lo' hi'' e4.2.2 cg hmem
        exact ⟨m, cg, some s.1, l, u, by omega, hc, h11 cg hmem, hpo, hP m s e5 cg hmem⟩

/-! ## Destruction of a represented tree -/

theorem destroy_children_eq (destroy : Option Nat → Option (Released V)) (n : Nat)
    (nd : GenericBPlusTreeNode V) (cs : List (GT V n))
    (hc : nd.children = pad 5 (cs.map (GT.addr n))) (hn : nd.num_keys + 1 = cs.length)
    (hd : ∀ c ∈ cs, ∃ ns, destroy (some (GT.addr n c)) =
      some { data := GT.recs n c, keys := GT.seps n c, nodes := ns }) :
    ∀ (k i fuel : Nat), i + k = cs.length → k + 1 ≤ fuel →
      ∃ ns, destroyGenericBPlusTreeNode.children destroy nd fuel i =
        some { data := (cs.drop i).flatMap (GT.recs n), keys := (cs.drop i).flatMap (GT.seps n),
               nodes := ns }
  | 0, i, fuel, hi, hf => by
    obtain ⟨f, rfl⟩ : ∃ f, fuel = f + 1 := ⟨fuel - 1, by omega⟩
    have hnot : ¬ i < nd.num_keys + 1 := by omega
    refine ⟨[], ?_⟩
    simp only [destroyGenericBPlusTreeNode.children, if_neg hnot]
    rw [List.drop_eq_nil_of_le (by omega)]
    rfl
  | k + 1, i, fuel, hi, hf => by
    obtain ⟨f, rfl⟩ : ∃ f, fuel = f + 1 := ⟨fuel - 1, by omega⟩
    have hlt : i < nd.num_keys + 1 := by omega
    have hil : i < cs.length := by omega
    have hch : nd.children[i]? = some (some (GT.addr n cs[i])) := by
      rw [hc]
      exact pad_lookup_lt _ _ _ _ (by rw [List.getElem?_map, List.getElem?_eq_getElem hil]; rfl)
    obtain ⟨ns1, e1⟩ := hd cs[i] (List.getElem_mem hil)
    obtain ⟨ns2, e2⟩ := destroy_children_eq destroy n nd cs hc hn hd k (i + 1) f (by omega)
      (by omega)
    refine ⟨ns1 ++ ns2, ?_⟩
    simp only [destroyGenericBPlusTreeNode.children, if_pos hlt, hch, e1, e2]
    rw [← List.getElem_cons_drop cs i hil]
    simp only [List.flatMap_cons]

theorem destroy_eq {h : Heap V} : ∀ (n : Nat) (g : GT V n) (par : Option Nat) (fuel : Nat),
    Rep h n g par → n + 1 ≤ fuel →
    ∃ ns, destroyGenericBPlusTreeNode h true fuel (some (GT.addr n g)) =
      some { data := GT.recs n g, keys := GT.seps n g, nodes := ns }
  | 0, g, par, fuel, hr, hf => by
    obtain ⟨f, rfl⟩ : ∃ f, fuel = f + 1 := ⟨fuel - 1, by omega⟩
    obtain ⟨nd, h1, h2, h3, h4, h5, h6, h7, h8⟩ := hr
    have hl := leafRecords_eq nd g.2 h5 h4 h8
    refine ⟨[g.1], ?_⟩
    simp [destroyGenericBPlusTreeNode, GT.addr, h1, h2, hl, GT.recs_zero, GT.seps]
  | n + 1, g, par, fuel, hr, hf => by
    obtain ⟨f, rfl⟩ : ∃ f, fuel = f + 1 := ⟨fuel - 1, by omega⟩
    obtain ⟨nd, h1, h2, h3, h4, h5, h6, h7, h8, h9, h10, h11⟩ := hr
    have hl := leafRecords_eq nd g.2.1 h5 h4 h10
    have hkids : ∀ c ∈ g.2.2, ∃ ns, destroyGenericBPlusTreeNode h true f (some (GT.addr n c)) =
        some { data := GT.recs n c, keys := GT.seps n c, nodes := ns } := fun c hc =>
      destroy_eq n c (some g.1) f (h11 c hc) (by omega)
    obtain ⟨ns, e⟩ := destroy_children_eq (destroyGenericBPlusTreeNode h true f) n nd g.2.2 h6
      (by omega) hkids g.2.2.length 0 (nd.num_keys + 2) (by omega) (by omega)
    refine ⟨ns ++ [g.1], ?_⟩
    show destroyGenericBPlusTreeNode h true (f + 1) (some g.1) = _
    simp only [destroyGenericBPlusTreeNode, h1, h2, e, hl, List.drop_zero]
    simp [GT.recs_succ, GT.seps_succ]

/-! ## The separators of a tree are pairwise different -/

theorem ne_of_lt {C : Capability V} (a b : V) (h : C.cmp_internal a b < 0) :
    C.cmp_internal a b ≠ 0 := by omega

theorem ne_of_gt {C : Capability V} (L : Lawful C) (a b : V) (h : C.cmp_internal b a < 0) :
    C.cmp_internal a b ≠ 0 := by
  have := (L.anti b a).1 h
  omega

theorem kids_seps_distinct {C : Capability V} (L : Lawful C) (n : Nat)
    (ih : ∀ (c : GT V n) (lo hi : Option V), Ord C n c lo hi →
      (GT.seps n c).Pairwise (fun a b => C.cmp_internal a b ≠ 0)) :
    ∀ (ks : List V) (cs : List (GT V n)) (lo hi : Option V), ks.Pairwise (klt C) →
      (∀ k ∈ ks, loLt C lo k ∧ ltHi C k hi) → OrdKids (Ord C n) lo ks cs hi →
      (cs.flatMap (GT.seps n)).Pairwise (fun a b => C.cmp_internal a b ≠ 0) ∧
      ∀ a ∈ cs.flatMap (GT.seps n), ∀ b ∈ ks, C.cmp_internal a b ≠ 0
  | [], [], _, _, _, _, h => by simp [OrdKids] at h
  | [], [c], lo, hi, _, _, h => by
    simp only [OrdKids] at h
    refine ⟨by simpa using ih c lo hi h, ?_⟩
    intro a _ b hb
    simp at hb
  | [], _ :: _ :: _, _, _, _, _, h => by simp [OrdKids] at h
  | _ :: _, [], _, _, _, _, h => by simp [OrdKids] at h
  | k :: ks, c :: cs, lo, hi, hp, hb, h => by
    simp only [OrdKids] at h
    obtain ⟨h1, h2⟩ := h
    rw [List.pairwise_cons] at hp
    have hb' : ∀ k' ∈ ks, loLt C (some k) k' ∧ ltHi C k' hi := fun k' hk' =>
      ⟨hp.1 k' hk', (hb k' (List.mem_cons_of_mem _ hk')).2⟩
    obtain ⟨r1, r2⟩ := kids_seps_distinct L n ih ks cs (some k) hi hp.2 hb' h2
    have hord : Ord C (n + 1) (0, ks, cs) (some k) hi := ⟨hp.2, hb', h2⟩
    have hlow : ∀ a ∈ GT.seps n c, C.cmp_internal a k < 0 := fun a ha =>
      (Ord_seps_bounds L n c lo (some k) h1 a ha).2
    have hhigh : ∀ b ∈ cs.flatMap (GT.seps n), C.cmp_internal k b < 0 := fun b hb2 =>
      (Ord_seps_bounds L (n + 1) (0, ks, cs) (some k) hi hord b (by
        rw [GT.seps_succ, List.mem_append]; exact Or.inl hb2)).1
    constructor
    · rw [List.flatMap_cons, List.pairwise_append]
      refine ⟨ih c lo (some k) h1, r1, ?_⟩
      intro a ha b hb2
      exact ne_of_lt a b (L.lt_trans (hlow a ha) (hhigh b hb2))
    · intro a ha b hb2
      rw [List.flatMap_cons, List.mem_append] at ha
      rcases ha with ha | ha
      · rcases List.mem_cons.1 hb2 with rfl | hb2
        · exact ne_of_lt a b (hlow a ha)
        · exact ne_of_lt a b (L.lt_trans (hlow a ha) (hp.1 b hb2))
      · rcases List.mem_cons.1 hb2 with rfl | hb2
        · exact ne_of_gt L a b (hhigh a ha)
        · exact r2 a ha b hb2

theorem seps_distinct {C : Capability V} (L : Lawful C) : ∀ (n : Nat) (g : GT V n)
    (lo hi : Option V), Ord C n g lo hi →
      (GT.seps n g).Pairwise (fun a b => C.cmp_internal a b ≠ 0)
  | 0, g, _, _, _ => by simp [GT.seps]
  | n + 1, g, lo, hi, h => by
    obtain ⟨r1, r2⟩ := kids_seps_distinct L n (seps_distinct L n) g.2.1 g.2.2 lo hi h.1 h.2.1
      h.2.2
    rw [GT.seps_succ, List.pairwise_append]
    exact ⟨r1, h.1.imp (fun hab => ne_of_lt _ _ hab), r2⟩

theorem seps_nodup {C : Capability V} (L : Lawful C) (n : Nat) (g : GT V n)
    (lo hi : Option V) (ho : Ord C n g lo hi) : (GT.seps n g).Nodup := by
  refine (seps_distinct L n g lo hi ho).imp ?_
  intro a b hab e
  rw [e, L.refl] at hab
  exact hab rfl

theorem recs_nodup {C : Capability V} (L : Lawful C) (n : Nat) (g : GT V n)
    (lo hi : Option V) (ho : Ord C n g lo hi) : (GT.recs n g).Nodup := by
  refine (recs_sorted L n g lo hi ho).imp ?_
  intro a b hab e
  rw [e] at hab
  exact lt_irrefl' L _ hab

/-! ## The separators of the ghost tree are the separators in the heap -/

theorem seps_separator {h : Heap V} : ∀ (n : Nat) (g : GT V n) (par : Option Nat),
    Rep h n g par → ∀ k ∈ GT.seps n g,
      ∃ (p d : Nat) (nd : GenericBPlusTreeNode V) (i : Nat), DepthTo h (GT.addr n g) p d ∧
        h[p]? = some nd ∧ nd.is_leaf = false ∧ i < nd.num_keys ∧ nd.keys[i]? = some (some k)
  | 0, g, _, _, k, hk => by simp [GT.seps] at hk
  | n + 1, g, par, hr, k, hk => by
    obtain ⟨nd, h1, h2, h3, h4, h5, h6, h7, h8, h9, h10, h11⟩ := hr
    rw [GT.seps_succ, List.mem_append] at hk
    rcases hk with hk | hk
    · obtain ⟨c, hc, hkc⟩ := List.mem_flatMap.1 hk
      obtain ⟨p, d, ndp, i, e1, e2, e3, e4, e5⟩ := seps_separator n c _ (h11 c hc) k hkc
      obtain ⟨j, hj, hcj⟩ := List.getElem_of_mem hc
      have hch : nd.children[j]? = some (some (GT.addr n c)) := by
        rw [h6]
        exact pad_lookup_lt _ _ _ _ (by rw [List.getElem?_map, List.getElem?_eq_getElem hj, hcj]; rfl)
      exact ⟨p, d + 1, ndp, i, DepthTo_prepend g.1 (GT.addr n c) nd j h1 h2 (by omega) hch p d e1,
        e2, e3, e4, e5⟩
    · obtain ⟨i, hi, hki⟩ := List.getElem_of_mem hk
      refine ⟨g.1, 0, nd, i, DepthTo.root, h1, h2, by omega, ?_⟩
      rw [h5]
      exact pad_lookup_lt _ _ _ _ (by rw [List.getElem?_eq_getElem hi, hki])

theorem IsSeparator_iff {C : Capability V} (t : Tree V) (n : Nat) (g : GT V n)
    (hm : Model C t n g) (k : V) : IsSeparator t k ↔ k ∈ GT.seps n g := by
  obtain ⟨m1, m2, m3, _, _⟩ := hm
  constructor
  · rintro ⟨root, p, d, nd, i, hroot, hp, hnd, hint, hi, hk⟩
    rw [m1] at hroot
    cases hroot
    obtain ⟨m, s, par', lo', hi', _, e2, e3, _, e5⟩ :=
      depth_sub_with (fun m s => ∀ k ∈ GT.seps m s, k ∈ GT.seps n g)
        (fun m s hs c hc k hk => hs k (by
          rw [GT.seps_succ, List.mem_append]
          exact Or.inl (List.mem_flatMap.2 ⟨c, hc, hk⟩)))
        n g none none none m2 m3 (fun k hk => hk) p d hp
    cases m with
    | zero =>
      obtain ⟨nd', h1, h2, _⟩ := e3
      simp only [GT.addr] at e2
      rw [e2, hnd] at h1
      cases h1
      rw [hint] at h2
      cases h2
    | succ m =>
      obtain ⟨nd', h1, h2, h3, h4, h5, _⟩ := e3
      simp only [GT.addr] at e2
      rw [e2, hnd] at h1
      cases h1
      apply e5
      rw [GT.seps_succ, List.mem_append]
      right
      exact List.getElem?_mem (pad_lookup_some _ _ _ _ (h5 ▸ hk))
  · intro hk
    obtain ⟨p, d, nd, i, e1, e2, e3, e4, e5⟩ := seps_separator n g none m2 k hk
    exact ⟨_, p, d, nd, i, m1, e1, e2, e3, e4, e5⟩

/-! ## `Destroy_BPlus_Tree` and sequences of insertions -/

theorem Destroy_spec {C : Capability V} (L : Lawful C) (t : Tree V) (S : List V)
    (hS : IsSeps C t S) :
    ∃ rel, Destroy_BPlus_Tree t true = some (rel, { heap := t.heap, root := none }) ∧
      rel.keys = S ∧ extractToList t = some rel.data ∧ rel.data.Nodup ∧ rel.keys.Nodup ∧
      (∀ x, x ∈ rel.data ↔ Stored t x) ∧ (∀ k, k ∈ rel.keys ↔ IsSeparator t k) := by
  rcases hS with ⟨hn, rfl⟩ | ⟨n, g, hm, rfl⟩
  · refine ⟨{ data := [], keys := [], nodes := [] }, ?_, rfl, ?_, by simp, by simp, ?_, ?_⟩
    · cases t with
      | mk heap root =>
        simp only at hn
        subst hn
        simp [Destroy_BPlus_Tree]
    · simp [extractToList, hn]
    · intro x
      simpa using Stored_empty t hn x
    · intro k
      simp only [List.not_mem_nil, false_iff]
      rintro ⟨root, _, _, _, _, hroot, _⟩
      rw [hn] at hroot
      cases hroot
  · have hm' := hm
    obtain ⟨m1, m2, m3, m4, _⟩ := hm'
    have hsz := heap_size n g none m2 m4
    obtain ⟨ns, e⟩ := destroy_eq n g none (t.heap.length + 1) m2 (by omega)
    refine ⟨{ data := GT.recs n g, keys := GT.seps n g, nodes := ns }, ?_, rfl,
      extractToList_eq t n g hm, recs_nodup L n g _ _ m3, seps_nodup L n g _ _ m3, ?_, ?_⟩
    · simp only [Destroy_BPlus_Tree, m1, e]
    · intro x
      exact (Stored_iff t n g hm x).symm
    · intro k
      exact (IsSeparator_iff t n g hm k).symm

theorem insertCopies_spec {C : Capability V} (L : Lawful C) : ∀ (rs : List V) (t : Tree V)
    (S : List V), IsSeps C t S →
    ∃ t' cps S', insertCopies C t rs = some (t', cps) ∧ insertAll C t rs = some t' ∧
      IsSeps C t' S' ∧ S'.Perm (cps ++ S)
  | [], t, S, hS => ⟨t, [], S, rfl, rfl, hS, List.Perm.refl _⟩
  | r :: rs, t, S, hS => by
    obtain ⟨sc, t1, S1, e1, e2, e3⟩ := Insert_seps L t S hS r
    obtain ⟨t', cps, S', f1, f2, f3, f4⟩ := insertCopies_spec L rs t1 S1 e2
    refine ⟨t', Insert_BPlus.keyCopies C t r ++ cps, S', ?_, ?_, f3, ?_⟩
    · simp [insertCopies, e1, f1]
    · simp [insertAll, e1, f2]
    · refine f4.trans ?_
      refine (List.Perm.append_left cps e3).trans ?_
      rw [← List.append_assoc]
      exact List.Perm.append_right S List.perm_append_comm

/-! ## Height of the tree -/

/-- C15: in a reachable tree, `Insert_BPlus` of any record leaves the height
unchanged or makes it exactly one greater; it is one greater exactly when the
call installs a new root, and then the root is a node created by this call. -/
theorem height_grows_with_root {C : Capability V} (L : Lawful C) (t : Tree V)
    (hr : Reachable C t) (r : V) :
    ∃ sc t' a b, Insert_BPlus C t r = some (sc, t') ∧ height t = some a ∧
      height t' = some b ∧ (b = a ∨ b = a + 1) ∧ (b = a + 1 ↔ t'.root ≠ t.root) ∧
      (t'.root ≠ t.root → ∃ q, t'.root = some q ∧ t.heap[q]? = none) := by
  rcases Reachable_Inv L t hr with hn | ⟨n, g, hm⟩
  · obtain ⟨t', e1, e2, _⟩ := Insert_empty C t r hn
    have hroot : t'.root = some t.heap.length := e2.1
    refine ⟨status_code.SUCCESS, t', 0, 1, e1, height_empty t hn, height_eq t' 0 _ e2,
      Or.inr rfl, ?_, ?_⟩
    · simp [hroot, hn]
    · intro _
      exact ⟨t.heap.length, hroot, List.getElem?_eq_none (le_refl _)⟩
  · by_cases hd : ∃ x ∈ GT.recs n g, C.cmp_data (C.getKey r) x = 0
    · refine ⟨status_code.FAILURE, t, n + 1, n + 1, Insert_dup L t n g r hm hd,
        height_eq t n g hm, height_eq t n g hm, Or.inl rfl, ?_, ?_⟩
      · simp
      · intro h; exact (h rfl).elim
    · push_neg at hd
      obtain ⟨t', n', g', la, e1, e2, _, _, e5, _⟩ := Insert_grow L t n g r hm hd
      have hlt : GT.addr n g < t.heap.length :=
        Rep_addrs_lt n g none hm.2.1 _ (GT.addr_mem n g)
      rcases e5 with ⟨rfl, hroot⟩ | ⟨rfl, q, hq, hle⟩
      · refine ⟨status_code.SUCCESS, t', n' + 1, n' + 1, e1, height_eq t n' g hm,
          height_eq t' n' g' e2, Or.inl rfl, ?_, ?_⟩
        · simp [hroot]
        · intro h; exact (h hroot).elim
      · have hne : t'.root ≠ t.root := by
          rw [hq, hm.1]
          intro e
          cases e
          omega
        refine ⟨status_code.SUCCESS, t', n + 1, n + 1 + 1, e1, height_eq t n g hm,
          height_eq t' (n + 1) g' e2, Or.inr rfl, ?_, ?_⟩
        · simp [hne]
        · intro _
          exact ⟨q, hq, List.getElem?_eq_none hle⟩

theorem height_grows_with_root_witness :
    ∃ sc t' a b, Insert_BPlus intCap tree4 5 = some (sc, t') ∧ height tree4 = some a ∧
      height t' = some b ∧ (b = a ∨ b = a + 1) ∧ (b = a + 1 ↔ t'.root ≠ tree4.root) ∧
      (t'.root ≠ tree4.root → ∃ q, t'.root = some q ∧ tree4.heap[q]? = none) :=
  height_grows_with_root intCap_lawful tree4 tree4_reachable 5

/-! ## Shape of the nodes -/

/-- C19: every node of a reachable tree has between 1 and `MAXKEYS` keys in
the slots `0 .. num_keys - 1`, strictly ascending (for a leaf: the keys of its
records), all later key slots are `NULL`; an internal node has non-`NULL`
children exactly in the slots `0 .. num_keys`, a leaf has none. -/
theorem node_shape {C : Capability V} (L : Lawful C) (t : Tree V) (hr : Reachable C t)
    (root p d : Nat) (nd : GenericBPlusTreeNode V) (hroot : t.root = some root)
    (hp : DepthTo t.heap root p d) (hnd : t.heap[p]? = some nd) :
    1 ≤ nd.num_keys ∧ nd.num_keys ≤ MAXKEYS ∧
    (∀ i, i < nd.num_keys → ∃ k, nd.keys[i]? = some (some k)) ∧
    (∀ i, nd.num_keys ≤ i → i < MAXKEYS → nd.keys[i]? = some none) ∧
    (∀ (i j : Nat) (ki kj : V), i < j → nd.keys[i]? = some (some ki) → nd.keys[j]? = some (some kj) →
      if nd.is_leaf then C.cmp_internal (C.getKey ki) (C.getKey kj) < 0
      else C.cmp_internal ki kj < 0) ∧
    (nd.is_leaf = false →
      (∀ i, i ≤ nd.num_keys → ∃ c, nd.children[i]? = some (some c)) ∧
      (∀ i, nd.num_keys < i → i < MAXCHILDREN → nd.children[i]? = some none)) ∧
    (nd.is_leaf = true → ∀ i, i < MAXCHILDREN → nd.children[i]? = some none) := by
  rcases Reachable_Inv L t hr with hn | ⟨n, g, hm⟩
  · rw [hn] at hroot
    cases hroot
  · obtain ⟨m1, m2, m3, _, _⟩ := hm
    rw [hroot] at m1
    cases m1
    obtain ⟨m, s, par', lo', hi', _, e2, e3, e4, _⟩ :=
      depth_sub n g none none none m2 m3 p d hp
    cases m with
    | zero =>
      obtain ⟨nd', h1, h2, h3, h4, h5, h6, h7, h8⟩ := e3
      simp only [GT.addr] at e2
      rw [e2, hnd] at h1
      cases h1
      refine ⟨by omega, by omega, ?_, ?_, ?_, ?_, ?_⟩
      · intro i hi
        rw [h5]
        exact pad_lookup_ex _ _ _ (by omega)
      · intro i hi1 hi2
        rw [h5]
        exact pad_lookup_ge _ _ _ (by omega) hi2
      · intro i j ki kj hij hki hkj
        rw [h2]
        simp only [if_true]
        rw [h5] at hki hkj
        exact pad_pairwise (fun a b => klt C (C.getKey a) (C.getKey b)) _ _ e4.1 i j ki kj hij
          hki hkj
      · intro hf
        rw [h2] at hf
        cases hf
      · intro _ i hi
        rw [h6, List.getElem?_replicate, if_pos hi]
    | succ m =>
      obtain ⟨nd', h1, h2, h3, h4, h5, h6, h7, h8, h9, h10, h11⟩ := e3
      simp only [GT.addr] at e2
      rw [e2, hnd] at h1
      cases h1
      refine ⟨by omega, by omega, ?_, ?_, ?_, ?_, ?_⟩
      · intro i hi
        rw [h5]
        exact pad_lookup_ex _ _ _ (by omega)
      · intro i hi1 hi2
        rw [h5]
        exact pad_lookup_ge _ _ _ (by omega) hi2
      · intro i j ki kj hij hki hkj
        rw [h2]
        simp only [Bool.false_eq_true, if_false]
        rw [h5] at hki hkj
        exact pad_pairwise (klt C) _ _ e4.1 i j ki kj hij hki hkj
      · intro _
        constructor
        · intro i hi
          rw [h6]
          obtain ⟨x, hx⟩ := pad_lookup_ex MAXCHILDREN (s.2.2.map (GT.addr m)) i
            (by rw [List.length_map]; omega)
          exact ⟨x, hx⟩
        · intro i hi1 hi2
          rw [h6]
          exact pad_lookup_ge _ _ _ (by rw [List.length_map]; omega) hi2
      · intro hf
        rw [h2] at hf
        cases hf

theorem node_shape_witness :
    1 ≤ root5.num_keys ∧ root5.num_keys ≤ MAXKEYS ∧
    (∀ i, i < root5.num_keys → ∃ k, root5.keys[i]? = some (some k)) ∧
    (∀ i, root5.num_keys ≤ i → i < MAXKEYS → root5.keys[i]? = some none) ∧
    (∀ (i j : Nat) (ki kj : Int), i < j → root5.keys[i]? = some (some ki) → root5.keys[j]? = some (some kj) →
      if root5.is_leaf then intCap.cmp_internal (intCap.getKey ki) (intCap.getKey kj) < 0
      else intCap.cmp_internal ki kj < 0) ∧
    (root5.is_leaf = false →
      (∀ i, i ≤ root5.num_keys → ∃ c, root5.children[i]? = some (some c)) ∧
      (∀ i, root5.num_keys < i → i < MAXCHILDREN → root5.children[i]? = some none)) ∧
    (root5.is_leaf = true → ∀ i, i < MAXCHILDREN → root5.children[i]? = some none) :=
  node_shape intCap_lawful tree5 tree5_reachable 2 2 0 root5 (by decide) DepthTo.root (by decide)

/-! ## Descent to a leaf -/

/-- C20: `findLeaf` returns `NULL` exactly when the root is `NULL`; on a
non-empty reachable tree it returns, for every key `k`, a leaf of the tree
that is reached from the root by descending at each internal node into
`children[i]` for the smallest `i` with `k < keys[i]` (`i = num_keys` if there
is none), and every stored record with key `k` is stored in that leaf. -/
theorem findLeaf_correct {C : Capability V} (L : Lawful C) (t : Tree V)
    (hr : Reachable C t) (k : V) :
    (findLeaf C.cmp_internal t.heap t.root k = some none ↔ t.root = none) ∧
    ∀ root, t.root = some root →
      ∃ la nd d, findLeaf C.cmp_internal t.heap t.root k = some (some la) ∧
        t.heap[la]? = some nd ∧ nd.is_leaf = true ∧ DepthTo t.heap root la d ∧
        RoutesTo C.cmp_internal t.heap k root la ∧
        ∀ x, Stored t x → C.cmp_internal k (C.getKey x) = 0 →
          ∃ i, i < nd.num_keys ∧ nd.keys[i]? = some (some x) := by
  constructor
  · cases hroot : t.root with
    | none => simp [findLeaf]
    | some a =>
      simp only [findLeaf, reduceCtorEq, iff_false]
      cases findLeaf.descend C.cmp_internal t.heap k t.heap.length a <;> simp
  · intro root hroot
    rcases Reachable_Inv L t hr with hn | ⟨n, g, hm⟩
    · rw [hn] at hroot
      cases hroot
    · have hm' := hm
      obtain ⟨m1, m2, m3, m4, _⟩ := hm'
      rw [hroot] at m1
      cases m1
      have hsz := heap_size n g none m2 m4
      obtain ⟨la, rs, e1, e2, e3⟩ := descend_spec L n g t.heap none none none k
        t.heap.length m2 m3 trivial trivial hsz
      obtain ⟨nd, l1, l2, l3, l4, _, _⟩ := leaf_of_Rep n g none m2 la rs e2
      obtain ⟨r1, _⟩ := descend_routes C.cmp_internal t.heap k _ _ _ e1
      refine ⟨la, nd, n, findLeaf_eq C t _ la k hroot e1, l1, l2,
        leaf_depth n g none m2 la rs e2, r1, ?_⟩
      intro x hx hk
      have hx' := e3 x ((Stored_iff t n g hm x).1 hx) hk
      obtain ⟨i, hi, hxi⟩ := List.getElem_of_mem hx'
      refine ⟨i, by omega, ?_⟩
      rw [l4]
      exact pad_lookup_lt _ _ _ _ (by rw [List.getElem?_eq_getElem hi, hxi])

theorem findLeaf_correct_witness :
    (findLeaf intCap.cmp_internal tree5.heap tree5.root 4 = some none ↔ tree5.root = none) ∧
    ∀ root, tree5.root = some root →
      ∃ la nd d, findLeaf intCap.cmp_internal tree5.heap tree5.root 4 = some (some la) ∧
        tree5.heap[la]? = some nd ∧ nd.is_leaf = true ∧ DepthTo tree5.heap root la d ∧
        RoutesTo intCap.cmp_internal tree5.heap 4 root la ∧
        ∀ x, Stored tree5 x → intCap.cmp_internal 4 (intCap.getKey x) = 0 →
          ∃ i, i < nd.num_keys ∧ nd.keys[i]? = some (some x) :=
  findLeaf_correct intCap_lawful tree5 tree5_reachable 4

/-! ## Separators -/

/-- C11: in a reachable tree, for every internal node reached from the root
and every `i < num_keys`, the separator `keys[i]` compares equal to the key of
the first record of the leftmost leaf below `children[i+1]`, and that record
has the smallest key of all records stored below `children[i+1]`. -/
theorem separator_is_first_key {C : Capability V} (L : Lawful C) (t : Tree V)
    (hr : Reachable C t) (root p d i : Nat) (nd : GenericBPlusTreeNode V)
    (hroot : t.root = some root) (hp : DepthTo t.heap root p d)
    (hnd : t.heap[p]? = some nd) (hint : nd.is_leaf = false) (hi : i < nd.num_keys) :
    ∃ (k : V) (cr : Nat) (x : V) (lf : Nat) (ndl : GenericBPlusTreeNode V),
      nd.keys[i]? = some (some k) ∧ nd.children[i + 1]? = some (some cr) ∧
      leftmostLeaf t.heap (t.heap.length + 1) (some cr) = some (some lf) ∧
      t.heap[lf]? = some ndl ∧ ndl.keys[0]? = some (some x) ∧
      StoredBelow t.heap cr x ∧ C.cmp_internal k (C.getKey x) = 0 ∧
      ∀ y, StoredBelow t.heap cr y → C.cmp_internal (C.getKey x) (C.getKey y) ≤ 0 := by
  rcases Reachable_tight L t hr with hn | ⟨n, g, hm, htight⟩
  · rw [hn] at hroot
    cases hroot
  · obtain ⟨m1, m2, m3, m4, _⟩ := hm
    rw [hroot] at m1
    cases m1
    have hsz := heap_size n g none m2 m4
    obtain ⟨m, s, par', lo', hi', em, e2, e3, e4, e5⟩ :=
      depth_sub_with (Tight C) (fun n g hg c hc => hg.2 c hc) n g none none none m2 m3 htight
        p d hp
    cases m with
    | zero =>
      obtain ⟨nd', h1, h2, _⟩ := e3
      simp only [GT.addr] at e2
      rw [e2, hnd] at h1
      cases h1
      rw [hint] at h2
      cases h2
    | succ m =>
      obtain ⟨nd', h1, h2, h3, h4, h5, h6, h7, h8, h9, h10, h11⟩ := e3
      simp only [GT.addr] at e2
      rw [e2, hnd] at h1
      cases h1
      have hik : i < s.2.1.length := by omega
      have hk : s.2.1[i]? = some (s.2.1[i]) := List.getElem?_eq_getElem hik
      obtain ⟨cl, cr, l, u, _, c2, _, c4⟩ :=
        OrdKids_index (Ord C m) s.2.1 s.2.2 lo' hi' i _ e4.2.2 hk
      have hcr : cr ∈ s.2.2 := List.getElem?_mem c2
      obtain ⟨x, hx, hxk⟩ := e5.1 i _ cr hk c2
      have hrep := h11 cr hcr
      obtain ⟨e, rest, hll, hleft⟩ := leftmostLeaf_eq m cr (some s.1) (t.heap.length + 1) hrep
        (by omega)
      obtain ⟨ndl, l1, _, _, l4, l5, _⟩ := leaf_of_Rep m cr (some s.1) hrep e.1 e.2
        (by rw [hll]; simp)
      obtain ⟨y0, rs', hrs⟩ : ∃ y0 rs', e.2 = y0 :: rs' := by
        cases he : e.2 with
        | nil => rw [he] at l5; simp at l5
        | cons y0 rs' => exact ⟨y0, rs', rfl⟩
      have hrecs : GT.recs m cr = y0 :: (rs' ++ rest.flatMap (fun l => l.2)) := by
        simp [GT.recs, hll, hrs]
      have hsorted := recs_sorted L m cr _ _ c4
      rw [hrecs] at hsorted hx
      rw [List.pairwise_cons] at hsorted
      have hy0 := (Ord_recs_bounds L m cr _ u c4 y0 (by rw [hrecs]; simp)).1
      have hxy : x = y0 := by
        rcases List.mem_cons.1 hx with h | h
        · exact h
        · exfalso
          have h1' := hsorted.1 x h
          have h2' : C.cmp_internal (C.getKey x) (C.getKey y0) ≤ 0 :=
            L.trans _ _ _ (le_of_eq (L.eq_symm hxk)) hy0
          exact lt_irrefl' L _ (L.lt_of_lt_of_le h1' h2')
      subst hxy
      refine ⟨s.2.1[i], GT.addr m cr, x, e.1, ndl, ?_, ?_, hleft, l1, ?_, ?_, hxk, ?_⟩
      · rw [h5]
        exact pad_lookup_lt _ _ _ _ hk
      · rw [h6]
        exact pad_lookup_lt _ _ _ _ (by rw [List.getElem?_map, c2]; rfl)
      · rw [l4, hrs]
        simp [pad]
      · exact (StoredBelow_iff m cr (some s.1) _ u hrep c4 x).2 (by rw [hrecs]; simp)
      · intro y hy
        have hy' := (StoredBelow_iff m cr (some s.1) _ u hrep c4 y).1 hy
        have hb := (Ord_recs_bounds L m cr _ u c4 y hy').1
        exact L.trans _ _ _ (le_of_eq (L.eq_symm hxk)) hb

theorem separator_is_first_key_witness :
    ∃ (k : Int) (cr : Nat) (x : Int) (lf : Nat) (ndl : GenericBPlusTreeNode Int),
      root5.keys[0]? = some (some k) ∧ root5.children[0 + 1]? = some (some cr) ∧
      leftmostLeaf tree5.heap (tree5.heap.length + 1) (some cr) = some (some lf) ∧
      tree5.heap[lf]? = some ndl ∧ ndl.keys[0]? = some (some x) ∧
      StoredBelow tree5.heap cr x ∧ intCap.cmp_internal k (intCap.getKey x) = 0 ∧
      ∀ y, StoredBelow tree5.heap cr y →
        intCap.cmp_internal (intCap.getKey x) (intCap.getKey y) ≤ 0 :=
  separator_is_first_key intCap_lawful tree5 tree5_reachable 2 2 0 0 root5 (by decide)
    DepthTo.root (by decide) (by decide) (by decide)

/-! ## Destruction -/

/-- C12: for the tree built from the empty tree by any sequence of
`Insert_BPlus` calls, `Destroy_BPlus_Tree` passes to `freeData` exactly the
stored records, each once (the list of the leaf-chain traversal), and to
`freeKey` exactly the separators of the tree, each once; the released keys are
a permutation of the keys that `copyKey` returned during the insertions. -/
theorem destroy_releases_once {C : Capability V} (L : Lawful C) (h0 : Heap V)
    (rs : List V) :
    ∃ (t : Tree V) (cps : List V) (rel : Released V) (t' : Tree V),
      insertCopies C { heap := h0, root := none } rs = some (t, cps) ∧
      insertAll C { heap := h0, root := none } rs = some t ∧
      Destroy_BPlus_Tree t true = some (rel, t') ∧
      extractToList t = some rel.data ∧ rel.data.Nodup ∧ (∀ x, x ∈ rel.data ↔ Stored t x) ∧
      rel.keys.Nodup ∧ (∀ k, k ∈ rel.keys ↔ IsSeparator t k) ∧ rel.keys.Perm cps := by
  obtain ⟨t, cps, S, e1, e2, e3, e4⟩ := insertCopies_spec L rs { heap := h0, root := none } []
    (Or.inl ⟨rfl, rfl⟩)
  obtain ⟨rel, d1, d2, d3, d4, d5, d6, d7⟩ := Destroy_spec L t S e3
  refine ⟨t, cps, rel, _, e1, e2, d1, d3, d4, d6, d5, d7, ?_⟩
  rw [d2]
  simpa using e4

theorem destroy_releases_once_witness :
    ∃ (t : Tree Int) (cps : List Int) (rel : Released Int) (t' : Tree Int),
      insertCopies intCap emptyTree [5, 3, 8, 1, 9, 2, 7, 4, 6, 10, 12, 11] = some (t, cps) ∧
      insertAll intCap emptyTree [5, 3, 8, 1, 9, 2, 7, 4, 6, 10, 12, 11] = some t ∧
      Destroy_BPlus_Tree t true = some (rel, t') ∧
      extractToList t = some rel.data ∧ rel.data.Nodup ∧ (∀ x, x ∈ rel.data ↔ Stored t x) ∧
      rel.keys.Nodup ∧ (∀ k, k ∈ rel.keys ↔ IsSeparator t k) ∧ rel.keys.Perm cps :=
  destroy_releases_once intCap_lawful [] [5, 3, 8, 1, 9, 2, 7, 4, 6, 10, 12, 11]

/-- C13: `Destroy_BPlus_Tree` on a reachable tree returns with the root
pointer `NULL`; afterwards `Search_BPlus` finds nothing, `Insert_BPlus` of any
record succeeds and gives a single leaf root holding only that record, and a
second `Destroy_BPlus_Tree` releases nothing and changes nothing. -/
theorem destroy_resets {C : Capability V} (L : Lawful C) (t : Tree V)
    (hr : Reachable C t) :
    ∃ (rel : Released V) (t' : Tree V), Destroy_BPlus_Tree t true = some (rel, t') ∧
      t'.root = none ∧ (∀ k, Search_BPlus C t' k = some none) ∧
      (∀ r, ∃ (t'' : Tree V) (q : Nat) (nd : GenericBPlusTreeNode V),
        Insert_BPlus C t' r = some (status_code.SUCCESS, t'') ∧ t''.root = some q ∧
        t''.heap[q]? = some nd ∧ nd.is_leaf = true ∧ nd.parent = none ∧ nd.num_keys = 1 ∧
        nd.keys = [some r, none, none, none] ∧ extractToList t'' = some [r]) ∧
      Destroy_BPlus_Tree t' true = some ({ data := [], keys := [], nodes := [] }, t') := by
  have hS : ∃ S, IsSeps C t S := by
    rcases Reachable_Inv L t hr with hn | ⟨n, g, hm⟩
    · exact ⟨[], Or.inl ⟨hn, rfl⟩⟩
    · exact ⟨_, Or.inr ⟨n, g, hm, rfl⟩⟩
  obtain ⟨S, hS⟩ := hS
  obtain ⟨rel, d1, _⟩ := Destroy_spec L t S hS
  refine ⟨rel, _, d1, rfl, ?_, ?_, ?_⟩
  · intro k
    simp [Search_BPlus]
  · intro r
    obtain ⟨t'', e1, e2, _⟩ := Insert_empty C { heap := t.heap, root := none } r rfl
    have hx := extractToList_eq t'' 0 _ e2
    rw [GT.recs_zero] at hx
    obtain ⟨m1, ⟨nd, h1, h2, h3, h4, h5, _⟩, _⟩ := e2
    exact ⟨t'', _, nd, e1, m1, h1, h2, h3, h4, h5, hx⟩
  · simp [Destroy_BPlus_Tree]

theorem destroy_resets_witness :
    ∃ (rel : Released Int) (t' : Tree Int), Destroy_BPlus_Tree tree5 true = some (rel, t') ∧
      t'.root = none ∧ (∀ k, Search_BPlus intCap t' k = some none) ∧
      (∀ r, ∃ (t'' : Tree Int) (q : Nat) (nd : GenericBPlusTreeNode Int),
        Insert_BPlus intCap t' r = some (status_code.SUCCESS, t'') ∧ t''.root = some q ∧
        t''.heap[q]? = some nd ∧ nd.is_leaf = true ∧ nd.parent = none ∧ nd.num_keys = 1 ∧
        nd.keys = [some r, none, none, none] ∧ extractToList t'' = some [r]) ∧
      Destroy_BPlus_Tree t' true = some ({ data := [], keys := [], nodes := [] }, t') :=
  destroy_resets intCap_lawful tree5 tree5_reachable

/-! ## The comparators -/

theorem wrap32_small (x : Int) (h1 : -2147483648 ≤ x) (h2 : x < 2147483648) : wrap32 x = x := by
  unfold wrap32
  omega

theorem strcpy_spec : ∀ (k : List Nat) (n : Nat), strlen k = some n →
    ∃ k', strcpy k = some k' ∧ k'.length = n + 1 ∧ strcmp k' k = some 0
  | [], n, h => by simp [strlen] at h
  | c :: s, n, h => by
    by_cases hc : c = 0
    · subst hc
      simp only [strlen, if_true, Option.some.injEq] at h
      subst h
      exact ⟨[0], by simp [strcpy], rfl, by simp [strcmp]⟩
    · simp only [strlen, if_neg hc] at h
      cases hs : strlen s with
      | none => rw [hs] at h; cases h
      | some n' =>
        rw [hs] at h
        simp only [Option.map_some', Option.some.injEq] at h
        subst h
        obtain ⟨k', e1, e2, e3⟩ := strcpy_spec s n' hs
        refine ⟨c :: k', by simp [strcpy, hc, e1], by simp [e2], ?_⟩
        simp [strcmp, hc, e3]

theorem parkingCap_lawful (m : ParkingStore) : Lawful (parkingCap m) where
  anti := by
    intro a b
    have ha := (PRef.load m a).2
    have hb := (PRef.load m b).2
    simp only [parkingCap, compareParkingIdInternal]
    rw [wrap32_small _ (by omega) (by omega), wrap32_small _ (by omega) (by omega)]
    omega
  trans := by
    intro a b c
    have ha := (PRef.load m a).2
    have hb := (PRef.load m b).2
    have hc := (PRef.load m c).2
    simp only [parkingCap, compareParkingIdInternal]
    rw [wrap32_small _ (by omega) (by omega), wrap32_small _ (by omega) (by omega),
      wrap32_small _ (by omega) (by omega)]
    omega
  data := by
    intro k d
    cases d <;> rfl
  copy := by
    intro k
    simp [parkingCap, compareParkingIdInternal, copyParkingKey, PRef.load, wrap32]

theorem compareParkingIdInternal_small (a b : Int) (h1 : -2147483648 ≤ a - b)
    (h2 : a - b < 2147483648) :
    (compareParkingIdInternal a b < 0 ↔ a < b) ∧ (compareParkingIdInternal a b = 0 ↔ a = b) ∧
      (0 < compareParkingIdInternal a b ↔ b < a) := by
  unfold compareParkingIdInternal
  rw [wrap32_small _ h1 h2]
  omega

/-! ## Descent: the leaves to the left hold smaller keys -/

theorem descend_split {C : Capability V} (L : Lawful C) :
    ∀ (n : Nat) (g : GT V n) (h : Heap V) (par : Option Nat) (lo hi : Option V) (k : V)
      (fuel : Nat), Rep h n g par → Ord C n g lo hi → loLe C lo k → ltHi C k hi →
      n + 1 ≤ fuel →
      ∃ la rs l1 l2, findLeaf.descend C.cmp_internal h k fuel (GT.addr n g) = some la ∧
        GT.leafList n g = l1 ++ (la, rs) :: l2 ∧
        ∀ x ∈ l1.flatMap (fun l => l.2), C.cmp_internal (C.getKey x) k < 0
  | 0, g, h, par, lo, hi, k, fuel, hr, _, _, _, hf => by
    obtain ⟨nd, h1, h2, _⟩ := hr
    obtain ⟨f, rfl⟩ : ∃ f, fuel = f + 1 := ⟨fuel - 1, by omega⟩
    exact ⟨g.1, g.2, [], [], descend_leaf _ h k f g.1 nd h1 h2, by simp [GT.leafList], by simp⟩
  | n + 1, g, h, par, lo, hi, k, fuel, hr, ho, hlo, hhi, hf => by
    obtain ⟨f, rfl⟩ : ∃ f, fuel = f + 1 := ⟨fuel - 1, by omega⟩
    obtain ⟨ks1, ks2, cs1, c, cs2, hks, hcs, hcl, p1, p2, b1, b2, hd⟩ :=
      descend_step L n g h lo hi par k f hr ho hlo hhi
    obtain ⟨nd, h1, h2, h3, h4, h5, h6, h7, h8, h9, h10, h11⟩ := hr
    obtain ⟨o1, o2, o3⟩ := ho
    rw [hks, hcs] at o3
    obtain ⟨m1, _, _, m4, _⟩ := OrdKids_mid (Ord C n) ks1 ks2 cs1 cs2 c lo hi o3 hcl
    have hcm : c ∈ g.2.2 := by rw [hcs]; simp
    obtain ⟨la, rs, l1, l2, e1, e2, e3⟩ :=
      descend_split L n c h (some g.1) _ _ k f (h11 c hcm) m1 b1 b2 (by omega)
    refine ⟨la, rs, cs1.flatMap (GT.leafList n) ++ l1, l2 ++ cs2.flatMap (GT.leafList n),
      ?_, ?_, ?_⟩
    · simp only [GT.addr]; rw [hd]; exact e1
    · simp only [GT.leafList]
      rw [hcs]
      simp [e2]
    · intro x hx
      rw [List.flatMap_append, List.mem_append] at hx
      rcases hx with hx | hx
      · rw [List.flatMap_assoc] at hx
        obtain ⟨d, hd', hxd⟩ := List.mem_flatMap.1 hx
        obtain ⟨u, hu, l, hp⟩ := m4 d hd'
        have hb := (Ord_recs_bounds L n d l (some u) hp x hxd).2
        exact L.lt_of_lt_of_le hb ((L.ge_iff k u).1 (p1 u hu))
      · exact e3 x hx

theorem Chain_suffix (h : Heap V) (last : Option Nat) : ∀ (l1 l2 : List Nat),
    Chain h (l1 ++ l2) last → Chain h l2 last
  | [], _, hc => hc
  | a :: l1, l2, hc => by
    simp only [List.cons_append] at hc
    rw [Chain_cons] at hc
    exact Chain_suffix h last l1 l2 hc.2

/-! ## `Find_Free_Slot` -/

theorem FFS_scan_eq (m : ParkingStore) (min_id max_id : Int) (nd : GenericBPlusTreeNode PRef)
    (rs : List PRef) (hk : nd.keys = pad 4 rs) (hn : nd.num_keys = rs.length)
    (hs : ∀ x ∈ rs, ∃ a, x = PRef.slot a) :
    ∀ (k i fuel : Nat), i + k = rs.length → k + 1 ≤ fuel →
      Find_Free_Slot.scan m min_id max_id nd fuel i =
        some ((rs.drop i).find? (vacantInRange m min_id max_id))
  | 0, i, fuel, hi, hf => by
    obtain ⟨f, rfl⟩ : ∃ f, fuel = f + 1 := ⟨fuel - 1, by omega⟩
    have hnot : ¬ i < nd.num_keys := by omega
    simp only [Find_Free_Slot.scan, if_neg hnot]
    rw [List.drop_eq_nil_of_le (by omega)]
    rfl
  | k + 1, i, fuel, hi, hf => by
    obtain ⟨f, rfl⟩ : ∃ f, fuel = f + 1 := ⟨fuel - 1, by omega⟩
    have hlt : i < nd.num_keys := by omega
    have hil : i < rs.length := by omega
    obtain ⟨a, ha⟩ := hs rs[i] (List.getElem_mem hil)
    have hki : nd.keys[i]? = some (some (PRef.slot a)) := by
      rw [hk]
      exact pad_lookup_lt _ _ _ _ (by rw [List.getElem?_eq_getElem hil, ha])
    have ih := FFS_scan_eq m min_id max_id nd rs hk hn hs k (i + 1) f (by omega) (by omega)
    rw [← List.getElem_cons_drop rs i hil, ha]
    simp only [Find_Free_Slot.scan, if_pos hlt, hki, ih, List.find?_cons, vacantInRange]
    by_cases h1 : (m a).1.parking_id ≥ min_id ∧ (m a).1.parking_id ≤ max_id
    · by_cases h2 : (m a).1.parking_space_status = VACANT
      · simp [h1, h2]
      · simp [h1, h2]
    · have h3 : ¬ ((m a).1.parking_id ≥ min_id ∧ (m a).1.parking_id ≤ max_id ∧
          (m a).1.parking_space_status = VACANT) := fun h => h1 ⟨h.1, h.2.1⟩
      simp [h1, h3]

theorem FFS_walk_eq (m : ParkingStore) (min_id max_id : Int) (h : Heap PRef) :
    ∀ (ll : List (Nat × List PRef)) (fuel : Nat),
    (∀ e ∈ ll, ∃ nd, h[e.1]? = some nd ∧ nd.num_keys = e.2.length ∧ nd.keys = pad 4 e.2 ∧
      ∀ x ∈ e.2, ∃ a, x = PRef.slot a) →
    Chain h (ll.map Prod.fst) none → ll.length + 1 ≤ fuel →
    Find_Free_Slot.walk m h min_id max_id fuel ((ll.map Prod.fst).head?) =
      some ((ll.flatMap (fun l => l.2)).find? (vacantInRange m min_id max_id))
  | [], fuel, _, _, hf => by
    obtain ⟨f, rfl⟩ : ∃ f, fuel = f + 1 := ⟨fuel - 1, by omega⟩
    simp [Find_Free_Slot.walk]
  | e :: rest, fuel, hnode, hc, hf => by
    obtain ⟨f, rfl⟩ : ∃ f, fuel = f + 1 := ⟨fuel - 1, by omega⟩
    obtain ⟨nd, h1, h2, h3, h4⟩ := hnode e (by simp)
    simp only [List.map_cons] at hc
    rw [Chain_cons] at hc
    have hnext : nd.next_leaf = (rest.map Prod.fst).head? := by
      have := hc.1
      simp only [nextOf, h1, Option.map_some', Option.some.injEq] at this
      rw [this]
      cases (rest.map Prod.fst).head? <;> rfl
    have ih := FFS_walk_eq m min_id max_id h rest f (fun x hx => hnode x (by simp [hx])) hc.2
      (by simp only [List.length_cons] at hf; omega)
    have hscan := FFS_scan_eq m min_id max_id nd e.2 h3 h2 h4 e.2.length 0 (nd.num_keys + 1)
      (by omega) (by omega)
    simp only [List.drop_zero] at hscan
    simp only [List.map_cons, List.head?_cons, Find_Free_Slot.walk, h1, hscan, hnext, ih,
      List.flatMap_cons, List.find?_append]
    cases hfind : List.find? (vacantInRange m min_id max_id) e.2 with
    | none => simp
    | some p => simp

theorem find_sorted {α : Type} (R : α → α → Prop) (pred : α → Bool) (l : List α) (p : α)
    (hs : l.Pairwise R) (hf : l.find? pred = some p) :
    ∀ b ∈ l, pred b = true → b = p ∨ R p b := by
  obtain ⟨_, as, bs, rfl, has⟩ := List.find?_eq_some.1 hf
  intro b hb hpb
  rw [List.pairwise_append] at hs
  rcases List.mem_append.1 hb with hb | hb
  · have := has b hb
    rw [hpb] at this
    simp at this
  · rcases List.mem_cons.1 hb with hb | hb
    · exact Or.inl hb
    · exact Or.inr ((List.pairwise_cons.1 hs.2.1).1 b hb)

theorem parking_cmp (m : ParkingStore) (x y : PRef) :
    (parkingCap m).cmp_internal x y = (PRef.load m x).1 - (PRef.load m y).1 := by
  have hx := (PRef.load m x).2
  have hy := (PRef.load m y).2
  simp only [parkingCap, compareParkingIdInternal]
  exact wrap32_small _ (by omega) (by omega)

theorem parking_key_slot (m : ParkingStore) (a : Nat) :
    (PRef.load m ((parkingCap m).getKey (PRef.slot a))).1 = (m a).1.parking_id := rfl

theorem Find_Free_Slot_spec (m : ParkingStore) (t : Tree PRef) (n : Nat) (g : GT PRef n)
    (hm : Model (parkingCap m) t n g) (hslots : ∀ x ∈ GT.recs n g, ∃ a, x = PRef.slot a)
    (min_id : SmallInt) (max_id : Int) :
    Find_Free_Slot m t min_id max_id (parkingCap m).cmp_internal =
      some ((GT.recs n g).find? (vacantInRange m min_id.1 max_id)) := by
  have L := parkingCap_lawful m
  obtain ⟨m1, m2, m3, m4, m5⟩ := hm
  have hsz := heap_size n g none m2 m4
  obtain ⟨la, rs, l1, l2, e1, e2, e3⟩ := descend_split L n g t.heap none none none
    (PRef.cell min_id) t.heap.length m2 m3 trivial trivial hsz
  have hfl := findLeaf_eq (parkingCap m) t _ la (PRef.cell min_id) m1 e1
  have hlnd : ((GT.leafList n g).map Prod.fst).Nodup := m4.sublist (leafAddrs_sublist n g)
  have hllt : ∀ a ∈ (GT.leafList n g).map Prod.fst, a < t.heap.length := fun a ha =>
    Rep_addrs_lt n g none m2 a ((leafAddrs_sublist n g).subset ha)
  have hlen : (GT.leafList n g).length ≤ t.heap.length := by
    have := nodup_length_le _ _ hlnd hllt
    simpa using this
  have hchain : Chain t.heap (((la, rs) :: l2).map Prod.fst) none := by
    rw [e2, List.map_append] at m5
    exact Chain_suffix t.heap none _ _ m5
  have hw := FFS_walk_eq m min_id.1 max_id t.heap ((la, rs) :: l2) (t.heap.length + 1)
    (fun e he => by
      have hmem : e ∈ GT.leafList n g := by rw [e2]; exact List.mem_append_right _ he
      obtain ⟨nd, q1, _, q3, q4, _, _⟩ := leaf_of_Rep n g none m2 e.1 e.2 hmem
      refine ⟨nd, q1, q3, q4, ?_⟩
      intro x hx
      exact hslots x (List.mem_flatMap.2 ⟨e, hmem, hx⟩))
    hchain (by
      rw [e2] at hlen
      simp only [List.length_append, List.length_cons] at hlen ⊢
      omega)
  simp only [List.map_cons, List.head?_cons] at hw
  have hpre : List.find? (vacantInRange m min_id.1 max_id) (l1.flatMap (fun l => l.2)) = none := by
    rw [List.find?_eq_none]
    intro x hx
    have hlt := e3 x hx
    obtain ⟨a, rfl⟩ := hslots x (by
      simp only [GT.recs, e2, List.flatMap_append, List.mem_append]
      exact Or.inl hx)
    rw [parking_cmp, parking_key_slot] at hlt
    simp only [PRef.load] at hlt
    simp only [vacantInRange, decide_eq_true_eq, not_and]
    intro h1
    omega
  have hrecs : GT.recs n g = l1.flatMap (fun l => l.2) ++
      ((la, rs) :: l2).flatMap (fun l => l.2) := by
    simp [GT.recs, e2]
  rw [hrecs, List.find?_append, hpre]
  simp only [Find_Free_Slot, m1]
  rw [← m1, hfl]
  simpa using hw

/-! ## The example parking tree -/

theorem parkingTree_eq :
    insertAll (parkingCap store0) emptyParking slots7 = some parkingTree := by decide

theorem parkingTree_reachable : Reachable (parkingCap store0) parkingTree :=
  insertAll_reachable (parkingCap store0) _ _ _ (Reachable.empty []) parkingTree_eq

theorem parkingTree_extract : extractToList parkingTree =
    some [PRef.slot 0, PRef.slot 1, PRef.slot 2, PRef.slot 3, PRef.slot 4, PRef.slot 5,
      PRef.slot 6] := by decide

theorem parkingTree_slots (x : PRef) (hx : Stored parkingTree x) : ∃ a, x = PRef.slot a := by
  have h := (Stored_of_extract (parkingCap_lawful store0) parkingTree parkingTree_reachable _
    parkingTree_extract x).1 hx
  simp only [List.mem_cons, List.mem_singleton, List.not_mem_nil, or_false] at h
  rcases h with rfl | rfl | rfl | rfl | rfl | rfl | rfl <;> exact ⟨_, rfl⟩

/-! ## The capability sets of the program -/

/-- C16: the two capability sets are consistent: `compareParkingId` agrees
with `compareParkingIdInternal` on the key of the record, `compareUserVehicleNum`
agrees with `compareUserVehicleNumInternal` on the key of the record, and the
copy made by `copyParkingKey` or `copyUserKey` compares equal to the key it
was made from. -/
theorem capability_sets_consistent :
    (∀ (k : Int) (p : Parking),
      compareParkingId k p = compareParkingIdInternal k (getParkingKey p)) ∧
    (∀ (k : List Nat) (u : User),
      compareUserVehicleNum k u = compareUserVehicleNumInternal k (getUserKey u)) ∧
    (∀ k : Int, compareParkingIdInternal (copyParkingKey k) k = 0) ∧
    (∀ (k : List Nat) (n : Nat), strlen k = some n →
      ∃ k', copyUserKey k = some k' ∧ compareUserVehicleNumInternal k' k = some 0) := by
  refine ⟨fun _ _ => rfl, fun _ _ => rfl, ?_, ?_⟩
  · intro k
    simp [compareParkingIdInternal, copyParkingKey, wrap32]
  · intro k n hn
    obtain ⟨k', e1, e2, e3⟩ := strcpy_spec k n hn
    refine ⟨k', ?_, e3⟩
    simp [copyUserKey, hn, e1, e2]

/-- C17: evaluated at `a = -2147483648`, `b = 1` the parking key comparator
`compareParkingIdInternal` returns the positive number `2147483647` although
`a < b`: with 32-bit wrapping subtraction it does not order all `int` keys. -/
theorem compareParkingIdInternal_wraps :
    compareParkingIdInternal (-2147483648) 1 = 2147483647 ∧ (-2147483648 : Int) < 1 ∧
      ¬ (compareParkingIdInternal (-2147483648) 1 < 0 ↔ (-2147483648 : Int) < 1) := by
  decide

/-! ## Allocation of a parking slot -/

/-- C14: on a reachable parking tree whose stored pointers are `Parking`
records, `Find_Free_Slot` returns a stored record that is vacant and has its
id in `[min_id, max_id]`, with the smallest id among all such stored records;
it returns `NULL` exactly when no stored record is vacant with its id in the
range. -/
theorem find_free_slot_smallest (m : ParkingStore) (t : Tree PRef)
    (hr : Reachable (parkingCap m) t) (hslots : ∀ x, Stored t x → ∃ a, x = PRef.slot a)
    (min_id : SmallInt) (max_id : Int) :
    ∃ res, Find_Free_Slot m t min_id max_id (parkingCap m).cmp_internal = some res ∧
      (∀ p, res = some p → ∃ a, p = PRef.slot a ∧ Stored t p ∧
        min_id.1 ≤ (m a).1.parking_id ∧ (m a).1.parking_id ≤ max_id ∧
        (m a).1.parking_space_status = VACANT ∧
        ∀ b, Stored t (PRef.slot b) → min_id.1 ≤ (m b).1.parking_id →
          (m b).1.parking_id ≤ max_id → (m b).1.parking_space_status = VACANT →
          (m a).1.parking_id ≤ (m b).1.parking_id) ∧
      (res = none ↔ ¬ ∃ b, Stored t (PRef.slot b) ∧ min_id.1 ≤ (m b).1.parking_id ∧
        (m b).1.parking_id ≤ max_id ∧ (m b).1.parking_space_status = VACANT) := by
  have L := parkingCap_lawful m
  rcases Reachable_Inv L t hr with hn | ⟨n, g, hm⟩
  · refine ⟨none, by simp [Find_Free_Slot, hn], (fun p hp => by cases hp), ?_⟩
    simp only [true_iff]
    rintro ⟨b, hb, _⟩
    exact Stored_empty t hn _ hb
  · have hs : ∀ x ∈ GT.recs n g, ∃ a, x = PRef.slot a := fun x hx =>
      hslots x ((Stored_iff t n g hm x).2 hx)
    have hpred : ∀ b, vacantInRange m min_id.1 max_id (PRef.slot b) = true ↔
        (min_id.1 ≤ (m b).1.parking_id ∧ (m b).1.parking_id ≤ max_id ∧
          (m b).1.parking_space_status = VACANT) := by
      intro b
      simp [vacantInRange]
    refine ⟨_, Find_Free_Slot_spec m t n g hm hs min_id max_id, ?_, ?_⟩
    · intro p hp
      have hmem := List.mem_of_find?_eq_some hp
      obtain ⟨a, rfl⟩ := hs p hmem
      have hpa := (hpred a).1 (List.find?_some hp)
      refine ⟨a, rfl, (Stored_iff t n g hm _).2 hmem, hpa.1, hpa.2.1, hpa.2.2, ?_⟩
      intro b hb h1 h2 h3
      have hbm := (Stored_iff t n g hm _).1 hb
      rcases find_sorted _ _ _ _ (recs_sorted L n g _ _ hm.2.2.1) hp (PRef.slot b) hbm
        ((hpred b).2 ⟨h1, h2, h3⟩) with h | h
      · cases h
        exact le_refl _
      · simp only [klt] at h
        rw [parking_cmp, parking_key_slot, parking_key_slot] at h
        omega
    · rw [List.find?_eq_none]
      constructor
      · rintro h ⟨b, hb, h1, h2, h3⟩
        exact h _ ((Stored_iff t n g hm _).1 hb) ((hpred b).2 ⟨h1, h2, h3⟩)
      · intro h x hx hpx
        obtain ⟨b, rfl⟩ := hs x hx
        exact h ⟨b, (Stored_iff t n g hm _).2 hx, (hpred b).1 hpx⟩

theorem find_free_slot_smallest_witness :
    ∃ res, Find_Free_Slot store0 parkingTree ⟨2, by decide⟩ 5 (parkingCap store0).cmp_internal =
        some res ∧
      (∀ p, res = some p → ∃ a, p = PRef.slot a ∧ Stored parkingTree p ∧
        (2 : Int) ≤ (store0 a).1.parking_id ∧ (store0 a).1.parking_id ≤ 5 ∧
        (store0 a).1.parking_space_status = VACANT ∧
        ∀ b, Stored parkingTree (PRef.slot b) → (2 : Int) ≤ (store0 b).1.parking_id →
          (store0 b).1.parking_id ≤ 5 → (store0 b).1.parking_space_status = VACANT →
          (store0 a).1.parking_id ≤ (store0 b).1.parking_id) ∧
      (res = none ↔ ¬ ∃ b, Stored parkingTree (PRef.slot b) ∧
        (2 : Int) ≤ (store0 b).1.parking_id ∧
        (store0 b).1.parking_id ≤ 5 ∧ (store0 b).1.parking_space_status = VACANT) :=
  find_free_slot_smallest store0 parkingTree parkingTree_reachable parkingTree_slots
    ⟨2, by decide⟩ 5

/-! ## Nodes below the root hold at least `MINKEYS` keys -/

theorem Reachable_minfill {C : Capability V} (L : Lawful C) (t : Tree V)
    (hr : Reachable C t) :
    t.root = none ∨ ∃ (n : Nat) (g : GT V n), Model C t n g ∧ MinFill n g := by
  induction hr with
  | empty h => exact Or.inl rfl
  | insert t t' r sc _ hins ih =>
    rcases ih with hn | ⟨n, g, hm, hc⟩
    · obtain ⟨t'', e1, e2, _⟩ := Insert_empty C t r hn
      rw [e1] at hins
      cases hins
      exact Or.inr ⟨0, _, e2, trivial⟩
    · by_cases hd : ∃ x ∈ GT.recs n g, C.cmp_data (C.getKey r) x = 0
      · rw [Insert_dup L t n g r hm hd] at hins
        cases hins
        exact Or.inr ⟨n, g, hm, hc⟩
      · push_neg at hd
        obtain ⟨t'', n', g', la, e1, e2, _, _, _, _, e7, _⟩ := Insert_track L t n g r hm hd
        rw [e1] at hins
        cases hins
        exact Or.inr ⟨n', g', e2, e7 hc⟩

theorem child_of_Rep {h : Heap V} (m : Nat) (s : GT V (m + 1)) (par : Option Nat)
    (hr : Rep h (m + 1) s par) (nd : GenericBPlusTreeNode V) (hnd : h[s.1]? = some nd)
    (i c : Nat) (hch : nd.children[i]? = some (some c)) :
    ∃ cg, s.2.2[i]? = some cg ∧ GT.addr m cg = c ∧ Rep h m cg (some s.1) := by
  obtain ⟨nd', h1, h2, h3, h4, h5, h6, h7, h8, h9, h10, h11⟩ := hr
  rw [hnd] at h1
  cases h1
  have hc := pad_lookup_some _ _ _ _ (h6 ▸ hch)
  rw [List.getElem?_map] at hc
  cases hcs : s.2.2[i]? with
  | none => rw [hcs] at hc; cases hc
  | some cg =>
    rw [hcs] at hc
    simp only [Option.map_some', Option.some.injEq] at hc
    exact ⟨cg, rfl, hc, h11 cg (List.getElem?_mem hcs)⟩

theorem Rep_numKeys {h : Heap V} : ∀ (n : Nat) (g : GT V n) (par : Option Nat),
    Rep h n g par → ∀ nd, h[GT.addr n g]? = some nd →
      nd.num_keys = GT.numKeys n g ∧ 1 ≤ nd.num_keys ∧ nd.num_keys ≤ MAXKEYS ∧
      (nd.keys.filter Option.isSome).length = nd.num_keys ∧
      (nd.is_leaf = false → (nd.children.filter Option.isSome).length = nd.num_keys + 1)
  | 0, g, par, hr, nd, hnd => by
    obtain ⟨nd', h1, h2, h3, h4, h5, h6, h7, h8⟩ := hr
    simp only [GT.addr] at hnd
    rw [hnd] at h1
    cases h1
    refine ⟨h4, by omega, by omega, ?_, ?_⟩
    · rw [h5, h4]
      simp [pad, List.filter_append, List.filter_map, Function.comp_def]
    · intro hf; rw [h2] at hf; cases hf
  | n + 1, g, par, hr, nd, hnd => by
    obtain ⟨nd', h1, h2, h3, h4, h5, h6, h7, h8, h9, h10, h11⟩ := hr
    simp only [GT.addr] at hnd
    rw [hnd] at h1
    cases h1
    refine ⟨h4, by omega, by omega, ?_, ?_⟩
    · rw [h5, h4]
      simp [pad, List.filter_append, List.filter_map, Function.comp_def]
    · intro _
      rw [h6, h4, ← h8]
      simp [pad, List.filter_append, List.filter_map, Function.comp_def]

/-! ## The chain of leaves -/

theorem chainFrom_eq (h : Heap V) : ∀ (ls : List Nat) (fuel : Nat),
    (∀ a ∈ ls, ∃ nd, h[a]? = some nd) → Chain h ls none → ls.length + 1 ≤ fuel →
    chainFrom h fuel ls.head? = some ls
  | [], fuel, _, _, hf => by
    obtain ⟨f, rfl⟩ : ∃ f, fuel = f + 1 := ⟨fuel - 1, by omega⟩
    simp [chainFrom]
  | a :: rest, fuel, hnode, hc, hf => by
    obtain ⟨f, rfl⟩ : ∃ f, fuel = f + 1 := ⟨fuel - 1, by omega⟩
    obtain ⟨nd, h1⟩ := hnode a (by simp)
    rw [Chain_cons] at hc
    have hnext : nd.next_leaf = rest.head? := by
      have := hc.1
      simp only [nextOf, h1, Option.map_some', Option.some.injEq] at this
      rw [this]
      cases rest.head? <;> rfl
    have ih := chainFrom_eq h rest f (fun x hx => hnode x (by simp [hx])) hc.2
      (by simp only [List.length_cons] at hf; omega)
    simp only [List.head?_cons, chainFrom, h1, hnext, ih, Option.map_some']

theorem leafChain_eq {C : Capability V} (t : Tree V) (n : Nat) (g : GT V n)
    (hm : Model C t n g) : leafChain t = some ((GT.leafList n g).map Prod.fst) := by
  obtain ⟨m1, m2, m3, m4, m5⟩ := hm
  have hsz := heap_size n g none m2 m4
  obtain ⟨e, rest, e1, e2⟩ := leftmostLeaf_eq n g none (t.heap.length + 1) m2 (by omega)
  have hlnd : ((GT.leafList n g).map Prod.fst).Nodup := m4.sublist (leafAddrs_sublist n g)
  have hllt : ∀ a ∈ (GT.leafList n g).map Prod.fst, a < t.heap.length := fun a ha =>
    Rep_addrs_lt n g none m2 a ((leafAddrs_sublist n g).subset ha)
  have hlen : (GT.leafList n g).length ≤ t.heap.length := by
    have := nodup_length_le _ _ hlnd hllt
    simpa using this
  have hw := chainFrom_eq t.heap ((GT.leafList n g).map Prod.fst) (t.heap.length + 1)
    (fun a ha => by
      have := hllt a ha
      exact ⟨t.heap[a], List.getElem?_eq_getElem this⟩) m5 (by simp; omega)
  rw [e1] at hw
  simp only [List.map_cons, List.head?_cons] at hw
  simp only [leafChain, m1, e2, hw, e1, List.map_cons]

theorem IsLeaf_iff {C : Capability V} (t : Tree V) (n : Nat) (g : GT V n)
    (hm : Model C t n g) (a : Nat) : IsLeaf t a ↔ a ∈ (GT.leafList n g).map Prod.fst := by
  obtain ⟨m1, m2, m3, m4, m5⟩ := hm
  constructor
  · rintro ⟨root, d, nd, hroot, hp, hnd, hl⟩
    rw [hroot] at m1
    cases m1
    obtain ⟨m, s, par', lo', hi', _, e2, e3, _, e5⟩ := depth_sub n g none none none m2 m3 a d hp
    cases m with
    | zero =>
      simp only [GT.addr] at e2
      have := e5 (s.1, s.2) (by simp [GT.leafList])
      exact List.mem_map.2 ⟨_, this, e2⟩
    | succ m =>
      obtain ⟨nd', h1, h2, _⟩ := e3
      simp only [GT.addr] at e2
      rw [e2, hnd] at h1
      cases h1
      rw [hl] at h2
      cases h2
  · intro ha
    obtain ⟨⟨a', rs⟩, hmem, rfl⟩ := List.mem_map.1 ha
    obtain ⟨nd, l1, l2, _⟩ := leaf_of_Rep n g none m2 a' rs hmem
    exact ⟨GT.addr n g, n, nd, m1, leaf_depth n g none m2 a' rs hmem, l1, l2⟩

/-! ## The example states of `insertIntoParent` -/

theorem split4_eq : Insert_BPlus.splitLeaf intCap tree4.heap 0 5 = some (split4.heap, 4, 1) ∧
    split4.root = tree4.root := by decide

theorem tree7_eq : insertAll intCap emptyTree [1, 2, 3, 4, 5, 6, 7] = some tree7 := by decide

theorem split7_eq : Insert_BPlus.splitLeaf intCap tree7.heap 1 8 = some (split7.heap, 7, 3) ∧
    split7.root = tree7.root := by decide

theorem tree16_eq :
    insertAll intCap emptyTree [1, 2, 3, 4, 5, 6, 7, 8, 9, 10, 11, 12, 13, 14, 15, 16] =
      some tree16 := by decide

theorem split16_eq :
    Insert_BPlus.splitLeaf intCap tree16.heap 5 17 = some (split16.heap, 16, 6) ∧
    split16.root = tree16.root := by decide

/-! ## Parent pointers -/

/-- C24: in a reachable tree the parent pointer of the root is `NULL`, and for
every internal node `p` reached from the root and every `i <= num_keys` the
slot `children[i]` holds a node whose parent pointer is `p`. -/
theorem parent_pointers_consistent {C : Capability V} (L : Lawful C) (t : Tree V)
    (hr : Reachable C t) (root : Nat) (hroot : t.root = some root) :
    (∃ rn, t.heap[root]? = some rn ∧ rn.parent = none) ∧
    ∀ (p d : Nat) (nd : GenericBPlusTreeNode V) (i : Nat), DepthTo t.heap root p d →
      t.heap[p]? = some nd → nd.is_leaf = false → i ≤ nd.num_keys →
      ∃ c cn, nd.children[i]? = some (some c) ∧ t.heap[c]? = some cn ∧ cn.parent = some p := by
  rcases Reachable_Inv L t hr with hn | ⟨n, g, hm⟩
  · rw [hn] at hroot
    cases hroot
  · obtain ⟨m1, m2, m3, _, _⟩ := hm
    rw [hroot] at m1
    cases m1
    refine ⟨Rep_lookup n g none m2, ?_⟩
    intro p d nd i hp hnd hleaf hi
    obtain ⟨m, s, par', lo', hi', _, e2, e3, _, _⟩ := depth_sub n g none none none m2 m3 p d hp
    cases m with
    | zero =>
      obtain ⟨nd', h1, h2, _⟩ := e3
      simp only [GT.addr] at e2
      rw [e2, hnd] at h1
      cases h1
      rw [hleaf] at h2
      cases h2
    | succ m =>
      have e3' := e3
      obtain ⟨nd', h1, h2, h3, h4, h5, h6, h7, h8, h9, h10, h11⟩ := e3'
      simp only [GT.addr] at e2
      rw [e2, hnd] at h1
      cases h1
      obtain ⟨c, hc⟩ := pad_lookup_ex MAXCHILDREN (s.2.2.map (GT.addr m)) i
        (by rw [List.length_map]; omega)
      rw [← h6] at hc
      obtain ⟨cg, _, q2, q3⟩ := child_of_Rep m s par' e3 nd (by rw [e2]; exact hnd) i c hc
      obtain ⟨cn, q4, q5⟩ := Rep_lookup m cg _ q3
      rw [q2] at q4
      exact ⟨c, cn, hc, q4, by rw [q5, e2]⟩

theorem parent_pointers_consistent_witness :
    (∃ rn, tree5.heap[2]? = some rn ∧ rn.parent = none) ∧
    ∀ (p d : Nat) (nd : GenericBPlusTreeNode Int) (i : Nat), DepthTo tree5.heap 2 p d →
      tree5.heap[p]? = some nd → nd.is_leaf = false → i ≤ nd.num_keys →
      ∃ c cn, nd.children[i]? = some (some c) ∧ tree5.heap[c]? = some cn ∧
        cn.parent = some p :=
  parent_pointers_consistent intCap_lawful tree5 tree5_reachable 2 (by decide)

/-! ## Occupancy of the nodes -/

/-- C28: in a reachable tree every node holds between 1 and `MAXKEYS = 4`
keys, every node other than the root holds at least `MINKEYS = 2` keys, the
number of non-`NULL` key slots of a node is `num_keys` and an internal node
has exactly `num_keys + 1` children. -/
theorem min_occupancy {C : Capability V} (L : Lawful C) (t : Tree V) (hr : Reachable C t)
    (root p d : Nat) (nd : GenericBPlusTreeNode V) (hroot : t.root = some root)
    (hp : DepthTo t.heap root p d) (hnd : t.heap[p]? = some nd) :
    MINKEYS = 2 ∧ MAXKEYS = 4 ∧ 1 ≤ nd.num_keys ∧ nd.num_keys ≤ MAXKEYS ∧
    (p ≠ root → MINKEYS ≤ nd.num_keys) ∧
    (nd.keys.filter Option.isSome).length = nd.num_keys ∧
    (nd.is_leaf = false → (nd.children.filter Option.isSome).length = nd.num_keys + 1) := by
  rcases Reachable_minfill L t hr with hn | ⟨n, g, hm, hmf⟩
  · rw [hn] at hroot
    cases hroot
  · obtain ⟨m1, m2, m3, _, _⟩ := hm
    rw [hroot] at m1
    cases m1
    obtain ⟨m, s, par', lo', hi', _, e2, e3, _, _⟩ := depth_sub n g none none none m2 m3 p d hp
    obtain ⟨_, k2, k3, k4, k5⟩ := Rep_numKeys m s par' e3 nd (by rw [e2]; exact hnd)
    refine ⟨by decide, by decide, k2, k3, ?_, k4, k5⟩
    intro hne
    cases hp with
    | root => exact (hne rfl).elim
    | child p' c d' i nd' hp' hnd' hleaf' hi' hch' =>
      obtain ⟨m', s', par'', lo'', hi'', _, f2, f3, _, f5⟩ :=
        depth_sub_with (C := C) MinFill (fun n g hg c hc => (hg c hc).2) n g none none none m2 m3
          hmf p' d' hp'
      cases m' with
      | zero =>
        obtain ⟨nd'', h1, h2, _⟩ := f3
        simp only [GT.addr] at f2
        rw [f2, hnd'] at h1
        cases h1
        rw [hleaf'] at h2
        cases h2
      | succ m' =>
        simp only [GT.addr] at f2
        obtain ⟨cg, q1, q2, q3⟩ := child_of_Rep m' s' par'' f3 nd' (by rw [f2]; exact hnd') i p
          hch'
        obtain ⟨k1', _⟩ := Rep_numKeys m' cg _ q3 nd (by rw [q2]; exact hnd)
        rw [k1']
        exact (f5 cg (List.getElem?_mem q1)).1

theorem min_occupancy_witness :
    MINKEYS = 2 ∧ MAXKEYS = 4 ∧ 1 ≤ leaf45.num_keys ∧ leaf45.num_keys ≤ MAXKEYS ∧
    ((1 : Nat) ≠ 2 → MINKEYS ≤ leaf45.num_keys) ∧
    (leaf45.keys.filter Option.isSome).length = leaf45.num_keys ∧
    (leaf45.is_leaf = false →
      (leaf45.children.filter Option.isSome).length = leaf45.num_keys + 1) :=
  min_occupancy intCap_lawful tree5 tree5_reachable 2 1 1 leaf45 (by decide)
    (DepthTo.child 2 1 0 1 root5 DepthTo.root (by decide) (by decide) (by decide) (by decide))
    (by decide)

/-! ## Termination of `insertIntoParent` -/

/-- C27: on a reachable tree `Insert_BPlus` returns a result for every record.
When it splits a leaf, the call of `insertIntoParent` it makes returns that
result after `F` nested calls, where `F` is at least 1 and at most the height
of the tree; the call number `i` is made on a node `i` levels above the leaves,
so every nested call is one level closer to the root than the one before. -/
theorem insertIntoParent_terminates {C : Capability V} (L : Lawful C) (t : Tree V)
    (hr : Reachable C t) (r : V) :
    (∃ res, Insert_BPlus C t r = some res) ∧
    ∀ (la : Nat) (lf : GenericBPlusTreeNode V) (H : Nat),
      findLeaf C.cmp_internal t.heap t.root (C.getKey r) = some (some la) →
      t.heap[la]? = some lf → lf.num_keys = MAXKEYS →
      (∀ x, Stored t x → C.cmp_internal (C.getKey r) (C.getKey x) ≠ 0) →
      height t = some H →
      ∃ (F root : Nat), t.root = some root ∧ 1 ≤ F ∧ F ≤ H ∧
        Insert_BPlus.parentCall C t la r F = Insert_BPlus C t r ∧
        (Insert_BPlus.parentLefts C t la r F).length = F ∧
        ∀ i x, (Insert_BPlus.parentLefts C t la r F)[i]? = some x →
          DepthTo t.heap root x (H - 1 - i) := by
  rcases Reachable_Inv L t hr with hn | ⟨n, g, hm⟩
  · obtain ⟨t', e1, _⟩ := Insert_empty C t r hn
    refine ⟨⟨_, e1⟩, ?_⟩
    intro la lf H hfl
    simp [findLeaf, hn] at hfl
  · constructor
    · by_cases hd : ∃ x ∈ GT.recs n g, C.cmp_data (C.getKey r) x = 0
      · exact ⟨_, Insert_dup L t n g r hm hd⟩
      · push_neg at hd
        obtain ⟨t', _, _, _, e1, _⟩ := Insert_track L t n g r hm hd
        exact ⟨_, e1⟩
    · intro la lf H hfl hlf hfull hnew hH
      have hd : ∀ x ∈ GT.recs n g, C.cmp_data (C.getKey r) x ≠ 0 := fun x hx => by
        rw [L.data]
        exact hnew x ((Stored_iff t n g hm x).2 hx)
      obtain ⟨t', n', g', la', e1, _, e3, _, _, _, _, e8⟩ := Insert_track L t n g r hm hd
      rw [hfl] at e3
      simp only [Option.some.injEq] at e3
      subst e3
      rw [height_eq t n g hm] at hH
      simp only [Option.some.injEq] at hH
      subst hH
      obtain ⟨F, f1, f2, f3, f4, f5⟩ := e8 lf hlf (by rw [hfull]; exact lt_irrefl _)
      refine ⟨F, GT.addr n g, hm.1, f1, f2, f3, f4, ?_⟩
      intro i x hx
      rw [Nat.add_sub_cancel]
      exact f5 i x hx

theorem insertIntoParent_terminates_witness :
    (∃ res, Insert_BPlus intCap tree4 5 = some res) ∧
    ∀ (la : Nat) (lf : GenericBPlusTreeNode Int) (H : Nat),
      findLeaf intCap.cmp_internal tree4.heap tree4.root (intCap.getKey 5) = some (some la) →
      tree4.heap[la]? = some lf → lf.num_keys = MAXKEYS →
      (∀ x, Stored tree4 x → intCap.cmp_internal (intCap.getKey 5) (intCap.getKey x) ≠ 0) →
      height tree4 = some H →
      ∃ (F root : Nat), tree4.root = some root ∧ 1 ≤ F ∧ F ≤ H ∧
        Insert_BPlus.parentCall intCap tree4 la 5 F = Insert_BPlus intCap tree4 5 ∧
        (Insert_BPlus.parentLefts intCap tree4 la 5 F).length = F ∧
        ∀ i x, (Insert_BPlus.parentLefts intCap tree4 la 5 F)[i]? = some x →
          DepthTo tree4.heap root x (H - 1 - i) :=
  insertIntoParent_terminates intCap_lawful tree4 tree4_reachable 5

/-! ## Insertion into a leaf with room -/

/-- C25: in a reachable tree, when the record `r` has a new key and the leaf
`la` returned by `findLeaf` holds fewer than `MAXKEYS` records, `Insert_BPlus`
returns `SUCCESS` and changes only that leaf: its records `rs` become
`rs.take j ++ r :: rs.drop j`, where the records before position `j` have
smaller keys than `r` and the records from `j` on have larger keys, and its
`num_keys` grows by 1.  The root pointer, the number of nodes, every other
node (so every internal node and its separators) and the fields `parent`,
`next_leaf`, `children` of the leaf are unchanged. -/
theorem leaf_insert_frame {C : Capability V} (L : Lawful C) (t : Tree V)
    (hr : Reachable C t) (r : V) (la : Nat) (nd : GenericBPlusTreeNode V)
    (hnew : ∀ x, Stored t x → C.cmp_internal (C.getKey r) (C.getKey x) ≠ 0)
    (hfl : findLeaf C.cmp_internal t.heap t.root (C.getKey r) = some (some la))
    (hnd : t.heap[la]? = some nd) (hroom : nd.num_keys < MAXKEYS) :
    ∃ (rs : List V) (j : Nat) (t' : Tree V),
      nd.is_leaf = true ∧ nd.keys = pad MAXKEYS rs ∧ rs.length = nd.num_keys ∧ j ≤ rs.length ∧
      (∀ x ∈ rs.take j, C.cmp_internal (C.getKey x) (C.getKey r) < 0) ∧
      (∀ x ∈ rs.drop j, C.cmp_internal (C.getKey r) (C.getKey x) < 0) ∧
      Insert_BPlus C t r = some (status_code.SUCCESS, t') ∧
      t' = { heap := t.heap.set la
               { nd with keys := pad MAXKEYS (rs.take j ++ r :: rs.drop j)
                         num_keys := nd.num_keys + 1 }
             root := t.root } ∧
      t'.root = t.root ∧ t'.heap.length = t.heap.length ∧
      (∀ y, y ≠ la → t'.heap[y]? = t.heap[y]?) ∧
      (∀ (p : Nat) (pn : GenericBPlusTreeNode V), t.heap[p]? = some pn → pn.is_leaf = false →
        t'.heap[p]? = some pn) ∧
      (∀ (y : Nat) (ny : GenericBPlusTreeNode V), t.heap[y]? = some ny →
        ∃ ny' : GenericBPlusTreeNode V, t'.heap[y]? = some ny' ∧
          ny'.next_leaf = ny.next_leaf ∧ ny'.parent = ny.parent ∧
          ny'.children = ny.children) := by
  rcases Reachable_Inv L t hr with hn | ⟨n, g, hm⟩
  · simp [findLeaf, hn] at hfl
  · have hd : ∀ x ∈ GT.recs n g, C.cmp_data (C.getKey r) x ≠ 0 := fun x hx => by
      rw [L.data]
      exact hnew x ((Stored_iff t n g hm x).2 hx)
    obtain ⟨la', rs, s1, s2, _, _⟩ := Search_spec L t n g hm (C.getKey r)
    rw [hfl] at s1
    simp only [Option.some.injEq] at s1
    subst s1
    obtain ⟨nd', h1, h2, h3, h4, h5, h6⟩ := leaf_of_Rep n g none hm.2.1 la rs s2
    rw [hnd] at h1
    cases h1
    have hdl : ∀ x ∈ rs, C.cmp_data (C.getKey r) x ≠ 0 := fun x hx =>
      hd x (leaf_recs_subset n g la rs s2 x hx)
    have hlen : rs.length < 4 := by
      rw [← h3]; exact hroom
    obtain ⟨l1, l2, hrs, q1, q2, _, q4⟩ := sorted_split_key L r rs
      (leaf_sorted n g none none hm.2.2.1 la rs s2) hdl
    have hdc := dupCheck_ok C (C.getKey r) nd rs h4 h3 (by omega) hdl
    have hil := insertIntoLeaf_eq C t.heap la nd rs r hnd h2 h4 h3 hlen
    rw [q4, hrs, insAt_length_append] at hil
    obtain ⟨root, hroot⟩ : ∃ root, t.root = some root := ⟨_, hm.1⟩
    have htake : rs.take l1.length = l1 := by rw [hrs]; simp
    have hdrop : rs.drop l1.length = l2 := by rw [hrs]; simp
    have hla : la < t.heap.length := lookup_lt hnd
    refine ⟨rs, l1.length, _, h2, h4, h3.symm, by rw [hrs]; simp, by rw [htake]; exact q1,
      by rw [hdrop]; exact q2, ?_, rfl, rfl, by simp, ?_, ?_, ?_⟩
    · simp only [Insert_BPlus, hroot, Insert_BPlus.atLeaf]
      rw [← hroot, hfl]
      simp only [hnd, hdc, if_pos hroom, hil]
      rw [htake, hdrop, h3]
      have hl : rs.length = l1.length + l2.length := by rw [hrs]; simp
      simp [MAXKEYS, ORDER, hl]
    · intro y hy
      simp only [List.getElem?_set]
      rw [if_neg (fun e => hy e.symm)]
    · intro p pn hp hpl
      simp only [List.getElem?_set]
      by_cases e : la = p
      · subst e
        rw [hnd] at hp
        cases hp
        rw [h2] at hpl
        cases hpl
      · rw [if_neg e]; exact hp
    · intro y ny hy
      simp only [List.getElem?_set]
      by_cases e : la = y
      · subst e
        rw [hnd] at hy
        cases hy
        simp [hla]
      · rw [if_neg e]
        exact ⟨ny, hy, rfl, rfl, rfl⟩

theorem leaf_insert_frame_witness :
    ∃ (rs : List Int) (j : Nat) (t' : Tree Int),
      leaf45.is_leaf = true ∧ leaf45.keys = pad MAXKEYS rs ∧ rs.length = leaf45.num_keys ∧
      j ≤ rs.length ∧
      (∀ x ∈ rs.take j, intCap.cmp_internal (intCap.getKey x) (intCap.getKey 6) < 0) ∧
      (∀ x ∈ rs.drop j, intCap.cmp_internal (intCap.getKey 6) (intCap.getKey x) < 0) ∧
      Insert_BPlus intCap tree5 6 = some (status_code.SUCCESS, t') ∧
      t' = { heap := tree5.heap.set 1
               { leaf45 with keys := pad MAXKEYS (rs.take j ++ 6 :: rs.drop j)
                             num_keys := leaf45.num_keys + 1 }
             root := tree5.root } ∧
      t'.root = tree5.root ∧ t'.heap.length = tree5.heap.length ∧
      (∀ y, y ≠ 1 → t'.heap[y]? = tree5.heap[y]?) ∧
      (∀ (p : Nat) (pn : GenericBPlusTreeNode Int), tree5.heap[p]? = some pn →
        pn.is_leaf = false → t'.heap[p]? = some pn) ∧
      (∀ (y : Nat) (ny : GenericBPlusTreeNode Int), tree5.heap[y]? = some ny →
        ∃ ny' : GenericBPlusTreeNode Int, t'.heap[y]? = some ny' ∧
          ny'.next_leaf = ny.next_leaf ∧ ny'.parent = ny.parent ∧
          ny'.children = ny.children) :=
  leaf_insert_frame intCap_lawful tree5 tree5_reachable 6 1 leaf45
    (fun x hx => by
      have := (tree5_stored x).1 hx
      simp only [List.mem_cons, List.mem_singleton, List.not_mem_nil, or_false] at this
      simp only [intCap, id]
      omega)
    (by decide) (by decide) (by decide)

/-! ## The leaf chain after a leaf split -/

/-- C26: in a reachable tree, when the record `r` has a new key and the leaf
`la` returned by `findLeaf` is full, `Insert_BPlus` creates the new leaf at
the first free address, sets its `next_leaf` to the old `next_leaf` of `la`
and the `next_leaf` of `la` to the new leaf, and changes the `next_leaf` of no
other node.  The leaf chain of the new tree is the old chain with the new leaf
put behind `la`; it ends with `NULL` and holds every leaf of the new tree
exactly once. -/
theorem leaf_split_chain {C : Capability V} (L : Lawful C) (t : Tree V)
    (hr : Reachable C t) (r : V) (la : Nat) (nd : GenericBPlusTreeNode V)
    (hnew : ∀ x, Stored t x → C.cmp_internal (C.getKey r) (C.getKey x) ≠ 0)
    (hfl : findLeaf C.cmp_internal t.heap t.root (C.getKey r) = some (some la))
    (hnd : t.heap[la]? = some nd) (hfull : nd.num_keys = MAXKEYS) :
    ∃ (t' : Tree V) (ndL ndN : GenericBPlusTreeNode V) (A B : List Nat),
      Insert_BPlus C t r = some (status_code.SUCCESS, t') ∧
      t'.heap[la]? = some ndL ∧ ndL.is_leaf = true ∧ ndL.next_leaf = some t.heap.length ∧
      t'.heap[t.heap.length]? = some ndN ∧ ndN.is_leaf = true ∧
      ndN.next_leaf = nd.next_leaf ∧
      (∀ (y : Nat) (ny : GenericBPlusTreeNode V), y ≠ la → t.heap[y]? = some ny →
        ∃ ny' : GenericBPlusTreeNode V, t'.heap[y]? = some ny' ∧
          ny'.next_leaf = ny.next_leaf) ∧
      leafChain t = some (A ++ la :: B) ∧
      leafChain t' = some (A ++ la :: t.heap.length :: B) ∧
      (A ++ la :: t.heap.length :: B).Nodup ∧
      ∀ a, a ∈ A ++ la :: t.heap.length :: B ↔ IsLeaf t' a := by
  rcases Reachable_Inv L t hr with hn | ⟨n, g, hm⟩
  · simp [findLeaf, hn] at hfl
  · have hd : ∀ x ∈ GT.recs n g, C.cmp_data (C.getKey r) x ≠ 0 := fun x hx => by
      rw [L.data]
      exact hnew x ((Stored_iff t n g hm x).2 hx)
    obtain ⟨t', n', g', la', e1, e2, e3, e4, _⟩ := Insert_track L t n g r hm hd
    rw [hfl] at e3
    simp only [Option.some.injEq] at e3
    subst e3
    obtain ⟨l1, l2, rs, hll, hla, hlen, hframe, hcase⟩ := e4
    obtain ⟨nd', h1, h2, h3, _⟩ := leaf_of_Rep n g none hm.2.1 la rs (by rw [hll]; simp)
    rw [hnd] at h1
    cases h1
    have hrs : rs.length = 4 := by rw [← h3, hfull]; rfl
    rcases hcase with ⟨hlt, _⟩ | ⟨_, _, hll', hn1, hn2⟩
    · omega
    · obtain ⟨ndL, q1, q2, _⟩ := leaf_of_Rep n' g' none e2.2.1 la
        ((sortedIns C r rs).take 3) (by rw [hll']; simp)
      obtain ⟨ndN, q3, q4, _⟩ := leaf_of_Rep n' g' none e2.2.1 t.heap.length
        ((sortedIns C r rs).drop 3) (by rw [hll']; simp)
      have c1 := leafChain_eq t n g hm
      have c2 := leafChain_eq t' n' g' e2
      rw [hll] at c1
      rw [hll'] at c2
      simp only [List.map_append, List.map_cons] at c1 c2
      have hnd' : ((GT.leafList n' g').map Prod.fst).Nodup :=
        e2.2.2.2.1.sublist (leafAddrs_sublist n' g')
      have hiff := IsLeaf_iff t' n' g' e2
      rw [hll'] at hnd' hiff
      simp only [List.map_append, List.map_cons] at hnd' hiff
      refine ⟨t', ndL, ndN, l1.map Prod.fst, l2.map Prod.fst, e1, q1, q2, ?_, q3, q4, ?_, ?_,
        c1, c2, hnd', fun a => (hiff a).symm⟩
      · simpa [nextOf, q1] using hn1
      · simpa [nextOf, q3, hnd] using hn2
      · intro y ny hy hny
        have := hframe y (lookup_lt hny) hy
        simp only [nextOf, hny, Option.map_some'] at this
        cases hq : t'.heap[y]? with
        | none => rw [hq] at this; cases this
        | some ny' =>
          rw [hq] at this
          simp only [Option.map_some', Option.some.injEq] at this
          exact ⟨ny', rfl, this⟩

theorem leaf_split_chain_witness :
    ∃ (t' : Tree Int) (ndL ndN : GenericBPlusTreeNode Int) (A B : List Nat),
      Insert_BPlus intCap tree4 5 = some (status_code.SUCCESS, t') ∧
      t'.heap[0]? = some ndL ∧ ndL.is_leaf = true ∧ ndL.next_leaf = some tree4.heap.length ∧
      t'.heap[tree4.heap.length]? = some ndN ∧ ndN.is_leaf = true ∧
      ndN.next_leaf = leaf4.next_leaf ∧
      (∀ (y : Nat) (ny : GenericBPlusTreeNode Int), y ≠ 0 → tree4.heap[y]? = some ny →
        ∃ ny' : GenericBPlusTreeNode Int, t'.heap[y]? = some ny' ∧
          ny'.next_leaf = ny.next_leaf) ∧
      leafChain tree4 = some (A ++ 0 :: B) ∧
      leafChain t' = some (A ++ 0 :: tree4.heap.length :: B) ∧
      (A ++ 0 :: tree4.heap.length :: B).Nodup ∧
      ∀ a, a ∈ A ++ 0 :: tree4.heap.length :: B ↔ IsLeaf t' a :=
  leaf_split_chain intCap_lawful tree4 tree4_reachable 5 0 leaf4
    (fun x hx => by
      have := (tree4_stored x).1 hx
      simp only [List.mem_cons, List.mem_singleton, List.not_mem_nil, or_false] at this
      simp only [intCap, id]
      omega)
    (by decide) (by decide) (by decide)

/-! ## The three cases of `insertIntoParent` -/

/-- C23: when `left` has no parent, `insertIntoParent` creates an internal node
at the first free address with the one key `key_copy`, the two children `left`
and `right` in the slots 0 and 1, and no parent; it sets the parent of `left`
and of `right` to the new node, makes the new node the root and returns
`SUCCESS`.  No other node changes. -/
theorem insertIntoParent_new_root (cmp : V → V → Int) (fuel : Nat) (t : Tree V)
    (left right : Nat) (key_copy : V) (l rn : GenericBPlusTreeNode V)
    (hl : t.heap[left]? = some l) (hpar : l.parent = none) (hr : t.heap[right]? = some rn)
    (hne : left ≠ right) :
    ∃ (t' : Tree V) (new_root : Nat) (nr : GenericBPlusTreeNode V),
      insertIntoParent cmp (fuel + 1) t left key_copy right = some (status_code.SUCCESS, t') ∧
      new_root = t.heap.length ∧ t'.root = some new_root ∧
      t'.heap.length = t.heap.length + 1 ∧ t'.heap[new_root]? = some nr ∧
      nr.is_leaf = false ∧ nr.parent = none ∧ nr.next_leaf = none ∧ nr.num_keys = 1 ∧
      nr.keys = [some key_copy, none, none, none] ∧
      nr.children = [some left, some right, none, none, none] ∧
      t'.heap[left]? = some { l with parent := some new_root } ∧
      t'.heap[right]? = some { rn with parent := some new_root } ∧
      ∀ y, y ≠ left → y ≠ right → y < t.heap.length → t'.heap[y]? = t.heap[y]? := by
  obtain ⟨h', e1, e2, e3, e4, e5, e6⟩ :=
    insertIntoParent_root cmp fuel t left right key_copy l rn hl hpar hr hne
  exact ⟨_, t.heap.length, _, e1, rfl, rfl, e2, e3, rfl, rfl, rfl, rfl, rfl, rfl, e4, e5, e6⟩

theorem insertIntoParent_new_root_witness :
    ∃ (t' : Tree Int) (new_root : Nat) (nr : GenericBPlusTreeNode Int),
      insertIntoParent intCap.cmp_internal (0 + 1) split4 0 4 1 =
        some (status_code.SUCCESS, t') ∧
      new_root = split4.heap.length ∧ t'.root = some new_root ∧
      t'.heap.length = split4.heap.length + 1 ∧ t'.heap[new_root]? = some nr ∧
      nr.is_leaf = false ∧ nr.parent = none ∧ nr.next_leaf = none ∧ nr.num_keys = 1 ∧
      nr.keys = [some 4, none, none, none] ∧
      nr.children = [some 0, some 1, none, none, none] ∧
      t'.heap[0]? = some { leaf123 with parent := some new_root } ∧
      t'.heap[1]? = some { leaf45 with parent := some new_root } ∧
      ∀ y, y ≠ 0 → y ≠ 1 → y < split4.heap.length → t'.heap[y]? = split4.heap[y]? :=
  insertIntoParent_new_root intCap.cmp_internal 0 split4 0 1 4
    { leaf123 with parent := none } { leaf45 with parent := none }
    (by decide) (by decide) (by decide) (by decide)

/-- C22: when the parent `p` of `left` holds fewer than `MAXKEYS` keys, `left`
sits in the child slot `i` of `p` and `key_copy` lies between the keys before
and the keys from position `i` on, `insertIntoParent` puts `key_copy` into key
slot `i` and `right` into child slot `i + 1`, moves the later keys and
children up by one slot in their order, raises `num_keys` by 1 and sets the
parent of `right` to `p`.  The keys of `p` stay strictly ascending; the root
pointer and every other node are unchanged. -/
theorem insertIntoParent_with_room {C : Capability V} (L : Lawful C) (fuel : Nat) (t : Tree V)
    (left right p i : Nat) (key_copy : V) (l pn rn : GenericBPlusTreeNode V) (ks : List V)
    (cs : List Nat)
    (hl : t.heap[left]? = some l) (hpar : l.parent = some p) (hp : t.heap[p]? = some pn)
    (hr : t.heap[right]? = some rn) (hne : p ≠ right)
    (hn : pn.num_keys = ks.length) (hk : pn.keys = pad MAXKEYS ks)
    (hc : pn.children = pad MAXCHILDREN cs) (hroom : pn.num_keys < MAXKEYS)
    (hcl : cs.length = ks.length + 1)
    (hsorted : ks.Pairwise (fun a b => C.cmp_internal a b < 0))
    (hleft : cs[i]? = some left)
    (hlo : ∀ k ∈ ks.take i, C.cmp_internal k key_copy < 0)
    (hhi : ∀ k ∈ ks.drop i, C.cmp_internal key_copy k < 0) :
    ∃ (t' : Tree V) (pn' : GenericBPlusTreeNode V),
      insertIntoParent C.cmp_internal (fuel + 1) t left key_copy right =
        some (status_code.SUCCESS, t') ∧
      t'.root = t.root ∧ t'.heap.length = t.heap.length ∧ t'.heap[p]? = some pn' ∧
      pn' = { pn with keys := pad MAXKEYS (ks.take i ++ key_copy :: ks.drop i)
                      children := pad MAXCHILDREN (cs.take (i + 1) ++ right :: cs.drop (i + 1))
                      num_keys := pn.num_keys + 1 } ∧
      (ks.take i ++ key_copy :: ks.drop i).Pairwise (fun a b => C.cmp_internal a b < 0) ∧
      pn'.keys[i]? = some (some key_copy) ∧
      pn'.children[i]? = some (some left) ∧ pn'.children[i + 1]? = some (some right) ∧
      t'.heap[right]? = some { rn with parent := some p } ∧
      ∀ y, y ≠ p → y ≠ right → t'.heap[y]? = t.heap[y]? := by
  have hi : i < cs.length := (List.getElem?_eq_some_iff.1 hleft).1
  have hik : i ≤ ks.length := by omega
  have hlen : ks.length < 4 := by rw [← hn]; exact hroom
  have hks : ks = ks.take i ++ ks.drop i := (List.take_append_drop i ks).symm
  have hposR : posR (fun x => decide (C.cmp_internal key_copy x < 0)) ks = i := by
    have := posR_append (fun x => decide (C.cmp_internal key_copy x < 0)) (ks.take i)
      (ks.drop i) (fun x hx => by
        have := (L.anti _ _).1 (hlo x hx)
        simp only [decide_eq_false_iff_not]; omega)
      (fun y hy => by simpa using hhi y hy)
    rw [← hks] at this
    rw [this, List.length_take]
    omega
  obtain ⟨h', e1, e2, e3, e4, e5⟩ := insertIntoParent_room C.cmp_internal fuel t left right p
    key_copy l pn rn ks cs hl hpar hp hn hk hc hlen hcl hr hne
  rw [hposR] at e3
  simp only [insAt] at e3
  have hpw : (ks.take i ++ key_copy :: ks.drop i).Pairwise
      (fun a b => C.cmp_internal a b < 0) := by
    rw [hks] at hsorted
    rw [List.pairwise_append] at hsorted ⊢
    refine ⟨hsorted.1, List.pairwise_cons.2 ⟨hhi, hsorted.2.1⟩, ?_⟩
    intro a ha b hb
    rcases List.mem_cons.1 hb with rfl | hb
    · exact hlo a ha
    · exact hsorted.2.2 a ha b hb
  refine ⟨_, _, e1, rfl, e2, e3, ?_, hpw, ?_, ?_, ?_, e4, e5⟩
  · rw [hn]; rfl
  · simp only []
    apply pad_lookup_lt
    rw [List.getElem?_append_right (by simp [hik]), List.length_take, Nat.min_eq_left hik,
      Nat.sub_self]
    simp
  · simp only []
    apply pad_lookup_lt
    rw [List.getElem?_append_left (by simp; omega), List.getElem?_take_of_lt (by omega)]
    exact hleft
  · simp only []
    apply pad_lookup_lt
    rw [List.getElem?_append_right (by simp), List.length_take, Nat.min_eq_left (by omega),
      Nat.sub_self]
    simp

theorem insertIntoParent_with_room_witness :
    ∃ (t' : Tree Int) (pn' : GenericBPlusTreeNode Int),
      insertIntoParent intCap.cmp_internal (0 + 1) split7 1 7 3 =
        some (status_code.SUCCESS, t') ∧
      t'.root = split7.root ∧ t'.heap.length = split7.heap.length ∧ t'.heap[2]? = some pn' ∧
      pn' = { root5 with keys := pad MAXKEYS ([4].take 1 ++ 7 :: [4].drop 1)
                         children := pad MAXCHILDREN ([0, 1].take (1 + 1) ++ 3 ::
                           [0, 1].drop (1 + 1))
                         num_keys := root5.num_keys + 1 } ∧
      ([4].take 1 ++ 7 :: [4].drop 1).Pairwise (fun a b => intCap.cmp_internal a b < 0) ∧
      pn'.keys[1]? = some (some 7) ∧
      pn'.children[1]? = some (some 1) ∧ pn'.children[1 + 1]? = some (some 3) ∧
      t'.heap[3]? = some { leaf78 with parent := some 2 } ∧
      ∀ y, y ≠ 2 → y ≠ 3 → t'.heap[y]? = split7.heap[y]? :=
  insertIntoParent_with_room intCap_lawful 0 split7 1 3 2 1 7 leaf456 root5 leaf78 [4] [0, 1]
    (by decide) (by decide) (by decide) (by decide) (by decide) (by decide) (by decide)
    (by decide) (by decide) (by decide) (by decide) (by decide) (by decide) (by decide)

/-- C21: when the parent `p` of `left` is full (4 keys `ks`, 5 children `cs`)
and `key_copy` lies between the keys before and the keys from position `i` on,
`insertIntoParent` merges `key_copy` at position `i` and `right` at position
`i + 1` into 5 keys `mk` and 6 children `mc`, leaves the first 2 keys and the
first 3 children in `p`, puts the last 2 keys and the last 3 children into a
new internal node at the first free address, sets the parent pointers of the
moved children, and continues with the key at index 2 as separator for the
parent of `p`.  That key is in neither node, and `mk` is the keys of `p`, the
median, then the keys of the new node. -/
theorem insertIntoParent_split_full {C : Capability V} (L : Lawful C) (fuel : Nat) (t : Tree V)
    (left right p i : Nat) (key_copy : V) (l pn : GenericBPlusTreeNode V) (ks : List V)
    (cs : List Nat)
    (hl : t.heap[left]? = some l) (hpar : l.parent = some p) (hp : t.heap[p]? = some pn)
    (hn : pn.num_keys = MAXKEYS) (hk : pn.keys = pad MAXKEYS ks)
    (hc : pn.children = pad MAXCHILDREN cs)
    (hkl : ks.length = MAXKEYS) (hcl : cs.length = MAXCHILDREN)
    (hvalid : ∀ c ∈ right :: cs, c < t.heap.length)
    (hdist : (p :: right :: cs).Nodup)
    (hsorted : ks.Pairwise (fun a b => C.cmp_internal a b < 0))
    (hi : i ≤ ks.length)
    (hlo : ∀ k ∈ ks.take i, C.cmp_internal k key_copy < 0)
    (hhi : ∀ k ∈ ks.drop i, C.cmp_internal key_copy k < 0) :
    ∃ (mk : List V) (mc : List Nat) (median : V) (h' : Heap V) (new_internal : Nat),
      mk = ks.take i ++ key_copy :: ks.drop i ∧
      mc = cs.take (i + 1) ++ right :: cs.drop (i + 1) ∧
      mk.length = 5 ∧ mc.length = 6 ∧
      mk.Pairwise (fun a b => C.cmp_internal a b < 0) ∧
      insertIntoParent.merge C.cmp_internal pn key_copy right =
        some (mk.map some, mc.map some) ∧
      mk[2]? = some median ∧ mk = mk.take 2 ++ median :: mk.drop 3 ∧
      median ∉ mk.take 2 ∧ median ∉ mk.drop 3 ∧
      new_internal = t.heap.length ∧
      insertIntoParent.split C.cmp_internal t.heap p key_copy right =
        some (h', median, new_internal) ∧
      h'.length = t.heap.length + 1 ∧
      h'[p]? = some { pn with num_keys := 2, keys := pad MAXKEYS (mk.take 2)
                              children := pad MAXCHILDREN (mc.take 3) } ∧
      h'[new_internal]? = some { keys := pad MAXKEYS (mk.drop 3)
                                 children := pad MAXCHILDREN (mc.drop 3)
                                 parent := pn.parent, next_leaf := none, num_keys := 2
                                 is_leaf := false } ∧
      (∀ c ∈ mc.take 3, ∃ cn, t.heap[c]? = some cn ∧
        h'[c]? = some { cn with parent := some p }) ∧
      (∀ c ∈ mc.drop 3, ∃ cn, t.heap[c]? = some cn ∧
        h'[c]? = some { cn with parent := some new_internal }) ∧
      (∀ y, y ≠ p → y ∉ mc → y < t.heap.length → h'[y]? = t.heap[y]?) ∧
      insertIntoParent C.cmp_internal (fuel + 1) t left key_copy right =
        insertIntoParent C.cmp_internal fuel { heap := h', root := t.root } p median
          new_internal := by
  have hkl4 : ks.length = 4 := hkl
  have hcl5 : cs.length = 5 := hcl
  have hks : ks = ks.take i ++ ks.drop i := (List.take_append_drop i ks).symm
  have hposL : posL (fun x => decide (C.cmp_internal key_copy x > 0)) ks = i := by
    have := posL_append (fun x => decide (C.cmp_internal key_copy x > 0)) (ks.take i)
      (ks.drop i) (fun x hx => by
        have := (L.anti _ _).1 (hlo x hx)
        simpa using this)
      (fun y hy => by
        have := hhi y hy
        simp only [gt_iff_lt, decide_eq_false_iff_not]; omega)
    rw [← hks] at this
    rw [this, List.length_take]
    omega
  have hmerge := insertIntoParent_merge_eq C.cmp_internal key_copy right pn ks cs hk hc hkl4 hcl5
  rw [hposL] at hmerge
  simp only [insAt] at hmerge
  have hpw : (ks.take i ++ key_copy :: ks.drop i).Pairwise
      (fun a b => C.cmp_internal a b < 0) := by
    rw [hks] at hsorted
    rw [List.pairwise_append] at hsorted ⊢
    refine ⟨hsorted.1, List.pairwise_cons.2 ⟨hhi, hsorted.2.1⟩, ?_⟩
    intro a ha b hb
    rcases List.mem_cons.1 hb with rfl | hb
    · exact hlo a ha
    · exact hsorted.2.2 a ha b hb
  obtain ⟨t0, t1, t2, t3, t4, hmk⟩ := len5 (l := ks.take i ++ key_copy :: ks.drop i) (by
    simp only [List.length_append, List.length_cons, List.length_take, List.length_drop]
    omega)
  obtain ⟨x0, x1, x2, x3, x4, x5, hmc⟩ :=
    len6 (l := cs.take (i + 1) ++ right :: cs.drop (i + 1)) (by
      simp only [List.length_append, List.length_cons, List.length_take, List.length_drop]
      omega)
  have hperm : (cs.take (i + 1) ++ right :: cs.drop (i + 1)).Perm (right :: cs) :=
    insAt_perm (i + 1) right cs
  rw [hmc] at hperm
  have hv : ∀ c ∈ [x0, x1, x2, x3, x4, x5], ∃ cn, t.heap[c]? = some cn := fun c hc' => by
    have hlt := hvalid c (hperm.subset hc')
    exact ⟨t.heap[c], List.getElem?_eq_getElem hlt⟩
  obtain ⟨n0, g0⟩ := hv x0 (by simp)
  obtain ⟨n1, g1⟩ := hv x1 (by simp)
  obtain ⟨n2, g2⟩ := hv x2 (by simp)
  obtain ⟨n3, g3⟩ := hv x3 (by simp)
  obtain ⟨n4, g4⟩ := hv x4 (by simp)
  obtain ⟨n5, g5⟩ := hv x5 (by simp)
  have hnd7 : [p, x0, x1, x2, x3, x4, x5].Nodup :=
    (List.Perm.cons p hperm).nodup_iff.2 hdist
  rw [hmk, hmc] at hmerge
  obtain ⟨h', s0, s1, sp, sn, r0, r1, r2, r3, r4, r5, sfr⟩ :=
    split_eq C.cmp_internal t.heap p key_copy right pn t0 t1 t2 t3 t4 x0 x1 x2 x3 x4 x5
      n0 n1 n2 n3 n4 n5 hp (by rw [hk]; simp [pad, hkl4, MAXKEYS, ORDER])
      (by rw [hc]; simp [pad, hcl5, MAXCHILDREN, ORDER]) hmerge g0 g1 g2 g3 g4 g5 hnd7
  have hstep := insertIntoParent_full C.cmp_internal fuel t left right p key_copy l pn h' t2
    t.heap.length hl hpar hp hn s0
  rw [hmk] at hpw
  have hne : ∀ a b : V, C.cmp_internal a b < 0 → a ≠ b := by
    intro a b hab e
    rw [e, L.refl] at hab
    exact lt_irrefl _ hab
  simp only [List.pairwise_cons, List.mem_cons, List.mem_singleton, List.not_mem_nil,
    or_false, forall_eq_or_imp, forall_eq] at hpw
  refine ⟨[t0, t1, t2, t3, t4], [x0, x1, x2, x3, x4, x5], t2, h', t.heap.length, hmk.symm,
    hmc.symm, rfl, rfl, ?_, hmerge, rfl, rfl, ?_, ?_, rfl, s0, s1, sp, sn, ?_, ?_, ?_, hstep⟩
  · rw [← hmk]
    rw [hks] at hsorted
    rw [List.pairwise_append] at hsorted ⊢
    refine ⟨hsorted.1, List.pairwise_cons.2 ⟨hhi, hsorted.2.1⟩, ?_⟩
    intro a ha b hb
    rcases List.mem_cons.1 hb with rfl | hb
    · exact hlo a ha
    · exact hsorted.2.2 a ha b hb
  · simp only [List.take, List.mem_cons, List.mem_singleton, List.not_mem_nil, or_false, not_or]
    exact ⟨(hne _ _ hpw.1.2.1).symm, (hne _ _ hpw.2.1.1).symm⟩
  · simp only [List.drop, List.mem_cons, List.mem_singleton, List.not_mem_nil, or_false, not_or]
    exact ⟨hne _ _ hpw.2.2.1.1, hne _ _ hpw.2.2.1.2⟩
  · intro c hc'
    simp only [List.take, List.mem_cons, List.mem_singleton, List.not_mem_nil, or_false] at hc'
    rcases hc' with rfl | rfl | rfl
    · exact ⟨n0, g0, r0⟩
    · exact ⟨n1, g1, r1⟩
    · exact ⟨n2, g2, r2⟩
  · intro c hc'
    simp only [List.drop, List.mem_cons, List.mem_singleton, List.not_mem_nil, or_false] at hc'
    rcases hc' with rfl | rfl | rfl
    · exact ⟨n3, g3, r3⟩
    · exact ⟨n4, g4, r4⟩
    · exact ⟨n5, g5, r5⟩
  · intro y hy hym hlt
    apply sfr y ?_ hlt
    intro hm
    rcases List.mem_cons.1 hm with e | hm
    · exact hy e
    · exact hym hm

theorem insertIntoParent_split_full_witness :
    ∃ (mk : List Int) (mc : List Nat) (median : Int) (h' : Heap Int) (new_internal : Nat),
      mk = [4, 7, 10, 13].take 4 ++ 16 :: [4, 7, 10, 13].drop 4 ∧
      mc = [0, 1, 3, 4, 5].take (4 + 1) ++ 6 :: [0, 1, 3, 4, 5].drop (4 + 1) ∧
      mk.length = 5 ∧ mc.length = 6 ∧
      mk.Pairwise (fun a b => intCap.cmp_internal a b < 0) ∧
      insertIntoParent.merge intCap.cmp_internal root16 16 6 =
        some (mk.map some, mc.map some) ∧
      mk[2]? = some median ∧ mk = mk.take 2 ++ median :: mk.drop 3 ∧
      median ∉ mk.take 2 ∧ median ∉ mk.drop 3 ∧
      new_internal = split16.heap.length ∧
      insertIntoParent.split intCap.cmp_internal split16.heap 2 16 6 =
        some (h', median, new_internal) ∧
      h'.length = split16.heap.length + 1 ∧
      h'[2]? = some { root16 with num_keys := 2, keys := pad MAXKEYS (mk.take 2)
                                  children := pad MAXCHILDREN (mc.take 3) } ∧
      h'[new_internal]? = some { keys := pad MAXKEYS (mk.drop 3)
                                 children := pad MAXCHILDREN (mc.drop 3)
                                 parent := root16.parent, next_leaf := none, num_keys := 2
                                 is_leaf := false } ∧
      (∀ c ∈ mc.take 3, ∃ cn, split16.heap[c]? = some cn ∧
        h'[c]? = some { cn with parent := some 2 }) ∧
      (∀ c ∈ mc.drop 3, ∃ cn, split16.heap[c]? = some cn ∧
        h'[c]? = some { cn with parent := some new_internal }) ∧
      (∀ y, y ≠ 2 → y ∉ mc → y < split16.heap.length → h'[y]? = split16.heap[y]?) ∧
      insertIntoParent intCap.cmp_internal (1 + 1) split16 5 16 6 =
        insertIntoParent intCap.cmp_internal 1 { heap := h', root := split16.root } 2 median
          new_internal :=
  insertIntoParent_split_full intCap_lawful 1 split16 5 6 2 4 16 leaf131415 root16
    [4, 7, 10, 13] [0, 1, 3, 4, 5]
    (by decide) (by decide) (by decide) (by decide) (by decide) (by decide) (by decide)
    (by decide) (by decide) (by decide) (by decide) (by decide) (by decide) (by decide)

/-! ## Strings -/

theorem strlen_tail (c : Nat) (s : List Nat) (hc : c ≠ 0) (h : strlen (c :: s) ≠ none) :
    strlen s ≠ none := by
  intro hs
  apply h
  simp [strlen, hc, hs]

theorem strcmp_anti : ∀ (a b : List Nat), strlen a ≠ none → strlen b ≠ none →
    ((strcmp a b).getD 0 < 0 ↔ 0 < (strcmp b a).getD 0)
  | [], _, ha, _ => absurd rfl ha
  | _ :: _, [], _, hb => absurd rfl hb
  | x :: s1, y :: s2, ha, hb => by
    by_cases hxy : x = y
    · subst hxy
      by_cases hx : x = 0
      · simp [strcmp, hx]
      · have := strcmp_anti s1 s2 (strlen_tail x s1 hx ha) (strlen_tail x s2 hx hb)
        simpa [strcmp, hx] using this
    · have hyx : y ≠ x := fun h => hxy h.symm
      simp only [strcmp, ne_eq, hxy, hyx, not_false_eq_true, if_true, Option.getD_some]
      omega

theorem strcmp_trans : ∀ (a b c : List Nat), strlen a ≠ none → strlen b ≠ none →
    strlen c ≠ none → (strcmp a b).getD 0 ≤ 0 → (strcmp b c).getD 0 ≤ 0 →
    (strcmp a c).getD 0 ≤ 0
  | [], _, _, ha, _, _ => absurd rfl ha
  | _ :: _, [], _, _, hb, _ => absurd rfl hb
  | _ :: _, _ :: _, [], _, _, hc => absurd rfl hc
  | x :: s1, y :: s2, z :: s3, ha, hb, hc => by
    intro h1 h2
    by_cases hxy : x = y
    · subst hxy
      by_cases hxz : x = z
      · subst hxz
        by_cases hx : x = 0
        · simp [strcmp, hx]
        · have := strcmp_trans s1 s2 s3 (strlen_tail x s1 hx ha) (strlen_tail x s2 hx hb)
            (strlen_tail x s3 hx hc)
          simp only [strcmp, ne_eq, not_true_eq_false, if_false, hx] at h1 h2 ⊢
          exact this h1 h2
      · simpa [strcmp, hxz] using h2
    · by_cases hyz : y = z
      · subst hyz
        simpa [strcmp, hxy] using h1
      · simp only [strcmp, ne_eq, hxy, hyz, not_false_eq_true, if_true, Option.getD_some] at h1 h2
        have hxz : x ≠ z := by omega
        simp only [strcmp, ne_eq, hxz, not_false_eq_true, if_true, Option.getD_some]
        omega

theorem strcpy_strlen : ∀ (k k' : List Nat), strcpy k = some k' → strlen k' ≠ none
  | [], _, h => by simp [strcpy] at h
  | c :: s, k', h => by
    by_cases hc : c = 0
    · simp only [strcpy, hc, if_true, Option.some.injEq] at h
      subst h
      decide
    · simp only [strcpy, hc, if_false, Option.map_eq_some'] at h
      obtain ⟨l, hl, rfl⟩ := h
      have := strcpy_strlen s l hl
      cases hs : strlen l with
      | none => exact absurd hs this
      | some n => simp [strlen, hc, hs]

theorem strcpyTo_ok (size : Nat) (k : List Nat) (h : ∃ n, strlen k = some n ∧ n < size) :
    ∃ k', strcpyTo size k = some k' ∧ strlen k' ≠ none ∧ strcmp k' k = some 0 := by
  obtain ⟨n, hn, hlt⟩ := h
  obtain ⟨k', e1, e2, e3⟩ := strcpy_spec k n hn
  refine ⟨k', ?_, strcpy_strlen k k' e1, e3⟩
  simp only [strcpyTo, e1]
  rw [if_pos (by omega)]

theorem strcpyTo_dash11 : strcpyTo 11 dash = some dash := by decide

theorem strcpyTo_dash6 : strcpyTo 6 dash = some dash := by decide

/-! ## The capability set of the user tree -/

theorem user_cmp (m : Nat → UserRec) (x y : URef) :
    (userCap m).cmp_internal x y =
      (strcmp (URef.load m x).1 (URef.load m y).1).getD 0 := rfl

theorem user_record_vnum (m : Nat → UserRec) (d : URef) :
    (URef.record m d).vehicle_num = (URef.load m ((userCap m).getKey d)).1 := by
  cases d <;> rfl

theorem userCap_lawful (m : Nat → UserRec) : Lawful (userCap m) where
  anti := fun a b => strcmp_anti _ _ (URef.load m a).2 (URef.load m b).2
  trans := fun a b c =>
    strcmp_trans _ _ _ (URef.load m a).2 (URef.load m b).2 (URef.load m c).2
  data := fun k d => by
    rw [user_cmp, ← user_record_vnum]
    rfl
  copy := fun k => by
    rw [user_cmp]
    cases hn : strlen (URef.load m k).1 with
    | none => exact absurd hn (URef.load m k).2
    | some n =>
      obtain ⟨k', e1, e2, e3⟩ := strcpy_spec _ n hn
      have e4 := strcpy_strlen _ k' e1
      have hc : copyUserKey (URef.load m k).1 = some k' := by
        simp only [copyUserKey, hn, e1, Option.some_bind]
        rw [if_pos (by omega)]
      have hl : (URef.load m ((userCap m).copyKey k)).1 = k' := by
        show (CStr.ofBuf ((copyUserKey (URef.load m k).1).getD [0])).1 = k'
        rw [hc, Option.getD_some]
        unfold CStr.ofBuf
        rw [dif_pos e4]
      rw [hl, e3]
      rfl

theorem userCap_congr (m m' : Nat → UserRec)
    (h : ∀ a, (m' a).1.vehicle_num = (m a).1.vehicle_num) : userCap m' = userCap m := by
  have hl : ∀ p, URef.load m' p = URef.load m p := by
    intro p
    cases p with
    | user a => exact Subtype.ext (h a)
    | vnum a => exact Subtype.ext (h a)
    | str s => rfl
  have hrec : ∀ p, (URef.record m' p).vehicle_num = (URef.record m p).vehicle_num := by
    intro p
    cases p with
    | user a => exact h a
    | vnum a => exact h a
    | str s => rfl
  unfold userCap
  congr 1
  · funext key data
    simp only [compareUserVehicleNum, hl, hrec]
  · funext key1 key2
    simp only [hl]
  · funext key
    simp only [hl]

theorem userCap_update (m : Nat → UserRec) (a : Nat) (u : UserRec)
    (h : u.1.vehicle_num = (m a).1.vehicle_num) :
    userCap (Function.update m a u) = userCap m := by
  apply userCap_congr
  intro b
  by_cases hb : b = a
  · subst hb
    simp [h]
  · simp [Function.update_noteq hb]

/-! ## The result of a search -/

theorem Search_char {C : Capability V} (L : Lawful C) (t : Tree V) (hi : Inv C t) (k : V) :
    (Search_BPlus C t k = some none ∧ ∀ x, Stored t x → C.cmp_data k x ≠ 0) ∨
    ∃ x, Search_BPlus C t k = some (some x) ∧ Stored t x ∧ C.cmp_data k x = 0 := by
  rcases hi with hroot | ⟨n, g, hm⟩
  · exact Or.inl ⟨by simp [Search_BPlus, hroot], fun x hx => absurd hx (Stored_empty t hroot x)⟩
  · obtain ⟨la, rs, _, e2, e3, e4⟩ := Search_spec L t n g hm k
    cases hf : rs.find? (fun d => decide (C.cmp_data k d = 0)) with
    | none =>
      refine Or.inl ⟨by rw [e4, hf], ?_⟩
      intro x hx hx0
      rw [List.find?_eq_none] at hf
      have hxr := (Stored_iff t n g hm x).1 hx
      have := hf x (e3 x hxr (by rw [← L.data]; exact hx0))
      simp [hx0] at this
    | some d =>
      have hd1 := List.find?_some hf
      have hd2 := List.mem_of_find?_eq_some hf
      simp only [decide_eq_true_eq] at hd1
      exact Or.inr ⟨d, by rw [e4, hf],
        (Stored_iff t n g hm d).2 (leaf_recs_subset n g la rs e2 d hd2), hd1⟩

/-! ## The order of a tree under a second capability set -/

theorem OrdKids_congr {T : Type} (P Q : T → Option V → Option V → Prop) (R : V → Prop) :
    ∀ (ks : List V) (cs : List T) (lo hi : Option V),
      (∀ c ∈ cs, ∀ l u, (∀ x, l = some x → R x) → (∀ x, u = some x → R x) →
        P c l u → Q c l u) →
      (∀ k ∈ ks, R k) → (∀ x, lo = some x → R x) → (∀ x, hi = some x → R x) →
      OrdKids P lo ks cs hi → OrdKids Q lo ks cs hi
  | [], [], _, _, _, _, _, _, h => by simp [OrdKids] at h
  | [], [c], lo, hi, hc, _, hlo, hhi, h => by
    simp only [OrdKids] at h ⊢
    exact hc c (by simp) lo hi hlo hhi h
  | [], _ :: _ :: _, _, _, _, _, _, _, h => by simp [OrdKids] at h
  | _ :: _, [], _, _, _, _, _, _, h => by simp [OrdKids] at h
  | k :: ks, c :: cs, lo, hi, hc, hk, hlo, hhi, h => by
    simp only [OrdKids] at h ⊢
    have hRk : ∀ x, some k = some x → R x := by
      intro x hx
      cases hx
      exact hk k (by simp)
    exact ⟨hc c (by simp) lo (some k) hlo hRk h.1,
      OrdKids_congr P Q R ks cs (some k) hi (fun c' hc' => hc c' (by simp [hc']))
        (fun k' hk' => hk k' (by simp [hk'])) hRk hhi h.2⟩

theorem Ord_congr {C C' : Capability V} (R : V → Prop)
    (hkey : ∀ x, C'.getKey x = C.getKey x)
    (hcmp : ∀ x y, R x → R y → C'.cmp_internal x y = C.cmp_internal x y) :
    ∀ (n : Nat) (g : GT V n) (lo hi : Option V),
      (∀ x ∈ GT.recs n g, R (C.getKey x)) → (∀ k ∈ GT.seps n g, R k) →
      (∀ x, lo = some x → R x) → (∀ x, hi = some x → R x) →
      Ord C n g lo hi → Ord C' n g lo hi
  | 0, g, lo, hi, hr, _, hlo, hhi, h => by
    rw [GT.recs_zero] at hr
    obtain ⟨h1, h2⟩ := h
    refine ⟨h1.imp_of_mem ?_, ?_⟩
    · intro a b ha hb hab
      simp only [klt] at hab ⊢
      rw [hkey, hkey, hcmp _ _ (hr a ha) (hr b hb)]
      exact hab
    · intro r hr'
      obtain ⟨b1, b2⟩ := h2 r hr'
      constructor
      · cases lo with
        | none => trivial
        | some l =>
          simp only [loLe] at b1 ⊢
          rw [hkey, hcmp _ _ (hlo l rfl) (hr r hr')]
          exact b1
      · cases hi with
        | none => trivial
        | some u =>
          simp only [ltHi] at b2 ⊢
          rw [hkey, hcmp _ _ (hr r hr') (hhi u rfl)]
          exact b2
  | n + 1, g, lo, hi, hr, hs, hlo, hhi, h => by
    rw [GT.recs_succ] at hr
    rw [GT.seps_succ] at hs
    obtain ⟨h1, h2, h3⟩ := h
    have hsk : ∀ k ∈ g.2.1, R k := fun k hk => hs k (List.mem_append.2 (Or.inr hk))
    refine ⟨h1.imp_of_mem ?_, ?_, ?_⟩
    · intro a b ha hb hab
      simp only [klt] at hab ⊢
      rw [hcmp _ _ (hsk a ha) (hsk b hb)]
      exact hab
    · intro k hk
      obtain ⟨b1, b2⟩ := h2 k hk
      constructor
      · cases lo with
        | none => trivial
        | some l =>
          simp only [loLt] at b1 ⊢
          rw [hcmp _ _ (hlo l rfl) (hsk k hk)]
          exact b1
      · cases hi with
        | none => trivial
        | some u =>
          simp only [ltHi] at b2 ⊢
          rw [hcmp _ _ (hsk k hk) (hhi u rfl)]
          exact b2
    · exact OrdKids_congr (Ord C n) (Ord C' n) R g.2.1 g.2.2 lo hi
        (fun c hc l u hl hu hP => Ord_congr R hkey hcmp n c l u
          (fun x hx => hr x (List.mem_flatMap.2 ⟨c, hc, hx⟩))
          (fun k hk => hs k (List.mem_append.2 (Or.inl (List.mem_flatMap.2 ⟨c, hc, hk⟩))))
          hl hu hP)
        hsk hlo hhi h3

theorem Inv_congr {C C' : Capability V} (R : V → Prop)
    (hkey : ∀ x, C'.getKey x = C.getKey x)
    (hcmp : ∀ x y, R x → R y → C'.cmp_internal x y = C.cmp_internal x y)
    (t : Tree V) (hi : Inv C t) (hrec : ∀ x, Stored t x → R (C.getKey x))
    (hsep : ∀ k, IsSeparator t k → R k) : Inv C' t := by
  rcases hi with hroot | ⟨n, g, hm⟩
  · exact Or.inl hroot
  · refine Or.inr ⟨n, g, hm.1, hm.2.1, ?_, hm.2.2.2⟩
    exact Ord_congr R hkey hcmp n g none none
      (fun x hx => hrec x ((Stored_iff t n g hm x).2 hx))
      (fun k hk => hsep k ((IsSeparator_iff t n g hm k).2 hk))
      (fun x hx => by cases hx) (fun x hx => by cases hx) hm.2.2.1

theorem Inv_fresh (um : UserStore) (ut : Tree URef) (u : UserRec)
    (hut : Inv (userCap um.records) ut)
    (husers : ∀ x, Stored ut x → ∃ a, x = URef.user a ∧ a < um.count)
    (hseps : ∀ k, IsSeparator ut k → ∃ s, k = URef.str s) :
    Inv (userCap (Function.update um.records um.count u)) ut := by
  refine @Inv_congr URef (userCap um.records)
    (userCap (Function.update um.records um.count u))
    (fun x => (∃ s, x = URef.str s) ∨ ∃ a, x = URef.vnum a ∧ a < um.count)
    (fun x => rfl) ?_ ut hut ?_ (fun k hk => Or.inl (hseps k hk))
  · have hl : ∀ x, ((∃ s, x = URef.str s) ∨ ∃ a, x = URef.vnum a ∧ a < um.count) →
        URef.load (Function.update um.records um.count u) x = URef.load um.records x := by
      rintro x (⟨s, rfl⟩ | ⟨a, rfl, ha⟩)
      · rfl
      · have hne : a ≠ um.count := by omega
        simp only [URef.load, Function.update_noteq hne]
    intro x y hx hy
    rw [user_cmp, user_cmp, hl x hx, hl y hy]
  · intro x hx
    obtain ⟨a, rfl, ha⟩ := husers x hx
    exact Or.inr ⟨a, rfl, ha⟩

theorem Insert_stored {C : Capability V} (L : Lawful C) (t : Tree V) (hi : Inv C t) (r : V) :
    Insert_BPlus C t r = some (status_code.FAILURE, t) ∨
    ∃ t', Insert_BPlus C t r = some (status_code.SUCCESS, t') ∧ Inv C t' ∧
      ∀ x, Stored t' x ↔ x = r ∨ Stored t x := by
  obtain ⟨l, hl, hst, _⟩ := Inv_content L t hi
  rcases Insert_step L t hi r l hl with ⟨_, h⟩ | ⟨_, t', l', e1, e2, e3, e4⟩
  · exact Or.inl h
  · refine Or.inr ⟨t', e1, e2, ?_⟩
    obtain ⟨l2, hl2, hst2, _⟩ := Inv_content L t' e2
    rw [e3] at hl2
    cases hl2
    intro x
    rw [hst2, hst, e4.mem_iff, List.mem_cons]

/-! ## The separators that an insertion adds -/

theorem splitLeaf_copy (C : Capability V) (h : Heap V) (leaf : Nat) (r : V) (h' : Heap V)
    (k : V) (nl : Nat) (e : Insert_BPlus.splitLeaf C h leaf r = some (h', k, nl)) :
    ∃ x, k = C.copyKey x := by
  simp only [Insert_BPlus.splitLeaf, Option.bind_eq_some] at e
  obtain ⟨_, _, _, _, _, _, _, _, _, _, _, _, e⟩ := e
  cases e
  exact ⟨_, rfl⟩

theorem keyCopies_copy (C : Capability V) (t : Tree V) (r : V) :
    ∀ k ∈ Insert_BPlus.keyCopies C t r, ∃ x, k = C.copyKey x := by
  intro k hk
  have hleaf : ∀ la, k ∈ leafCopies C t la r → ∃ x, k = C.copyKey x := by
    intro la hla
    unfold leafCopies at hla
    split at hla
    · simp at hla
    · split at hla
      · simp at hla
      · split at hla
        · simp at hla
        · rename_i h' kc nl e
          simp only [List.mem_singleton] at hla
          subst hla
          exact splitLeaf_copy C _ _ _ _ _ _ e
  unfold Insert_BPlus.keyCopies at hk
  split at hk
  · simp at hk
  · split at hk
    · split at hk
      · simp at hk
      · split at hk
        · exact hleaf _ hk
        · simp at hk
    · simp at hk

theorem Insert_separators {C : Capability V} (L : Lawful C) (t : Tree V) (hi : Inv C t)
    (r : V) (sc : status_code) (t' : Tree V) (e : Insert_BPlus C t r = some (sc, t'))
    (k : V) (hk : IsSeparator t' k) : IsSeparator t k ∨ ∃ x, k = C.copyKey x := by
  have hS : ∃ S, IsSeps C t S ∧ ∀ x ∈ S, IsSeparator t x := by
    rcases hi with hroot | ⟨n, g, hm⟩
    · exact ⟨[], Or.inl ⟨hroot, rfl⟩, fun x hx => by simp at hx⟩
    · exact ⟨GT.seps n g, Or.inr ⟨n, g, hm, rfl⟩, fun x hx => (IsSeparator_iff t n g hm x).2 hx⟩
  obtain ⟨S, hS1, hS2⟩ := hS
  obtain ⟨sc', t'', S', e1, e2, e3⟩ := Insert_seps L t S hS1 r
  rw [e] at e1
  cases e1
  rcases e2 with ⟨hroot, _⟩ | ⟨n, g, hm, rfl⟩
  · obtain ⟨root, _, _, _, _, hr, _⟩ := hk
    rw [hroot] at hr
    cases hr
  · have := (e3.mem_iff).1 ((IsSeparator_iff t' n g hm k).1 hk)
    rcases List.mem_append.1 this with h | h
    · exact Or.inr (keyCopies_copy C t r k h)
    · exact Or.inl (hS2 k h)

/-! ## Reachable user trees and the example state -/

theorem Reachable_separators {C : Capability V} (L : Lawful C) (t : Tree V)
    (hr : Reachable C t) : ∀ k, IsSeparator t k → ∃ x, k = C.copyKey x := by
  induction hr with
  | empty h =>
    rintro k ⟨root, _, _, _, _, hroot, _⟩
    cases hroot
  | insert t t' r sc hr' e ih =>
    intro k hk
    rcases Insert_separators L t (Reachable_Inv L t hr') r sc t' e k hk with h | h
    · exact ih k h
    · exact h

theorem int32_some (x : Int) (h1 : -2147483648 ≤ x) (h2 : x < 2147483648) :
    int32 x = some x := by
  unfold int32
  rw [if_pos ⟨h1, h2⟩]

theorem floats0_pay (u : User) : (Payment.amount floats0 u).isSome := by
  have hb : -100000 ≤ floats0.toInt (floats0.sub u.spent_time (floats0.frac u.spent_time)) ∧
      floats0.toInt (floats0.sub u.spent_time (floats0.frac u.spent_time)) ≤ 100000 := by
    simp only [floats0]
    omega
  unfold Payment.amount
  simp only []
  generalize floats0.toInt (floats0.sub u.spent_time (floats0.frac u.spent_time)) = b at hb
  rw [int32_some b (by omega) (by omega)]
  simp only [Option.some_bind]
  have hc : ∃ c, (if floats0.gt (floats0.frac u.spent_time) floats0.lit02 = true
      then int32 (b + 1) else some b) = some c ∧ -100000 ≤ c ∧ c ≤ 100001 := by
    split_ifs
    · exact ⟨b + 1, int32_some _ (by omega) (by omega), by omega, by omega⟩
    · exact ⟨b, rfl, by omega, by omega⟩
  obtain ⟨c, hc, hc1, hc2⟩ := hc
  rw [hc]
  simp only [Option.some_bind]
  by_cases hge : floats0.ge u.spent_time (floats0.ofInt 3) = true
  · rw [if_pos hge, int32_some (c - 3) (by omega) (by omega)]
    simp only [Option.some_bind]
    rw [int32_some (50 * (c - 3)) (by omega) (by omega)]
    simp only [Option.some_bind]
    rw [int32_some (100 + 50 * (c - 3)) (by omega) (by omega)]
    simp only [Option.some_bind]
    split_ifs
    · rw [int32_some _ (by omega) (by omega)]
      rfl
    · rfl
  · rw [if_neg hge]
    split_ifs
    · rw [int32_some _ (by omega) (by omega)]
      rfl
    · rfl

theorem userTree_eq :
    insertAll (userCap users1.records) emptyUsers [URef.user 0, URef.user 1] =
      some userTree := by decide

theorem userTree_reachable : Reachable (userCap users1.records) userTree :=
  insertAll_reachable (userCap users1.records) _ _ _ (Reachable.empty []) userTree_eq

theorem userTree_extract : extractToList userTree = some [URef.user 0, URef.user 1] := by
  decide

theorem userTree_stored (x : URef) : Stored userTree x ↔ x = URef.user 0 ∨ x = URef.user 1 := by
  rw [Stored_of_extract (userCap_lawful users1.records) userTree userTree_reachable _
    userTree_extract x]
  simp

/-! ## Linked lists in the heap -/

theorem ListAt_hd {D : Type} {h : ListHeap D} : ∀ {p : Option Nat} {l : List (Nat × D)},
    ListAt h p l → p = hd l
  | _, [], hl => hl
  | _, _ :: _, hl => hl.1

theorem ListAt_frame {D : Type} {h h' : ListHeap D} : ∀ (l : List (Nat × D)) (p : Option Nat),
    ListAt h p l → (∀ x ∈ l, h'[x.1]? = h[x.1]?) → ListAt h' p l
  | [], _, hl, _ => hl
  | x :: l, _, ⟨hp, nx, hx, hl⟩, hf =>
    ⟨hp, nx, by rw [hf x (List.mem_cons_self _ _)]; exact hx,
      ListAt_frame l nx hl (fun y hy => hf y (List.mem_cons_of_mem _ hy))⟩

theorem ListAt_lt {D : Type} {h : ListHeap D} : ∀ (l : List (Nat × D)) (p : Option Nat),
    ListAt h p l → ∀ x ∈ l, x.1 < h.length
  | [], _, _, x, hx => by simp at hx
  | y :: l, _, ⟨_, nx, hy, hl⟩, x, hx => by
    rcases List.mem_cons.1 hx with rfl | hx
    · exact (List.getElem?_eq_some_iff.1 hy).1
    · exact ListAt_lt l nx hl x hx

theorem ListAt_unique {D : Type} {h : ListHeap D} : ∀ (l1 l2 : List (Nat × D)) (p : Option Nat),
    ListAt h p l1 → ListAt h p l2 → l1 = l2
  | [], [], _, _, _ => rfl
  | [], _ :: _, _, h1, h2 => by
    rw [h1] at h2
    cases h2.1
  | _ :: _, [], _, h1, h2 => by
    rw [h2] at h1
    cases h1.1
  | x :: l1, y :: l2, _, ⟨hp, nx, hx, hl1⟩, ⟨hq, ny, hy, hl2⟩ => by
    rw [hp] at hq
    have e : x.1 = y.1 := Option.some.inj hq
    rw [e, hy] at hx
    have e2 := Option.some.inj hx
    have e3 : y.2 = x.2 := congrArg ListNode.data e2
    have e4 : ny = nx := congrArg ListNode.next e2
    rw [e4] at hl2
    rw [ListAt_unique l1 l2 nx hl1 hl2, Prod.ext e e3.symm]

theorem ListAt_suffix {D : Type} {h : ListHeap D} : ∀ (l1 l2 : List (Nat × D)) (p : Option Nat),
    ListAt h p (l1 ++ l2) → ListAt h (hd l2) l2
  | [], l2, _, hl => by
    have := ListAt_hd hl
    rw [List.nil_append] at hl this
    rw [← this]
    exact hl
  | _ :: l1, l2, _, ⟨_, nx, _, hl⟩ => ListAt_suffix l1 l2 nx hl

theorem ListAt_nodup {D : Type} {h : ListHeap D} : ∀ (l : List (Nat × D)) (p : Option Nat),
    ListAt h p l → (l.map Prod.fst).Nodup
  | [], _, _ => List.nodup_nil
  | x :: l, p, hl => by
    have hl' := hl
    obtain ⟨hp, nx, hx, hl2⟩ := hl'
    rw [List.map_cons, List.nodup_cons]
    refine ⟨?_, ListAt_nodup l nx hl2⟩
    intro hmem
    obtain ⟨y, hy, hyx⟩ := List.mem_map.1 hmem
    obtain ⟨l1, l2, rfl⟩ := List.append_of_mem hy
    have hs := ListAt_suffix l1 (y :: l2) nx hl2
    have hpy : p = hd (y :: l2) := by rw [hp]; simp [hd, hyx]
    rw [← hpy] at hs
    have := congrArg List.length (ListAt_unique _ _ p hl hs)
    simp at this
    omega

theorem ListAt_length {D : Type} {h : ListHeap D} (l : List (Nat × D)) (p : Option Nat)
    (hl : ListAt h p l) : l.length ≤ h.length := by
  have := nodup_length_le (l.map Prod.fst) h.length (ListAt_nodup l p hl) (fun x hx => by
    obtain ⟨y, hy, rfl⟩ := List.mem_map.1 hx
    exact ListAt_lt l p hl y hy)
  simpa using this

theorem listFrom_of_ListAt {D : Type} {h : ListHeap D} : ∀ (fuel : Nat) (l : List (Nat × D))
    (p : Option Nat), ListAt h p l → l.length < fuel → listFrom h fuel p = some l
  | 0, _, _, _, hf => by omega
  | fuel + 1, [], _, hl, _ => by
    rw [hl]
    rfl
  | fuel + 1, x :: l, _, ⟨hp, nx, hx, hl⟩, hf => by
    rw [hp]
    simp only [listFrom, hx]
    rw [listFrom_of_ListAt fuel l nx hl (by simpa using hf)]
    rfl

theorem ListAt_of_listFrom {D : Type} {h : ListHeap D} : ∀ (fuel : Nat) (l : List (Nat × D))
    (p : Option Nat), listFrom h fuel p = some l → ListAt h p l
  | 0, _, _, hl => by simp [listFrom] at hl
  | fuel + 1, l, none, hl => by
    simp only [listFrom, Option.some.injEq] at hl
    subst hl
    rfl
  | fuel + 1, l, some cur, hl => by
    simp only [listFrom] at hl
    cases hc : h[cur]? with
    | none => simp [hc] at hl
    | some nd =>
      rw [hc] at hl
      simp only [Option.map_eq_some'] at hl
      obtain ⟨l', hl', rfl⟩ := hl
      exact ⟨rfl, nd.next, hc, ListAt_of_listFrom fuel l' nd.next hl'⟩

theorem listNodes_iff {D : Type} (h : ListHeap D) (p : Option Nat) (l : List (Nat × D)) :
    listNodes h p = some l ↔ ListAt h p l :=
  ⟨ListAt_of_listFrom _ l p, fun hl =>
    listFrom_of_ListAt _ l p hl (Nat.lt_succ_of_le (ListAt_length l p hl))⟩

theorem ListAt_node {D : Type} {h : ListHeap D} : ∀ (l1 l2 : List (Nat × D)) (x : Nat × D)
    (p : Option Nat), ListAt h p (l1 ++ x :: l2) →
    h[x.1]? = some { data := x.2, next := hd l2 }
  | [], l2, x, _, ⟨_, nx, hx, hl⟩ => by
    rw [hx, ListAt_hd hl]
  | _ :: l1, l2, x, _, ⟨_, nx, _, hl⟩ => ListAt_node l1 l2 x nx hl

/-! ## `getMiddle` and the split -/

theorem ListAt_at {D : Type} {h : ListHeap D} (l : List (Nat × D)) (p : Option Nat)
    (hl : ListAt h p l) (j : Nat) (x : Nat × D) (hx : l[j]? = some x) :
    hd (l.drop j) = some x.1 ∧ h[x.1]? = some { data := x.2, next := hd (l.drop (j + 1)) } := by
  obtain ⟨l1, l2, rfl, e1⟩ := split_at_lookup l j x hx
  have d1 : (l1 ++ x :: l2).drop j = x :: l2 := by
    rw [← e1]
    simp
  have d2 : (l1 ++ x :: l2).drop (j + 1) = l2 := by
    rw [← List.drop_drop, d1]
    rfl
  rw [d1, d2]
  exact ⟨rfl, ListAt_node l1 l2 x p hl⟩

theorem lookup_some {α : Type} (l : List α) (j : Nat) (hj : j < l.length) :
    ∃ x, l[j]? = some x :=
  ⟨l[j], List.getElem?_eq_getElem hj⟩

theorem getMiddle_loop_eq {D : Type} {h : ListHeap D} (l : List (Nat × D)) (p : Option Nat)
    (hl : ListAt h p l) : ∀ (fuel i : Nat), 2 * i < l.length → l.length ≤ 2 * i + 2 * fuel →
      getMiddle.loop h fuel (hd (l.drop i)) (hd (l.drop (2 * i + 1))) =
        some (hd (l.drop ((l.length - 1) / 2)))
  | 0, i, h1, h2 => by omega
  | fuel + 1, i, h1, h2 => by
    by_cases hf : 2 * i + 1 < l.length
    · obtain ⟨f, hfx⟩ := lookup_some l (2 * i + 1) hf
      obtain ⟨ef, nf⟩ := ListAt_at l p hl (2 * i + 1) f hfx
      by_cases hf2 : 2 * i + 2 < l.length
      · obtain ⟨f2, hf2x⟩ := lookup_some l (2 * i + 2) hf2
        obtain ⟨ef2, nf2⟩ := ListAt_at l p hl (2 * i + 2) f2 hf2x
        obtain ⟨s, hsx⟩ := lookup_some l i (by omega)
        obtain ⟨es, ns⟩ := ListAt_at l p hl i s hsx
        have ih := getMiddle_loop_eq l p hl fuel (i + 1) (by omega) (by omega)
        have e3 : 2 * (i + 1) + 1 = 2 * i + 2 + 1 := by omega
        rw [e3] at ih
        rw [ef, es]
        simp only [getMiddle.loop, nf, ef2, ns, nf2]
        exact ih
      · have hnil : l.drop (2 * i + 1 + 1) = [] := List.drop_eq_nil_of_le (by omega)
        have hi : (l.length - 1) / 2 = i := by omega
        rw [ef, hi]
        simp only [getMiddle.loop, nf, hnil, hd]
    · have hnil : l.drop (2 * i + 1) = [] := List.drop_eq_nil_of_le (by omega)
      have hi : (l.length - 1) / 2 = i := by omega
      rw [hnil, hi]
      simp only [getMiddle.loop, hd]

theorem getMiddle_eq {D : Type} {h : ListHeap D} (l : List (Nat × D)) (p : Option Nat)
    (hl : ListAt h p l) (hne : 1 ≤ l.length) :
    getMiddle h p = some (hd (l.drop ((l.length - 1) / 2))) := by
  obtain ⟨x, hx⟩ := lookup_some l 0 (by omega)
  obtain ⟨e0, n0⟩ := ListAt_at l p hl 0 x hx
  have hlen := ListAt_length l p hl
  have := getMiddle_loop_eq l p hl (h.length + 1) 0 (by omega) (by omega)
  rw [List.drop_zero] at e0 this
  rw [ListAt_hd hl, e0] at *
  simp only [getMiddle, n0]
  exact this

theorem ListAt_cut {D : Type} {h : ListHeap D} : ∀ (l1 l2 : List (Nat × D)) (x : Nat × D)
    (p : Option Nat), ListAt h p (l1 ++ x :: l2) →
    ListAt (h.set x.1 { data := x.2, next := none }) p (l1 ++ [x]) ∧
      ListAt (h.set x.1 { data := x.2, next := none }) (hd l2) l2 := by
  intro l1 l2 x p hl
  have hnd := ListAt_nodup _ p hl
  have hlt := ListAt_lt _ p hl
  have hxl : x.1 < h.length := hlt x (by simp)
  have hother : ∀ y ∈ l1 ++ l2, (h.set x.1 { data := x.2, next := none })[y.1]? = h[y.1]? := by
    intro y hy
    rw [List.getElem?_set_ne]
    intro e
    rw [List.map_append, List.map_cons] at hnd
    have hx1 := (List.nodup_middle.1 hnd)
    rw [List.nodup_cons, ← List.map_append] at hx1
    exact hx1.1 (List.mem_map.2 ⟨y, hy, e.symm⟩)
  refine ⟨?_, ListAt_frame l2 _ (ListAt_suffix (l1 ++ [x]) l2 p (by simpa using hl))
    (fun y hy => hother y (List.mem_append_right _ hy))⟩
  have key : ∀ (l1 : List (Nat × D)) (p : Option Nat), ListAt h p (l1 ++ x :: l2) →
      (∀ y ∈ l1, (h.set x.1 { data := x.2, next := none })[y.1]? = h[y.1]?) →
      ListAt (h.set x.1 { data := x.2, next := none }) p (l1 ++ [x]) := by
    intro l1
    induction l1 with
    | nil =>
      intro p hl _
      obtain ⟨hp, nx, hx, _⟩ := hl
      exact ⟨hp, none, by rw [List.getElem?_set_self hxl], rfl⟩
    | cons y l1 ih =>
      intro p hl hf
      obtain ⟨hp, nx, hy, hl'⟩ := hl
      exact ⟨hp, nx, by rw [hf y (List.mem_cons_self _ _)]; exact hy,
        ih nx hl' (fun z hz => hf z (List.mem_cons_of_mem _ hz))⟩
  exact key l1 p hl (fun y hy => hother y (List.mem_append_left _ hy))

theorem split_eq_take_drop {D : Type} {h : ListHeap D} (l : List (Nat × D)) (p : Option Nat)
    (hl : ListAt h p l) (hne : 1 ≤ l.length) :
    ∃ h1 : ListHeap D, mergeSortList.split h p = some (h1, p, hd (l.drop ((l.length + 1) / 2))) ∧
      ListAt h1 p (l.take ((l.length + 1) / 2)) ∧
      ListAt h1 (hd (l.drop ((l.length + 1) / 2))) (l.drop ((l.length + 1) / 2)) ∧
      h1.length = h.length ∧ (∀ y : Nat, (∀ x ∈ l, x.1 ≠ y) → h1[y]? = h[y]?) ∧
      ∀ y : Nat, (h1[y]?).map ListNode.data = (h[y]?).map ListNode.data := by
  have hk : (l.length - 1) / 2 + 1 = (l.length + 1) / 2 := by omega
  obtain ⟨x, hx⟩ := lookup_some l ((l.length - 1) / 2) (by omega)
  obtain ⟨e0, n0⟩ := ListAt_at l p hl _ x hx
  obtain ⟨l1, l2, e, e1⟩ := split_at_lookup l _ x hx
  have ht : l.take ((l.length + 1) / 2) = l1 ++ [x] := by
    rw [← hk, ← e1]
    conv_lhs => rw [e]
    rw [List.take_append_eq_append_take]
    simp
  have hd2 : l.drop ((l.length + 1) / 2) = l2 := by
    rw [← hk, ← e1]
    conv_lhs => rw [e]
    rw [List.drop_append_eq_append_drop]
    simp
  rw [hk] at n0
  have hl' := hl
  rw [e] at hl'
  obtain ⟨c1, c2⟩ := ListAt_cut l1 l2 x p hl'
  refine ⟨h.set x.1 { data := x.2, next := none }, ?_, by rw [ht]; exact c1,
    by rw [hd2]; exact c2, by simp, ?_, ?_⟩
  · simp only [mergeSortList.split, getMiddle_eq l p hl hne, e0, n0, ListHeap.setNext,
      Option.map_some']
  · intro y hy
    rw [List.getElem?_set_ne]
    exact hy x (by rw [e]; simp)
  · intro y
    by_cases hy : x.1 = y
    · subst hy
      have hxl : x.1 < h.length := (List.getElem?_eq_some_iff.1 n0).1
      rw [List.getElem?_set_self hxl, n0]
      rfl
    · rw [List.getElem?_set_ne hy]

/-! ## `mergeSortedLists` and `mergeSortList` -/

theorem mergeSort_split {α : Type} (le : α → α → Bool) (l : List α) (hl : 2 ≤ l.length) :
    l.mergeSort le = List.merge ((l.take ((l.length + 1) / 2)).mergeSort le)
      ((l.drop ((l.length + 1) / 2)).mergeSort le) le := by
  match l, hl with
  | a :: b :: xs, _ =>
    rw [List.mergeSort]
    simp only [List.splitInTwo_fst, List.splitInTwo_snd]

theorem mergeSortedLists_eq {D : Type} (cmp : D → D → Int) : ∀ (fuel : Nat) (h : ListHeap D)
    (l1 l2 : List (Nat × D)) (a b : Option Nat), ListAt h a l1 → ListAt h b l2 →
    ((l1 ++ l2).map Prod.fst).Nodup → l1.length + l2.length < fuel →
    ∃ h' : ListHeap D,
      mergeSortedLists cmp fuel h a b = some (h', hd (List.merge l1 l2 (nodeLe cmp))) ∧
      ListAt h' (hd (List.merge l1 l2 (nodeLe cmp))) (List.merge l1 l2 (nodeLe cmp)) ∧
      h'.length = h.length ∧ (∀ y : Nat, (∀ x ∈ l1 ++ l2, x.1 ≠ y) → h'[y]? = h[y]?) ∧
      ∀ y : Nat, (h'[y]?).map ListNode.data = (h[y]?).map ListNode.data
  | 0, _, _, _, _, _, _, _, _, hf => by omega
  | fuel + 1, h, [], l2, a, b, ha, hb, _, _ => by
    have ea : a = none := ha
    refine ⟨h, ?_, ?_, rfl, fun _ _ => rfl, fun _ => rfl⟩
    · rw [ea, List.nil_merge, ← ListAt_hd hb]
      rfl
    · rw [List.nil_merge, ← ListAt_hd hb]
      exact hb
  | fuel + 1, h, x :: t1, [], a, b, ha, hb, _, _ => by
    have eb : b = none := hb
    refine ⟨h, ?_, ?_, rfl, fun _ _ => rfl, fun _ => rfl⟩
    · rw [eb, List.merge_right, ← ListAt_hd ha, ha.1]
      rfl
    · rw [List.merge_right, ← ListAt_hd ha]
      exact ha
  | fuel + 1, h, x :: t1, y :: t2, a, b, ha, hb, hnd, hf => by
    have ha' := ha
    have hb' := hb
    obtain ⟨ea, nxa, hxa, hta⟩ := ha'
    obtain ⟨eb, nxb, hyb, htb⟩ := hb'
    have hnd' := hnd
    simp only [List.map_append, List.map_cons, List.cons_append] at hnd'
    by_cases hle : cmp x.2 y.2 ≤ 0
    · have hle' : nodeLe cmp x y = true := by simp [nodeLe, hle]
      have hnd1 : ((t1 ++ y :: t2).map Prod.fst).Nodup := by
        simpa using (List.nodup_cons.1 hnd').2
      have hx1 : ∀ z ∈ t1 ++ y :: t2, z.1 ≠ x.1 := by
        intro z hz e
        have := (List.nodup_cons.1 hnd').1
        apply this
        rw [← List.map_cons, ← List.map_append]
        exact List.mem_map.2 ⟨z, hz, e⟩
      obtain ⟨h', e1, e2, e3, e4, e5⟩ := mergeSortedLists_eq cmp fuel h t1 (y :: t2) nxa b hta hb
        hnd1 (by simp at hf ⊢; omega)
      have hxl : x.1 < h'.length := by
        rw [e3]
        exact (List.getElem?_eq_some_iff.1 hxa).1
      have hx' : h'[x.1]? = some { data := x.2, next := nxa } := by
        rw [e4 x.1 hx1]
        exact hxa
      rw [List.cons_merge_cons_pos _ _ _ hle']
      refine ⟨h'.set x.1 { data := x.2, next := hd (List.merge t1 (y :: t2) (nodeLe cmp)) },
        ?_, ?_, by simp [e3], ?_, ?_⟩
      · rw [ea, eb]
        simp only [mergeSortedLists, hxa, hyb, if_pos hle]
        rw [← eb, e1]
        simp only [ListHeap.setNext, hx', Option.map_some']
        rfl
      · refine ⟨rfl, _, by rw [List.getElem?_set_self hxl], ListAt_frame _ _ e2 ?_⟩
        intro z hz
        rw [List.getElem?_set_ne]
        intro e
        exact hx1 z (by
          rcases List.mem_merge.1 hz with hz | hz
          · exact List.mem_append_left _ hz
          · exact List.mem_append_right _ hz) e.symm
      · intro z hz
        rw [List.getElem?_set_ne (fun e => hz x (by simp) e)]
        exact e4 z (fun w hw => hz w (by simp at hw ⊢; tauto))
      · intro z
        by_cases hz : x.1 = z
        · subst hz
          rw [List.getElem?_set_self hxl, hxa]
          rfl
        · rw [List.getElem?_set_ne hz]
          exact e5 z
    · have hle' : ¬ nodeLe cmp x y = true := by simp [nodeLe, hle]
      have hm : (y.1 :: ((x :: t1 ++ t2).map Prod.fst)).Nodup := by
        have := hnd
        simp only [List.map_append, List.map_cons] at this ⊢
        exact List.nodup_middle.1 this
      have hnd1 : ((x :: t1 ++ t2).map Prod.fst).Nodup := (List.nodup_cons.1 hm).2
      have hy1 : ∀ z ∈ x :: t1 ++ t2, z.1 ≠ y.1 := by
        intro z hz e
        exact (List.nodup_cons.1 hm).1 (List.mem_map.2 ⟨z, hz, e⟩)
      obtain ⟨h', e1, e2, e3, e4, e5⟩ := mergeSortedLists_eq cmp fuel h (x :: t1) t2 a nxb ha htb
        hnd1 (by simp at hf ⊢; omega)
      have hyl : y.1 < h'.length := by
        rw [e3]
        exact (List.getElem?_eq_some_iff.1 hyb).1
      have hy' : h'[y.1]? = some { data := y.2, next := nxb } := by
        rw [e4 y.1 hy1]
        exact hyb
      rw [List.cons_merge_cons_neg _ _ _ hle']
      refine ⟨h'.set y.1 { data := y.2, next := hd (List.merge (x :: t1) t2 (nodeLe cmp)) },
        ?_, ?_, by simp [e3], ?_, ?_⟩
      · rw [ea, eb]
        simp only [mergeSortedLists, hxa, hyb, if_neg hle]
        rw [← ea, e1]
        simp only [ListHeap.setNext, hy', Option.map_some']
        rfl
      · refine ⟨rfl, _, by rw [List.getElem?_set_self hyl], ListAt_frame _ _ e2 ?_⟩
        intro z hz
        rw [List.getElem?_set_ne]
        intro e
        exact hy1 z (by
          rcases List.mem_merge.1 hz with hz | hz
          · exact List.mem_append_left _ hz
          · exact List.mem_append_right _ hz) e.symm
      · intro z hz
        rw [List.getElem?_set_ne (fun e => hz y (by simp) e)]
        exact e4 z (fun w hw => hz w (by simp at hw ⊢; tauto))
      · intro z
        by_cases hz : y.1 = z
        · subst hz
          rw [List.getElem?_set_self hyl, hyb]
          rfl
        · rw [List.getElem?_set_ne hz]
          exact e5 z

theorem take_drop_disjoint {D : Type} (l : List (Nat × D)) (k : Nat)
    (hnd : (l.map Prod.fst).Nodup) :
    ∀ x ∈ l.take k, ∀ y ∈ l.drop k, x.1 ≠ y.1 := by
  intro x hx y hy e
  have h := hnd
  rw [← List.take_append_drop k l, List.map_append] at h
  exact (List.nodup_append.1 h).2.2 (List.mem_map.2 ⟨x, hx, rfl⟩)
    (List.mem_map.2 ⟨y, hy, e.symm⟩)

theorem mergeSortList_go_eq {D : Type} (cmp : D → D → Int) : ∀ (fuel : Nat) (h : ListHeap D)
    (l : List (Nat × D)) (p : Option Nat), ListAt h p l → l.length < fuel →
    ∃ h' : ListHeap D,
      mergeSortList.go cmp fuel h p = some (h', hd (l.mergeSort (nodeLe cmp))) ∧
      ListAt h' (hd (l.mergeSort (nodeLe cmp))) (l.mergeSort (nodeLe cmp)) ∧
      h'.length = h.length ∧ (∀ y : Nat, (∀ x ∈ l, x.1 ≠ y) → h'[y]? = h[y]?) ∧
      ∀ y : Nat, (h'[y]?).map ListNode.data = (h[y]?).map ListNode.data
  | 0, _, _, _, _, hf => by omega
  | fuel + 1, h, [], p, hl, _ => by
    have ep : p = none := hl
    exact ⟨h, by rw [ep, List.mergeSort_nil]; rfl, by rw [List.mergeSort_nil]; rfl, rfl,
      fun _ _ => rfl, fun _ => rfl⟩
  | fuel + 1, h, [x], p, hl, _ => by
    have hl' := hl
    obtain ⟨ep, nx, hx, hn⟩ := hl'
    have en : nx = none := hn
    rw [en] at hx
    refine ⟨h, ?_, ?_, rfl, fun _ _ => rfl, fun _ => rfl⟩
    · rw [ep, List.mergeSort_singleton]
      simp only [mergeSortList.go, hx]
      rfl
    · rw [List.mergeSort_singleton, ← ListAt_hd hl]
      exact hl
  | fuel + 1, h, x :: y :: t, p, hl, hf => by
    have hl' := hl
    obtain ⟨ep, nx, hx, hn⟩ := hl'
    have enx : nx = some y.1 := hn.1
    rw [enx] at hx
    have hnd := ListAt_nodup _ p hl
    have hlen := ListAt_length _ p hl
    have hn2 : 2 ≤ (x :: y :: t).length := by simp
    generalize hL : x :: y :: t = l at hl hf hnd hlen hn2 ⊢
    have hk1 : (l.length + 1) / 2 < l.length := by omega
    have hk2 : 1 ≤ (l.length + 1) / 2 := by omega
    obtain ⟨h1, s1, s2, s3, s4, s5, s6⟩ := split_eq_take_drop l p hl (by omega)
    have hdis := take_drop_disjoint l ((l.length + 1) / 2) hnd
    obtain ⟨h2, a1, a2, a3, a4, a5⟩ := mergeSortList_go_eq cmp fuel h1
      (l.take ((l.length + 1) / 2)) p s2 (by rw [List.length_take]; omega)
    have s3' : ListAt h2 (hd (l.drop ((l.length + 1) / 2))) (l.drop ((l.length + 1) / 2)) :=
      ListAt_frame _ _ s3 (fun z hz => a4 z.1 (fun w hw => hdis w hw z hz))
    obtain ⟨h3, b1, b2, b3, b4, b5⟩ := mergeSortList_go_eq cmp fuel h2
      (l.drop ((l.length + 1) / 2)) _ s3' (by rw [List.length_drop]; omega)
    have a2' : ListAt h3 (hd ((l.take ((l.length + 1) / 2)).mergeSort (nodeLe cmp)))
        ((l.take ((l.length + 1) / 2)).mergeSort (nodeLe cmp)) :=
      ListAt_frame _ _ a2 (fun z hz => b4 z.1 (fun w hw e =>
        hdis z (List.mem_mergeSort.1 hz) w hw e.symm))
    have hperm : ((l.take ((l.length + 1) / 2)).mergeSort (nodeLe cmp) ++
        (l.drop ((l.length + 1) / 2)).mergeSort (nodeLe cmp)).Perm l := by
      have := (List.mergeSort_perm (l.take ((l.length + 1) / 2)) (nodeLe cmp)).append
        (List.mergeSort_perm (l.drop ((l.length + 1) / 2)) (nodeLe cmp))
      rw [List.take_append_drop] at this
      exact this
    obtain ⟨h4, c1, c2, c3, c4, c5⟩ := mergeSortedLists_eq cmp (h3.length + 1) h3 _ _ _ _
      a2' b2 ((hperm.map Prod.fst).nodup_iff.2 hnd) (by
        have := hperm.length_eq
        rw [List.length_append] at this
        rw [this, b3, a3, s4]
        omega)
    rw [← mergeSort_split (nodeLe cmp) l hn2] at c1 c2
    refine ⟨h4, ?_, c2, by rw [c3, b3, a3, s4], ?_, ?_⟩
    · rw [ep]
      simp only [mergeSortList.go, hx]
      rw [← ep, s1]
      simp only [a1, b1]
      exact c1
    · intro z hz
      rw [c4 z (fun w hw => hz w (hperm.mem_iff.1 hw)),
        b4 z (fun w hw => hz w (List.mem_of_mem_drop hw)),
        a4 z (fun w hw => hz w (List.mem_of_mem_take hw)), s5 z hz]
    · intro z
      rw [c5, b5, a5, s6]

theorem mergeSortList_eq {D : Type} (cmp : D → D → Int) (h : ListHeap D) (head : Option Nat)
    (l : List (Nat × D)) (hl : listNodes h head = some l) :
    ∃ (h' : ListHeap D) (head' : Option Nat),
      mergeSortList cmp h head = some (h', head') ∧
      listNodes h' head' = some (l.mergeSort (nodeLe cmp)) ∧
      h'.length = h.length ∧ (∀ y : Nat, (∀ x ∈ l, x.1 ≠ y) → h'[y]? = h[y]?) ∧
      ∀ y : Nat, (h'[y]?).map ListNode.data = (h[y]?).map ListNode.data := by
  have hl' := (listNodes_iff h head l).1 hl
  obtain ⟨h', e1, e2, e3, e4, e5⟩ := mergeSortList_go_eq cmp (h.length + 1) h l head hl'
    (Nat.lt_succ_of_le (ListAt_length l head hl'))
  exact ⟨h', _, e1, (listNodes_iff _ _ _).2 e2, e3, e4, e5⟩

/-! ## Merge sort of a linked list -/

/-- C32: when `cmp` is a total preorder, the list that `mergeSortList` leaves
is sorted: `cmp(a.data, b.data) <= 0` for every two adjacent nodes `a`, `b`,
and for every node `a` that comes before a node `b`.  The sort is stable: a
node `a` that came before a node `b` with `cmp(a.data, b.data) <= 0`, in
particular with data that compare equal, still comes before `b`.  The list
afterwards has the nodes of the list before. -/
theorem mergeSortList_sorted_stable {D : Type} (cmp : D → D → Int)
    (htotal : ∀ a b, cmp a b ≤ 0 ∨ cmp b a ≤ 0)
    (htrans : ∀ a b c, cmp a b ≤ 0 → cmp b c ≤ 0 → cmp a c ≤ 0)
    (h : ListHeap D) (head : Option Nat) (l : List (Nat × D))
    (hl : listNodes h head = some l) :
    ∃ (h' : ListHeap D) (head' : Option Nat) (l' : List (Nat × D)),
      mergeSortList cmp h head = some (h', head') ∧ listNodes h' head' = some l' ∧
      l'.Perm l ∧
      l'.Chain' (fun a b => cmp a.2 b.2 ≤ 0) ∧
      l'.Pairwise (fun a b => cmp a.2 b.2 ≤ 0) ∧
      ∀ a b, [a, b].Sublist l → cmp a.2 b.2 ≤ 0 → [a, b].Sublist l' := by
  obtain ⟨h', head', e1, e2, _⟩ := mergeSortList_eq cmp h head l hl
  have tr : ∀ a b c : Nat × D, nodeLe cmp a b = true → nodeLe cmp b c = true →
      nodeLe cmp a c = true := by
    intro a b c hab hbc
    simp only [nodeLe, decide_eq_true_eq] at hab hbc ⊢
    exact htrans _ _ _ hab hbc
  have tot : ∀ a b : Nat × D, (nodeLe cmp a b || nodeLe cmp b a) = true := by
    intro a b
    simp only [nodeLe, Bool.or_eq_true, decide_eq_true_eq]
    exact htotal _ _
  have hs : (l.mergeSort (nodeLe cmp)).Pairwise (fun a b => cmp a.2 b.2 ≤ 0) :=
    (List.sorted_mergeSort tr tot l).imp (fun hab => by simpa [nodeLe] using hab)
  refine ⟨h', head', _, e1, e2, List.mergeSort_perm l _, hs.chain', hs, ?_⟩
  intro a b hab hle
  exact List.pair_sublist_mergeSort tr tot (by simp [nodeLe, hle]) hab

theorem mergeSortList_sorted_stable_witness :
    ∃ (h' : ListHeap Int) (head' : Option Nat) (l' : List (Nat × Int)),
      mergeSortList (fun a b => a - b) cells5 (some 0) = some (h', head') ∧
      listNodes h' head' = some l' ∧
      l'.Perm [(0, 3), (1, 1), (2, 2), (3, 1), (4, 0)] ∧
      l'.Chain' (fun a b => a.2 - b.2 ≤ 0) ∧
      l'.Pairwise (fun a b => a.2 - b.2 ≤ 0) ∧
      ∀ a b, [a, b].Sublist [(0, 3), (1, 1), (2, 2), (3, 1), (4, 0)] → a.2 - b.2 ≤ 0 →
        [a, b].Sublist l' :=
  mergeSortList_sorted_stable (fun a b => a - b)
    (fun a b => by
      show a - b ≤ 0 ∨ b - a ≤ 0
      omega)
    (fun a b c h1 h2 => by
      have h1' : a - b ≤ 0 := h1
      have h2' : b - c ≤ 0 := h2
      show a - c ≤ 0
      omega) cells5 (some 0) [(0, 3), (1, 1), (2, 2), (3, 1), (4, 0)]
    (by decide)

/-- C33: for every comparison function and every list, `mergeSortList`
returns, and the list it leaves is a permutation of the list before: the same
nodes, so the same data references with the same multiplicities, and the same
length.  For a list of `n >= 2` nodes `getMiddle` returns the node number
`ceil(n/2)`, and the split leaves the first `ceil(n/2)` nodes in the list at
`a` and the other `floor(n/2)` nodes in the list at `b`; both lists are
non-empty and shorter than `n`. -/
theorem mergeSortList_terminates_perm {D : Type} (cmp : D → D → Int) (h : ListHeap D)
    (head : Option Nat) (l : List (Nat × D)) (hl : listNodes h head = some l) :
    (∃ (h' : ListHeap D) (head' : Option Nat) (l' : List (Nat × D)),
      mergeSortList cmp h head = some (h', head') ∧ listNodes h' head' = some l' ∧
      l'.Perm l ∧ (l'.map Prod.snd).Perm (l.map Prod.snd) ∧ l'.length = l.length) ∧
    (2 ≤ l.length → ∃ (middle : Nat × D) (h1 : ListHeap D) (b : Option Nat),
      l[(l.length + 1) / 2 - 1]? = some middle ∧
      getMiddle h head = some (some middle.1) ∧
      mergeSortList.split h head = some (h1, head, b) ∧
      listNodes h1 head = some (l.take ((l.length + 1) / 2)) ∧
      listNodes h1 b = some (l.drop ((l.length + 1) / 2)) ∧
      (l.take ((l.length + 1) / 2)).length = (l.length + 1) / 2 ∧
      (l.drop ((l.length + 1) / 2)).length = l.length / 2 ∧
      (l.length + 1) / 2 + l.length / 2 = l.length ∧
      l.length / 2 ≤ (l.length + 1) / 2 ∧ (l.length + 1) / 2 ≤ l.length / 2 + 1 ∧
      1 ≤ l.length / 2 ∧ (l.length + 1) / 2 < l.length) := by
  have hl' := (listNodes_iff h head l).1 hl
  constructor
  · obtain ⟨h', head', e1, e2, _⟩ := mergeSortList_eq cmp h head l hl
    exact ⟨h', head', _, e1, e2, List.mergeSort_perm l _, (List.mergeSort_perm l _).map _,
      List.length_mergeSort l⟩
  · intro hn
    obtain ⟨m, hm⟩ := lookup_some l ((l.length + 1) / 2 - 1) (by omega)
    obtain ⟨h1, s1, s2, s3, _⟩ := split_eq_take_drop l head hl' (by omega)
    have hk : (l.length - 1) / 2 = (l.length + 1) / 2 - 1 := by omega
    refine ⟨m, h1, _, hm, ?_, s1, (listNodes_iff _ _ _).2 s2, (listNodes_iff _ _ _).2 s3,
      by rw [List.length_take]; omega, by rw [List.length_drop]; omega, by omega, by omega,
      by omega, by omega, by omega⟩
    rw [getMiddle_eq l head hl' (by omega), hk, (ListAt_at l head hl' _ m hm).1]

theorem mergeSortList_terminates_perm_witness :
    (∃ (h' : ListHeap Int) (head' : Option Nat) (l' : List (Nat × Int)),
      mergeSortList (fun a b => b - a) cells5 (some 0) = some (h', head') ∧
      listNodes h' head' = some l' ∧
      l'.Perm [(0, 3), (1, 1), (2, 2), (3, 1), (4, 0)] ∧
      (l'.map Prod.snd).Perm [3, 1, 2, 1, 0] ∧ l'.length = 5) ∧
    (2 ≤ 5 → ∃ (middle : Nat × Int) (h1 : ListHeap Int) (b : Option Nat),
      [(0, (3 : Int)), (1, 1), (2, 2), (3, 1), (4, 0)][2]? = some middle ∧
      getMiddle cells5 (some 0) = some (some middle.1) ∧
      mergeSortList.split cells5 (some 0) = some (h1, some 0, b) ∧
      listNodes h1 (some 0) = some [(0, 3), (1, 1), (2, 2)] ∧
      listNodes h1 b = some [(3, 1), (4, 0)] ∧
      [(0, (3 : Int)), (1, 1), (2, 2)].length = 3 ∧ [(3, (1 : Int)), (4, 0)].length = 2 ∧
      3 + 2 = 5 ∧ 2 ≤ 3 ∧ 3 ≤ 2 + 1 ∧ 1 ≤ 2 ∧ 3 < 5) :=
  mergeSortList_terminates_perm (fun a b => b - a) cells5 (some 0)
    [(0, 3), (1, 1), (2, 2), (3, 1), (4, 0)] (by decide)

/-! ## The fee of a short stay -/

/-- C34: for a user whose `spent_time` is not `>= 3.0`, `Payment` charges
nothing.  The branch for the short stay assigns 100 or 90 to a variable
`parking_amt` of its own; the outer `parking_amt` keeps its value 0, and 0 is
what is stored in the member `parking_amt` of the user and added to the
`total_parking_amt` of the user and to the `revenue` of the slot. -/
theorem payment_short_stay_charges_nothing (F : FloatOps) (parking : Parking)
    (user : UserRec)
    (hshort : F.ge user.1.spent_time (F.ofInt 3) = false)
    (hdef : (Payment.amount F user.1).isSome) :
    ∃ r, Payment F parking user = some r ∧
      r.2.1.parking_amt = F.ofInt 0 ∧
      r.2.1.total_parking_amt = F.add user.1.total_parking_amt (F.ofInt 0) ∧
      r.1.revenue = F.add parking.revenue (F.ofInt 0) := by
  obtain ⟨amt, ha⟩ := Option.isSome_iff_exists.1 hdef
  have h0 : amt = 0 := by
    unfold Payment.amount at ha
    simp only [hshort, Bool.false_eq_true, if_false, Option.bind_eq_some] at ha
    obtain ⟨_, _, _, _, _, _, ha⟩ := ha
    cases ha
    rfl
  subst h0
  simp only [Payment, ha, Option.some_bind]
  exact ⟨_, rfl, rfl, rfl, rfl⟩

theorem payment_short_stay_charges_nothing_witness :
    (users1.records 0).1.membership = 0 ∧
    (∃ r, Payment floats0 (store0 0).1 (users1.records 0) = some r ∧
      r.2.1.parking_amt = floats0.ofInt 0 ∧
      r.2.1.total_parking_amt =
        floats0.add (users1.records 0).1.total_parking_amt (floats0.ofInt 0) ∧
      r.1.revenue = floats0.add (store0 0).1.revenue (floats0.ofInt 0)) ∧
    (users1.records 1).1.membership = 2 ∧
    (∃ r, Payment floats0 (store0 0).1 (users1.records 1) = some r ∧
      r.2.1.parking_amt = floats0.ofInt 0 ∧
      r.2.1.total_parking_amt =
        floats0.add (users1.records 1).1.total_parking_amt (floats0.ofInt 0) ∧
      r.1.revenue = floats0.add (store0 0).1.revenue (floats0.ofInt 0)) :=
  ⟨rfl, payment_short_stay_charges_nothing floats0 (store0 0).1 (users1.records 0) (by decide)
      (floats0_pay _),
    rfl, payment_short_stay_charges_nothing floats0 (store0 0).1 (users1.records 1) (by decide)
      (floats0_pay _)⟩

/-! ## The range of `printSimpleListRange` -/

theorem printSimpleListRange_loop_eq (F : FloatOps) (m : Nat → UserRec)
    (h : ListHeap (Option URef)) (min_val max_val : Int) :
    ∀ (fuel : Nat) (l : List (Nat × Option URef)) (p : Option Nat) (out : List URef)
      (count : Int), ListAt h p l → l.length < fuel → 0 ≤ count →
      count + l.length < 2147483648 →
      printSimpleListRange.loop F m h min_val max_val fuel p out count =
        some (out ++ (l.filterMap Prod.snd).filter
            (printSimpleListRange.inRange F m min_val max_val),
          count + (((l.filterMap Prod.snd).filter
            (printSimpleListRange.inRange F m min_val max_val)).length : Int))
  | 0, _, _, _, _, _, hf, _, _ => by omega
  | fuel + 1, [], p, out, count, hl, _, _, _ => by
    have ep : p = none := hl
    rw [ep]
    simp [printSimpleListRange.loop]
  | fuel + 1, x :: l, p, out, count, ⟨ep, nx, hx, hl⟩, hf, h0, hc => by
    rw [ep]
    have hf' : l.length < fuel := by simpa using hf
    have hc' : count + 1 + (l.length : Int) < 2147483648 := by
      simp only [List.length_cons, Nat.cast_add, Nat.cast_one] at hc
      omega
    obtain ⟨a, d⟩ := x
    cases d with
    | none =>
      simp only [printSimpleListRange.loop, hx]
      rw [printSimpleListRange_loop_eq F m h min_val max_val fuel l nx out count hl hf' h0
        (by omega)]
      simp
    | some d =>
      simp only [printSimpleListRange.loop, hx]
      by_cases ht : printSimpleListRange.inRange F m min_val max_val d = true
      · rw [if_pos ht, int32_some (count + 1) (by omega) (by omega)]
        simp only []
        rw [printSimpleListRange_loop_eq F m h min_val max_val fuel l nx (out ++ [d])
          (count + 1) hl hf' (by omega) hc']
        simp [ht]
        omega
      · rw [if_neg ht]
        rw [printSimpleListRange_loop_eq F m h min_val max_val fuel l nx out count hl hf' h0
          (by omega)]
        simp [ht]

/-- C35: `printSimpleListRange` prints the items of the list, in order, that
pass its test, and counts them.  An item passes the test exactly when
`min_val` is not zero, its `total_parking_amt` is not `< min_val`, and
`max_val` is zero or its `total_parking_amt` is `< max_val`: the range is open
at `max_val`, nothing is printed for `min_val = 0`, and `max_val = 0` is no
bound. -/
theorem printSimpleListRange_prints (F : FloatOps) (m : Nat → UserRec)
    (h : ListHeap (Option URef)) (head : Option Nat) (min_val max_val : Int)
    (l : List (Nat × Option URef)) (hl : listNodes h head = some l)
    (hlen : l.length < 2147483648) :
    printSimpleListRange F m h head min_val max_val =
      some ((l.filterMap Prod.snd).filter (printSimpleListRange.inRange F m min_val max_val),
        (((l.filterMap Prod.snd).filter
          (printSimpleListRange.inRange F m min_val max_val)).length : Int)) ∧
    ∀ d, printSimpleListRange.inRange F m min_val max_val d = true ↔
      (F.isZero min_val = false ∧
        F.lt (URef.record m d).total_parking_amt min_val = false) ∧
      (F.isZero max_val = true ∨ F.lt (URef.record m d).total_parking_amt max_val = true) := by
  have hl' := (listNodes_iff h head l).1 hl
  constructor
  · cases head with
    | none =>
      have : l = [] := by
        cases l with
        | nil => rfl
        | cons x l => exact absurd hl'.1 (by simp)
      subst this
      rfl
    | some p =>
      simp only [printSimpleListRange]
      rw [printSimpleListRange_loop_eq F m h min_val max_val _ l (some p) [] 0 hl'
        (Nat.lt_succ_of_le (ListAt_length l _ hl')) (le_refl _) (by omega)]
      simp
  · intro d
    simp only [printSimpleListRange.inRange, compareUserAmtVsBoundary, Bool.and_eq_true,
      decide_eq_true_eq]
    cases F.isZero min_val <;> cases F.isZero max_val <;>
      cases F.lt (URef.record m d).total_parking_amt min_val <;>
      cases F.lt (URef.record m d).total_parking_amt max_val <;> simp

theorem printSimpleListRange_prints_witness :
    (payers 1).1.total_parking_amt = 10000 ∧ (payers 2).1.total_parking_amt = 20000 ∧
    (payers 3).1.total_parking_amt = 30000 ∧
    printSimpleListRange floats0 payers payerList (some 0) 10000 20000 =
      some ([URef.user 1], 1) ∧
    printSimpleListRange.inRange floats0 payers 10000 20000 (URef.user 2) = false ∧
    printSimpleListRange floats0 payers payerList (some 0) 0 20000 = some ([], 0) :=
  ⟨by decide, by decide, by decide,
    (printSimpleListRange_prints floats0 payers payerList (some 0) 10000 20000
      [(0, some (URef.user 1)), (1, some (URef.user 2)), (2, some (URef.user 3))]
      (by decide) (by decide)).1.trans (by decide),
    by decide,
    (printSimpleListRange_prints floats0 payers payerList (some 0) 0 20000
      [(0, some (URef.user 1)), (1, some (URef.user 2)), (2, some (URef.user 3))]
      (by decide) (by decide)).1.trans (by decide)⟩

/-! ## Trees without an order on the keys -/

theorem OrdKids_of_forall {T : Type} (P : T → Option V → Option V → Prop) :
    ∀ (ks : List V) (cs : List T) (lo hi : Option V), cs.length = ks.length + 1 →
      (∀ c ∈ cs, ∀ lo hi, P c lo hi) → OrdKids P lo ks cs hi
  | [], [], _, _, hl, _ => by simp at hl
  | [], [c], lo, hi, _, hp => hp c (by simp) lo hi
  | [], _ :: _ :: _, _, _, hl, _ => by simp at hl
  | _ :: _, [], _, _, hl, _ => by simp at hl
  | k :: ks, c :: cs, lo, hi, hl, hp =>
    ⟨hp c (by simp) lo (some k),
      OrdKids_of_forall P ks cs (some k) hi (by simpa using hl)
        (fun d hd => hp d (by simp [hd]))⟩

theorem Ord_const {h : Heap V} : ∀ (n : Nat) (g : GT V n) (par : Option Nat)
    (lo hi : Option V), Rep h n g par → Ord (constCap : Capability V) n g lo hi
  | 0, g, par, lo, hi, _ => by
    refine ⟨List.pairwise_of_forall (fun _ _ => by simp [klt, constCap]), ?_⟩
    intro r _
    constructor
    · cases lo <;> simp [loLe, constCap]
    · cases hi <;> simp [ltHi, constCap]
  | n + 1, g, par, lo, hi, hr => by
    obtain ⟨nd, h1, h2, h3, h4, h5, h6, h7, h8, h9, h10, h11⟩ := hr
    refine ⟨List.pairwise_of_forall (fun _ _ => by simp [klt, constCap]), ?_, ?_⟩
    · intro k _
      constructor
      · cases lo <;> simp [loLt, constCap]
      · cases hi <;> simp [ltHi, constCap]
    · exact OrdKids_of_forall _ _ _ _ _ h8
        (fun c hc lo' hi' => Ord_const n c (some g.1) lo' hi' (h11 c hc))

theorem TreeShape_model (t : Tree V) (hs : TreeShape t) :
    t.root = none ∨ ∃ (n : Nat) (g : GT V n), Model (constCap : Capability V) t n g := by
  rcases hs with h | ⟨n, g, h1, h2, h3, h4⟩
  · exact Or.inl h
  · exact Or.inr ⟨n, g, h1, h2, Ord_const n g none none none h2, h3, h4⟩

theorem Inv_shape {C : Capability V} (t : Tree V) (hi : Inv C t) : TreeShape t := by
  rcases hi with h | ⟨n, g, h1, h2, _, h3, h4⟩
  · exact Or.inl h
  · exact Or.inr ⟨n, g, h1, h2, h3, h4⟩

theorem descend_total (cmp : V → V → Int) (h : Heap V) (k : V) :
    ∀ (n : Nat) (g : GT V n) (par : Option Nat) (fuel : Nat), Rep h n g par → n + 1 ≤ fuel →
      ∃ la rs, findLeaf.descend cmp h k fuel (GT.addr n g) = some la ∧
        (la, rs) ∈ GT.leafList n g
  | 0, g, par, fuel, hr, hf => by
    obtain ⟨nd, h1, h2, _⟩ := hr
    obtain ⟨f, rfl⟩ : ∃ f, fuel = f + 1 := ⟨fuel - 1, by omega⟩
    exact ⟨g.1, g.2, descend_leaf _ h k f g.1 nd h1 h2, by simp [GT.leafList]⟩
  | n + 1, g, par, fuel, hr, hf => by
    obtain ⟨f, rfl⟩ : ∃ f, fuel = f + 1 := ⟨fuel - 1, by omega⟩
    obtain ⟨nd, h1, h2, h3, h4, h5, h6, h7, h8, h9, h10, h11⟩ := hr
    have hscan := findLeaf_scan_eq cmp k nd g.2.1 h5 h4 h10
    have hpos : posL (fun x => decide (cmp k x ≥ 0)) g.2.1 < g.2.2.length := by
      have : posL (fun x => decide (cmp k x ≥ 0)) g.2.1 ≤ g.2.1.length := by
        unfold posL
        exact (List.takeWhile_sublist _).length_le
      omega
    obtain ⟨cs1, c, cs2, hcs, hcl⟩ := exists_split_at g.2.2 _ hpos
    have hch : nd.children[posL (fun x => decide (cmp k x ≥ 0)) g.2.1]? =
        some (some (GT.addr n c)) := by
      rw [h6, hcs, ← hcl]; exact pad_map_lookup _ _ _ _ _
    have hcm : c ∈ g.2.2 := by rw [hcs]; simp
    obtain ⟨la, rs, e1, e2⟩ := descend_total cmp h k n c (some g.1) f (h11 c hcm) (by omega)
    refine ⟨la, rs, ?_, ?_⟩
    · simp only [GT.addr, findLeaf.descend, h1, h2, hscan, hch]
      simpa using e1
    · simp only [GT.leafList, List.mem_flatMap]; exact ⟨c, hcm, e2⟩

/-! ## `Find_Free_Slot` on a tree of any ids -/

theorem FFS_scan_full (m : Full.ParkingStore) (min_id max_id : Int)
    (nd : GenericBPlusTreeNode Full.PRef) (rs : List Full.PRef) (hk : nd.keys = pad 4 rs)
    (hn : nd.num_keys = rs.length) (hs : ∀ x ∈ rs, ∃ a, x = Full.PRef.slot a) :
    ∀ (k i fuel : Nat), i + k = rs.length → k + 1 ≤ fuel →
      Full.Find_Free_Slot.scan m min_id max_id nd fuel i =
        some ((rs.drop i).find? (Full.vacantInRange m min_id max_id))
  | 0, i, fuel, hi, hf => by
    obtain ⟨f, rfl⟩ : ∃ f, fuel = f + 1 := ⟨fuel - 1, by omega⟩
    have hnot : ¬ i < nd.num_keys := by omega
    simp only [Full.Find_Free_Slot.scan, if_neg hnot]
    rw [List.drop_eq_nil_of_le (by omega)]
    rfl
  | k + 1, i, fuel, hi, hf => by
    obtain ⟨f, rfl⟩ : ∃ f, fuel = f + 1 := ⟨fuel - 1, by omega⟩
    have hlt : i < nd.num_keys := by omega
    have hil : i < rs.length := by omega
    obtain ⟨a, ha⟩ := hs rs[i] (List.getElem_mem hil)
    have hki : nd.keys[i]? = some (some (Full.PRef.slot a)) := by
      rw [hk]
      exact pad_lookup_lt _ _ _ _ (by rw [List.getElem?_eq_getElem hil, ha])
    have ih := FFS_scan_full m min_id max_id nd rs hk hn hs k (i + 1) f (by omega) (by omega)
    rw [← List.getElem_cons_drop rs i hil, ha]
    simp only [Full.Find_Free_Slot.scan, if_pos hlt, hki, ih, List.find?_cons,
      Full.vacantInRange]
    by_cases h1 : (m a).parking_id ≥ min_id ∧ (m a).parking_id ≤ max_id
    · by_cases h2 : (m a).parking_space_status = VACANT
      · simp [h1, h2]
      · simp [h1, h2]
    · have h3 : ¬ ((m a).parking_id ≥ min_id ∧ (m a).parking_id ≤ max_id ∧
          (m a).parking_space_status = VACANT) := fun h => h1 ⟨h.1, h.2.1⟩
      simp [h1, h3]

theorem FFS_walk_full (m : Full.ParkingStore) (min_id max_id : Int) (h : Heap Full.PRef) :
    ∀ (ll : List (Nat × List Full.PRef)) (fuel : Nat),
    (∀ e ∈ ll, ∃ nd, h[e.1]? = some nd ∧ nd.num_keys = e.2.length ∧ nd.keys = pad 4 e.2 ∧
      ∀ x ∈ e.2, ∃ a, x = Full.PRef.slot a) →
    Chain h (ll.map Prod.fst) none → ll.length + 1 ≤ fuel →
    Full.Find_Free_Slot.walk m h min_id max_id fuel ((ll.map Prod.fst).head?) =
      some ((ll.flatMap (fun l => l.2)).find? (Full.vacantInRange m min_id max_id))
  | [], fuel, _, _, hf => by
    obtain ⟨f, rfl⟩ : ∃ f, fuel = f + 1 := ⟨fuel - 1, by omega⟩
    simp [Full.Find_Free_Slot.walk]
  | e :: rest, fuel, hnode, hc, hf => by
    obtain ⟨f, rfl⟩ : ∃ f, fuel = f + 1 := ⟨fuel - 1, by omega⟩
    obtain ⟨nd, h1, h2, h3, h4⟩ := hnode e (by simp)
    simp only [List.map_cons] at hc
    rw [Chain_cons] at hc
    have hnext : nd.next_leaf = (rest.map Prod.fst).head? := by
      have := hc.1
      simp only [nextOf, h1, Option.map_some', Option.some.injEq] at this
      rw [this]
      cases (rest.map Prod.fst).head? <;> rfl
    have ih := FFS_walk_full m min_id max_id h rest f (fun x hx => hnode x (by simp [hx])) hc.2
      (by simp only [List.length_cons] at hf; omega)
    have hscan := FFS_scan_full m min_id max_id nd e.2 h3 h2 h4 e.2.length 0 (nd.num_keys + 1)
      (by omega) (by omega)
    simp only [List.drop_zero] at hscan
    simp only [List.map_cons, List.head?_cons, Full.Find_Free_Slot.walk, h1, hscan, hnext, ih,
      List.flatMap_cons, List.find?_append]
    cases hfind : List.find? (Full.vacantInRange m min_id max_id) e.2 with
    | none => simp
    | some p => simp

theorem vacantInRange_full (m : Full.ParkingStore) (min_id max_id : Int) (p : Full.PRef)
    (h : Full.vacantInRange m min_id max_id p = true) :
    ∃ a, p = Full.PRef.slot a ∧ min_id ≤ (m a).parking_id ∧ (m a).parking_id ≤ max_id ∧
      (m a).parking_space_status = VACANT := by
  cases p with
  | slot a =>
    simp only [Full.vacantInRange, decide_eq_true_eq] at h
    exact ⟨a, rfl, h.1, h.2.1, h.2.2⟩
  | id_of a => simp [Full.vacantInRange] at h
  | cell v => simp [Full.vacantInRange] at h

theorem Find_Free_Slot_full (m : Full.ParkingStore) (t : Tree Full.PRef) (hs : TreeShape t)
    (hslots : ∀ x, Stored t x → ∃ a, x = Full.PRef.slot a) (min_id max_id : Int)
    (cmp_internal : Full.PRef → Full.PRef → Int) :
    ∃ res, Full.Find_Free_Slot m t min_id max_id cmp_internal = some res ∧
      (∀ p, res = some p → ∃ a, p = Full.PRef.slot a ∧ Stored t p ∧
        min_id ≤ (m a).parking_id ∧ (m a).parking_id ≤ max_id ∧
        (m a).parking_space_status = VACANT) ∧
      ((¬ ∃ b, Stored t (Full.PRef.slot b) ∧ min_id ≤ (m b).parking_id ∧
          (m b).parking_id ≤ max_id ∧ (m b).parking_space_status = VACANT) → res = none) := by
  rcases TreeShape_model t hs with hn | ⟨n, g, hm⟩
  · exact ⟨none, by simp [Full.Find_Free_Slot, hn], fun p hp => Option.noConfusion hp,
      fun _ => rfl⟩
  · have hst := Stored_iff t n g hm
    obtain ⟨m1, m2, m3, m4, m5⟩ := hm
    have hsz := heap_size n g none m2 m4
    obtain ⟨la, rs, e1, hmem⟩ := descend_total cmp_internal t.heap (Full.PRef.cell min_id) n g
      none t.heap.length m2 hsz
    obtain ⟨l1, l2, e2⟩ := List.append_of_mem hmem
    have hfl : findLeaf cmp_internal t.heap t.root (Full.PRef.cell min_id) = some (some la) := by
      simp [findLeaf, m1, e1]
    have hlnd : ((GT.leafList n g).map Prod.fst).Nodup := m4.sublist (leafAddrs_sublist n g)
    have hllt : ∀ a ∈ (GT.leafList n g).map Prod.fst, a < t.heap.length := fun a ha =>
      Rep_addrs_lt n g none m2 a ((leafAddrs_sublist n g).subset ha)
    have hlen : (GT.leafList n g).length ≤ t.heap.length := by
      have := nodup_length_le _ _ hlnd hllt
      simpa using this
    have hchain : Chain t.heap (((la, rs) :: l2).map Prod.fst) none := by
      rw [e2, List.map_append] at m5
      exact Chain_suffix t.heap none _ _ m5
    have hw := FFS_walk_full m min_id max_id t.heap ((la, rs) :: l2) (t.heap.length + 1)
      (fun e he => by
        have hmem' : e ∈ GT.leafList n g := by rw [e2]; exact List.mem_append_right _ he
        obtain ⟨nd, q1, _, q3, q4, _, _⟩ := leaf_of_Rep n g none m2 e.1 e.2 hmem'
        refine ⟨nd, q1, q3, q4, ?_⟩
        intro x hx
        exact hslots x ((hst x).2 (List.mem_flatMap.2 ⟨e, hmem', hx⟩)))
      hchain (by
        rw [e2] at hlen
        simp only [List.length_append, List.length_cons] at hlen ⊢
        omega)
    simp only [List.map_cons, List.head?_cons] at hw
    have hsub : ∀ x ∈ ((la, rs) :: l2).flatMap (fun l => l.2), x ∈ GT.recs n g := by
      intro x hx
      simp only [GT.recs, e2, List.flatMap_append, List.mem_append]
      exact Or.inr hx
    refine ⟨(((la, rs) :: l2).flatMap (fun l => l.2)).find?
      (Full.vacantInRange m min_id max_id), ?_, ?_, ?_⟩
    · simp only [Full.Find_Free_Slot, m1]
      rw [← m1, hfl]
      exact hw
    · intro p hp
      have hpm := List.mem_of_find?_eq_some hp
      have hpv := List.find?_some hp
      obtain ⟨a, rfl, h1, h2, h3⟩ := vacantInRange_full m min_id max_id p hpv
      exact ⟨a, rfl, (hst _).2 (hsub _ hpm), h1, h2, h3⟩
    · intro hno
      rw [List.find?_eq_none]
      intro x hx hv
      obtain ⟨a, rfl, h1, h2, h3⟩ := vacantInRange_full m min_id max_id x (by simpa using hv)
      exact hno ⟨a, (hst _).2 (hsub _ hx), h1, h2, h3⟩

/-! ## The example trees with ids from the whole range of `int` -/

theorem wideTree_eq :
    insertAll (Full.parkingCap Full.wideStore) Full.emptyParking Full.slots5 =
      some Full.wideTree := by decide

theorem wideTree_val : Full.wideTree =
    { heap :=
        [{ keys := [some (Full.PRef.slot 0), some (Full.PRef.slot 1), some (Full.PRef.slot 2),
              none],
           children := [none, none, none, none, none], parent := some 2, next_leaf := some 1,
           num_keys := 3, is_leaf := true },
         { keys := [some (Full.PRef.slot 3), some (Full.PRef.slot 4), none, none],
           children := [none, none, none, none, none], parent := some 2, next_leaf := none,
           num_keys := 2, is_leaf := true },
         { keys := [some (Full.PRef.cell (-2147483626)), none, none, none],
           children := [some 0, some 1, none, none, none], parent := none, next_leaf := none,
           num_keys := 1, is_leaf := false }]
      root := some 2 } := by decide

theorem wideTree_model : Model (constCap : Capability Full.PRef) Full.wideTree 1
    ((2, [Full.PRef.cell (-2147483626)],
      [(0, [Full.PRef.slot 0, Full.PRef.slot 1, Full.PRef.slot 2]),
       (1, [Full.PRef.slot 3, Full.PRef.slot 4])]) : Nat × List Full.PRef ×
        List (Nat × List Full.PRef)) := by
  have hr : Rep Full.wideTree.heap 1
      ((2, [Full.PRef.cell (-2147483626)],
        [(0, [Full.PRef.slot 0, Full.PRef.slot 1, Full.PRef.slot 2]),
         (1, [Full.PRef.slot 3, Full.PRef.slot 4])]) : Nat × List Full.PRef ×
          List (Nat × List Full.PRef)) none := by
    rw [wideTree_val]
    refine ⟨_, rfl, rfl, rfl, rfl, rfl, rfl, rfl, rfl, by decide, by decide, ?_⟩
    intro c hc
    simp only [List.mem_cons, List.mem_singleton, List.not_mem_nil, or_false] at hc
    rcases hc with rfl | rfl
    · exact ⟨_, rfl, rfl, rfl, rfl, rfl, rfl, by decide, by decide⟩
    · exact ⟨_, rfl, rfl, rfl, rfl, rfl, rfl, by decide, by decide⟩
  refine ⟨by rw [wideTree_val]; rfl, hr, Ord_const 1 _ none none none hr, by decide, ?_⟩
  rw [wideTree_val]
  exact ⟨rfl, rfl⟩

theorem wideTree_shape : TreeShape Full.wideTree :=
  Inv_shape _ (Or.inr ⟨1, _, wideTree_model⟩)

theorem wideTree_stored (x : Full.PRef) : Stored Full.wideTree x ↔ x ∈ Full.slots5 :=
  Stored_iff _ 1 _ wideTree_model x

theorem wideTree_slots (x : Full.PRef) (hx : Stored Full.wideTree x) :
    ∃ a, x = Full.PRef.slot a := by
  have h := (wideTree_stored x).1 hx
  simp only [Full.slots5, List.mem_cons, List.mem_singleton, List.not_mem_nil, or_false] at h
  rcases h with rfl | rfl | rfl | rfl | rfl <;> exact ⟨_, rfl⟩

theorem wrapTree_eq :
    insertAll (Full.parkingCap Full.wrapStore) Full.emptyParking Full.slots5 =
      some Full.wrapTree := by decide

theorem wrapTree_val : Full.wrapTree =
    { heap :=
        [{ keys := [some (Full.PRef.slot 4), some (Full.PRef.slot 1), some (Full.PRef.slot 0),
              none],
           children := [none, none, none, none, none], parent := some 2, next_leaf := some 1,
           num_keys := 3, is_leaf := true },
         { keys := [some (Full.PRef.slot 2), some (Full.PRef.slot 3), none, none],
           children := [none, none, none, none, none], parent := some 2, next_leaf := none,
           num_keys := 2, is_leaf := true },
         { keys := [some (Full.PRef.cell 25), none, none, none],
           children := [some 0, some 1, none, none, none], parent := none, next_leaf := none,
           num_keys := 1, is_leaf := false }]
      root := some 2 } := by decide

theorem wrapTree_model : Model (constCap : Capability Full.PRef) Full.wrapTree 1
    ((2, [Full.PRef.cell 25],
      [(0, [Full.PRef.slot 4, Full.PRef.slot 1, Full.PRef.slot 0]),
       (1, [Full.PRef.slot 2, Full.PRef.slot 3])]) : Nat × List Full.PRef ×
        List (Nat × List Full.PRef)) := by
  have hr : Rep Full.wrapTree.heap 1
      ((2, [Full.PRef.cell 25],
        [(0, [Full.PRef.slot 4, Full.PRef.slot 1, Full.PRef.slot 0]),
         (1, [Full.PRef.slot 2, Full.PRef.slot 3])]) : Nat × List Full.PRef ×
          List (Nat × List Full.PRef)) none := by
    rw [wrapTree_val]
    refine ⟨_, rfl, rfl, rfl, rfl, rfl, rfl, rfl, rfl, by decide, by decide, ?_⟩
    intro c hc
    simp only [List.mem_cons, List.mem_singleton, List.not_mem_nil, or_false] at hc
    rcases hc with rfl | rfl
    · exact ⟨_, rfl, rfl, rfl, rfl, rfl, rfl, by decide, by decide⟩
    · exact ⟨_, rfl, rfl, rfl, rfl, rfl, rfl, by decide, by decide⟩
  refine ⟨by rw [wrapTree_val]; rfl, hr, Ord_const 1 _ none none none hr, by decide, ?_⟩
  rw [wrapTree_val]
  exact ⟨rfl, rfl⟩

theorem wrapTree_stored (x : Full.PRef) : Stored Full.wrapTree x ↔
    x = Full.PRef.slot 4 ∨ x = Full.PRef.slot 1 ∨ x = Full.PRef.slot 0 ∨
      x = Full.PRef.slot 2 ∨ x = Full.PRef.slot 3 := by
  rw [Stored_iff _ 1 _ wrapTree_model x]
  simp [GT.recs, GT.leafList]

/-! ## `Assign_Parking_ID` -/

theorem Assign_result (m : Full.ParkingStore) (t : Tree Full.PRef)
    (min_id max_id assigned_parking_id : Int) (status : Bool) (m' : Full.ParkingStore)
    (assigned : Int)
    (h : Assign_Parking_ID m t min_id max_id assigned_parking_id = some (status, m', assigned)) :
    (status = false ∧ m' = m ∧ assigned = assigned_parking_id ∧
      Full.Find_Free_Slot m t min_id max_id (Full.parkingCap m).cmp_internal = some none) ∨
    ∃ a, status = true ∧
      Full.Find_Free_Slot m t min_id max_id (Full.parkingCap m).cmp_internal =
        some (some (Full.PRef.slot a)) ∧
      m' = Function.update m a
        { m a with parking_space_status := OCCUPIED
                   occupancies := (m a).occupancies + 1 } ∧
      assigned = (m a).parking_id ∧ (m a).occupancies + 1 < 2147483648 := by
  unfold Assign_Parking_ID at h
  cases hf : Full.Find_Free_Slot m t min_id max_id (Full.parkingCap m).cmp_internal with
  | none => rw [hf] at h; cases h
  | some res =>
    rw [hf] at h
    cases res with
    | none =>
      simp only [Option.some.injEq, Prod.mk.injEq] at h
      obtain ⟨h1, h2, h3⟩ := h
      exact Or.inl ⟨h1.symm, h2.symm, h3.symm, rfl⟩
    | some p =>
      cases p with
      | slot a =>
        simp only at h
        by_cases ho : (m a).occupancies + 1 < 2147483648
        · rw [if_pos ho] at h
          simp only [Option.some.injEq, Prod.mk.injEq] at h
          obtain ⟨h1, h2, h3⟩ := h
          exact Or.inr ⟨a, h1.symm, rfl, h2.symm, h3.symm, ho⟩
        · rw [if_neg ho] at h
          cases h
      | id_of a => cases h
      | cell v => cases h

theorem Assign_total (m : Full.ParkingStore) (t : Tree Full.PRef) (hs : TreeShape t)
    (hslots : ∀ x, Stored t x → ∃ a, x = Full.PRef.slot a)
    (hocc : ∀ a, Stored t (Full.PRef.slot a) → (m a).occupancies + 1 < 2147483648)
    (min_id max_id assigned_parking_id : Int) :
    ∃ (status : Bool) (m' : Full.ParkingStore) (assigned : Int),
      Assign_Parking_ID m t min_id max_id assigned_parking_id = some (status, m', assigned) ∧
      (status = true → ∃ a, Stored t (Full.PRef.slot a) ∧ assigned = (m a).parking_id ∧
        (m' a).parking_space_status = OCCUPIED) := by
  obtain ⟨res, e1, e2, _⟩ := Find_Free_Slot_full m t hs hslots min_id max_id
    (Full.parkingCap m).cmp_internal
  cases res with
  | none =>
    refine ⟨false, m, assigned_parking_id, by simp [Assign_Parking_ID, e1], ?_⟩
    intro hc
    cases hc
  | some p =>
    obtain ⟨a, rfl, hst, _⟩ := e2 p rfl
    refine ⟨true,
      Function.update m a
        { m a with parking_space_status := OCCUPIED
                   occupancies := (m a).occupancies + 1 },
      (m a).parking_id, ?_, ?_⟩
    · simp only [Assign_Parking_ID, e1]
      rw [if_pos (hocc a hst)]
    · intro _
      refine ⟨a, hst, rfl, ?_⟩
      rw [Function.update_same]

/-- C29: a parking tree on which `Allocation_Policy` finds no slot although
one is free.  `Insert_BPlus` builds `Full.wideTree` from five vacant records
with the ids 28, 29, 30, -2147483626 and -2147483625.  When the fourth record
is inserted, `compareParkingId` subtracts `-2147483626 - 30`, which wraps to
`2147483640 > 0`, so the record is placed behind 30; after the split the left
leaf holds 28, 29 and 30, the right leaf the two others, and the separator is
-2147483626.  For a user of membership 0 the range is `21 .. 50`, and the
vacant slots 28, 29 and 30 are stored.  `compareParkingIdInternal` answers
`21 - (-2147483626) = 2147483647 >= 0`, so `findLeaf` starts `Find_Free_Slot`
in the right leaf, the walk along `next_leaf` ends there, and
`Allocation_Policy` returns `false`. -/
theorem allocation_policy_misses_vacant_slot :
    insertAll (Full.parkingCap Full.wideStore) Full.emptyParking Full.slots5 =
      some Full.wideTree ∧
    (users2.records 0).1.membership = 0 ∧
    (Stored Full.wideTree (Full.PRef.slot 0) ∧ (Full.wideStore 0).parking_id = 28 ∧
      (21 : Int) ≤ (Full.wideStore 0).parking_id ∧ (Full.wideStore 0).parking_id ≤ 50 ∧
      (Full.wideStore 0).parking_space_status = VACANT) ∧
    compareParkingId (-2147483626) (Full.wideStore 2) = 2147483640 ∧
    compareParkingIdInternal 21 (-2147483626) = 2147483647 ∧
    Full.Find_Free_Slot Full.wideStore Full.wideTree 21 50
      (Full.parkingCap Full.wideStore).cmp_internal = some none ∧
    Allocation_Policy Full.wideStore Full.wideTree (users2.records 0) (-1) =
      some (false, Full.wideStore, users2.records 0, -1) :=
  ⟨wideTree_eq, rfl,
    ⟨(wideTree_stored _).2 (by simp [Full.slots5]), rfl, by decide, by decide, rfl⟩,
    by decide, by decide, by decide, rfl⟩

/-! ## The occupancy invariant on ids whose difference overflows -/

theorem parkedTree_model : Model (constCap : Capability URef)
    parkedTree 0 ((0, [URef.user 0]) : Nat × List URef) := by
  have hr : Rep parkedTree.heap 0
      ((0, [URef.user 0]) : Nat × List URef) none :=
    ⟨_, rfl, rfl, rfl, rfl, rfl, rfl, by decide, by decide⟩
  exact ⟨rfl, hr, Ord_const 0 _ none none none hr, by decide, rfl⟩

theorem parkedTree_stored (x : URef) :
    Stored parkedTree x ↔ x = URef.user 0 := by
  rw [Stored_iff _ 0 _ parkedTree_model x]
  simp [GT.recs, GT.leafList]

/-- C30: a state in which the occupancy invariant holds and
`Exit_Vehicle_BPlus` does not find the slot of the parked user.
`Insert_BPlus` builds `Full.wrapTree` from five vacant records with the ids
-2147483618, 30, 25, 40 and 5; `compareParkingId` answers
`30 - (-2147483618) = -2147483648 < 0`, so the left leaf holds 5, 30 and
-2147483618 in this order, the right leaf holds 25 and 40, and the separator is
25.  `Insert_Update` parks the new vehicle `"A1"` in the slot with id 30, which
`Find_Free_Slot` reaches from the left leaf, and the occupancy invariant holds
before and after that call.  `SearchParking_BPlus` then looks for 30 in the
right leaf and returns `NULL`, and `Exit_Vehicle_BPlus` passes this `NULL` to
`Payment`, which dereferences it. -/
theorem exit_misses_parked_slot :
    insertAll (Full.parkingCap Full.wrapStore) Full.emptyParking Full.slots5 =
      some Full.wrapTree ∧
    OccInv Full.wrapStore Full.wrapTree users2.records emptyUsers ∧
    ∃ r, Insert_Update floats0 Full.wrapStore Full.wrapTree users2 emptyUsers vnA1 [0] date1
        time930 = some r ∧
      r.1 = true ∧
      OccInv r.2.1 Full.wrapTree r.2.2.1.records r.2.2.2 ∧
      Stored r.2.2.2 (URef.user 0) ∧
      (r.2.2.1.records 0).1.vehicle_num = vnA1.1 ∧
      (r.2.2.1.records 0).1.status = PARKED ∧
      (r.2.2.1.records 0).1.parking_space_id = 30 ∧
      Stored Full.wrapTree (Full.PRef.slot 1) ∧
      (r.2.1 1).parking_id = 30 ∧ (r.2.1 1).parking_space_status = OCCUPIED ∧
      SearchParking_BPlus r.2.1 Full.wrapTree 30 = some none ∧
      Exit_Vehicle_BPlus floats0 r.2.1 Full.wrapTree r.2.2.1 r.2.2.2 vnA1 date2 time930 =
        none := by
  refine ⟨wrapTree_eq, ?_, ?_⟩
  · constructor
    · intro a ha
      exact absurd ha (Stored_empty emptyUsers rfl _)
    · intro a _ ha
      exact absurd ha (Stored_empty emptyUsers rfl _)
  · refine ⟨_, rfl, rfl, ?_, (parkedTree_stored _).2 rfl, rfl, rfl, rfl,
      (wrapTree_stored _).2 (by simp), rfl, rfl, by decide, rfl⟩
    have hu : ∀ a, Stored parkedTree (URef.user a) → a = 0 := by
      intro a ha
      have := (parkedTree_stored _).1 ha
      cases this
      rfl
    constructor
    · intro a ha _
      have ha0 := hu a ha
      subst ha0
      exact ⟨1, (wrapTree_stored _).2 (by simp), rfl, rfl⟩
    · intro a a' ha ha' _ _ _
      rw [hu a ha, hu a' ha']

/-! ## The outcome of `Insert_Update` -/

theorem cmp_eq_trans {C : Capability V} (L : Lawful C) {a b c : V}
    (h1 : C.cmp_internal a b = 0) (h2 : C.cmp_internal b c = 0) : C.cmp_internal a c = 0 := by
  have h3 := L.trans a b c (by omega) (by omega)
  have h4 := L.trans c b a (by rw [L.eq_symm h2]) (by rw [L.eq_symm h1])
  have h5 := (L.ge_iff a c).2 h4
  omega

theorem stored_key_inj {C : Capability V} (L : Lawful C) (t : Tree V) (hi : Inv C t)
    (x y : V) (hx : Stored t x) (hy : Stored t y)
    (h : C.cmp_internal (C.getKey x) (C.getKey y) = 0) : x = y := by
  obtain ⟨l, _, hst, hp⟩ := Inv_content L t hi
  by_contra hne
  have := List.Pairwise.forall_of_forall_of_flip (l := l)
    (R := fun x y => x ≠ y → klt C (C.getKey x) (C.getKey y) ∨ klt C (C.getKey y) (C.getKey x))
    (fun x _ hxx => absurd rfl hxx)
    (hp.imp (fun hab _ => Or.inl hab))
    (hp.imp (fun hab _ => Or.inr hab)) ((hst _).1 hx) ((hst _).1 hy) hne
  simp only [klt] at this
  have h' := L.eq_symm h
  omega

theorem strcmp_some : ∀ (a b : List Nat), strlen a ≠ none → strlen b ≠ none →
    ∃ v, strcmp a b = some v
  | [], _, ha, _ => absurd rfl ha
  | _ :: _, [], _, hb => absurd rfl hb
  | x :: s1, y :: s2, ha, hb => by
    by_cases hxy : x = y
    · subst hxy
      by_cases hx : x = 0
      · exact ⟨0, by simp [strcmp, hx]⟩
      · obtain ⟨v, hv⟩ := strcmp_some s1 s2 (strlen_tail x s1 hx ha) (strlen_tail x s2 hx hb)
        exact ⟨v, by simpa [strcmp, hx] using hv⟩
    · exact ⟨(x : Int) - (y : Int), by simp [strcmp, hxy]⟩

theorem user_match (m : Nat → UserRec) (vn : CStr) (a : Nat) :
    (userCap m).cmp_data (URef.str vn) (URef.user a) = 0 ↔
      strcmp vn.1 (m a).1.vehicle_num = some 0 := by
  obtain ⟨v, hv⟩ := strcmp_some vn.1 (m a).1.vehicle_num vn.2 (m a).2
  have : (userCap m).cmp_data (URef.str vn) (URef.user a) =
      (strcmp vn.1 (m a).1.vehicle_num).getD 0 := rfl
  rw [this, hv]
  simp

theorem createUser_vnum (F : FloatOps)
    (vehicle_num owner_name arrival_date arrival_time : List Nat) (parking_id : Int)
    (hvn : ∃ n, strlen vehicle_num = some n ∧ n < 20)
    (hon : ∃ n, strlen owner_name = some n ∧ n < 50)
    (had : ∃ n, strlen arrival_date = some n ∧ n < 11)
    (hat : ∃ n, strlen arrival_time = some n ∧ n < 6) :
    ∃ u, createUser F vehicle_num owner_name arrival_date arrival_time parking_id = some u ∧
      strcmp u.1.vehicle_num vehicle_num = some 0 := by
  obtain ⟨vn, e1, h1, h1'⟩ := strcpyTo_ok 20 vehicle_num hvn
  obtain ⟨own, e2, _, _⟩ := strcpyTo_ok 50 owner_name hon
  obtain ⟨ad, e3, _, _⟩ := strcpyTo_ok 11 arrival_date had
  obtain ⟨atm, e4, _, _⟩ := strcpyTo_ok 6 arrival_time hat
  simp only [createUser, e1, e2, e3, e4, strcpyTo_dash11, strcpyTo_dash6, Option.some_bind]
  rw [dif_pos h1]
  exact ⟨_, rfl, h1'⟩

theorem Allocation_result (m : Full.ParkingStore) (t : Tree Full.PRef) (userNode : UserRec)
    (out : Int) (s : Bool) (m' : Full.ParkingStore) (u' : UserRec) (out' : Int)
    (h : Allocation_Policy m t userNode out = some (s, m', u', out')) :
    (s = false ∧ m' = m ∧ u' = userNode ∧ out' = out ∧
      Full.Find_Free_Slot m t
        (if userNode.1.membership = 2 then 1 else if userNode.1.membership = 1 then 11 else 21)
        50 (Full.parkingCap m).cmp_internal = some none) ∨
    (s = true ∧ u'.1.number_of_parkings = userNode.1.number_of_parkings ∧
      ∃ a, Full.Find_Free_Slot m t
        (if userNode.1.membership = 2 then 1 else if userNode.1.membership = 1 then 11 else 21)
        50 (Full.parkingCap m).cmp_internal = some (some (Full.PRef.slot a))) := by
  unfold Allocation_Policy at h
  simp only [] at h
  cases hA : Assign_Parking_ID m t
      (if userNode.1.membership = 2 then 1 else if userNode.1.membership = 1 then 11 else 21)
      50 out with
  | none => rw [hA] at h; cases h
  | some r =>
    obtain ⟨st, m'', o⟩ := r
    rw [hA] at h
    rcases Assign_result m t _ 50 out st m'' o hA with ⟨h1, h2, h3, h4⟩ | ⟨a, h1, h2, _, _, _⟩
    · subst h1
      simp only [Bool.false_eq_true, if_false, Option.some.injEq, Prod.mk.injEq] at h
      obtain ⟨e1, e2, e3, e4⟩ := h
      exact Or.inl ⟨e1.symm, by rw [← e2, h2], e3.symm, by rw [← e4, h3], h4⟩
    · subst h1
      simp only [if_true, Option.some.injEq, Prod.mk.injEq] at h
      obtain ⟨e1, _, e3, _⟩ := h
      exact Or.inr ⟨e1.symm, by rw [← e3], a, h2⟩

theorem Allocation_full (m : Full.ParkingStore) (t : Tree Full.PRef) (hs : TreeShape t)
    (hslots : ∀ x, Stored t x → ∃ a, x = Full.PRef.slot a)
    (hocc : ∀ a, Stored t (Full.PRef.slot a) → (m a).occupancies + 1 < 2147483648)
    (userNode : UserRec) (out : Int) :
    ∃ s m' u' out', Allocation_Policy m t userNode out = some (s, m', u', out') := by
  obtain ⟨st, m', o, e, _⟩ := Assign_total m t hs hslots hocc
    (if userNode.1.membership = 2 then 1 else if userNode.1.membership = 1 then 11 else 21)
    50 out
  unfold Allocation_Policy
  simp only [e]
  cases st
  · exact ⟨_, _, _, _, rfl⟩
  · exact ⟨_, _, _, _, rfl⟩

theorem Insert_existing_result (F : FloatOps) (pm : Full.ParkingStore) (pt : Tree Full.PRef)
    (um : UserStore) (a : Nat) (arrival_date arrival_time : List Nat) (s : Bool)
    (pm' : Full.ParkingStore) (um' : UserStore)
    (h : Insert_Update.existing F pm pt um a arrival_date arrival_time = some (s, pm', um')) :
    (s = false ↔ ((um.records a).1.status = PARKED ∨
      Full.Find_Free_Slot pm pt
        (if (um.records a).1.membership = 2 then 1
          else if (um.records a).1.membership = 1 then 11 else 21)
        50 (Full.parkingCap pm).cmp_internal = some none)) ∧
    (s = false → pm' = pm ∧ um' = um) := by
  unfold Insert_Update.existing at h
  by_cases hs : (um.records a).1.status = PARKED
  · rw [if_pos hs] at h
    simp only [Option.some.injEq, Prod.mk.injEq] at h
    obtain ⟨e1, e2, e3⟩ := h
    subst e1 e2 e3
    exact ⟨by simp [hs], fun _ => ⟨rfl, rfl⟩⟩
  · rw [if_neg hs] at h
    cases hA : Allocation_Policy pm pt (um.records a) (-1) with
    | none => rw [hA] at h; cases h
    | some r =>
      obtain ⟨st, pm'', u, o⟩ := r
      rw [hA] at h
      rcases Allocation_result pm pt (um.records a) (-1) st pm'' u o hA with
        ⟨h1, h2, h3, _, h5⟩ | ⟨h1, _, b, h5⟩
      · subst h1 h2 h3
        simp only [Option.some.injEq, Prod.mk.injEq] at h
        obtain ⟨e1, e2, e3⟩ := h
        subst e1 e2
        refine ⟨by simp [h5], fun _ => ⟨rfl, ?_⟩⟩
        rw [← e3, Function.update_eq_self]
      · subst h1
        simp only [Option.bind_eq_some] at h
        obtain ⟨_, _, _, _, _, _, _, _, h⟩ := h
        split_ifs at h
        simp only [Option.some.injEq, Prod.mk.injEq] at h
        obtain ⟨e1, _, _⟩ := h
        subst e1
        refine ⟨?_, fun hc => by cases hc⟩
        simp only [Bool.true_eq_false, false_iff, not_or]
        refine ⟨hs, ?_⟩
        rw [h5]
        simp

theorem Insert_existing_total (F : FloatOps) (pm : Full.ParkingStore) (pt : Tree Full.PRef)
    (um : UserStore) (a : Nat) (arrival_date arrival_time : List Nat) (hs : TreeShape pt)
    (hslots : ∀ x, Stored pt x → ∃ b, x = Full.PRef.slot b)
    (hocc : ∀ b, Stored pt (Full.PRef.slot b) → (pm b).occupancies + 1 < 2147483648)
    (hnp : (um.records a).1.number_of_parkings + 1 < 2147483648)
    (had : ∃ n, strlen arrival_date = some n ∧ n < 11)
    (hat : ∃ n, strlen arrival_time = some n ∧ n < 6) :
    ∃ s pm' um', Insert_Update.existing F pm pt um a arrival_date arrival_time =
      some (s, pm', um') := by
  unfold Insert_Update.existing
  by_cases hst : (um.records a).1.status = PARKED
  · rw [if_pos hst]
    exact ⟨_, _, _, rfl⟩
  · rw [if_neg hst]
    obtain ⟨s, m', u', o, e⟩ := Allocation_full pm pt hs hslots hocc (um.records a) (-1)
    rcases Allocation_result pm pt (um.records a) (-1) s m' u' o e with
      ⟨h1, _⟩ | ⟨h1, h2, _⟩
    · subst h1
      rw [e]
      exact ⟨_, _, _, rfl⟩
    · subst h1
      rw [e]
      simp only []
      obtain ⟨ad, e3, _, _⟩ := strcpyTo_ok 11 arrival_date had
      obtain ⟨atm, e4, _, _⟩ := strcpyTo_ok 6 arrival_time hat
      simp only [e3, e4, strcpyTo_dash11, strcpyTo_dash6, Option.some_bind]
      rw [if_pos (by rw [h2]; exact hnp)]
      exact ⟨_, _, _, rfl⟩

theorem Insert_fresh_result (F : FloatOps) (pm : Full.ParkingStore) (pt : Tree Full.PRef)
    (um : UserStore) (ut : Tree URef)
    (vehicle_num owner_name arrival_date arrival_time : List Nat)
    (hut : Inv (userCap um.records) ut)
    (husers : ∀ x, Stored ut x → ∃ a, x = URef.user a ∧ a < um.count)
    (hseps : ∀ k, IsSeparator ut k → ∃ s, k = URef.str s)
    (pm' : Full.ParkingStore) (um' : UserStore) (ut' : Tree URef)
    (h : Insert_Update.fresh F pm pt um ut vehicle_num owner_name arrival_date arrival_time =
      some (false, pm', um', ut')) :
    pm' = pm ∧ um' = um ∧ ut' = ut := by
  unfold Insert_Update.fresh at h
  cases hf : Full.Find_Free_Slot pm pt 21 50 (Full.parkingCap pm).cmp_internal with
  | none => rw [hf] at h; cases h
  | some res =>
    rw [hf] at h
    cases res with
    | none =>
      simp only [Option.some.injEq, Prod.mk.injEq, true_and] at h
      exact ⟨h.1.symm, h.2.1.symm, h.2.2.symm⟩
    | some p =>
      cases p with
      | id_of b => cases h
      | cell v => cases h
      | slot b =>
        simp only [] at h
        cases hc : createUser F vehicle_num owner_name arrival_date arrival_time
            (pm b).parking_id with
        | none => rw [hc] at h; cases h
        | some newUser =>
          rw [hc] at h
          simp only [] at h
          have hInv := Inv_fresh um ut newUser hut husers hseps
          have L' := userCap_lawful (Function.update um.records um.count newUser)
          obtain ⟨l, hl, _, _⟩ := Inv_content L' ut hInv
          rcases Insert_step L' ut hInv (URef.user um.count) l hl with
            ⟨_, e2⟩ | ⟨_, ut'', l', e2, _, _, _⟩
          · rw [e2] at h
            simp only [Option.some.injEq, Prod.mk.injEq, true_and] at h
            exact ⟨h.1.symm, h.2.1.symm, h.2.2.symm⟩
          · rw [e2] at h
            simp only [] at h
            split_ifs at h
            simp only [Option.some.injEq, Prod.mk.injEq, Bool.true_eq_false, false_and] at h

theorem Insert_fresh_char (F : FloatOps) (pm : Full.ParkingStore) (pt : Tree Full.PRef)
    (um : UserStore) (ut : Tree URef) (vehicle_num : CStr)
    (owner_name arrival_date arrival_time : List Nat)
    (hs : TreeShape pt) (hslots : ∀ x, Stored pt x → ∃ b, x = Full.PRef.slot b)
    (hut : Inv (userCap um.records) ut)
    (husers : ∀ x, Stored ut x → ∃ a, x = URef.user a ∧ a < um.count)
    (hseps : ∀ k, IsSeparator ut k → ∃ s, k = URef.str s)
    (hocc : ∀ b, Stored pt (Full.PRef.slot b) → (pm b).occupancies + 1 < 2147483648)
    (hnew : ∀ x, Stored ut x → (userCap um.records).cmp_data (URef.str vehicle_num) x ≠ 0)
    (hvn : ∃ n, strlen vehicle_num.1 = some n ∧ n < 20)
    (hon : ∃ n, strlen owner_name = some n ∧ n < 50)
    (had : ∃ n, strlen arrival_date = some n ∧ n < 11)
    (hat : ∃ n, strlen arrival_time = some n ∧ n < 6) :
    ∃ s pm' um' ut', Insert_Update.fresh F pm pt um ut vehicle_num.1 owner_name arrival_date
        arrival_time = some (s, pm', um', ut') ∧
      (s = false ↔
        Full.Find_Free_Slot pm pt 21 50 (Full.parkingCap pm).cmp_internal = some none) := by
  unfold Insert_Update.fresh
  obtain ⟨res, e, e2', _⟩ := Find_Free_Slot_full pm pt hs hslots 21 50
    (Full.parkingCap pm).cmp_internal
  cases res with
  | none =>
    rw [e]
    exact ⟨false, pm, um, ut, rfl, by simp⟩
  | some p =>
    obtain ⟨b, rfl, hb, _⟩ := e2' p rfl
    rw [e]
    simp only []
    obtain ⟨newUser, ec, hv⟩ := createUser_vnum F vehicle_num.1 owner_name arrival_date
      arrival_time (pm b).parking_id hvn hon had hat
    rw [ec]
    simp only []
    have hInv := Inv_fresh um ut newUser hut husers hseps
    have L := userCap_lawful um.records
    have L' := userCap_lawful (Function.update um.records um.count newUser)
    obtain ⟨l, hl, hst, _⟩ := Inv_content L' ut hInv
    rcases Insert_step L' ut hInv (URef.user um.count) l hl with
      ⟨⟨x, hx, hx0⟩, _⟩ | ⟨_, ut', l', e2, _, _, _⟩
    · exfalso
      obtain ⟨a, rfl, ha⟩ := husers x ((hst x).2 hx)
      have hne : a ≠ um.count := by omega
      have h0 : (strcmp newUser.1.vehicle_num (um.records a).1.vehicle_num).getD 0 = 0 := by
        have : (userCap (Function.update um.records um.count newUser)).cmp_data
            ((userCap (Function.update um.records um.count newUser)).getKey
              (URef.user um.count)) (URef.user a) =
            (strcmp (Function.update um.records um.count newUser um.count).1.vehicle_num
              (Function.update um.records um.count newUser a).1.vehicle_num).getD 0 := rfl
        rw [this, Function.update_same, Function.update_noteq hne] at hx0
        exact hx0
      have hA : (userCap um.records).cmp_internal (URef.str ⟨newUser.1.vehicle_num, newUser.2⟩)
          (URef.str vehicle_num) = 0 := by
        rw [user_cmp]
        show (strcmp newUser.1.vehicle_num vehicle_num.1).getD 0 = 0
        rw [hv]
        rfl
      have hB : (userCap um.records).cmp_internal (URef.str ⟨newUser.1.vehicle_num, newUser.2⟩)
          (URef.vnum a) = 0 := by
        rw [user_cmp]
        exact h0
      have hC := cmp_eq_trans L (L.eq_symm hA) hB
      apply hnew (URef.user a) ((hst _).2 hx)
      rw [L.data]
      exact hC
    · rw [e2]
      simp only []
      rw [if_pos (hocc b hb)]
      refine ⟨true, _, _, ut', rfl, ?_⟩
      simp

/-- C31: `Insert_Update` is atomic on failure, whatever the ids of the parking
records are.  When the user tree satisfies the tree invariant, every call that
returns `false` leaves the two record stores and the user tree as they were
before the call; the parking tree is never written.  And when, in addition,
the heap of the parking tree holds a B+ tree of `Parking` records, the
counters do not overflow and the string arguments fit into the member arrays,
the call returns, and it returns `false` exactly in these cases: the vehicle
is in the user tree and its status is `PARKED`; the vehicle is in the user
tree and `Find_Free_Slot` returns `NULL` for the range of its membership
(`1 .. 50` for membership 2, `11 .. 50` for membership 1, `21 .. 50`
otherwise); the vehicle is not in the user tree and `Find_Free_Slot` returns
`NULL` for the range `21 .. 50`.  `Find_Free_Slot` returns `NULL` whenever no
stored slot with an id in the range is `VACANT`. -/
theorem insert_update_atomic (F : FloatOps) (pm : Full.ParkingStore) (pt : Tree Full.PRef)
    (um : UserStore) (ut : Tree URef) (vehicle_num : CStr)
    (owner_name arrival_date arrival_time : List Nat)
    (hut : Inv (userCap um.records) ut)
    (husers : ∀ x, Stored ut x → ∃ a, x = URef.user a ∧ a < um.count)
    (hseps : ∀ k, IsSeparator ut k → ∃ s, k = URef.str s) :
    (∀ pm' um' ut', Insert_Update F pm pt um ut vehicle_num owner_name arrival_date
        arrival_time = some (false, pm', um', ut') → pm' = pm ∧ um' = um ∧ ut' = ut) ∧
    (TreeShape pt → (∀ x, Stored pt x → ∃ b, x = Full.PRef.slot b) →
      (∀ b, Stored pt (Full.PRef.slot b) → (pm b).occupancies + 1 < 2147483648) →
      (∀ a, Stored ut (URef.user a) →
        (um.records a).1.number_of_parkings + 1 < 2147483648) →
      (∃ n, strlen vehicle_num.1 = some n ∧ n < 20) →
      (∃ n, strlen owner_name = some n ∧ n < 50) →
      (∃ n, strlen arrival_date = some n ∧ n < 11) →
      (∃ n, strlen arrival_time = some n ∧ n < 6) →
      (∃ s pm' um' ut', Insert_Update F pm pt um ut vehicle_num owner_name arrival_date
          arrival_time = some (s, pm', um', ut') ∧
        (s = false ↔
          ((∃ a, Stored ut (URef.user a) ∧
              strcmp vehicle_num.1 (um.records a).1.vehicle_num = some 0 ∧
              ((um.records a).1.status = PARKED ∨
                Full.Find_Free_Slot pm pt
                  (if (um.records a).1.membership = 2 then 1
                    else if (um.records a).1.membership = 1 then 11 else 21)
                  50 (Full.parkingCap pm).cmp_internal = some none)) ∨
            ((∀ a, Stored ut (URef.user a) →
                strcmp vehicle_num.1 (um.records a).1.vehicle_num ≠ some 0) ∧
              Full.Find_Free_Slot pm pt 21 50 (Full.parkingCap pm).cmp_internal =
                some none)))) ∧
      ∀ lo : Int, (¬ ∃ b, Stored pt (Full.PRef.slot b) ∧ lo ≤ (pm b).parking_id ∧
          (pm b).parking_id ≤ 50 ∧ (pm b).parking_space_status = VACANT) →
        Full.Find_Free_Slot pm pt lo 50 (Full.parkingCap pm).cmp_internal = some none) := by
  have L := userCap_lawful um.records
  constructor
  · intro pm' um' ut' h
    unfold Insert_Update SearchUser_BPlus at h
    cases hS : Search_BPlus (userCap um.records) ut (URef.str vehicle_num) with
    | none => rw [hS] at h; cases h
    | some res =>
      rw [hS] at h
      cases res with
      | none =>
        exact Insert_fresh_result F pm pt um ut vehicle_num.1 owner_name arrival_date
          arrival_time hut husers hseps pm' um' ut' h
      | some x =>
        cases x with
        | vnum a => cases h
        | str s => cases h
        | user a =>
          simp only [Option.map_eq_some'] at h
          obtain ⟨⟨s, pm'', um''⟩, e1, e2⟩ := h
          simp only [Prod.mk.injEq] at e2
          obtain ⟨rfl, rfl, rfl, rfl⟩ := e2
          have := (Insert_existing_result F pm pt um a arrival_date arrival_time false pm''
            um'' e1).2 rfl
          exact ⟨this.1, this.2, rfl⟩
  · intro hs hslots hocc hnp hvn hon had hat
    refine ⟨?_, ?_⟩
    · unfold Insert_Update SearchUser_BPlus
      rcases Search_char L ut hut (URef.str vehicle_num) with ⟨e, hnone⟩ | ⟨x, e, hx, hx0⟩
      · rw [e]
        obtain ⟨s, pm', um', ut', e1, h1⟩ := Insert_fresh_char F pm pt um ut vehicle_num
          owner_name arrival_date arrival_time hs hslots hut husers hseps hocc hnone hvn hon
          had hat
        refine ⟨s, pm', um', ut', e1, ?_⟩
        rw [h1]
        constructor
        · intro hno
          exact Or.inr
            ⟨fun a ha hm => hnone _ ha ((user_match um.records vehicle_num a).2 hm), hno⟩
        · rintro (⟨a, ha, hm, _⟩ | ⟨_, hno⟩)
          · exact absurd ((user_match um.records vehicle_num a).2 hm) (hnone _ ha)
          · exact hno
      · obtain ⟨a0, rfl, _⟩ := husers x hx
        rw [e]
        obtain ⟨s, pm', um', e1⟩ := Insert_existing_total F pm pt um a0 arrival_date
          arrival_time hs hslots hocc (hnp a0 hx) had hat
        have h1 := (Insert_existing_result F pm pt um a0 arrival_date arrival_time s pm' um'
          e1).1
        simp only [e1, Option.map_some']
        refine ⟨s, pm', um', ut, rfl, ?_⟩
        rw [h1]
        have hm0 := (user_match um.records vehicle_num a0).1 hx0
        constructor
        · intro hc
          exact Or.inl ⟨a0, hx, hm0, hc⟩
        · rintro (⟨a, ha, hm, hc⟩ | ⟨hall, _⟩)
          · have h3 := (user_match um.records vehicle_num a).2 hm
            rw [L.data] at h3 hx0
            have h4 := cmp_eq_trans L (L.eq_symm h3) hx0
            have h5 : URef.user a = URef.user a0 := stored_key_inj L ut hut _ _ ha hx h4
            cases h5
            exact hc
          · exact absurd hm0 (hall a0 hx)
    · intro lo hno
      obtain ⟨res, e1, _, e3⟩ := Find_Free_Slot_full pm pt hs hslots lo 50
        (Full.parkingCap pm).cmp_internal
      rw [e1, e3 hno]

theorem userTree_inv : Inv (userCap users1.records) userTree :=
  Reachable_Inv (userCap_lawful _) _ userTree_reachable

theorem userTree_users (x : URef) (hx : Stored userTree x) :
    ∃ a, x = URef.user a ∧ a < users1.count := by
  rcases (userTree_stored x).1 hx with rfl | rfl
  · exact ⟨0, rfl, by decide⟩
  · exact ⟨1, rfl, by decide⟩

theorem userTree_seps (k : URef) (hk : IsSeparator userTree k) : ∃ s, k = URef.str s := by
  obtain ⟨x, rfl⟩ := Reachable_separators (userCap_lawful _) _ userTree_reachable k hk
  exact ⟨_, rfl⟩

theorem insert_update_atomic_witness :
    (Insert_Update floats0 Full.wideStore Full.wideTree users1 userTree vnB2 [0] date2
        time930 =
      some (false, Full.wideStore,
        { users1 with records := Function.update users1.records 1 (users1.records 1) },
        userTree) ∧
      Full.wideStore = Full.wideStore ∧
      { users1 with records := Function.update users1.records 1 (users1.records 1) } =
        users1 ∧
      userTree = userTree) ∧
    (∃ s pm' um' ut', Insert_Update floats0 Full.wideStore Full.wideTree users1 userTree vnB2
        [0] date2 time930 = some (s, pm', um', ut') ∧
      (s = false ↔
        ((∃ a, Stored userTree (URef.user a) ∧
            strcmp vnB2.1 (users1.records a).1.vehicle_num = some 0 ∧
            ((users1.records a).1.status = PARKED ∨
              Full.Find_Free_Slot Full.wideStore Full.wideTree
                (if (users1.records a).1.membership = 2 then 1
                  else if (users1.records a).1.membership = 1 then 11 else 21)
                50 (Full.parkingCap Full.wideStore).cmp_internal = some none)) ∨
          ((∀ a, Stored userTree (URef.user a) →
              strcmp vnB2.1 (users1.records a).1.vehicle_num ≠ some 0) ∧
            Full.Find_Free_Slot Full.wideStore Full.wideTree 21 50
              (Full.parkingCap Full.wideStore).cmp_internal = some none)))) ∧
    ∀ lo : Int, (¬ ∃ b, Stored Full.wideTree (Full.PRef.slot b) ∧
        lo ≤ (Full.wideStore b).parking_id ∧ (Full.wideStore b).parking_id ≤ 50 ∧
        (Full.wideStore b).parking_space_status = VACANT) →
      Full.Find_Free_Slot Full.wideStore Full.wideTree lo 50
        (Full.parkingCap Full.wideStore).cmp_internal = some none :=
  ⟨⟨rfl, (insert_update_atomic floats0 Full.wideStore Full.wideTree users1 userTree vnB2 [0]
      date2 time930 userTree_inv userTree_users userTree_seps).1 _ _ _ rfl⟩,
    (insert_update_atomic floats0 Full.wideStore Full.wideTree users1 userTree vnB2 [0]
      date2 time930 userTree_inv userTree_users userTree_seps).2 wideTree_shape wideTree_slots
      (fun b _ => by simp [Full.wideStore])
      (fun a _ => by
        by_cases h : a = 0
        · subst h
          decide
        · simp [users1, h])
      ⟨2, by decide, by decide⟩ ⟨0, by decide, by decide⟩
      ⟨10, by decide, by decide⟩ ⟨5, by decide, by decide⟩⟩

end BPlus
